import Mathlib

/-!
# bloomfwd: longest-prefix-match forwarding tables

A shallow embedding of the `lucch/bloomfwd` C sources and a verification
development over it.

Conventions of the embedding.

* A `uint32_t` is a natural number below `2 ^ 32`; every operation that can
  wrap is followed by `% U32`.  A `uint8_t` counter wraps with `% 256`.
* A C array is the function from its indices to its cells; a store
  `a[i] = v` is `Function.update a i v`.  The lengths the source keeps
  (`bitmap_len`, `range`) stay explicit fields.
* A nullable pointer to a structure is an `Option`; dereferencing `NULL`
  and `exit(1)` are the two ways a call can end without a result, recorded
  as a `fault`.
* An out-parameter `uint32_t *next_hop` is modelled by passing the value the
  cell holds before the call and returning the value it holds after it.
* A singly linked chain of hash-table entries is the list of its entries,
  head first.
-/

namespace Bloomfwd

/-! ## Machine words and faults -/

/-- Number of values of a `uint32_t`. -/
abbrev U32 : Nat := 4294967296

/-- Number of values of a `uint64_t`. -/
abbrev U64 : Nat := 18446744073709551616

/-- The ways a call ends without returning: `exit(1)` after the
invalid-prefix diagnostic, a dereferenced `NULL` pointer, `exit(1)` after
the `lookup error!` diagnostic of the IPv6 batch lookup, a loop whose `int`
counter cannot reach its bound, a store outside the array it indexes, and a
shift by the width of its operand or more. -/
inductive fault where
  | invalid_prefix
  | null_deref
  | lookup_error
  | int_overflow
  | out_of_bounds
  | undefined_shift
  deriving DecidableEq, Repr

deriving instance DecidableEq for Except

/-- Dereference of a nullable pointer. -/
def deref {α : Type} : Option α → Except fault α
  | some x => .ok x
  | none => .error fault.null_deref

/-! ## Hash functions (`hashfunctions.h`) -/

/-- Scalar `murmurhash3_32` of `bloomfwd-v4/src/hashfunctions.h` (the same
text as in `bloomfwd-v6/src/hashfunctions.h`). -/
def murmurhash3_32 (key : Nat) : Nat :=
  let key := (key * 0xcc9e2d51) % U32
  let key := ((key <<< 15) % U32) ||| (key >>> 17)
  let key := (key * 0x1b873593) % U32
  let key := key ^^^ 0
  let key := ((key <<< 13) % U32) ||| (key >>> 19)
  let key := ((key * 5) + 0xe6546b64) % U32
  let key := key ^^^ 4
  let key := key ^^^ (key >>> 16)
  let key := (key * 0x85ebca6b) % U32
  let key := key ^^^ (key >>> 13)
  let key := (key * 0xc2b2ae35) % U32
  let key := key ^^^ (key >>> 16)
  key

/-- Scalar `knuthhash_32`. -/
def knuthhash_32 (key : Nat) : Nat :=
  (key * 2654435761) % U32

/-- Scalar `h2hash_32` of `bloomfwd-v4/src/hashfunctions.h`. -/
def h2hash_32 (key : Nat) : Nat :=
  let key := (((key >>> 16) ^^^ key) * 0x45d9f3b) % U32
  let key := (((key >>> 16) ^^^ key) * 0x45d9f3b) % U32
  let key := (key >>> 16) ^^^ key
  key

/-! ## Counting Bloom filter and chained hash table (shared by all variants) -/

/-- The C `struct counting_bloom_filter`. -/
structure counting_bloom_filter where
  bitmap : Nat → Bool
  bitmap_len : Nat
  counters : Nat → Nat
  capacity : Nat
  num_hashes : Nat

/-- The C `new_counting_bloom_filter`.  The source derives `bitmap_len` and
`num_hashes` from `capacity` and `FALSE_POSITIVE_RATIO` in floating point
(`ceil`, `log2`, `log`); the two results are parameters here. -/
def new_counting_bloom_filter (capacity bitmap_len num_hashes : Nat) :
    counting_bloom_filter :=
  { bitmap := fun _ => false
    bitmap_len := bitmap_len
    counters := fun _ => 0
    capacity := capacity
    num_hashes := num_hashes }

/-- The C `struct hash_table_entry` without its `next` pointer; the field
`key` is the C field called prefix (a reserved word here).  The type `ν` of
the next hop is `uint32_t` for IPv4 and `uint128` for IPv6. -/
structure hash_table_entry (ν : Type) where
  hash : Nat
  key : Nat
  next_hop : ν

/-- The C `struct hash_table`: `slots[i]` is the chain of bucket `i`. -/
structure hash_table (ν : Type) where
  total : Nat
  range : Nat
  slots : Nat → List (hash_table_entry ν)

/-- The C `new_hash_table`. -/
def new_hash_table {ν : Type} (capacity : Nat) : hash_table ν :=
  { total := 0, range := capacity, slots := fun _ => [] }

/-- The chain scan `for (entry = slots[idx]; entry != NULL; entry = entry->next)`
that breaks at the first entry with the given hash and key. -/
def chain_find {ν : Type} (hash pfx_key : Nat) :
    List (hash_table_entry ν) → Option (hash_table_entry ν)
  | [] => none
  | e :: es => if e.hash = hash ∧ e.key = pfx_key then some e else chain_find hash pfx_key es

/-- The chain after `entry->next_hop = next_hop` on the entry the scan
stopped at. -/
def chain_set {ν : Type} (hash pfx_key : Nat) (next_hop : ν) :
    List (hash_table_entry ν) → List (hash_table_entry ν)
  | [] => []
  | e :: es =>
    if e.hash = hash ∧ e.key = pfx_key then { e with next_hop := next_hop } :: es
    else e :: chain_set hash pfx_key next_hop es

/-- The C `store_next_hop`; `H` is the hash the variant uses for the table
(`HASHTBL_HASH_FUNCTION`, `HASHTBL_HASH_FUNCTION_64` or `rand_r`). -/
def store_next_hop {ν : Type} (H : Nat → Nat) (tbl : hash_table ν) (pfx_key : Nat)
    (next_hop : ν) : Bool × hash_table ν :=
  let hash := H pfx_key
  let idx := hash % tbl.range
  match chain_find hash pfx_key (tbl.slots idx) with
  | none =>
    (true, { tbl with
      slots := Function.update tbl.slots idx
        ({ hash := hash, key := pfx_key, next_hop := next_hop } :: tbl.slots idx)
      total := (tbl.total + 1) % U32 })
  | some _ =>
    (false, { tbl with
      slots := Function.update tbl.slots idx
        (chain_set hash pfx_key next_hop (tbl.slots idx)) })

/-- The C `find_next_hop_with_hash` (compiled when `SAME_HASH_FUNCTIONS` is
defined). -/
def find_next_hop_with_hash {ν : Type} (tbl : hash_table ν) (hash pfx_key : Nat)
    (next_hop : ν) : Bool × ν :=
  let idx := hash % tbl.range
  match chain_find hash pfx_key (tbl.slots idx) with
  | some entry => (true, entry.next_hop)
  | none => (false, next_hop)

/-- The C `find_next_hop` (compiled otherwise). -/
def find_next_hop {ν : Type} (H : Nat → Nat) (tbl : hash_table ν) (pfx_key : Nat)
    (next_hop : ν) : Bool × ν :=
  let hash := H pfx_key
  let idx := hash % tbl.range
  match chain_find hash pfx_key (tbl.slots idx) with
  | some entry => (true, entry.next_hop)
  | none => (false, next_hop)

/-- One iteration of the loop of `store_prefix` over the derived indices:
`idx = bitmap_idxs[i] % bitmap_len; bitmap[idx] = true; counters[idx] += 1`. -/
def cbf_mark_step (bitmap_idxs : Nat → Nat) (b : counting_bloom_filter) (i : Nat) :
    counting_bloom_filter :=
  let idx := bitmap_idxs i % b.bitmap_len
  { b with
    bitmap := Function.update b.bitmap idx true
    counters := Function.update b.counters idx ((b.counters idx + 1) % 256) }

/-- The loop of `store_prefix` over the derived indices, `i` in
`[0, num_hashes)`. -/
def cbf_mark (bf : counting_bloom_filter) (bitmap_idxs : Nat → Nat) :
    counting_bloom_filter :=
  (List.range bf.num_hashes).foldl (cbf_mark_step bitmap_idxs) bf

/-- The probe loop `for (int j = 2; maybe && j < num_hashes; j++)` of the
double-hashing lookups, started at `j` with `fuel` iterations left. -/
def probe_loop (bitmap : Nat → Bool) (bitmap_len num_hashes h1 h2 : Nat) :
    Nat → Nat → Bool → Bool
  | 0, _, maybe => maybe
  | fuel + 1, j, maybe =>
    if maybe && decide (j < num_hashes) then
      probe_loop bitmap bitmap_len num_hashes h1 h2 fuel (j + 1)
        (bitmap (((h1 + j * h2) % U32) % bitmap_len))
    else maybe

/-- The value of `maybe` with which the double-hashing lookups (v4-coop and
v6, scalar and batched) reach the test that guards the hash-table probe; `h1`
is the primary hash of the key and `h2` the hash of `h1`. -/
def probe (bf : counting_bloom_filter) (h1 h2 : Nat) : Bool :=
  let maybe := bf.bitmap (h1 % bf.bitmap_len)
  if maybe then
    if bf.num_hashes > 1 then
      let maybe := bf.bitmap (h2 % bf.bitmap_len)
      probe_loop bf.bitmap bf.bitmap_len bf.num_hashes h1 h2 bf.num_hashes 2 maybe
    else maybe
  else maybe

/-- The C `hashes` of the double-hashing variants: `B1` hashes the key
(`BLOOM_HASH_FUNCTION` for IPv4, `BLOOM_HASH_FUNCTION_64` for IPv6) and `B`
hashes `result[0]`; `result` is the caller's array. -/
def hashes (B1 B : Nat → Nat) (key num_hashes : Nat) (result : Nat → Nat) : Nat → Nat :=
  let result := Function.update result 0 (B1 key)
  if num_hashes > 1 then
    let result := Function.update result 1 (B (result 0))
    (List.range' 2 (num_hashes - 2)).foldl
      (fun r i => Function.update r i ((r 0 + i * r 1) % U32)) result
  else result

/-! ## IPv4 forwarding table (`bloomfwd-v4-coop`, `baseline`) -/

/-- The C `struct ipv4_prefix`; the field `key` is the C field called
prefix. -/
structure ipv4_prefix where
  next_hop : Nat
  key : Nat
  netmask : Nat
  deriving DecidableEq, Repr

/-- The C `struct forwarding_table` of the IPv4 variants: index 0 of the two
arrays is G2 (length 32), index 1 is G1 (length 24). -/
structure forwarding_table where
  default_route : Option ipv4_prefix
  dla : Nat → Nat
  counting_bloom_filters : Nat → Option counting_bloom_filter
  hash_tables : Nat → Option (hash_table Nat)

/-- The C `is_prefix_valid` on a non-NULL prefix (`netmask` is unsigned). -/
def is_prefix_valid (pfx : Option ipv4_prefix) : Bool :=
  match pfx with
  | none => false
  | some p => decide (0 ≤ p.netmask) && decide (p.netmask ≤ 32)

/-- The C `set_default_route`. -/
def set_default_route (fw_tbl : forwarding_table) (gw_def : Nat) :
    Bool × forwarding_table :=
  match fw_tbl.default_route with
  | none =>
    (true, { fw_tbl with
      default_route := some { key := 0, netmask := 0, next_hop := gw_def } })
  | some def_route =>
    (false, { fw_tbl with default_route := some { def_route with next_hop := gw_def } })

/-- The C `bloom_filter_id` of the IPv4 variants. -/
def bloom_filter_id (pfx : ipv4_prefix) : Nat :=
  if pfx.netmask = 32 then 0 else 1

/-- The C `init_dla`: `calloc` of `2 ^ 20` zeroed cells. -/
def init_dla (fw_tbl : forwarding_table) : forwarding_table :=
  { fw_tbl with dla := fun _ => 0 }

/-- The C `init_cbf` (`init_counting_bloom_filters_array` in the baseline) on
the records `(netmask, quantity)` read from the distribution file; `sizing`
stands for the floating-point formulas of `new_counting_bloom_filter` and
gives `(bitmap_len, num_hashes)` for a capacity. -/
def init_cbf (sizing : Nat → Nat × Nat) (pfx_distribution : List (Nat × Nat))
    (fw_tbl : forwarding_table) : forwarding_table :=
  pfx_distribution.foldl
    (fun t rec =>
      let netmask := rec.1
      let quantity := rec.2
      if netmask = 32 then
        { t with
          counting_bloom_filters := Function.update t.counting_bloom_filters 0
            (some (new_counting_bloom_filter quantity (sizing quantity).1 (sizing quantity).2)) }
      else if netmask = 24 then
        { t with
          counting_bloom_filters := Function.update t.counting_bloom_filters 1
            (some (new_counting_bloom_filter quantity (sizing quantity).1 (sizing quantity).2)) }
      else t)
    fw_tbl

/-- The C `init_ht` (`init_hash_tables_array` in the baseline). -/
def init_ht (fw_tbl : forwarding_table) : forwarding_table :=
  (List.range 2).foldl
    (fun t i =>
      match t.counting_bloom_filters i with
      | some bf =>
        { t with hash_tables := Function.update t.hash_tables i (some (new_hash_table bf.capacity)) }
      | none => { t with hash_tables := Function.update t.hash_tables i none })
    fw_tbl

/-- The C `init_fwtbl` (`new_forwarding_table` in the baseline).  The source
obtains the table from `malloc` and never clears the two
`counting_bloom_filters` slots; a slot the distribution file does not fill is
modelled as `NULL`. -/
def new_forwarding_table (sizing : Nat → Nat × Nat) (pfx_distribution : List (Nat × Nat)) :
    forwarding_table :=
  let fw_tbl : forwarding_table :=
    { default_route := none
      dla := fun _ => 0
      counting_bloom_filters := fun _ => none
      hash_tables := fun _ => none }
  init_ht (init_cbf sizing pfx_distribution (init_dla fw_tbl))

/-- The DLA and default-route stage that ends both IPv4 lookups: the block
`if (!found) { *next_hop = fw_tbl->dla[addr >> 12]; ... }`. -/
def lookup_tail (fw_tbl : forwarding_table) (addr : Nat) (r : Bool × Nat) : Bool × Nat :=
  if !r.1 then
    let next_hop := fw_tbl.dla (addr >>> 12)
    if next_hop ≠ 0 then (true, next_hop)
    else
      match fw_tbl.default_route with
      | some d => (true, d.next_hop)
      | none => (false, next_hop)
  else r

namespace V4coop

/-- The hash functions a build of `bloomfwd-v4-coop` can select in
`config.h`. -/
inductive hash_choice where
  | murmur
  | knuth
  | h2
  deriving DecidableEq, Repr

/-- The function a choice names. -/
def hash_choice.fn : hash_choice → Nat → Nat
  | .murmur => murmurhash3_32
  | .knuth => knuthhash_32
  | .h2 => h2hash_32

/-- A build configuration: the branch of `config.h` taken for the Bloom
filters and the one taken for the hash tables. -/
structure config where
  bloom : hash_choice
  hashtbl : hash_choice
  deriving DecidableEq, Repr

/-- The macro `BLOOM_HASH_FUNCTION`. -/
def BLOOM_HASH_FUNCTION (cfg : config) : Nat → Nat := cfg.bloom.fn

/-- The macro `HASHTBL_HASH_FUNCTION`. -/
def HASHTBL_HASH_FUNCTION (cfg : config) : Nat → Nat := cfg.hashtbl.fn

/-- Whether `config.h` defines `SAME_HASH_FUNCTIONS`: each hash-table branch
defines it exactly under the matching `BLOOM_HASH_FUNCTION_*` marker. -/
def SAME_HASH_FUNCTIONS (cfg : config) : Bool :=
  match cfg.hashtbl with
  | .h2 => decide (cfg.bloom = .h2)
  | .knuth => decide (cfg.bloom = .knuth)
  | .murmur => decide (cfg.bloom = .murmur)

/-- The macro `BLOOM_HASH_FUNCTION_INTRIN`, the 16-lane vector hash, modelled
lane by lane as the scalar `BLOOM_HASH_FUNCTION`; `hashes` is the output
array before the call. -/
def BLOOM_HASH_FUNCTION_INTRIN (cfg : config) (keys hashes : Nat → Nat) : Nat → Nat :=
  fun i => if i < 16 then BLOOM_HASH_FUNCTION cfg (keys i) else hashes i

/-- The C `store_prefix` of `bloomfwd-v4-coop`. -/
def store_prefix (cfg : config) (fw_tbl : forwarding_table) (pfx : Option ipv4_prefix) :
    Except fault (Bool × forwarding_table) :=
  match pfx with
  | none => .error fault.invalid_prefix
  | some p =>
    if !is_prefix_valid (some p) then .error fault.invalid_prefix
    else if p.netmask = 0 then .ok (set_default_route fw_tbl p.next_hop)
    else if p.netmask = 20 then
      let index := p.key >>> (32 - p.netmask)
      let created := decide (fw_tbl.dla index = 0)
      .ok (created, { fw_tbl with dla := Function.update fw_tbl.dla index p.next_hop })
    else do
      let id := bloom_filter_id p
      let bf ← deref (fw_tbl.counting_bloom_filters id)
      let hash_tbl ← deref (fw_tbl.hash_tables id)
      let (created, hash_tbl) := store_next_hop (HASHTBL_HASH_FUNCTION cfg) hash_tbl p.key p.next_hop
      let bitmap_idxs :=
        hashes (BLOOM_HASH_FUNCTION cfg) (BLOOM_HASH_FUNCTION cfg) p.key bf.num_hashes (fun _ => 0)
      let bf := cbf_mark bf bitmap_idxs
      .ok (created, { fw_tbl with
        counting_bloom_filters := Function.update fw_tbl.counting_bloom_filters id (some bf)
        hash_tables := Function.update fw_tbl.hash_tables id (some hash_tbl) })

/-- The hash-table probe both lookups make once `maybe` holds, under either
setting of `SAME_HASH_FUNCTIONS`. -/
def find_in (cfg : config) (ht : Option (hash_table Nat)) (h1 pfx_key next_hop : Nat) :
    Except fault (Bool × Nat) := do
  let ht ← deref ht
  if SAME_HASH_FUNCTIONS cfg then
    pure (find_next_hop_with_hash ht h1 pfx_key next_hop)
  else
    pure (find_next_hop (HASHTBL_HASH_FUNCTION cfg) ht pfx_key next_hop)

/-- One Bloom-filtered class query of the scalar `lookup_address`: the block
under `Query G2` (class 0) or `Query G1` (class 1). -/
def query_class (cfg : config) (fw_tbl : forwarding_table) (id pfx_key next_hop : Nat) :
    Except fault (Bool × Nat) := do
  let bf ← deref (fw_tbl.counting_bloom_filters id)
  let h1 := BLOOM_HASH_FUNCTION cfg pfx_key
  if probe bf h1 (BLOOM_HASH_FUNCTION cfg h1) then
    find_in cfg (fw_tbl.hash_tables id) h1 pfx_key next_hop
  else pure (false, next_hop)

/-- The C `lookup_address` of `bloomfwd-v4-coop`; `next_hop` is the content
of the out-parameter before the call. -/
def lookup_address (cfg : config) (fw_tbl : forwarding_table) (addr next_hop : Nat) :
    Except fault (Bool × Nat) := do
  let r ← query_class cfg fw_tbl 0 addr next_hop
  let r ← if !r.1 then query_class cfg fw_tbl 1 (addr &&& 0xffffff00) r.2 else pure r
  pure (lookup_tail fw_tbl addr r)

/-- Body of the first lane loop (`Query G2`) of `lookup_address_intrin` for
lane `i`. -/
def g2_lane (cfg : config) (bf : counting_bloom_filter) (ht : Option (hash_table Nat))
    (g2_addrs g2_h1 g2_h2 : Nat → Nat) (st : (Nat → Bool) × (Nat → Nat)) (i : Nat) :
    Except fault ((Nat → Bool) × (Nat → Nat)) := do
  if probe bf (g2_h1 i) (g2_h2 i) then
    let r ← find_in cfg ht (g2_h1 i) (g2_addrs i) (st.2 i)
    pure (Function.update st.1 i r.1, Function.update st.2 i r.2)
  else pure st

/-- Body of the second lane loop (`Query G1`, then the DLA and the default
route) of `lookup_address_intrin` for lane `i`. -/
def g1_lane (cfg : config) (fw_tbl : forwarding_table) (bf : counting_bloom_filter)
    (ht : Option (hash_table Nat)) (g2_addrs g1_addrs g1_h1 g1_h2 : Nat → Nat)
    (st : (Nat → Bool) × (Nat → Nat)) (i : Nat) :
    Except fault ((Nat → Bool) × (Nat → Nat)) := do
  if st.1 i then pure st
  else
    let st ←
      if probe bf (g1_h1 i) (g1_h2 i) then do
        let r ← find_in cfg ht (g1_h1 i) (g1_addrs i) (st.2 i)
        pure (Function.update st.1 i r.1, Function.update st.2 i r.2)
      else pure st
    if !st.1 i then
      let next_hops := Function.update st.2 i (fw_tbl.dla (g2_addrs i >>> 12))
      if next_hops i ≠ 0 then pure (Function.update st.1 i true, next_hops)
      else
        match fw_tbl.default_route with
        | some d => pure (Function.update st.1 i true, Function.update next_hops i d.next_hop)
        | none => pure (st.1, next_hops)
    else pure st

/-- The C `lookup_address_intrin` of `bloomfwd-v4-coop`; `found` and
`next_hops` are the contents of the two output arrays before the call. -/
def lookup_address_intrin (cfg : config) (fw_tbl : forwarding_table) (g2_addrs : Nat → Nat)
    (found : Nat → Bool) (next_hops : Nat → Nat) :
    Except fault ((Nat → Bool) × (Nat → Nat)) := do
  let g1_addrs := (List.range 16).foldl
    (fun a i => Function.update a i (g2_addrs i &&& 0xffffff00)) (fun _ => 0)
  let found := (List.range 16).foldl (fun f i => Function.update f i false) found
  let g2_h1 := BLOOM_HASH_FUNCTION_INTRIN cfg g2_addrs (fun _ => 0)
  let g2_h2 := BLOOM_HASH_FUNCTION_INTRIN cfg g2_h1 (fun _ => 0)
  let g1_h1 := BLOOM_HASH_FUNCTION_INTRIN cfg g1_addrs (fun _ => 0)
  let g1_h2 := BLOOM_HASH_FUNCTION_INTRIN cfg g1_h1 (fun _ => 0)
  let bf ← deref (fw_tbl.counting_bloom_filters 0)
  let ht := fw_tbl.hash_tables 0
  let st ← (List.range 16).foldlM (g2_lane cfg bf ht g2_addrs g2_h1 g2_h2) (found, next_hops)
  let bf ← deref (fw_tbl.counting_bloom_filters 1)
  let ht := fw_tbl.hash_tables 1
  (List.range 16).foldlM (g1_lane cfg fw_tbl bf ht g2_addrs g1_addrs g1_h1 g1_h2) st

/-- The build phase: `store_prefix` on each record in turn, as the loop of
`load_prefixes` calls it; the first fault ends the program. -/
def store_prefixes (cfg : config) (fw_tbl : forwarding_table) :
    List (Option ipv4_prefix) → Except fault forwarding_table
  | [] => .ok fw_tbl
  | pfx :: rest =>
    match store_prefix cfg fw_tbl pfx with
    | .ok r => store_prefixes cfg r.2 rest
    | .error e => .error e

end V4coop

/-! ### The baseline variant (`baseline/src/bloomfwd_opt.c`)

The baseline hashes with the C library's `rand_r`, of which only the returned
value is used (the seed it leaves behind is overwritten); `rand_r` is a
parameter, the function from the seed to the returned value. -/

namespace Baseline

/-- The C `hashes` of the baseline: the chain `seed = rand_r(&seed)`. -/
def hashes (rand_r : Nat → Nat) (key num_hashes : Nat) (result : Nat → Nat) : Nat → Nat :=
  ((List.range num_hashes).foldl
    (fun (st : (Nat → Nat) × Nat) i =>
      let v := rand_r st.2
      (Function.update st.1 i v, v))
    (result, key)).1

/-- The C `store_prefix` of the baseline. -/
def store_prefix (rand_r : Nat → Nat) (fw_tbl : forwarding_table) (pfx : Option ipv4_prefix) :
    Except fault (Bool × forwarding_table) :=
  match pfx with
  | none => .error fault.invalid_prefix
  | some p =>
    if !is_prefix_valid (some p) then .error fault.invalid_prefix
    else if p.netmask = 0 then .ok (set_default_route fw_tbl p.next_hop)
    else if p.netmask = 20 then
      let index := p.key >>> (32 - p.netmask)
      let created := decide (fw_tbl.dla index = 0)
      .ok (created, { fw_tbl with dla := Function.update fw_tbl.dla index p.next_hop })
    else do
      let id := bloom_filter_id p
      let bf ← deref (fw_tbl.counting_bloom_filters id)
      let hash_tbl ← deref (fw_tbl.hash_tables id)
      let (created, hash_tbl) := store_next_hop rand_r hash_tbl p.key p.next_hop
      let bitmap_idxs := hashes rand_r p.key bf.num_hashes (fun _ => 0)
      let bf := cbf_mark bf bitmap_idxs
      .ok (created, { fw_tbl with
        counting_bloom_filters := Function.update fw_tbl.counting_bloom_filters id (some bf)
        hash_tables := Function.update fw_tbl.hash_tables id (some hash_tbl) })

/-- The probe loop `for (int j = 0; maybe && j < num_hashes; j++)` of the
baseline lookup, started at `j` with `fuel` iterations left. -/
def probe_chain (rand_r : Nat → Nat) (bf : counting_bloom_filter) :
    Nat → Nat → Nat → Bool → Bool
  | 0, _, _, maybe => maybe
  | fuel + 1, j, seed, maybe =>
    if maybe && decide (j < bf.num_hashes) then
      let seed := rand_r seed
      probe_chain rand_r bf fuel (j + 1) seed (bf.bitmap (seed % bf.bitmap_len))
    else maybe

/-- One class query of the baseline `lookup_address`. -/
def query_class (rand_r : Nat → Nat) (fw_tbl : forwarding_table) (id pfx_key next_hop : Nat) :
    Except fault (Bool × Nat) := do
  let bf ← deref (fw_tbl.counting_bloom_filters id)
  if probe_chain rand_r bf bf.num_hashes 0 pfx_key true then
    let ht ← deref (fw_tbl.hash_tables id)
    pure (find_next_hop rand_r ht pfx_key next_hop)
  else pure (false, next_hop)

/-- The C `lookup_address` of the baseline. -/
def lookup_address (rand_r : Nat → Nat) (fw_tbl : forwarding_table) (addr next_hop : Nat) :
    Except fault (Bool × Nat) := do
  let r ← query_class rand_r fw_tbl 0 addr next_hop
  let r ← if !r.1 then query_class rand_r fw_tbl 1 (addr &&& 0xffffff00) r.2 else pure r
  pure (lookup_tail fw_tbl addr r)

/-- The build phase of the baseline: `store_prefix` on each record in turn. -/
def store_prefixes (rand_r : Nat → Nat) (fw_tbl : forwarding_table) :
    List (Option ipv4_prefix) → Except fault forwarding_table
  | [] => .ok fw_tbl
  | pfx :: rest =>
    match store_prefix rand_r fw_tbl pfx with
    | .ok r => store_prefixes rand_r r.2 rest
    | .error e => .error e

end Baseline


/-! ## IPv6 (`bloomfwd-v6`) -/

/-- Scalar `murmurhash3_64_32` of `bloomfwd-v6/src/hashfunctions.h`: `key0`
and `key1` are the low and the high 32-bit half of the key (the target is
little-endian). -/
def murmurhash3_64_32 (key : Nat) : Nat :=
  let key0 := key % U32
  let key1 := (key / U32) % U32
  let hash := 0
  let key0 := (key0 * 0xcc9e2d51) % U32
  let key0 := ((key0 <<< 15) % U32) ||| (key0 >>> 17)
  let key0 := (key0 * 0x1b873593) % U32
  let hash := hash ^^^ key0
  let hash := ((hash <<< 13) % U32) ||| (hash >>> 19)
  let hash := ((hash * 5) + 0xe6546b64) % U32
  let key1 := (key1 * 0xcc9e2d51) % U32
  let key1 := ((key1 <<< 15) % U32) ||| (key1 >>> 17)
  let key1 := (key1 * 0x1b873593) % U32
  let hash := hash ^^^ key1
  let hash := ((hash <<< 13) % U32) ||| (hash >>> 19)
  let hash := ((hash * 5) + 0xe6546b64) % U32
  let hash := hash ^^^ 8
  let hash := hash ^^^ (hash >>> 16)
  let hash := (hash * 0x85ebca6b) % U32
  let hash := hash ^^^ (hash >>> 13)
  let hash := (hash * 0xc2b2ae35) % U32
  let hash := hash ^^^ (hash >>> 16)
  hash

/-! ### 512-bit vector intrinsics

A 512-bit register of sixteen 32-bit lanes is the function from the lane
index to the lane's value. -/

/-- `_mm512_load_epi32` from an array of `uint32_t`, starting at cell `off`. -/
def mm512_load_epi32 (a : Nat → Nat) (off : Nat) : Nat → Nat :=
  fun l => a (off + l)

/-- `_mm512_load_epi32` from an array of `uint64_t`, starting at cell `off`:
lane `2 i` is the low half of key `off + i`, lane `2 i + 1` its high half. -/
def mm512_load_epi32_u64 (keys : Nat → Nat) (off : Nat) : Nat → Nat :=
  fun l => if l % 2 = 0 then keys (off + l / 2) % U32 else (keys (off + l / 2) / U32) % U32

/-- `_mm512_store_epi32` of the sixteen lanes to cells `off .. off + 15`. -/
def mm512_store_epi32 (a : Nat → Nat) (off : Nat) (r : Nat → Nat) : Nat → Nat :=
  fun x => if off ≤ x ∧ x < off + 16 then r (x - off) else a x

/-- `_mm512_set1_epi32`. -/
def mm512_set1_epi32 (c : Nat) : Nat → Nat := fun _ => c

/-- `_mm512_setzero_epi32`. -/
def mm512_setzero_epi32 : Nat → Nat := fun _ => 0

/-- `_mm512_mullo_epi32`. -/
def mm512_mullo_epi32 (a b : Nat → Nat) : Nat → Nat := fun l => (a l * b l) % U32

/-- `_mm512_slli_epi32`. -/
def mm512_slli_epi32 (a : Nat → Nat) (n : Nat) : Nat → Nat := fun l => (a l <<< n) % U32

/-- `_mm512_srli_epi32`. -/
def mm512_srli_epi32 (a : Nat → Nat) (n : Nat) : Nat → Nat := fun l => a l >>> n

/-- `_mm512_or_epi32`. -/
def mm512_or_epi32 (a b : Nat → Nat) : Nat → Nat := fun l => a l ||| b l

/-- `_mm512_xor_epi32`. -/
def mm512_xor_epi32 (a b : Nat → Nat) : Nat → Nat := fun l => a l ^^^ b l

/-- `_mm512_fmadd_epi32`: `a * b + c` in each lane. -/
def mm512_fmadd_epi32 (a b c : Nat → Nat) : Nat → Nat := fun l => (a l * b l + c l) % U32

/-- `_mm512_swizzle_epi32` with `_MM_SWIZ_REG_CDAB`: adjacent lanes swapped. -/
def mm512_swizzle_cdab (a : Nat → Nat) : Nat → Nat :=
  fun l => if l % 2 = 0 then a (l + 1) else a (l - 1)

/-- Vector `murmurhash3_32_vec512_v3`: sixteen keys from `keys[koff ..]`,
sixteen hashes to `hashes[hoff ..]`. -/
def murmurhash3_32_vec512_v3 (keys : Nat → Nat) (koff : Nat) (hashes : Nat → Nat)
    (hoff : Nat) : Nat → Nat :=
  let r0 := mm512_load_epi32 keys koff
  let r1 := mm512_set1_epi32 0xcc9e2d51
  let r2 := mm512_mullo_epi32 r0 r1
  let r0 := mm512_slli_epi32 r2 15
  let r1 := mm512_srli_epi32 r2 17
  let r2 := mm512_or_epi32 r0 r1
  let r0 := mm512_set1_epi32 0x1b873593
  let r1 := mm512_mullo_epi32 r2 r0
  let r0 := mm512_setzero_epi32
  let r2 := mm512_xor_epi32 r1 r0
  let r0 := mm512_slli_epi32 r2 13
  let r1 := mm512_srli_epi32 r2 19
  let r2 := mm512_or_epi32 r0 r1
  let r0 := mm512_set1_epi32 5
  let r1 := mm512_set1_epi32 0xe6546b64
  let r2 := mm512_fmadd_epi32 r2 r0 r1
  let r0 := mm512_set1_epi32 4
  let r1 := mm512_xor_epi32 r2 r0
  let r0 := mm512_srli_epi32 r1 16
  let r2 := mm512_xor_epi32 r1 r0
  let r0 := mm512_set1_epi32 0x85ebca6b
  let r1 := mm512_mullo_epi32 r2 r0
  let r0 := mm512_srli_epi32 r1 13
  let r2 := mm512_xor_epi32 r1 r0
  let r0 := mm512_set1_epi32 0xc2b2ae35
  let r1 := mm512_mullo_epi32 r2 r0
  let r0 := mm512_srli_epi32 r1 16
  let r2 := mm512_xor_epi32 r1 r0
  mm512_store_epi32 hashes hoff r2

/-- Vector `murmurhash3_64_vec512_v3`: eight 64-bit keys from `keys[koff ..]`,
sixteen lanes to `hashes[hoff ..]`. -/
def murmurhash3_64_vec512_v3 (keys : Nat → Nat) (koff : Nat) (hashes : Nat → Nat)
    (hoff : Nat) : Nat → Nat :=
  let r0 := mm512_load_epi32_u64 keys koff
  let r1 := mm512_set1_epi32 0xcc9e2d51
  let r2 := mm512_mullo_epi32 r0 r1
  let r0 := mm512_slli_epi32 r2 15
  let r1 := mm512_srli_epi32 r2 17
  let r2 := mm512_or_epi32 r0 r1
  let r0 := mm512_set1_epi32 0x1b873593
  let blocks := mm512_mullo_epi32 r2 r0
  let five := mm512_set1_epi32 5
  let c3 := mm512_set1_epi32 0xe6546b64
  let r0 := mm512_setzero_epi32
  let r2 := mm512_xor_epi32 blocks r0
  let r0 := mm512_slli_epi32 r2 13
  let r1 := mm512_srli_epi32 r2 19
  let r2 := mm512_or_epi32 r0 r1
  let r2 := mm512_fmadd_epi32 r2 five c3
  let r0 := mm512_swizzle_cdab r2
  let r2 := mm512_xor_epi32 blocks r0
  let r0 := mm512_slli_epi32 r2 13
  let r1 := mm512_srli_epi32 r2 19
  let r2 := mm512_or_epi32 r0 r1
  let r2 := mm512_fmadd_epi32 r2 five c3
  let r0 := mm512_set1_epi32 8
  let r1 := mm512_xor_epi32 r2 r0
  let r0 := mm512_srli_epi32 r1 16
  let r2 := mm512_xor_epi32 r1 r0
  let r0 := mm512_set1_epi32 0x85ebca6b
  let r1 := mm512_mullo_epi32 r2 r0
  let r0 := mm512_srli_epi32 r1 13
  let r2 := mm512_xor_epi32 r1 r0
  let r0 := mm512_set1_epi32 0xc2b2ae35
  let r1 := mm512_mullo_epi32 r2 r0
  let r0 := mm512_srli_epi32 r1 16
  let r2 := mm512_xor_epi32 r1 r0
  mm512_store_epi32 hashes hoff r2

namespace V6

/-- The C `uint128`. -/
structure uint128 where
  hi : Nat
  lo : Nat
  deriving DecidableEq, Repr

/-- The C `struct ipv6_prefix`; the field `key` is the C field called
prefix. -/
structure ipv6_prefix where
  next_hop : uint128
  key : Nat
  len : Nat
  deriving DecidableEq, Repr

/-- The C `struct forwarding_table` of the IPv6 variant: class `i` of the
two arrays is for the prefixes of length `64 - i`. -/
structure forwarding_table where
  default_route : Option ipv6_prefix
  counting_bloom_filters : Nat → Option counting_bloom_filter
  hash_tables : Nat → Option (hash_table uint128)
  has_prefix_length : Nat → Bool
  distinct_lengths : Nat
  bf_ids : Nat → Nat

/-- The C `is_prefix_valid` (`len` is unsigned). -/
def is_prefix_valid (pfx : Option ipv6_prefix) : Bool :=
  match pfx with
  | none => false
  | some p => decide (0 ≤ p.len) && decide (p.len ≤ 64)

/-- The C `prefix_key`: the 64-bit word `pfx` masked with
`0xffffffffffffffff << (64 - len)`.  The callers modelled here pass `len` in
`[1, 64]`, where the shift count is in `[0, 63]`. -/
def prefix_key (pfx len : Nat) : Nat :=
  pfx &&& ((0xffffffffffffffff <<< (64 - len)) % U64)

/-- The C `set_default_route`. -/
def set_default_route (fw_tbl : forwarding_table) (gw_def : uint128) :
    Bool × forwarding_table :=
  match fw_tbl.default_route with
  | none =>
    (true, { fw_tbl with
      default_route := some { key := 0, len := 0, next_hop := gw_def } })
  | some def_route =>
    (false, { fw_tbl with default_route := some { def_route with next_hop := gw_def } })

/-- Body of the loop of `init_hash_tables_array` for class `i`. -/
def init_hash_tables_step (fw_tbl : forwarding_table) (i : Nat) : forwarding_table :=
  match fw_tbl.counting_bloom_filters i with
  | some bf =>
    { fw_tbl with
      hash_tables := Function.update fw_tbl.hash_tables i (some (new_hash_table bf.capacity)) }
  | none => { fw_tbl with hash_tables := Function.update fw_tbl.hash_tables i none }

/-- The C `init_hash_tables_array`. -/
def init_hash_tables_array (fw_tbl : forwarding_table) : forwarding_table :=
  (List.range 64).foldl init_hash_tables_step fw_tbl

/-- The C `bloom_filter_id` of the IPv6 variant. -/
def bloom_filter_id (pfx : ipv6_prefix) : Nat :=
  64 - pfx.len

/-- One iteration of the `fscanf` loop of `init_counting_bloom_filters_array`
on a record `(netmask, quantity)`; the state is `has_prefix_length`,
`*distinct_lengths` and `bf_arr`.  The index `64 - netmask` is inside the
64-cell arrays for `netmask` in `[1, 64]`. -/
def init_cbf_record (sizing : Nat → Nat × Nat)
    (st : (Nat → Bool) × Nat × (Nat → Option counting_bloom_filter)) (rec : Nat × Nat) :
    Except fault ((Nat → Bool) × Nat × (Nat → Option counting_bloom_filter)) :=
  let netmask := rec.1
  let quantity := rec.2
  if quantity > 0 then
    if netmask = 0 ∨ 64 < netmask then .error fault.out_of_bounds
    else
      let bf_id := 64 - netmask
      .ok (Function.update st.1 bf_id true, (st.2.1 + 1) % 256,
        Function.update st.2.2 bf_id
          (some (new_counting_bloom_filter quantity (sizing quantity).1 (sizing quantity).2)))
  else .ok st

/-- One iteration of the loop `for (int i = 0, j = 0; i < 64; i++)` that ends
`init_counting_bloom_filters_array`; the state is `bf_arr`, `*bf_ids` and `j`,
and `*bf_ids` has `distinct_lengths` cells. -/
def init_bf_ids_step (has_prefix_length : Nat → Bool) (distinct_lengths : Nat)
    (st : (Nat → Option counting_bloom_filter) × (Nat → Nat) × Nat) (i : Nat) :
    Except fault ((Nat → Option counting_bloom_filter) × (Nat → Nat) × Nat) :=
  if !has_prefix_length i then .ok (Function.update st.1 i none, st.2.1, st.2.2)
  else if st.2.2 < distinct_lengths then
    .ok (st.1, Function.update st.2.1 st.2.2 i, st.2.2 + 1)
  else .error fault.out_of_bounds

/-- The C `init_counting_bloom_filters_array` on the records of the
distribution file.  `distinct_lengths` is the content of the field before
the call and `bf_ids` the content of the block `malloc` returns; `sizing`
stands for the floating-point formulas of `new_counting_bloom_filter`. -/
def init_counting_bloom_filters_array (sizing : Nat → Nat × Nat)
    (pfx_distribution : List (Nat × Nat)) (distinct_lengths : Nat) (bf_ids : Nat → Nat)
    (bf_arr : Nat → Option counting_bloom_filter) :
    Except fault ((Nat → Bool) × Nat × (Nat → Nat) × (Nat → Option counting_bloom_filter)) := do
  let has_prefix_length : Nat → Bool := fun _ => false
  let (has_prefix_length, distinct_lengths, bf_arr) ←
    pfx_distribution.foldlM (init_cbf_record sizing) (has_prefix_length, distinct_lengths, bf_arr)
  let (bf_arr, bf_ids, _) ←
    (List.range 64).foldlM (init_bf_ids_step has_prefix_length distinct_lengths)
      (bf_arr, bf_ids, 0)
  pure (has_prefix_length, distinct_lengths, bf_ids, bf_arr)

/-- The C `new_forwarding_table` (its parameter `gw_def` is not used).  The
table comes from `malloc`: `distinct_lengths` is what the field held and
`bf_ids` what the block of the identifiers held. -/
def new_forwarding_table (sizing : Nat → Nat × Nat) (pfx_distribution : List (Nat × Nat))
    (distinct_lengths : Nat) (bf_ids : Nat → Nat) : Except fault forwarding_table := do
  let (has_prefix_length, distinct_lengths, bf_ids, bf_arr) ←
    init_counting_bloom_filters_array sizing pfx_distribution distinct_lengths bf_ids
      (fun _ => none)
  let fw_tbl : forwarding_table :=
    { default_route := none
      counting_bloom_filters := bf_arr
      hash_tables := fun _ => none
      has_prefix_length := has_prefix_length
      distinct_lengths := distinct_lengths
      bf_ids := bf_ids }
  pure (init_hash_tables_array fw_tbl)

/-- The C `store_prefix` of `bloomfwd-v6`. -/
def store_prefix (fw_tbl : forwarding_table) (pfx : Option ipv6_prefix) :
    Except fault (Bool × forwarding_table) :=
  match pfx with
  | none => .error fault.invalid_prefix
  | some p =>
    if !is_prefix_valid (some p) then .error fault.invalid_prefix
    else if p.len = 0 then .ok (set_default_route fw_tbl p.next_hop)
    else do
      let id := bloom_filter_id p
      let bf ← deref (fw_tbl.counting_bloom_filters id)
      let hash_tbl ← deref (fw_tbl.hash_tables id)
      let (created, hash_tbl) := store_next_hop murmurhash3_64_32 hash_tbl p.key p.next_hop
      let bitmap_idxs := hashes murmurhash3_64_32 murmurhash3_32 p.key bf.num_hashes (fun _ => 0)
      let bf := cbf_mark bf bitmap_idxs
      .ok (created, { fw_tbl with
        counting_bloom_filters := Function.update fw_tbl.counting_bloom_filters id (some bf)
        hash_tables := Function.update fw_tbl.hash_tables id (some hash_tbl) })

/-- The build phase: `store_prefix` on each record in turn, as the loop of
`load_prefixes` calls it; the first fault ends the program. -/
def store_prefixes (fw_tbl : forwarding_table) :
    List (Option ipv6_prefix) → Except fault forwarding_table
  | [] => .ok fw_tbl
  | pfx :: rest =>
    match store_prefix fw_tbl pfx with
    | .ok r => store_prefixes r.2 rest
    | .error e => .error e

/-- The loop `for (int i = 0; !found && i < 64; i++)` of `lookup_address` over
the classes left to visit; the state is `found` and `*next_hop`. -/
def scan_classes (fw_tbl : forwarding_table) (addr_hi : Nat) :
    List Nat → Bool × uint128 → Except fault (Bool × uint128)
  | [], st => pure st
  | i :: rest, st =>
    if st.1 then pure st
    else if !fw_tbl.has_prefix_length i then scan_classes fw_tbl addr_hi rest st
    else
      match fw_tbl.counting_bloom_filters i with
      | none => scan_classes fw_tbl addr_hi rest st
      | some bf =>
        let pfx_key := prefix_key addr_hi (64 - i)
        let h1 := murmurhash3_64_32 pfx_key
        if probe bf h1 (murmurhash3_32 h1) then
          match fw_tbl.hash_tables i with
          | none => .error fault.null_deref
          | some ht =>
            scan_classes fw_tbl addr_hi rest (find_next_hop_with_hash ht h1 pfx_key st.2)
        else scan_classes fw_tbl addr_hi rest st

/-- The block `if (!found && fw_tbl->default_route != NULL)` that ends both
IPv6 lookups. -/
def default_tail (fw_tbl : forwarding_table) (st : Bool × uint128) : Bool × uint128 :=
  if !st.1 then
    match fw_tbl.default_route with
    | some d => (true, d.next_hop)
    | none => st
  else st

/-- The C `lookup_address` of `bloomfwd-v6`; `next_hop` is the content of
the out-parameter before the call. -/
def lookup_address (fw_tbl : forwarding_table) (addr next_hop : uint128) :
    Except fault (Bool × uint128) := do
  let addr_hi := addr.hi
  let st ← scan_classes fw_tbl addr_hi (List.range 64) (false, next_hop)
  pure (default_tail fw_tbl st)

/-- The Bloom probe of `lookup_address_intrin`: `maybe = bitmap[h1 % len]`,
then `if (maybe && num_hashes > 1) maybe = bitmap[h2 % len]`, then the loop
from `l = 2`. -/
def probe_intrin (bf : counting_bloom_filter) (h1 h2 : Nat) : Bool :=
  let maybe := bf.bitmap (h1 % bf.bitmap_len)
  let maybe :=
    if maybe && decide (bf.num_hashes > 1) then bf.bitmap (h2 % bf.bitmap_len) else maybe
  probe_loop bf.bitmap bf.bitmap_len bf.num_hashes h1 h2 bf.num_hashes 2 maybe

/-- The nested loops of `lookup_address_intrin` that fill `pfx_keys`; the
state is the array and the counter `k`.  The length handed to `prefix_key`
is `64 - bf_ids[j]` converted to `uint8_t`. -/
def fill_pfx_keys (addrs : Nat → uint128) (distinct_lengths : Nat) (bf_ids : Nat → Nat)
    (len : Nat) (pfx_keys : Nat → Nat) : Nat → Nat :=
  ((List.range len).foldl
    (fun st i =>
      (List.range distinct_lengths).foldl
        (fun st j =>
          (Function.update st.1 st.2
            (prefix_key (addrs i).hi ((64 + 256 - bf_ids j) % 256)), st.2 + 1))
        st)
    (pfx_keys, 0)).1

/-- One iteration, at `i`, of the first hash loop of `lookup_address_intrin`:
two vector hashes into `h1_tmp`, then the odd lanes copied to
`h1[i .. i + 15]`.  The state is `h1` and `h1_tmp`. -/
def h1_chunk (pfx_keys : Nat → Nat) (st : (Nat → Nat) × (Nat → Nat)) (i : Nat) :
    (Nat → Nat) × (Nat → Nat) :=
  let h1 := st.1
  let h1_tmp := st.2
  let h1_tmp := murmurhash3_64_vec512_v3 pfx_keys i h1_tmp 0
  let h1_tmp := murmurhash3_64_vec512_v3 pfx_keys (i + 8) h1_tmp 16
  let h1 := Function.update h1 i (h1_tmp 1)
  let h1 := Function.update h1 (i + 1) (h1_tmp 3)
  let h1 := Function.update h1 (i + 2) (h1_tmp 5)
  let h1 := Function.update h1 (i + 3) (h1_tmp 7)
  let h1 := Function.update h1 (i + 4) (h1_tmp 9)
  let h1 := Function.update h1 (i + 5) (h1_tmp 11)
  let h1 := Function.update h1 (i + 6) (h1_tmp 13)
  let h1 := Function.update h1 (i + 7) (h1_tmp 15)
  let h1 := Function.update h1 (i + 8) (h1_tmp 17)
  let h1 := Function.update h1 (i + 9) (h1_tmp 19)
  let h1 := Function.update h1 (i + 10) (h1_tmp 21)
  let h1 := Function.update h1 (i + 11) (h1_tmp 23)
  let h1 := Function.update h1 (i + 12) (h1_tmp 25)
  let h1 := Function.update h1 (i + 13) (h1_tmp 27)
  let h1 := Function.update h1 (i + 14) (h1_tmp 29)
  let h1 := Function.update h1 (i + 15) (h1_tmp 31)
  (h1, h1_tmp)

/-- The values `i` takes in `for (int i = 0; i < prefix_keys_len; i += 16)`. -/
def chunk_starts (prefix_keys_len : Nat) : List Nat :=
  (List.range ((prefix_keys_len + 15) / 16)).map (fun c => 16 * c)

/-- The loop `for (int k = 0; !found && k < distinct_lengths; k++)` of
`lookup_address_intrin` over the values of `k` left to visit; the state is
`found` and `next_hops[i]`, and `j` is `distinct_lengths * i`. -/
def scan_ids (fw_tbl : forwarding_table) (pfx_keys h1 h2 : Nat → Nat) (j : Nat) :
    List Nat → Bool × uint128 → Except fault (Bool × uint128)
  | [], st => pure st
  | k :: rest, st =>
    if st.1 then pure st
    else
      match fw_tbl.counting_bloom_filters (fw_tbl.bf_ids k) with
      | none => .error fault.lookup_error
      | some bf =>
        if probe_intrin bf (h1 (j + k)) (h2 (j + k)) then
          match fw_tbl.hash_tables (fw_tbl.bf_ids k) with
          | none => .error fault.null_deref
          | some ht =>
            scan_ids fw_tbl pfx_keys h1 h2 j rest
              (find_next_hop_with_hash ht (h1 (j + k)) (pfx_keys (j + k)) st.2)
        else scan_ids fw_tbl pfx_keys h1 h2 j rest st

/-- Body of the last loop of `lookup_address_intrin` for address `i`; the
state is `next_hops` and `found_vec`.  The store to `found_vec[i]` is
compiled unless `NDEBUG` is defined. -/
def lookup_lane (fw_tbl : forwarding_table) (pfx_keys h1 h2 : Nat → Nat)
    (st : (Nat → uint128) × (Nat → Bool)) (i : Nat) :
    Except fault ((Nat → uint128) × (Nat → Bool)) := do
  let j := fw_tbl.distinct_lengths * i
  let r ← scan_ids fw_tbl pfx_keys h1 h2 j (List.range fw_tbl.distinct_lengths) (false, st.1 i)
  let r := default_tail fw_tbl r
  pure (Function.update st.1 i r.2, Function.update st.2 i r.1)

/-- The C `lookup_address_intrin` of `bloomfwd-v6`; `next_hops` and
`found_vec` are the contents of the two output arrays before the call.  The
local arrays `pfx_keys`, `h1`, `h1_tmp` and `h2` start zeroed here: every
cell the function reads it has written before. -/
def lookup_address_intrin (fw_tbl : forwarding_table) (addrs next_hops : Nat → uint128)
    (found_vec : Nat → Bool) (len : Nat) : Except fault ((Nat → uint128) × (Nat → Bool)) :=
  let distinct_lengths := fw_tbl.distinct_lengths
  let bf_ids := fw_tbl.bf_ids
  let prefix_keys_len := len * distinct_lengths
  if prefix_keys_len % 16 ≠ 0 then .error fault.lookup_error
  else
    let pfx_keys := fill_pfx_keys addrs distinct_lengths bf_ids len (fun _ => 0)
    let h1 := ((chunk_starts prefix_keys_len).foldl (h1_chunk pfx_keys)
      (fun _ => 0, fun _ => 0)).1
    let h2 := (chunk_starts prefix_keys_len).foldl
      (fun h2 i => murmurhash3_32_vec512_v3 h1 i h2 i) (fun _ => 0)
    (List.range len).foldlM (lookup_lane fw_tbl pfx_keys h1 h2) (next_hops, found_vec)

end V6

/-! ## Prefix constructors -/

/-- The value of `x << s` on a `w`-bit unsigned operand.  C defines it for a
shift count in `[0, w)`; for any other count the expression is undefined, and
`u` stands for the value the machine leaves. -/
def shl_or (w x : Nat) (s : Int) (u : Nat) : Nat :=
  if 0 ≤ s ∧ s < w then (x <<< s.toNat) % 2 ^ w else u

/-- The C `new_ipv4_addr`: four octets packed into 32 bits. -/
def new_ipv4_addr (a b c d : Nat) : Nat :=
  ((a <<< 24) ||| (b <<< 16) ||| (c <<< 8) ||| d) % U32

/-- The C `new_ipv4_prefix` (the same text in the baseline and in v4-coop),
on octets and a `uint8_t` netmask: `none` is the `NULL` it returns for an
invalid prefix.  The mask is `0xffffffff << (32 - netmask)`, whose shift count
is outside `[0, 32)` for netmask 0 and for netmask above 32; `u` is the value
of the mask there. -/
def new_ipv4_prefix (a b c d netmask next_hop : Nat) (u : Nat) : Option ipv4_prefix :=
  let pfx : ipv4_prefix :=
    { key := new_ipv4_addr a b c d &&& shl_or 32 0xffffffff (32 - (netmask : Int)) u
      netmask := netmask
      next_hop := next_hop }
  if !is_prefix_valid (some pfx) then none else some pfx

namespace V6

/-- The C `prefix_key` at every length: the mask is
`0xffffffffffffffff << (64 - len)`, whose shift count is outside `[0, 64)`
for length 0 and for lengths above 64; `u` is the value of the mask there.
For lengths in `[1, 64]` this is `prefix_key`. -/
def prefix_key_at (u : Nat) (pfx len : Nat) : Nat :=
  pfx &&& shl_or 64 0xffffffffffffffff (64 - (len : Int)) u

/-- The upper half `new_ipv6_addr` and `new_ipv6_prefix` pack from four
16-bit groups. -/
def pack_hi (a b c d : Nat) : Nat :=
  ((a <<< 48) ||| (b <<< 32) ||| (c <<< 16) ||| d) % U64

/-- The C `new_ipv6_prefix`, on 16-bit groups and a `uint8_t` length: `none`
is the `NULL` it returns for an invalid prefix; `u` is the value of the mask
of `prefix_key` where its shift count is outside `[0, 64)`. -/
def new_ipv6_prefix (a b c d len : Nat) (next_hop : uint128) (u : Nat) : Option ipv6_prefix :=
  let pfx : ipv6_prefix :=
    { key := prefix_key_at u (pack_hi a b c d) len
      len := len
      next_hop := next_hop }
  if !is_prefix_valid (some pfx) then none else some pfx

end V6

/-! ## Controlled prefix expansion (`ip-helpers/cpe.c`)

The tool builds a binary trie from a prefix file, expands the prefixes of a
length range to the top of the range, and writes the expanded prefixes to the
files the forwarding table is loaded from.  Pointers into the trie are paths
from its root (`false` for `left`, `true` for `right`); the functions that
write through a pointer return the trie. -/

namespace Cpe

/-- The C `struct prefix`: the key right-aligned in `pfx` (the C field
`prefix`), its length (a non-negative `int`), and the next hop as a 32-bit
pattern. -/
structure prefix_rec where
  pfx : Nat
  len : Nat
  nhop : Nat
  deriving DecidableEq, Repr

/-- A `struct btrie_node *`: `NULL`, or a node with its four fields. -/
inductive btrie_node where
  | null : btrie_node
  | node (has_nhop : Bool) (nhop : Nat) (left right : btrie_node) : btrie_node
  deriving DecidableEq, Repr

/-- The test `b == NULL`. -/
def is_null : btrie_node → Bool
  | .null => true
  | .node _ _ _ _ => false

/-- The C `btrie_node()`: a fresh node without next hop and without children.
The C code leaves `nhop` unset; it is read only where `has_nhop` is set, and
is 0 here. -/
def btrie_node_new : btrie_node := .node false 0 .null .null

/-- The C `get_bit` on 32-bit unsigned operands; its callers pass
`index < len ≤ 32`. -/
def get_bit (p len index : Nat) : Nat := (p >>> (len - 1 - index)) &&& 1

/-- The loop of `btrie_insert` with `n` iterations left (`i = p.len - n`),
followed by the write at the node reached.  Returns `rc` and the trie. -/
def btrie_insert_from (p : prefix_rec) (allow_update : Bool) :
    Nat → btrie_node → Except fault (Nat × btrie_node)
  | _, .null => .error fault.null_deref
  | 0, .node has_nhop nhop left right =>
    let rc := if has_nhop && allow_update then 1 else 0
    if !has_nhop || allow_update then .ok (rc, .node true p.nhop left right)
    else .ok (rc, .node has_nhop nhop left right)
  | n + 1, .node has_nhop nhop left right =>
    if get_bit p.pfx p.len (p.len - (n + 1)) = 0 then
      match btrie_insert_from p allow_update n
          (if is_null left then btrie_node_new else left) with
      | .ok (rc, left1) => .ok (rc, .node has_nhop nhop left1 right)
      | .error e => .error e
    else
      match btrie_insert_from p allow_update n
          (if is_null right then btrie_node_new else right) with
      | .ok (rc, right1) => .ok (rc, .node has_nhop nhop left right1)
      | .error e => .error e

/-- The C `btrie_insert`.  For a length above 32 the first `get_bit` shifts a
32-bit operand by 32 or more, which C leaves undefined. -/
def btrie_insert (btrie : btrie_node) (p : prefix_rec) (allow_update : Bool) :
    Except fault (Nat × btrie_node) :=
  if 32 < p.len then .error fault.undefined_shift
  else btrie_insert_from p allow_update p.len btrie

/-- A record of a prefix file as `fscanf` reads it: the four octets, the
mask (written out in every record), and the four octets of the next hop. -/
structure line where
  a : Nat
  b : Nat
  c : Nat
  d : Nat
  mask : Nat
  a1 : Nat
  b1 : Nat
  c1 : Nat
  d1 : Nat
  deriving DecidableEq, Repr

/-- The prefix `btrie_create` inserts for a record: the key shifted down to
its `mask` leading bits.  The records inserted have a mask of at most 32. -/
def prefix_of_line (r : line) : prefix_rec :=
  let pfx := ((r.a <<< 24) ||| (r.b <<< 16) ||| (r.c <<< 8) ||| r.d) % U32
  { pfx := if 0 < r.mask then pfx >>> (32 - r.mask) else pfx
    nhop := ((r.a1 <<< 24) ||| (r.b1 <<< 16) ||| (r.c1 <<< 8) ||| r.d1) % U32
    len := r.mask }

/-- The C `btrie_create` on the records of the file: the records whose mask
is in `[start, stop]` are inserted, later records replacing earlier ones. -/
def btrie_create (fp : List line) (start stop : Nat) : Except fault btrie_node :=
  fp.foldlM
    (fun btrie r =>
      if start ≤ r.mask ∧ r.mask ≤ stop then
        (btrie_insert btrie (prefix_of_line r) true).map Prod.snd
      else .ok btrie)
    btrie_node_new

/-- The node the pointer reached from `t` along `path` points to (`null`
where the path leaves the trie). -/
def node_at : btrie_node → List Bool → btrie_node
  | t, [] => t
  | .null, _ :: _ => .null
  | .node _ _ left right, c :: path => node_at (if c then right else left) path

/-- The assignment `b->has_nhop = false` through the pointer `b`. -/
def clear_has_nhop : btrie_node → List Bool → btrie_node
  | .null, _ => .null
  | .node _ nhop left right, [] => .node false nhop left right
  | .node has_nhop nhop left right, c :: path =>
    if c then .node has_nhop nhop left (clear_has_nhop right path)
    else .node has_nhop nhop (clear_has_nhop left path) right

/-- One iteration of the expansion loop of `btrie_perform_cpe`: the prefix
`(prefix << k) | i` of length `stride` with the next hop of `b` is inserted
without update. -/
def cpe_expand_step (b : List Bool) (stride pfx k : Nat) (root : btrie_node) (i : Nat) :
    Except fault btrie_node :=
  match node_at root b with
  | .null => .error fault.null_deref
  | .node _ nhop _ _ =>
    (btrie_insert root { pfx := ((pfx <<< k) % U32) ||| i, len := stride, nhop := nhop }
      false).map Prod.snd

/-- The expansion loop `for (int i = 0; i < pow(2, k); i++)` of
`btrie_perform_cpe`.  For `k` of 31 or more the `int` counter overflows
before the loop condition fails. -/
def cpe_expand (root : btrie_node) (b : List Bool) (stride pfx k : Nat) :
    Except fault btrie_node :=
  if 31 ≤ k then .error fault.int_overflow
  else (List.range (2 ^ k)).foldlM (cpe_expand_step b stride pfx k) root

/-- The recursion of `btrie_perform_cpe` at `len = stride - n`: `n` is 0
where the C code returns at `len >= stride`. -/
def btrie_perform_cpe_at (stride : Nat) :
    Nat → btrie_node → List Bool → Nat → Except fault btrie_node
  | 0, root, _, _ => .ok root
  | n + 1, root, b, pfx =>
    let len := stride - (n + 1)
    match node_at root b with
    | .null => .error fault.null_deref
    | .node _ _ left _ =>
      match (if !is_null left then
          btrie_perform_cpe_at stride n root (b ++ [false]) ((pfx <<< 1) % U32)
        else .ok root) with
      | .error e => .error e
      | .ok root1 =>
        match node_at root1 b with
        | .null => .error fault.null_deref
        | .node _ _ _ right =>
          match (if !is_null right then
              btrie_perform_cpe_at stride n root1 (b ++ [true]) (((pfx <<< 1) % U32) ||| 1)
            else .ok root1) with
          | .error e => .error e
          | .ok root2 =>
            match node_at root2 b with
            | .null => .error fault.null_deref
            | .node has_nhop _ _ _ =>
              if has_nhop then
                match cpe_expand root2 b stride pfx (stride - len) with
                | .error e => .error e
                | .ok root3 => .ok (clear_has_nhop root3 b)
              else .ok root2

/-- The C `btrie_perform_cpe(root, b, stride, prefix, len)`, with `b` the
path of the pointer in `root`; returns the trie. -/
def btrie_perform_cpe (root : btrie_node) (b : List Bool) (stride pfx len : Nat) :
    Except fault btrie_node :=
  btrie_perform_cpe_at stride (stride - len) root b pfx

/-- A record as `btrie_print` and `dla_print` write it:
`a.b.c.d/len a1.b1.c1.d1`, every field an `unsigned char`. -/
def out_line (addr len nhop : Nat) : line :=
  { a := (addr >>> 24) % 256
    b := (addr >>> 16) &&& 0xff
    c := (addr >>> 8) &&& 0xff
    d := addr &&& 0xff
    mask := len % 256
    a1 := (nhop >>> 24) % 256
    b1 := (nhop >>> 16) &&& 0xff
    c1 := (nhop >>> 8) &&& 0xff
    d1 := nhop &&& 0xff }

/-- The C `btrie_print`: the records written, the left subtrie first, then
the right one, then the node. -/
def btrie_print : btrie_node → Nat → Nat → List line
  | .null, _, _ => []
  | .node has_nhop nhop left right, pfx, len =>
    btrie_print left ((pfx <<< 1) % U32) (len + 1)
      ++ btrie_print right (((pfx <<< 1) % U32) ||| 1) (len + 1)
      ++ (if has_nhop then
            [out_line (if len < 32 then (pfx <<< (32 - len)) % U32 else pfx) len nhop]
          else [])

/-- The C `dla_fill` on an array of `size` cells: a write outside the array
is a fault. -/
def dla_fill (size : Nat) : (Nat → Nat) → btrie_node → Nat → Nat → Nat →
    Except fault (Nat → Nat)
  | _, .null, _, _, _ => .error fault.null_deref
  | dla, .node has_nhop nhop left right, stride, pfx, len =>
    match (if !is_null left then dla_fill size dla left stride ((pfx <<< 1) % U32) (len + 1)
      else .ok dla) with
    | .error e => .error e
    | .ok dla1 =>
      match (if !is_null right then
          dla_fill size dla1 right stride (((pfx <<< 1) % U32) ||| 1) (len + 1)
        else .ok dla1) with
      | .error e => .error e
      | .ok dla2 =>
        if has_nhop then
          if pfx < size then .ok (Function.update dla2 pfx nhop)
          else .error fault.out_of_bounds
        else .ok dla2

/-- The C `dla_create`: `2 ^ stride` cells, zeroed by `calloc`, filled from
the trie. -/
def dla_create (cpe_trie : btrie_node) (stride : Nat) : Except fault (Nat → Nat) :=
  dla_fill (2 ^ stride) (fun _ => 0) cpe_trie stride 0 0

/-- The C `dla_print`: one record for each of the `2 ^ stride` cells, in
order; its caller passes a stride of at most 32. -/
def dla_print (dla : Nat → Nat) (stride : Nat) : List line :=
  (List.range (2 ^ stride)).map (fun i => out_line (i <<< (32 - stride)) stride (dla i))

/-- The three files `main` writes for a prefix file: `dla.txt`, `g1.txt`
and `g2.txt`. -/
def main (fp : List line) : Except fault (List line × List line × List line) :=
  match btrie_create fp 1 20 with
  | .error e => .error e
  | .ok btrie =>
    match btrie_perform_cpe btrie [] 20 0 0 with
    | .error e => .error e
    | .ok btrie1 =>
      match dla_create btrie1 20 with
      | .error e => .error e
      | .ok dla =>
        match btrie_create fp 21 24 with
        | .error e => .error e
        | .ok g1 =>
          match btrie_perform_cpe g1 [] 24 0 0 with
          | .error e => .error e
          | .ok g1c =>
            match btrie_create fp 25 32 with
            | .error e => .error e
            | .ok g2 =>
              match btrie_perform_cpe g2 [] 32 0 0 with
              | .error e => .error e
              | .ok g2c =>
                .ok (dla_print dla 20, btrie_print g1c 0 0, btrie_print g2c 0 0)

end Cpe

/-! ## Loading the expanded prefix files (`bloomfwd-v4-coop`) -/

namespace V4coop

/-- The C `load_prefixes` on the records of a prefix file: each record is
made a prefix by `new_ipv4_prefix` and stored; `u` is the value of the mask
where its shift is undefined. -/
def load_prefixes (cfg : config) (fw_tbl : forwarding_table) (pfxs : List Cpe.line)
    (u : Nat) : Except fault forwarding_table :=
  store_prefixes cfg fw_tbl
    (pfxs.map (fun r =>
      new_ipv4_prefix r.a r.b r.c r.d r.mask (new_ipv4_addr r.a1 r.b1 r.c1 r.d1) u))

/-- The C `initialize_forwarding_table` of `main_opt.c` on the host: the
files given for `-dla`, `-g1` and `-g2` are loaded, in this order. -/
def initialize_forwarding_table (cfg : config) (fw_tbl : forwarding_table)
    (dla g1 g2 : List Cpe.line) (u : Nat) : Except fault forwarding_table :=
  match load_prefixes cfg fw_tbl dla u with
  | .error e => .error e
  | .ok t1 =>
    match load_prefixes cfg t1 g1 u with
    | .error e => .error e
    | .ok t2 => load_prefixes cfg t2 g2 u

end V4coop

/-! ## The length of a prefix record -/

/-- The length `load_prefixes` gives the record `a0.b0.c0.d0`: `len` is what
`fscanf(pfxs, "/%hhu", &len)` converted, `none` where it converted nothing. -/
def V4coop.load_prefixes_len (a0 b0 c0 d0 : Nat) (len : Option Nat) : Nat :=
  match len with
  | some l => l
  | none =>
    if d0 > 0 then 32
    else if c0 > 0 then 24
    else if b0 > 0 then 16
    else if a0 > 0 then 8
    else 0

/-- The mask `btrie_create` gives the record `a.b.c.d`: `mask` is what
`fscanf(fp, "/%hhu", &mask)` converted, `none` where it converted nothing. -/
def Cpe.btrie_create_mask (a b c d : Nat) (mask : Option Nat) : Nat :=
  match mask with
  | some m => m
  | none =>
    if d > 0 then 32
    else if c > 0 then 24
    else if b > 0 then 16
    else if a > 0 then 8
    else 0

/-! ## `store_prefix` with the state at the point where the call ends

The three `store_prefix` functions again, statement by statement with the
state explicit: how the call ends (the value returned, or the fault), the
table as the call leaves it, and the diagnostics it has written.  The function
`strpfx` of the baseline and of `bloomfwd-v6` is defined in `prettyprint.c`,
which is not among the sources (`prettyprint.h` declares it: the string of a
prefix, `<CIDR Address>/<Netmask> -> <Next Hop>`); it is a parameter, the
function from the prefix pointer to the string returned. -/

namespace V4coop

/-- The C `store_prefix` of `bloomfwd-v4-coop` with its final state and
output. -/
def store_prefix_run (cfg : config) (fw_tbl : forwarding_table) (pfx : Option ipv4_prefix) :
    Except fault Bool × forwarding_table × List String :=
  if !is_prefix_valid pfx then
    (.error fault.invalid_prefix, fw_tbl, ["store_prefix: Invalid prefix!\n"])
  else
    match pfx with
    | none => (.error fault.null_deref, fw_tbl, [])
    | some p =>
      if p.netmask = 0 then
        let r := set_default_route fw_tbl p.next_hop
        (.ok r.1, r.2, [])
      else if p.netmask = 20 then
        let index := p.key >>> (32 - p.netmask)
        let created := decide (fw_tbl.dla index = 0)
        (.ok created, { fw_tbl with dla := Function.update fw_tbl.dla index p.next_hop }, [])
      else
        let id := bloom_filter_id p
        match fw_tbl.counting_bloom_filters id with
        | none => (.error fault.null_deref, fw_tbl, [])
        | some bf =>
          match fw_tbl.hash_tables id with
          | none => (.error fault.null_deref, fw_tbl, [])
          | some hash_tbl =>
            let r := store_next_hop (HASHTBL_HASH_FUNCTION cfg) hash_tbl p.key p.next_hop
            let bitmap_idxs :=
              hashes (BLOOM_HASH_FUNCTION cfg) (BLOOM_HASH_FUNCTION cfg) p.key bf.num_hashes
                (fun _ => 0)
            let bf := cbf_mark bf bitmap_idxs
            (.ok r.1, { fw_tbl with
              counting_bloom_filters :=
                Function.update fw_tbl.counting_bloom_filters id (some bf)
              hash_tables := Function.update fw_tbl.hash_tables id (some r.2) }, [])

end V4coop

namespace Baseline

/-- The C `store_prefix` of the baseline with its final state and output. -/
def store_prefix_run (rand_r : Nat → Nat) (strpfx : Option ipv4_prefix → String)
    (fw_tbl : forwarding_table) (pfx : Option ipv4_prefix) :
    Except fault Bool × forwarding_table × List String :=
  if !is_prefix_valid pfx then
    let prefix_str := strpfx pfx
    (.error fault.invalid_prefix, fw_tbl,
      ["bloomfwd.store_prefix: Invalid prefix: " ++ prefix_str ++ ".\n"])
  else
    match pfx with
    | none => (.error fault.null_deref, fw_tbl, [])
    | some p =>
      if p.netmask = 0 then
        let r := set_default_route fw_tbl p.next_hop
        (.ok r.1, r.2, [])
      else if p.netmask = 20 then
        let index := p.key >>> (32 - p.netmask)
        let created := decide (fw_tbl.dla index = 0)
        (.ok created, { fw_tbl with dla := Function.update fw_tbl.dla index p.next_hop }, [])
      else
        let id := bloom_filter_id p
        match fw_tbl.counting_bloom_filters id with
        | none => (.error fault.null_deref, fw_tbl, [])
        | some bf =>
          match fw_tbl.hash_tables id with
          | none => (.error fault.null_deref, fw_tbl, [])
          | some hash_tbl =>
            let r := store_next_hop rand_r hash_tbl p.key p.next_hop
            let bitmap_idxs := hashes rand_r p.key bf.num_hashes (fun _ => 0)
            let bf := cbf_mark bf bitmap_idxs
            (.ok r.1, { fw_tbl with
              counting_bloom_filters :=
                Function.update fw_tbl.counting_bloom_filters id (some bf)
              hash_tables := Function.update fw_tbl.hash_tables id (some r.2) }, [])

end Baseline

namespace V6

/-- The C `store_prefix` of `bloomfwd-v6` with its final state and output. -/
def store_prefix_run (strpfx : Option ipv6_prefix → String) (fw_tbl : forwarding_table)
    (pfx : Option ipv6_prefix) : Except fault Bool × forwarding_table × List String :=
  if !is_prefix_valid pfx then
    let prefix_str := strpfx pfx
    (.error fault.invalid_prefix, fw_tbl,
      ["bloomfwd.store_prefix: Invalid prefix: " ++ prefix_str ++ ".\n"])
  else
    match pfx with
    | none => (.error fault.null_deref, fw_tbl, [])
    | some p =>
      if p.len = 0 then
        let r := set_default_route fw_tbl p.next_hop
        (.ok r.1, r.2, [])
      else
        let id := bloom_filter_id p
        match fw_tbl.counting_bloom_filters id with
        | none => (.error fault.null_deref, fw_tbl, [])
        | some bf =>
          match fw_tbl.hash_tables id with
          | none => (.error fault.null_deref, fw_tbl, [])
          | some hash_tbl =>
            let r := store_next_hop murmurhash3_64_32 hash_tbl p.key p.next_hop
            let bitmap_idxs :=
              hashes murmurhash3_64_32 murmurhash3_32 p.key bf.num_hashes (fun _ => 0)
            let bf := cbf_mark bf bitmap_idxs
            (.ok r.1, { fw_tbl with
              counting_bloom_filters :=
                Function.update fw_tbl.counting_bloom_filters id (some bf)
              hash_tables := Function.update fw_tbl.hash_tables id (some r.2) }, [])

end V6

/-! ## The cells a Bloom probe reads

The probe loops of the lookups again, returning the bitmap indices they read,
in the order of the reads. -/

/-- The indices the loop `for (int j = 2; maybe && j < num_hashes; j++)` of
the double-hashing lookups reads, started at `j` with `fuel` iterations
left. -/
def probe_loop_reads (bitmap : Nat → Bool) (bitmap_len num_hashes h1 h2 : Nat) :
    Nat → Nat → Bool → List Nat
  | 0, _, _ => []
  | fuel + 1, j, maybe =>
    if maybe && decide (j < num_hashes) then
      let idx := ((h1 + j * h2) % U32) % bitmap_len
      idx :: probe_loop_reads bitmap bitmap_len num_hashes h1 h2 fuel (j + 1) (bitmap idx)
    else []

/-- The indices the Bloom probe of the double-hashing lookups reads:
`bitmap[h1 % bitmap_len]` always, then `bitmap[h2 % bitmap_len]` and the loop
where the first cell is set and `num_hashes > 1`. -/
def probe_reads (bf : counting_bloom_filter) (h1 h2 : Nat) : List Nat :=
  let maybe := bf.bitmap (h1 % bf.bitmap_len)
  (h1 % bf.bitmap_len) ::
    (if maybe then
      if bf.num_hashes > 1 then
        let maybe := bf.bitmap (h2 % bf.bitmap_len)
        (h2 % bf.bitmap_len) ::
          probe_loop_reads bf.bitmap bf.bitmap_len bf.num_hashes h1 h2 bf.num_hashes 2 maybe
      else []
    else [])

namespace Baseline

/-- The indices the probe loop `for (int j = 0; maybe && j < num_hashes; j++)`
of the baseline lookup reads, started at `j` with `fuel` iterations left. -/
def probe_chain_reads (rand_r : Nat → Nat) (bf : counting_bloom_filter) :
    Nat → Nat → Nat → Bool → List Nat
  | 0, _, _, _ => []
  | fuel + 1, j, seed, maybe =>
    if maybe && decide (j < bf.num_hashes) then
      let seed := rand_r seed
      (seed % bf.bitmap_len) ::
        probe_chain_reads rand_r bf fuel (j + 1) seed (bf.bitmap (seed % bf.bitmap_len))
    else []

end Baseline

/-- The C `calc_num_collisions_bloomf` of the IPv4 variants (the table is a
global in `bloomfwd-v4-coop` and a parameter in the baseline).  The inner loop
runs over the cells `j` of filter `i` and reads `bf->counters[i]` in each
iteration; the read is outside the array where `i` is not below `bitmap_len`.
The sum is an `unsigned long long`. -/
def calc_num_collisions_bloomf (fw_tbl : forwarding_table) : Except fault Nat :=
  (List.range 2).foldlM
    (fun num_collisions i =>
      match fw_tbl.counting_bloom_filters i with
      | none => .ok num_collisions
      | some bf =>
        (List.range bf.bitmap_len).foldlM
          (fun num_collisions _ =>
            if i < bf.bitmap_len then
              let x := bf.counters i
              if x > 1 then .ok ((num_collisions + x) % U64) else .ok num_collisions
            else .error fault.out_of_bounds)
          num_collisions)
    0

/-! ## Controlled prefix expansion for IPv6 (`ip-helpers/cpe_v6.c`)

The tool is compiled against a `bloomfwd_opt.h` that is not among the
sources: its `struct ipv6_prefix` is taken from the way `cpe_v6.c` uses it,
with a 128-bit `prefix`, a length and a 128-bit next hop. -/

namespace Cpe6

/-- The `struct ipv6_prefix` of `cpe_v6.c`; the field `key` is the C field
called prefix. -/
structure ipv6_prefix where
  key : V6.uint128
  len : Nat
  next_hop : V6.uint128

/-- A `struct btrie_node *` of `cpe_v6.c`: `NULL`, or a node with its four
fields. -/
inductive btrie_node where
  | null : btrie_node
  | node (has_next_hop : Bool) (next_hop : V6.uint128) (left right : btrie_node) : btrie_node

/-- The test `b == NULL`. -/
def is_null : btrie_node → Bool
  | .null => true
  | .node _ _ _ _ => false

/-- The C `btrie_node()`: a fresh node without next hop and without children;
the next hop, which the C code leaves unset, is 0 here. -/
def btrie_node_new : btrie_node := .node false { hi := 0, lo := 0 } .null .null

/-- The C `get_bit` of `cpe_v6.c`.  `index` is an `unsigned int`, so the shift
count `64 - index - 1` is computed modulo `2^32`; a shift of the 64-bit word by
64 or more is undefined. -/
def get_bit (pfx : V6.uint128) (len index : Nat) : Except fault Nat :=
  let p := if index > 64 then pfx.lo else pfx.hi
  let index := if index > 64 then index - 64 else index
  let count := (64 + (U32 - index % U32) + (U32 - 1)) % U32
  if count < 64 then .ok ((p >>> count) &&& 1) else .error fault.undefined_shift

/-- The loop of `btrie_insert` with `n` iterations left (`i = p.len - n`),
followed by the write at the node reached.  Returns `rc` and the trie. -/
def btrie_insert_from (p : ipv6_prefix) (allow_update : Bool) :
    Nat → btrie_node → Except fault (Nat × btrie_node)
  | _, .null => .error fault.null_deref
  | 0, .node has_next_hop next_hop left right =>
    let rc := if has_next_hop && allow_update then 1 else 0
    if !has_next_hop || allow_update then .ok (rc, .node true p.next_hop left right)
    else .ok (rc, .node has_next_hop next_hop left right)
  | n + 1, .node has_next_hop next_hop left right =>
    match get_bit p.key p.len (p.len - (n + 1)) with
    | .error e => .error e
    | .ok bit =>
      if bit = 0 then
        match btrie_insert_from p allow_update n
            (if is_null left then btrie_node_new else left) with
        | .ok (rc, left1) => .ok (rc, .node has_next_hop next_hop left1 right)
        | .error e => .error e
      else
        match btrie_insert_from p allow_update n
            (if is_null right then btrie_node_new else right) with
        | .ok (rc, right1) => .ok (rc, .node has_next_hop next_hop left right1)
        | .error e => .error e

/-- The C `btrie_insert` of `cpe_v6.c`. -/
def btrie_insert (btrie : btrie_node) (p : ipv6_prefix) (allow_update : Bool) :
    Except fault (Nat × btrie_node) :=
  btrie_insert_from p allow_update p.len btrie

end Cpe6

/-! ## Notions used to state the properties

These definitions are not translations of code: they are the reference
notions the theorems compare the code with. -/

/-- The next hop a hash table holds for key `k`: that of the first entry of
`k`'s bucket carrying `k` and its hash. -/
def ht_get {ν : Type} (H : Nat → Nat) (tbl : hash_table ν) (k : Nat) : Option ν :=
  (chain_find (H k) k (tbl.slots (H k % tbl.range))).map (fun e => e.next_hop)

/-- The `i`-th hash value of the double-hashing scheme: `h1`, `h2`, then
`h1 + i * h2` in 32-bit arithmetic. -/
def dh_index (h1 h2 i : Nat) : Nat :=
  if i = 0 then h1 else if i = 1 then h2 else (h1 + i * h2) % U32

/-- A prefix covers an address when their leading `netmask` bits agree. -/
def covers (p : ipv4_prefix) (a : Nat) : Prop :=
  a >>> (32 - p.netmask) = p.key >>> (32 - p.netmask)

instance (p : ipv4_prefix) (a : Nat) : Decidable (covers p a) := by
  unfold covers; infer_instance

/-- A prefix record of the data model: 32-bit key with the low
`32 - netmask` bits cleared. -/
def canonical (p : ipv4_prefix) : Prop :=
  p.key < U32 ∧ p.key % 2 ^ (32 - p.netmask) = 0

instance (p : ipv4_prefix) : Decidable (canonical p) := by
  unfold canonical; infer_instance

/-- One step of longest-prefix match for address `a`: a stored prefix that
covers `a` replaces the best one so far unless that one is longer. -/
def lpm_step (a : Nat) (best : Option ipv4_prefix) (p : ipv4_prefix) : Option ipv4_prefix :=
  if covers p a then
    match best with
    | none => some p
    | some b => if b.netmask ≤ p.netmask then some p else some b
  else best

/-- Longest-prefix match over the stored prefixes, in store order: the
longest prefix covering `a`, and among equally long ones the one stored
last. -/
def lpm (ps : List ipv4_prefix) (a : Nat) : Option ipv4_prefix :=
  ps.foldl (lpm_step a) none

/-- Length and next hop of the entry the cascade stops at, from what the four
stages hold for an address: class 0, class 1, the DLA cell, the default
route. -/
def level_of (o2 o1 : Option Nat) (d : Nat) (df : Option Nat) : Option (Nat × Nat) :=
  match o2 with
  | some nh => some (32, nh)
  | none =>
    match o1 with
    | some nh => some (24, nh)
    | none => if d ≠ 0 then some (20, d) else df.map (fun nh => (0, nh))

/-- The level after an entry of length `n` with next hop `v` is put under an
address: it wins unless a longer entry is already there. -/
def insert_level (n v : Nat) : Option (Nat × Nat) → Option (Nat × Nat)
  | none => some (n, v)
  | some (m, w) => if m ≤ n then some (n, v) else some (m, w)

/-- Length and next hop of a prefix. -/
def len_hop (p : ipv4_prefix) : Nat × Nat := (p.netmask, p.next_hop)

/-- The Bloom-free lookup cascade over what the two hash tables hold
(`g2`, `g1`), the DLA and the default route; `none` is a miss. -/
def cascade (g2 g1 : Nat → Option Nat) (fw_tbl : forwarding_table) (a : Nat) : Option Nat :=
  match g2 a with
  | some nh => some nh
  | none =>
    match g1 (a &&& 0xffffff00) with
    | some nh => some nh
    | none =>
      if fw_tbl.dla (a >>> 12) ≠ 0 then some (fw_tbl.dla (a >>> 12))
      else
        match fw_tbl.default_route with
        | some d => some d.next_hop
        | none => none

/-- What a lookup returns for a cascade outcome: the hit with its next hop,
or a miss, which leaves the zero read from the DLA in the out-parameter. -/
def as_result : Option Nat → Bool × Nat
  | some nh => (true, nh)
  | none => (false, 0)

/-- The shape `store_prefix` has in both IPv4 variants: `H` hashes for the
hash table and `idxs key num_hashes` is the array `hashes` fills. -/
def gen_store (H : Nat → Nat) (idxs : Nat → Nat → Nat → Nat) (fw_tbl : forwarding_table)
    (pfx : Option ipv4_prefix) : Except fault (Bool × forwarding_table) :=
  match pfx with
  | none => .error fault.invalid_prefix
  | some p =>
    if !is_prefix_valid (some p) then .error fault.invalid_prefix
    else if p.netmask = 0 then .ok (set_default_route fw_tbl p.next_hop)
    else if p.netmask = 20 then
      let index := p.key >>> (32 - p.netmask)
      let created := decide (fw_tbl.dla index = 0)
      .ok (created, { fw_tbl with dla := Function.update fw_tbl.dla index p.next_hop })
    else do
      let id := bloom_filter_id p
      let bf ← deref (fw_tbl.counting_bloom_filters id)
      let hash_tbl ← deref (fw_tbl.hash_tables id)
      let (created, hash_tbl) := store_next_hop H hash_tbl p.key p.next_hop
      let bitmap_idxs := idxs p.key bf.num_hashes
      let bf := cbf_mark bf bitmap_idxs
      .ok (created, { fw_tbl with
        counting_bloom_filters := Function.update fw_tbl.counting_bloom_filters id (some bf)
        hash_tables := Function.update fw_tbl.hash_tables id (some hash_tbl) })

/-- The build phase over `gen_store`. -/
def gen_store_all (H : Nat → Nat) (idxs : Nat → Nat → Nat → Nat) (fw_tbl : forwarding_table) :
    List (Option ipv4_prefix) → Except fault forwarding_table
  | [] => .ok fw_tbl
  | pfx :: rest =>
    match gen_store H idxs fw_tbl pfx with
    | .ok r => gen_store_all H idxs r.2 rest
    | .error e => .error e

/-- The shape one class query has in both IPv4 lookups: `P bf k` is the
outcome of the Bloom probe for key `k`. -/
def gen_query (H : Nat → Nat) (P : counting_bloom_filter → Nat → Bool)
    (fw_tbl : forwarding_table) (id pfx_key next_hop : Nat) : Except fault (Bool × Nat) := do
  let bf ← deref (fw_tbl.counting_bloom_filters id)
  if P bf pfx_key then
    let ht ← deref (fw_tbl.hash_tables id)
    pure (find_next_hop H ht pfx_key next_hop)
  else pure (false, next_hop)

/-- The shape `lookup_address` has in both IPv4 variants. -/
def gen_lookup (H : Nat → Nat) (P : counting_bloom_filter → Nat → Bool)
    (fw_tbl : forwarding_table) (addr next_hop : Nat) : Except fault (Bool × Nat) := do
  let r ← gen_query H P fw_tbl 0 addr next_hop
  let r ← if !r.1 then gen_query H P fw_tbl 1 (addr &&& 0xffffff00) r.2 else pure r
  pure (lookup_tail fw_tbl addr r)

/-- The probe `P` answers yes exactly when every cell `idxs` derives for the
key is set, for filters with at least one hash. -/
def probe_sound (idxs : Nat → Nat → Nat → Nat) (P : counting_bloom_filter → Nat → Bool) :
    Prop :=
  ∀ (bf : counting_bloom_filter) (k : Nat), 0 < bf.num_hashes →
    (P bf k = true ↔
      ∀ i, i < bf.num_hashes → bf.bitmap (idxs k bf.num_hashes i % bf.bitmap_len) = true)

/-- Every key a class's hash table holds passes the class's Bloom probe. -/
def bloom_ok (H : Nat → Nat) (P : counting_bloom_filter → Nat → Bool)
    (t : forwarding_table) : Prop :=
  ∀ id bf ht, t.counting_bloom_filters id = some bf → t.hash_tables id = some ht →
    ∀ k, (ht_get H ht k).isSome = true → P bf k = true

/-- A hit at a stage the cascade tries before the stage of a prefix of
length `n`: class 0 holds `a`, class 1 holds `a & 0xffffff00`, or the DLA cell
of `a` is non-zero, each only when the stage is for longer prefixes than `n`. -/
def longer_hit (H : Nat → Nat) (t : forwarding_table) (n a nh : Nat) : Prop :=
  (n < 32 ∧ ∃ ht, t.hash_tables 0 = some ht ∧ ht_get H ht a = some nh)
  ∨ (n < 24 ∧ ∃ ht, t.hash_tables 1 = some ht ∧ ht_get H ht (a &&& 0xffffff00) = some nh)
  ∨ (n < 20 ∧ t.dla (a >>> 12) = nh ∧ nh ≠ 0)

/-- The entry that answers for address `a` at the stage of a prefix of length
`n` is in place: the class's table holds the key and its filter accepts it
(lengths 32 and 24), the DLA cell is non-zero (length 20), the default route is
set (length 0). -/
def stage_holds (H : Nat → Nat) (P : counting_bloom_filter → Nat → Bool)
    (t : forwarding_table) (n a : Nat) : Prop :=
  (n = 32 ∧ ∃ bf ht, t.counting_bloom_filters 0 = some bf ∧ t.hash_tables 0 = some ht
      ∧ P bf a = true ∧ (ht_get H ht a).isSome = true)
  ∨ (n = 24 ∧ ∃ bf ht, t.counting_bloom_filters 1 = some bf ∧ t.hash_tables 1 = some ht
      ∧ P bf (a &&& 0xffffff00) = true ∧ (ht_get H ht (a &&& 0xffffff00)).isSome = true)
  ∨ (n = 20 ∧ t.dla (a >>> 12) ≠ 0)
  ∨ (n = 0 ∧ t.default_route.isSome = true)

/-- A hit with the value found, or a miss that leaves the out-parameter as it
was. -/
def opt_res (o : Option Nat) (n : Nat) : Bool × Nat :=
  match o with
  | some v => (true, v)
  | none => (false, n)

/-- What the hash-table probe of the v4-coop lookups finds for key `k` when
it is handed the hash `h1`: with `SAME_HASH_FUNCTIONS` the chain of bucket
`h1 mod range` is scanned for `h1` and `k`, otherwise the key's own hash is
used. -/
def V4coop.find_val (cfg : V4coop.config) (ht : hash_table Nat) (h1 k : Nat) : Option Nat :=
  if V4coop.SAME_HASH_FUNCTIONS cfg then
    (chain_find h1 k (ht.slots (h1 % ht.range))).map (fun e => e.next_hop)
  else ht_get (V4coop.HASHTBL_HASH_FUNCTION cfg) ht k

/-- What lane `i` of the first lane loop of `lookup_address_intrin` leaves in
`(found[i], next_hops[i])`, from what the lane held. -/
def V4coop.g2_lane_val (cfg : V4coop.config) (bf : counting_bloom_filter)
    (ht : hash_table Nat) (g2_addrs g2_h1 g2_h2 : Nat → Nat) (i : Nat) (x : Bool × Nat) :
    Bool × Nat :=
  if probe bf (g2_h1 i) (g2_h2 i) = true
  then opt_res (V4coop.find_val cfg ht (g2_h1 i) (g2_addrs i)) x.2 else x

/-- What lane `i` of the second lane loop of `lookup_address_intrin` leaves in
`(found[i], next_hops[i])`, from what the lane held. -/
def V4coop.g1_lane_val (cfg : V4coop.config) (t : forwarding_table)
    (bf : counting_bloom_filter) (ht : hash_table Nat)
    (g2_addrs g1_addrs g1_h1 g1_h2 : Nat → Nat) (i : Nat) (x : Bool × Nat) : Bool × Nat :=
  if x.1 = true then x
  else lookup_tail t (g2_addrs i)
    (if probe bf (g1_h1 i) (g1_h2 i) = true
     then opt_res (V4coop.find_val cfg ht (g1_h1 i) (g1_addrs i)) x.2 else x)

/-- A distribution file that sizes both IPv4 classes, with positive
quantities, and sizing formulas that give a positive bitmap length and hash
count for a positive capacity. -/
def well_sized (sizing : Nat → Nat × Nat) (pfx_distribution : List (Nat × Nat)) : Prop :=
  (∃ q, (32, q) ∈ pfx_distribution) ∧ (∃ q, (24, q) ∈ pfx_distribution)
    ∧ (∀ r ∈ pfx_distribution, 0 < r.2)
    ∧ ∀ q, 0 < q → 0 < (sizing q).1 ∧ 0 < (sizing q).2

/-- Both classes of an IPv4 table are allocated, with at least one hash per
filter. -/
def allocated (t : forwarding_table) : Prop :=
  ∃ bf0 bf1 ht0 ht1, t.counting_bloom_filters 0 = some bf0
    ∧ t.counting_bloom_filters 1 = some bf1
    ∧ t.hash_tables 0 = some ht0 ∧ t.hash_tables 1 = some ht1
    ∧ 0 < bf0.num_hashes ∧ 0 < bf1.num_hashes

namespace V6

/-- An IPv6 prefix covers the upper 64 bits `a` of an address when their
leading `len` bits agree. -/
def covers (p : ipv6_prefix) (a : Nat) : Prop :=
  a >>> (64 - p.len) = p.key >>> (64 - p.len)

instance (p : ipv6_prefix) (a : Nat) : Decidable (covers p a) := by
  unfold covers; infer_instance

/-- An IPv6 prefix record of the data model: 64-bit key with the low
`64 - len` bits cleared. -/
def canonical (p : ipv6_prefix) : Prop :=
  p.key < U64 ∧ p.key % 2 ^ (64 - p.len) = 0

instance (p : ipv6_prefix) : Decidable (canonical p) := by
  unfold canonical; infer_instance

/-- One step of longest-prefix match for the upper half `a` of an address: a
stored prefix that covers `a` replaces the best one so far unless that one is
longer. -/
def lpm_step (a : Nat) (best : Option ipv6_prefix) (p : ipv6_prefix) : Option ipv6_prefix :=
  if covers p a then
    match best with
    | none => some p
    | some b => if b.len ≤ p.len then some p else some b
  else best

/-- Longest-prefix match over the stored prefixes, in store order: the
longest prefix covering `a`, and among equally long ones the one stored last.
A prefix of length 0, the default route, covers every address. -/
def lpm (ps : List ipv6_prefix) (a : Nat) : Option ipv6_prefix :=
  ps.foldl (lpm_step a) none

/-- A hit with the value found, or a miss that leaves the out-parameter as it
was. -/
def opt_res (o : Option uint128) (n : uint128) : Bool × uint128 :=
  match o with
  | some v => (true, v)
  | none => (false, n)

/-- What class `i` holds for key `k`: the entry of its hash table, when the
class has its flag, its filter and its table. -/
def class_get (t : forwarding_table) (i k : Nat) : Option uint128 :=
  if t.has_prefix_length i then
    match t.counting_bloom_filters i, t.hash_tables i with
    | some _, some ht => ht_get murmurhash3_64_32 ht k
    | _, _ => none
  else none

/-- Length and next hop of the entry that answers for `a`: the first class,
from length 64 down, that holds the key of `a` at its length, else the
default route. -/
def level (t : forwarding_table) (a : Nat) : Option (Nat × uint128) :=
  match (List.range 64).findSome?
      (fun j => (class_get t j (prefix_key a (64 - j))).map (fun v => (64 - j, v))) with
  | some x => some x
  | none => t.default_route.map (fun d => (0, d.next_hop))

/-- The level after an entry of length `n` with next hop `v` is put under an
address: it wins unless a longer entry is already there. -/
def insert_level (n : Nat) (v : uint128) : Option (Nat × uint128) → Option (Nat × uint128)
  | none => some (n, v)
  | some (m, w) => if m ≤ n then some (n, v) else some (m, w)

/-- Length and next hop of a prefix. -/
def len_hop (p : ipv6_prefix) : Nat × uint128 := (p.len, p.next_hop)

/-- The classes of a table are consistent: a class has its flag exactly when
it has a filter, and then a hash table, at least one hash, and a filter that
accepts every key of the table. -/
def wf (t : forwarding_table) : Prop :=
  ∀ i, (t.has_prefix_length i = true ↔ (t.counting_bloom_filters i).isSome = true)
    ∧ ((t.counting_bloom_filters i).isSome = true ↔ (t.hash_tables i).isSome = true)
    ∧ ∀ bf ht, t.counting_bloom_filters i = some bf → t.hash_tables i = some ht →
        0 < bf.num_hashes
        ∧ ∀ k, (ht_get murmurhash3_64_32 ht k).isSome = true →
            probe bf (murmurhash3_64_32 k) (murmurhash3_32 (murmurhash3_64_32 k)) = true

end V6

/-- What a call that may fault returned, or `d` when it did not return. -/
def result_or {α : Type} (d : α) : Except fault α → α
  | .ok r => r
  | .error _ => d

/-- The two output arrays after the result of a lookup is stored in lane
`i`, or the fault of the lookup. -/
def store_lane {ν : Type} (st : (Nat → ν) × (Nat → Bool)) (i : Nat) :
    Except fault (Bool × ν) → Except fault ((Nat → ν) × (Nat → Bool))
  | .ok r => .ok (Function.update st.1 i r.2, Function.update st.2 i r.1)
  | .error e => .error e

/-- Every entry of a hash table carries the hash of its key and sits in the
bucket of that hash. -/
def ht_placed {ν : Type} (H : Nat → Nat) (tbl : hash_table ν) : Prop :=
  ∀ i e, e ∈ tbl.slots i → e.hash = H e.key ∧ i = e.hash % tbl.range

/-- Number of entries in the chains of the buckets `0 .. range - 1`. -/
def num_entries {ν : Type} (tbl : hash_table ν) : Nat :=
  ((List.range tbl.range).map (fun i => (tbl.slots i).length)).sum

/-- The table after a sequence of `store_next_hop` calls on the table
`new_hash_table` returns. -/
def ht_after {ν : Type} (H : Nat → Nat) (capacity : Nat) (ops : List (Nat × ν)) :
    hash_table ν :=
  ops.foldl (fun tbl kv => (store_next_hop H tbl kv.1 kv.2).2) (new_hash_table capacity)

/-- The next hop of the last length-0 record of a build sequence, or `acc`
when it has none. -/
def last_default_from (acc : Option Nat) : List (Option ipv4_prefix) → Option Nat
  | [] => acc
  | some p :: rest =>
    last_default_from (if p.netmask = 0 then some p.next_hop else acc) rest
  | none :: rest => last_default_from acc rest

/-- The next hop of the last length-0 record of a build sequence, if it has
one. -/
def last_default (ps : List (Option ipv4_prefix)) : Option Nat :=
  last_default_from none ps

/-- The 32-bit mask that keeps the top `l` bits. -/
def top_mask (l : Nat) : Nat := (0xffffffff <<< (32 - l)) % U32

namespace Cpe

/-- The path of an `n`-bit key: its bits, the most significant first. -/
def bits (v : Nat) : Nat → List Bool
  | 0 => []
  | n + 1 => v.testBit n :: bits v n

/-- The next hop the node at `path` carries: `none` where the trie has no
node there or the node has no next hop. -/
def nhop_at (t : btrie_node) (path : List Bool) : Option Nat :=
  match node_at t path with
  | .node true nhop _ _ => some nhop
  | _ => none

/-- A child pointer after the test `if (child == NULL) child = btrie_node()`. -/
def or_new (t : btrie_node) : btrie_node :=
  if is_null t then btrie_node_new else t

/-- The trie after an insertion of next hop `nh` at the end of `path`. -/
def ins (nh : Nat) (allow_update : Bool) : List Bool → btrie_node → btrie_node
  | _, .null => .null
  | [], .node h x l r => if !h || allow_update then .node true nh l r else .node h x l r
  | c :: q, .node h x l r =>
    if c then .node h x l (ins nh allow_update q (or_new r))
    else .node h x (ins nh allow_update q (or_new l)) r

end Cpe

namespace Cpe

/-- The trie with the subtrie at `path` replaced by `t1` (unchanged where the
path leaves the trie). -/
def subst_at : btrie_node → List Bool → btrie_node → btrie_node
  | _, [], t1 => t1
  | .null, _ :: _, _ => .null
  | .node h x l r, c :: path, t1 =>
    if c then .node h x l (subst_at r path t1) else .node h x (subst_at l path t1) r

/-- The subtrie after the next hop `nh` is inserted without update at every
path of length `k`. -/
def fill (nh : Nat) : Nat → btrie_node → btrie_node
  | _, .null => .null
  | 0, .node h x l r => if h then .node h x l r else .node true nh l r
  | k + 1, .node h x l r => .node h x (fill nh k (or_new l)) (fill nh k (or_new r))

/-- The subtrie after the expansion to relative depth `n`: the subtries are
expanded first, then the next hop of the node is pushed down to depth `n`
and removed from the node. -/
def cpe_spec : Nat → btrie_node → btrie_node
  | 0, t => t
  | _ + 1, .null => .null
  | n + 1, .node h x l r =>
    if h then clear_has_nhop (fill x (n + 1) (.node h x (cpe_spec n l) (cpe_spec n r))) []
    else .node h x (cpe_spec n l) (cpe_spec n r)

/-- The next hop of the longest prefix of `path` that carries one in `t`. -/
def lpm_at : btrie_node → List Bool → Option Nat
  | .null, _ => none
  | .node h x _ _, [] => if h then some x else none
  | .node h x l r, c :: path =>
    match lpm_at (if c then r else l) path with
    | some v => some v
    | none => if h then some x else none

/-- Every next hop of the subtrie above relative depth `n` sits at most 30
levels above it: the expansion loops it needs stay within an `int`. -/
def expandable : Nat → btrie_node → Prop
  | 0, _ => True
  | _ + 1, .null => True
  | n + 1, .node h _ l r => (h = true → n + 1 ≤ 30) ∧ expandable n l ∧ expandable n r

end Cpe

namespace Cpe

/-- One insertion of a build: the prefix with its `allow_update`. -/
def build_step (t : btrie_node) (p : prefix_rec × Bool) : Except fault btrie_node :=
  (btrie_insert t p.1 p.2).map Prod.snd

/-- A trie built by `btrie_insert`: the prefixes are inserted in order, each
with its `allow_update`, into a fresh root. -/
def build (ps : List (prefix_rec × Bool)) : Except fault btrie_node :=
  ps.foldlM build_step btrie_node_new

end Cpe

namespace Cpe

/-- The entry of the data model a record of the prefix file stands for. -/
def entry (r : line) : ipv4_prefix :=
  { key := new_ipv4_addr r.a r.b r.c r.d
    netmask := r.mask
    next_hop := new_ipv4_addr r.a1 r.b1 r.c1 r.d1 }

/-- Depth and next hop of the longest prefix of `path` that carries a next
hop in `t`. -/
def lpm_len_at : btrie_node → List Bool → Option (Nat × Nat)
  | .null, _ => none
  | .node h x _ _, [] => if h then some (0, x) else none
  | .node h x l r, c :: path =>
    match lpm_len_at (if c then r else l) path with
    | some (d, v) => some (d + 1, v)
    | none => if h then some (0, x) else none

/-- The trie after `btrie_create` has read one more record. -/
def create_ins (start stop : Nat) (t : btrie_node) (r : line) : btrie_node :=
  if start ≤ r.mask ∧ r.mask ≤ stop then
    ins (prefix_of_line r).nhop true (bits (prefix_of_line r).pfx r.mask) t
  else t

/-- The first of three optional values. -/
def first3 {α : Type} (o2 o1 o0 : Option α) : Option α :=
  match o2 with
  | some v => some v
  | none =>
    match o1 with
    | some v => some v
    | none => o0

end Cpe

namespace Cpe

/-- Every next hop of the trie sits at a depth in `[lo, hi]`. -/
def depth_in (lo hi : Nat) (t : btrie_node) : Prop :=
  ∀ q, nhop_at t q ≠ none → lo ≤ q.length ∧ q.length ≤ hi

end Cpe

namespace Cpe

/-- The address `btrie_print` writes for the node at the end of a path of
length `T` with value `x`. -/
def print_addr (T x : Nat) : Nat :=
  if T < 32 then (x <<< (32 - T)) % U32 else x

end Cpe

namespace Cpe

/-- Every next hop of the trie is a non-zero 32-bit value. -/
def hops_ok (t : btrie_node) : Prop :=
  ∀ q v, nhop_at t q = some v → v ≠ 0 ∧ v < U32

/-- The entry the record of DLA slot `i` stands for. -/
def dla_entry (dla : Nat → Nat) (i : Nat) : ipv4_prefix :=
  { key := i <<< 12, netmask := 20, next_hop := dla i }

end Cpe

/-- One round `x = ((x >> 16) ^ x) * 0x45d9f3b` in 32-bit arithmetic. -/
def h2_round (x : Nat) : Nat :=
  (((x >>> 16) ^^^ x) * 0x45d9f3b) % U32

/-- The shape of an H2 integer hash: `n` rounds followed by a final
`x = (x >> 16) ^ x`. -/
def h2_shape (n : Nat) (x : Nat) : Nat :=
  ((Nat.iterate h2_round n x) >>> 16) ^^^ (Nat.iterate h2_round n x)

/-- Rotation of a 32-bit word to the left by `r` bits. -/
def rotl32 (x r : Nat) : Nat :=
  ((x <<< r) % U32) ||| (x >>> (32 - r))

/-- The key scramble of MurmurHash3: multiply by `c1`, rotate left by 15,
multiply by `c2`. -/
def mm3_scramble (k : Nat) : Nat :=
  (rotl32 ((k * 0xcc9e2d51) % U32) 15 * 0x1b873593) % U32

/-- The body stage of MurmurHash3 for one 32-bit block `k` on the hash `h`:
XOR with the scrambled block, rotate left by 13, multiply by 5 and add
`0xe6546b64`. -/
def mm3_body (h k : Nat) : Nat :=
  (rotl32 (h ^^^ mm3_scramble k) 13 * 5 + 0xe6546b64) % U32

/-- The finalization mix of MurmurHash3. -/
def fmix32 (h : Nat) : Nat :=
  let h := h ^^^ (h >>> 16)
  let h := (h * 0x85ebca6b) % U32
  let h := h ^^^ (h >>> 13)
  let h := (h * 0xc2b2ae35) % U32
  h ^^^ (h >>> 16)

/-- The sequence stated for the 32-bit MurmurHash3 variant: multiply by
`0xcc9e2d51`, rotate left 15, multiply by `0x1b873593`, XOR with the seed 0,
rotate left 13, multiply by 5 and add `0xe6546b64`, XOR with the key length 4,
then the finalization mix, all in 32-bit arithmetic. -/
def murmur3_sequence_32 (key : Nat) : Nat :=
  let x := (key * 0xcc9e2d51) % U32
  let x := rotl32 x 15
  let x := (x * 0x1b873593) % U32
  let x := x ^^^ 0
  let x := rotl32 x 13
  let x := (x * 5 + 0xe6546b64) % U32
  let x := x ^^^ 4
  fmix32 x

/-- Four bytes read as a little-endian 32-bit block. -/
def le32 (b0 b1 b2 b3 : Nat) : Nat :=
  b0 ||| (b1 <<< 8) ||| (b2 <<< 16) ||| (b3 <<< 24)

/-- The first `n` bytes of a key in little-endian order. -/
def le_bytes (n key : Nat) : List Nat :=
  (List.range n).map (fun i => (key >>> (8 * i)) % 256)

/-- The tail of the reference MurmurHash3_x86_32: the last one to three
bytes, scrambled into the hash. -/
def mm3_tail (h : Nat) : List Nat → Nat
  | [b0, b1, b2] => h ^^^ mm3_scramble (b0 ||| (b1 <<< 8) ||| (b2 <<< 16))
  | [b0, b1] => h ^^^ mm3_scramble (b0 ||| (b1 <<< 8))
  | [b0] => h ^^^ mm3_scramble b0
  | _ => h

/-- The body and tail of the reference MurmurHash3_x86_32 over a byte string
of `nblocks` four-byte blocks: the body stage for every block, then the
tail. -/
def mm3_blocks : Nat → List Nat → Nat → Nat
  | 0, data, h => mm3_tail h data
  | nblocks + 1, data, h =>
    match data with
    | b0 :: b1 :: b2 :: b3 :: rest => mm3_blocks nblocks rest (mm3_body h (le32 b0 b1 b2 b3))
    | _ => mm3_tail h data

/-- The reference MurmurHash3_x86_32 of a byte string with a seed: body and
tail, XOR with the length, finalization mix. -/
def MurmurHash3_x86_32 (data : List Nat) (seed : Nat) : Nat :=
  fmix32 (mm3_blocks (data.length / 4) data seed ^^^ data.length)

/-- How many of the `num_hashes` derived indices of one insertion select the
cell `x` of the filter. -/
def cell_hits (bf : counting_bloom_filter) (bitmap_idxs : Nat → Nat) (x : Nat) : Nat :=
  ((List.range bf.num_hashes).filter
    (fun i => decide (bitmap_idxs i % bf.bitmap_len = x))).length

/-- The state-explicit reading of a result of `store_prefix` from the table
`t`: a call that returns leaves the table of the result and has written
nothing; a call that does not return leaves `t`, and has written the
diagnostic `d` when the fault is the invalid-prefix one. -/
def run_of {τ : Type} (res : Except fault (Bool × τ)) (t : τ) (d : String) :
    Except fault Bool × τ × List String :=
  match res with
  | .ok r => (.ok r.1, r.2, [])
  | .error e => (.error e, t, if e = fault.invalid_prefix then [d] else [])

/-- The number of cells of a filter whose counter exceeds 1. -/
def overloaded_cells (bf : counting_bloom_filter) : Nat :=
  ((List.range bf.bitmap_len).filter (fun j => decide (bf.counters j > 1))).length

/-- The count of overloaded cells over both Bloom filters of an IPv4 table: the
cells `j` whose `counters[j]` exceeds 1, an absent filter counting for none. -/
def count_overloaded (fw_tbl : forwarding_table) : Nat :=
  ((List.range 2).map
    (fun i =>
      match fw_tbl.counting_bloom_filters i with
      | none => 0
      | some bf => overloaded_cells bf)).sum

/-- The keys a build stores into class `id`, in store order: the keys of the
records of a length other than 0 and 20 whose class is `id`. -/
def class_keys (id : Nat) (ps : List (Option ipv4_prefix)) : List Nat :=
  ps.filterMap (fun o =>
    match o with
    | some p =>
      if p.netmask ≠ 0 ∧ p.netmask ≠ 20 ∧ bloom_filter_id p = id then some p.key else none
    | none => none)

/-- How many times the insertions of the keys `ks` select the cell `x` of a
filter with the sizes of `bf`: each insertion counts once for every derived
index that selects the cell. -/
def total_hits (idxs : Nat → Nat → Nat → Nat) (bf : counting_bloom_filter) (ks : List Nat)
    (x : Nat) : Nat :=
  (ks.map (fun k => cell_hits bf (idxs k bf.num_hashes) x)).sum

/-- The bit at position `index` of a 128-bit prefix, counted from the most
significant bit of `hi` (position 0) to the least significant bit of `lo`
(position 127). -/
def Cpe6.bit128 (pfx : V6.uint128) (index : Nat) : Nat :=
  ((pfx.hi * 2 ^ 64 + pfx.lo) >>> (127 - index)) &&& 1

/-- The place of the table `store_prefix` writes for a prefix: the default
route for length 0, the DLA cell `key >> 12` for length 20, the hash table of
class 0 under the key for length 32, and the hash table of class 1 under the
key for every other length. -/
def slot_of (p : ipv4_prefix) : Nat × Nat :=
  if p.netmask = 0 then (0, 0)
  else if p.netmask = 20 then (1, p.key >>> (32 - p.netmask))
  else (2 + bloom_filter_id p, p.key)

/-- What the table holds at a slot: the next hop of the default route, the DLA
cell, or the next hop a class's hash table holds for the key. -/
def val_at (H : Nat → Nat) (t : forwarding_table) (s : Nat × Nat) : Option Nat :=
  if s = (0, 0) then t.default_route.map (fun d => d.next_hop)
  else if s.1 = 1 then some (t.dla s.2)
  else if s.1 = 2 then (t.hash_tables 0).bind (fun ht => ht_get H ht s.2)
  else if s.1 = 3 then (t.hash_tables 1).bind (fun ht => ht_get H ht s.2)
  else none

/-- A slot table with the slot of `p` overwritten by its next hop. -/
def slot_write (v : Nat × Nat → Option Nat) (p : ipv4_prefix) : Nat × Nat → Option Nat :=
  fun s => if s = slot_of p then some p.next_hop else v s

/-! ## Concrete inputs

A small build used where a statement is instantiated at a concrete input:
filters of ten cells per element with seven hashes, classes sized for four
prefixes each, MurmurHash3 for both hashes, and four stored prefixes. -/

/-- Sizing: `bitmap_len = 10 * capacity`, `num_hashes = 7`. -/
def demo_sizing : Nat → Nat × Nat := fun q => (10 * q, 7)

/-- Distribution file `32 4`, `24 4`. -/
def demo_dist : List (Nat × Nat) := [(32, 4), (24, 4)]

/-- MurmurHash3 for the filters and for the tables. -/
def demo_cfg : V4coop.config := { bloom := .murmur, hashtbl := .murmur }

/-- The prefixes `192.168.1.0/32 -> 7`, `192.168.1.0/24 -> 9`,
`10.0.0.0/20 -> 11` and `0.0.0.0/0 -> 13`. -/
def demo_prefixes : List ipv4_prefix :=
  [ { next_hop := 7, key := 0xC0A80100, netmask := 32 },
    { next_hop := 9, key := 0xC0A80100, netmask := 24 },
    { next_hop := 11, key := 0x0A000000, netmask := 20 },
    { next_hop := 13, key := 0, netmask := 0 } ]

/-- The v4-coop table built from `demo_prefixes`. -/
def demo_table : forwarding_table :=
  match V4coop.store_prefixes demo_cfg (new_forwarding_table demo_sizing demo_dist)
      (demo_prefixes.map some) with
  | .ok t => t
  | .error _ => new_forwarding_table demo_sizing demo_dist

/-- The prefix `10.1.0.0/16 -> 1`, of a length the IPv4 table has no class
for. -/
def demo_slash16 : ipv4_prefix := { next_hop := 1, key := 0x0A010000, netmask := 16 }

/-- The filter of class `id` of `demo_table`. -/
def demo_bf (id : Nat) : counting_bloom_filter :=
  (demo_table.counting_bloom_filters id).getD (new_counting_bloom_filter 0 0 0)

/-- The hash table of class `id` of `demo_table`. -/
def demo_ht (id : Nat) : hash_table Nat :=
  (demo_table.hash_tables id).getD (new_hash_table 0)

/-- A block of addresses: `192.168.1.0` to `192.168.1.15` in lanes 0 to 15. -/
def demo_addrs : Nat → Nat := fun i => 0xC0A80100 + i

/-- A stand-in for `rand_r` in concrete baseline runs. -/
def demo_rand_r : Nat → Nat := fun seed => (seed * 1103515245 + 12345) % 2147483648

/-- The baseline table built from `demo_prefixes`. -/
def demo_table_baseline : forwarding_table :=
  match Baseline.store_prefixes demo_rand_r (new_forwarding_table demo_sizing demo_dist)
      (demo_prefixes.map some) with
  | .ok t => t
  | .error _ => new_forwarding_table demo_sizing demo_dist

/-- Eight concrete 64-bit keys. -/
def demo_keys : Nat → Nat := fun i => 0x20010db800000000 + 0x0123456789abcdef * i

/-- Distribution file `64 4`, `48 4`, `32 4`. -/
def demo_dist6 : List (Nat × Nat) := [(64, 4), (48, 4), (32, 4)]

/-- An IPv6 table without classes. -/
def demo_empty6 : V6.forwarding_table :=
  { default_route := none
    counting_bloom_filters := fun _ => none
    hash_tables := fun _ => none
    has_prefix_length := fun _ => false
    distinct_lengths := 0
    bf_ids := fun _ => 0 }

/-- The IPv6 table `new_forwarding_table` returns for `demo_dist6`, from a
zeroed block. -/
def demo_new6 : V6.forwarding_table :=
  match V6.new_forwarding_table demo_sizing demo_dist6 0 (fun _ => 0) with
  | .ok t => t
  | .error _ => demo_empty6

/-- The prefixes `2001:db8::/32`, `2001:db8:1::/48`, `2001:db8:1:2::/64` and
`::/0`, with next hops `fe80::1` to `fe80::4`. -/
def demo_prefixes6 : List V6.ipv6_prefix :=
  [ { next_hop := { hi := 0xfe80000000000000, lo := 1 }, key := 0x20010db800000000, len := 32 },
    { next_hop := { hi := 0xfe80000000000000, lo := 2 }, key := 0x20010db800010000, len := 48 },
    { next_hop := { hi := 0xfe80000000000000, lo := 3 }, key := 0x20010db800010002, len := 64 },
    { next_hop := { hi := 0xfe80000000000000, lo := 4 }, key := 0, len := 0 } ]

/-- The IPv6 table built from `demo_prefixes6`. -/
def demo_table6 : V6.forwarding_table :=
  match V6.store_prefixes demo_new6 (demo_prefixes6.map some) with
  | .ok t => t
  | .error _ => demo_empty6

/-- The address `2001:db8:1:3::1`. -/
def demo_addr6 : V6.uint128 := { hi := 0x20010db800010003, lo := 1 }

/-- A batch of sixteen IPv6 addresses: `2001:db8:1:0::` to `2001:db8:1:f::f`. -/
def demo_addrs6 : Nat → V6.uint128 := fun i => { hi := 0x20010db800010000 + i, lo := i }

/-- A hash table with four buckets after storing `1 -> 7`, `5 -> 9` and
`1 -> 8`. -/
def demo_small_ht : hash_table Nat := ht_after murmurhash3_32 4 [(1, 7), (5, 9), (1, 8)]

/-- The prefix `192.168.1.0/24 -> 9`. -/
def demo_slash24 : ipv4_prefix := { next_hop := 9, key := 0xC0A80100, netmask := 24 }

/-- The fresh v4-coop table of the demo sizes after one store of
`demo_slash24`. -/
def demo_once : forwarding_table :=
  match V4coop.store_prefix demo_cfg (new_forwarding_table demo_sizing demo_dist)
      (some demo_slash24) with
  | .ok r => r.2
  | .error _ => new_forwarding_table demo_sizing demo_dist

/-- The table `demo_once` after a second store of `demo_slash24`. -/
def demo_twice : forwarding_table :=
  match V4coop.store_prefix demo_cfg demo_once (some demo_slash24) with
  | .ok r => r.2
  | .error _ => demo_once

/-- What hash table 1 holds for `192.168.1.0` after a store that returned. -/
def demo_probe (r : Except fault (Bool × forwarding_table)) : Option Nat :=
  match r with
  | .ok x => (x.2.hash_tables 1).bind (fun ht => ht_get murmurhash3_32 ht 0xC0A80100)
  | .error _ => none

/-- A prefix file with `10.0.0.0/8` and `10.1.0.0/16`. -/
def demo_file : List Cpe.line :=
  [ { a := 10, b := 0, c := 0, d := 0, mask := 8, a1 := 192, b1 := 168, c1 := 0, d1 := 1 },
    { a := 10, b := 1, c := 0, d := 0, mask := 16, a1 := 192, b1 := 168, c1 := 0, d1 := 2 } ]

/-- The trie `btrie_create` builds from `demo_file` for the lengths 1 to 20. -/
def demo_trie : Cpe.btrie_node :=
  match Cpe.btrie_create demo_file 1 20 with
  | .ok t => t
  | .error _ => .null

/-- The prefixes `10.0.0.0/8` and `10.1.0.0/16` with next hops 1 and 2. -/
def demo_ps : List (Cpe.prefix_rec × Bool) :=
  [({ pfx := 0x0A, len := 8, nhop := 1 }, true), ({ pfx := 0x0A01, len := 16, nhop := 2 }, true)]

/-- The prefix `10.0.0.0/20` with next hop 5. -/
def demo_slash20 : ipv4_prefix := { next_hop := 5, key := 0x0A000000, netmask := 20 }

/-- The fresh v4-coop table of the demo sizes with every Bloom counter at its
largest value, 255. -/
def demo_full : forwarding_table :=
  let t := new_forwarding_table demo_sizing demo_dist
  { t with
    counting_bloom_filters := fun id =>
      (t.counting_bloom_filters id).map (fun bf => { bf with counters := fun _ => 255 }) }

/-- The table `demo_full` after one store of `demo_slash24`. -/
def demo_full_once : forwarding_table :=
  match V4coop.store_prefix demo_cfg demo_full (some demo_slash24) with
  | .ok r => r.2
  | .error _ => demo_full

/-- Distribution file `32 4`: no record for the class of length 24. -/
def demo_dist_only32 : List (Nat × Nat) := [(32, 4)]

/-- The IPv4 table built for `demo_dist_only32`: class 1 has neither filter nor
hash table. -/
def demo_table_only32 : forwarding_table := new_forwarding_table demo_sizing demo_dist_only32

/-- The IPv6 table `new_forwarding_table` returns for the distribution file
`64 4`, from a zeroed block: only class 0 has a filter and a hash table. -/
def demo_table6_only64 : V6.forwarding_table :=
  match V6.new_forwarding_table demo_sizing [(64, 4)] 0 (fun _ => 0) with
  | .ok t => t
  | .error _ => demo_empty6

/-- The prefix `2001:db8::/32` with next hop `fe80::1`. -/
def demo_slash32_6 : V6.ipv6_prefix :=
  { next_hop := { hi := 0xfe80000000000000, lo := 1 }, key := 0x20010db800000000, len := 32 }

/-- A record whose length, 33, exceeds the width of an IPv4 address. -/
def demo_slash33 : ipv4_prefix := { next_hop := 1, key := 0xC0A80100, netmask := 33 }

/-- A stand-in for `strpfx` in concrete runs. -/
def demo_strpfx : Option ipv4_prefix → String
  | none => "(null)"
  | some p => toString p.key ++ "/" ++ toString p.netmask ++ " -> " ++ toString p.next_hop

/-- The prefix `2001:db8::/65` with next hop `fe80::1`, as `cpe_v6.c` holds
it. -/
def demo_slash65 : Cpe6.ipv6_prefix :=
  { key := { hi := 0x20010db800000000, lo := 0 }
    len := 65
    next_hop := { hi := 0xfe80000000000000, lo := 1 } }

/-- The trie holding the prefix `1/1` with next hop 5. -/
def demo_half : Cpe.btrie_node :=
  .node false 0 .null (.node true 5 .null .null)

/-- The trie `demo_half` expanded at stride 3. -/
def demo_half_cpe : Cpe.btrie_node :=
  match Cpe.btrie_perform_cpe demo_half [] 3 0 0 with
  | .ok t => t
  | .error _ => .null

/-- The trie holding the prefix `1/1` with next hop 7 only. -/
def demo_top : Cpe.btrie_node :=
  .node false 0 .null (.node true 7 .null .null)

/-- The prefixes `10.0.0.0/24 -> 1` and `10.0.0.0/16 -> 2`: the same key at
two lengths. -/
def demo_pair : List ipv4_prefix :=
  [ { next_hop := 1, key := 0x0A000000, netmask := 24 },
    { next_hop := 2, key := 0x0A000000, netmask := 16 } ]

/-- The v4-coop table built from `demo_pair` in the order given. -/
def demo_pair_table : forwarding_table :=
  match V4coop.store_prefixes demo_cfg (new_forwarding_table demo_sizing demo_dist)
      (demo_pair.map some) with
  | .ok t => t
  | .error _ => new_forwarding_table demo_sizing demo_dist

/-- The v4-coop table built from `demo_pair` in the reverse order. -/
def demo_pair_table_rev : forwarding_table :=
  match V4coop.store_prefixes demo_cfg (new_forwarding_table demo_sizing demo_dist)
      (demo_pair.reverse.map some) with
  | .ok t => t
  | .error _ => new_forwarding_table demo_sizing demo_dist

/-- The prefixes `192.168.1.0/32 -> 7`, `10.0.0.0/20 -> 11` and
`0.0.0.0/0 -> 13`: a prefix set without a /24, for which the distribution file
is `32 4`. -/
def demo_no24 : List ipv4_prefix :=
  [ { next_hop := 7, key := 0xC0A80100, netmask := 32 },
    { next_hop := 11, key := 0x0A000000, netmask := 20 },
    { next_hop := 13, key := 0, netmask := 0 } ]

/-- The v4-coop table built from `demo_no24` on the table of the distribution
file `32 4`. -/
def demo_table_no24 : forwarding_table :=
  match V4coop.store_prefixes demo_cfg demo_table_only32 (demo_no24.map some) with
  | .ok t => t
  | .error _ => demo_table_only32

/-- The baseline table built from `demo_no24` on the table of the distribution
file `32 4`. -/
def demo_table_no24_baseline : forwarding_table :=
  match Baseline.store_prefixes demo_rand_r demo_table_only32 (demo_no24.map some) with
  | .ok t => t
  | .error _ => demo_table_only32

/-- The block of 16 copies of the address `192.168.1.0`. -/
def demo_same_addrs : Nat → Nat := fun _ => 0xC0A80100

end Bloomfwd

/-! # Verification -/

namespace Bloomfwd

/-! ## Hash table -/

section
variable {ν : Type}

theorem chain_find_chain_set_ne (h h' k k' : Nat) (v : ν) (hne : k' ≠ k)
    (c : List (hash_table_entry ν)) :
    chain_find h' k' (chain_set h k v c) = chain_find h' k' c := by
  induction c with
  | nil => rfl
  | cons e es ih =>
    unfold chain_set
    by_cases hm : e.hash = h ∧ e.key = k
    · have hk : ¬ (e.hash = h' ∧ e.key = k') := fun hc => hne (hc.2.symm.trans hm.2)
      have hk2 : ¬ (h = h' ∧ k = k') := fun hc => hne hc.2.symm
      simp [hm, chain_find, hk2]
    · simp only [hm, if_false, chain_find, ih]

theorem chain_find_chain_set_same (h k : Nat) (v : ν) (c : List (hash_table_entry ν)) :
    (chain_find h k (chain_set h k v c)).map (fun e => e.next_hop)
      = (chain_find h k c).map (fun _ => v) := by
  induction c with
  | nil => rfl
  | cons e es ih =>
    unfold chain_set
    by_cases hm : e.hash = h ∧ e.key = k
    · simp [hm, chain_find]
    · simp only [hm, if_false, chain_find, ih]

theorem store_next_hop_range (H : Nat → Nat) (tbl : hash_table ν) (k : Nat) (v : ν) :
    (store_next_hop H tbl k v).2.range = tbl.range := by
  unfold store_next_hop
  dsimp only
  split <;> rfl

theorem store_next_hop_slots (H : Nat → Nat) (tbl : hash_table ν) (k : Nat) (v : ν) :
    (store_next_hop H tbl k v).2.slots
      = Function.update tbl.slots (H k % tbl.range)
          (match chain_find (H k) k (tbl.slots (H k % tbl.range)) with
           | none => { hash := H k, key := k, next_hop := v } :: tbl.slots (H k % tbl.range)
           | some _ => chain_set (H k) k v (tbl.slots (H k % tbl.range))) := by
  unfold store_next_hop
  dsimp only
  split <;> rfl

theorem ht_get_store (H : Nat → Nat) (tbl : hash_table ν) (k k' : Nat) (v : ν) :
    ht_get H (store_next_hop H tbl k v).2 k'
      = if k' = k then some v else ht_get H tbl k' := by
  unfold ht_get
  rw [store_next_hop_range, store_next_hop_slots]
  by_cases hk : k' = k
  · subst hk
    rw [Function.update_same, if_pos rfl]
    cases hf : chain_find (H k') k' (tbl.slots (H k' % tbl.range)) with
    | none => simp [chain_find]
    | some e =>
      simp only
      rw [chain_find_chain_set_same, hf]; rfl
  · rw [if_neg hk]
    by_cases hb : H k' % tbl.range = H k % tbl.range
    · rw [hb, Function.update_same]
      cases hf : chain_find (H k) k (tbl.slots (H k % tbl.range)) with
      | none =>
        have : ¬ (H k = H k' ∧ k = k') := fun hc => hk hc.2.symm
        simp [chain_find, this]
      | some e =>
        simp only
        rw [chain_find_chain_set_ne _ _ _ _ _ hk]
    · rw [Function.update_noteq hb]

theorem ht_get_new (H : Nat → Nat) (cap k : Nat) :
    ht_get H (new_hash_table cap : hash_table ν) k = none := rfl

theorem find_next_hop_eq (H : Nat → Nat) (tbl : hash_table ν) (k : Nat) (nh0 : ν) :
    find_next_hop H tbl k nh0
      = match ht_get H tbl k with
        | some v => (true, v)
        | none => (false, nh0) := by
  unfold find_next_hop ht_get
  dsimp only
  cases chain_find (H k) k (tbl.slots (H k % tbl.range)) <;> rfl

theorem find_next_hop_with_hash_eq (H : Nat → Nat) (tbl : hash_table ν) (k : Nat) (nh0 : ν) :
    find_next_hop_with_hash tbl (H k) k nh0
      = match ht_get H tbl k with
        | some v => (true, v)
        | none => (false, nh0) := by
  unfold find_next_hop_with_hash ht_get
  dsimp only
  cases chain_find (H k) k (tbl.slots (H k % tbl.range)) <;> rfl

end

/-! ## Counting Bloom filter -/

theorem cbf_mark_foldl_fields (idxs : Nat → Nat) (l : List Nat) (b : counting_bloom_filter) :
    (l.foldl (cbf_mark_step idxs) b).bitmap_len = b.bitmap_len
    ∧ (l.foldl (cbf_mark_step idxs) b).num_hashes = b.num_hashes
    ∧ (l.foldl (cbf_mark_step idxs) b).capacity = b.capacity := by
  induction l generalizing b with
  | nil => exact ⟨rfl, rfl, rfl⟩
  | cons i l ih =>
    rw [List.foldl_cons]
    obtain ⟨h1, h2, h3⟩ := ih (cbf_mark_step idxs b i)
    exact ⟨h1, h2, h3⟩

theorem cbf_mark_foldl_mono (idxs : Nat → Nat) (l : List Nat) (b : counting_bloom_filter)
    (x : Nat) (hx : b.bitmap x = true) : (l.foldl (cbf_mark_step idxs) b).bitmap x = true := by
  induction l generalizing b with
  | nil => exact hx
  | cons i l ih =>
    rw [List.foldl_cons]
    apply ih
    unfold cbf_mark_step
    dsimp only
    by_cases h : x = idxs i % b.bitmap_len
    · rw [h, Function.update_same]
    · rw [Function.update_noteq h]; exact hx

theorem cbf_mark_foldl_set (idxs : Nat → Nat) (l : List Nat) (b : counting_bloom_filter)
    (i : Nat) (hi : i ∈ l) :
    (l.foldl (cbf_mark_step idxs) b).bitmap (idxs i % b.bitmap_len) = true := by
  induction l generalizing b with
  | nil => cases hi
  | cons j l ih =>
    rw [List.foldl_cons]
    rcases List.mem_cons.mp hi with h | h
    · subst h
      apply cbf_mark_foldl_mono
      unfold cbf_mark_step
      dsimp only
      rw [Function.update_same]
    · have := ih (cbf_mark_step idxs b j) h
      exact this

theorem cbf_mark_bitmap_len (bf : counting_bloom_filter) (idxs : Nat → Nat) :
    (cbf_mark bf idxs).bitmap_len = bf.bitmap_len :=
  (cbf_mark_foldl_fields idxs _ bf).1

theorem cbf_mark_num_hashes (bf : counting_bloom_filter) (idxs : Nat → Nat) :
    (cbf_mark bf idxs).num_hashes = bf.num_hashes :=
  (cbf_mark_foldl_fields idxs _ bf).2.1

theorem cbf_mark_mono (bf : counting_bloom_filter) (idxs : Nat → Nat) (x : Nat)
    (hx : bf.bitmap x = true) : (cbf_mark bf idxs).bitmap x = true :=
  cbf_mark_foldl_mono idxs _ bf x hx

theorem cbf_mark_set (bf : counting_bloom_filter) (idxs : Nat → Nat) (i : Nat)
    (hi : i < bf.num_hashes) : (cbf_mark bf idxs).bitmap (idxs i % bf.bitmap_len) = true :=
  cbf_mark_foldl_set idxs _ bf i (List.mem_range.mpr hi)

theorem hashes_foldl (l : List Nat) (hl : ∀ i ∈ l, 2 ≤ i) (r : Nat → Nat) :
    (l.foldl (fun r i => Function.update r i ((r 0 + i * r 1) % U32)) r) 0 = r 0
    ∧ (l.foldl (fun r i => Function.update r i ((r 0 + i * r 1) % U32)) r) 1 = r 1
    ∧ ∀ i ∈ l, (l.foldl (fun r i => Function.update r i ((r 0 + i * r 1) % U32)) r) i
        = (r 0 + i * r 1) % U32 := by
  induction l generalizing r with
  | nil => exact ⟨rfl, rfl, fun i hi => by cases hi⟩
  | cons j l ih =>
    have hj : 2 ≤ j := hl j (List.mem_cons_self _ _)
    have hl' : ∀ i ∈ l, 2 ≤ i := fun i hi => hl i (List.mem_cons_of_mem _ hi)
    rw [List.foldl_cons]
    have n0 : (0 : Nat) ≠ j := by clear ih; omega
    have n1 : (1 : Nat) ≠ j := by clear ih; omega
    obtain ⟨h0, h1, h2⟩ := ih hl' (Function.update r j ((r 0 + j * r 1) % U32))
    have e0 : Function.update r j ((r 0 + j * r 1) % U32) 0 = r 0 :=
      Function.update_noteq n0 _ _
    have e1 : Function.update r j ((r 0 + j * r 1) % U32) 1 = r 1 :=
      Function.update_noteq n1 _ _
    refine ⟨h0.trans e0, h1.trans e1, ?_⟩
    intro i hi
    by_cases hil : i ∈ l
    · rw [h2 i hil, e0, e1]
    · have hij : i = j := by
        rcases List.mem_cons.mp hi with h | h
        · exact h
        · exact absurd h hil
      subst hij
      -- value written at step i and never overwritten
      have hkeep : ∀ (l : List Nat) (r : Nat → Nat), i ∉ l →
          (l.foldl (fun r k => Function.update r k ((r 0 + k * r 1) % U32)) r) i = r i := by
        intro l
        induction l with
        | nil => intro r _; rfl
        | cons k l ihl =>
          intro r hk
          rw [List.foldl_cons, ihl _ (fun h => hk (List.mem_cons_of_mem _ h))]
          have hne : i ≠ k := fun h => hk (by rw [h]; exact List.mem_cons_self _ _)
          exact Function.update_noteq hne _ _
      rw [hkeep l _ hil, Function.update_same]

theorem hashes_eq (B1 B : Nat → Nat) (key n : Nat) (r : Nat → Nat) (i : Nat) (hi : i < n) :
    hashes B1 B key n r i = dh_index (B1 key) (B (B1 key)) i := by
  unfold hashes dh_index
  dsimp only
  by_cases hn : n > 1
  · rw [if_pos hn]
    have hl : ∀ j ∈ List.range' 2 (n - 2), 2 ≤ j := by
      intro j hj
      rw [List.mem_range'_1] at hj
      exact hj.1
    obtain ⟨h0, h1, h2⟩ := hashes_foldl (List.range' 2 (n - 2)) hl
      (Function.update (Function.update r 0 (B1 key)) 1 (B (Function.update r 0 (B1 key) 0)))
    have e0 : (Function.update (Function.update r 0 (B1 key)) 1
        (B (Function.update r 0 (B1 key) 0))) 0 = B1 key := by
      have n01 : (0 : Nat) ≠ 1 := Nat.zero_ne_one
      rw [Function.update_noteq n01, Function.update_same]
    have e1 : (Function.update (Function.update r 0 (B1 key)) 1
        (B (Function.update r 0 (B1 key) 0))) 1 = B (B1 key) := by
      rw [Function.update_same, Function.update_same]
    by_cases hi0 : i = 0
    · subst hi0; rw [if_pos rfl, h0, e0]
    · rw [if_neg hi0]
      by_cases hi1 : i = 1
      · subst hi1; rw [if_pos rfl, h1, e1]
      · rw [if_neg hi1]
        have : i ∈ List.range' 2 (n - 2) := by
          clear h0 h1 h2 e0 e1
          rw [List.mem_range'_1]; omega
        rw [h2 i this, e0, e1]
  · rw [if_neg hn]
    have hi0 : i = 0 := by omega
    subst hi0
    rw [if_pos rfl, Function.update_same]

theorem probe_loop_iff (bitmap : Nat → Bool) (len n h1 h2 : Nat) (fuel j : Nat) (maybe : Bool) :
    probe_loop bitmap len n h1 h2 fuel j maybe = true
      ↔ maybe = true ∧ ∀ i, j ≤ i → i < n → i < j + fuel →
          bitmap (((h1 + i * h2) % U32) % len) = true := by
  induction fuel generalizing j maybe with
  | zero =>
    unfold probe_loop
    constructor
    · intro h; exact ⟨h, fun i h1 _ h3 => by omega⟩
    · intro h; exact h.1
  | succ fuel ih =>
    unfold probe_loop
    by_cases hm : maybe = true
    · by_cases hj : j < n
      · simp only [hm, hj, decide_True, Bool.and_self, if_true, true_and]
        rw [ih]
        constructor
        · rintro ⟨hb, hr⟩ i hji hin hif
          by_cases hij : i = j
          · subst hij; exact hb
          · exact hr i (by omega) hin (by omega)
        · intro h
          exact ⟨h j (le_refl _) hj (by omega), fun i hji hin hif => h i (by omega) hin (by omega)⟩
      · simp only [hm, hj, decide_False, Bool.and_false, if_false, true_and]
        simp only [Bool.false_eq_true, if_false, true_iff]
        intro i hji hin _
        omega
    · simp only [hm, Bool.false_and, if_false, false_and]
      simp [hm]

theorem probe_iff (bf : counting_bloom_filter) (h1 h2 : Nat) (hn : 0 < bf.num_hashes) :
    probe bf h1 h2 = true
      ↔ ∀ i, i < bf.num_hashes → bf.bitmap (dh_index h1 h2 i % bf.bitmap_len) = true := by
  unfold probe
  dsimp only
  constructor
  · intro h i hi
    by_cases hb0 : bf.bitmap (h1 % bf.bitmap_len) = true
    · rw [if_pos hb0] at h
      by_cases hn1 : bf.num_hashes > 1
      · rw [if_pos hn1, probe_loop_iff] at h
        unfold dh_index
        by_cases hi0 : i = 0
        · rw [if_pos hi0]; exact hb0
        · rw [if_neg hi0]
          by_cases hi1 : i = 1
          · rw [if_pos hi1]; exact h.1
          · rw [if_neg hi1]; exact h.2 i (by omega) hi (by omega)
      · have : i = 0 := by omega
        subst this
        unfold dh_index
        rw [if_pos rfl]; exact hb0
    · rw [if_neg hb0] at h
      exact absurd h hb0
  · intro h
    have hb0 : bf.bitmap (h1 % bf.bitmap_len) = true := by
      have := h 0 hn
      unfold dh_index at this
      rw [if_pos rfl] at this
      exact this
    rw [if_pos hb0]
    by_cases hn1 : bf.num_hashes > 1
    · rw [if_pos hn1, probe_loop_iff]
      refine ⟨?_, ?_⟩
      · have := h 1 hn1
        unfold dh_index at this
        rw [if_neg (by omega), if_pos rfl] at this
        exact this
      · intro i hji hin _
        have := h i hin
        unfold dh_index at this
        rw [if_neg (by omega), if_neg (by omega)] at this
        exact this
    · rw [if_neg hn1]; exact hb0


/-! ## The IPv4 table: what a store does, and the invariant of the build phase -/

theorem gen_store_invalid (H : Nat → Nat) (idxs : Nat → Nat → Nat → Nat)
    (t : forwarding_table) (p : ipv4_prefix) (h : 32 < p.netmask) :
    gen_store H idxs t (some p) = .error fault.invalid_prefix := by
  unfold gen_store is_prefix_valid
  have : ¬ p.netmask ≤ 32 := by omega
  simp [this]

theorem gen_store_default (H : Nat → Nat) (idxs : Nat → Nat → Nat → Nat)
    (t : forwarding_table) (p : ipv4_prefix) (h : p.netmask = 0) :
    gen_store H idxs t (some p) = .ok (set_default_route t p.next_hop) := by
  unfold gen_store is_prefix_valid
  simp [h]

theorem gen_store_dla (H : Nat → Nat) (idxs : Nat → Nat → Nat → Nat)
    (t : forwarding_table) (p : ipv4_prefix) (h : p.netmask = 20) :
    gen_store H idxs t (some p)
      = .ok (decide (t.dla (p.key >>> 12) = 0),
          { t with dla := Function.update t.dla (p.key >>> 12) p.next_hop }) := by
  unfold gen_store is_prefix_valid
  simp [h]

theorem gen_store_class (H : Nat → Nat) (idxs : Nat → Nat → Nat → Nat)
    (t : forwarding_table) (p : ipv4_prefix) (h0 : p.netmask ≠ 0) (h20 : p.netmask ≠ 20)
    (h32 : p.netmask ≤ 32) (bf : counting_bloom_filter) (ht : hash_table Nat)
    (hbf : t.counting_bloom_filters (bloom_filter_id p) = some bf)
    (hht : t.hash_tables (bloom_filter_id p) = some ht) :
    gen_store H idxs t (some p)
      = .ok ((store_next_hop H ht p.key p.next_hop).1,
          { t with
            counting_bloom_filters := Function.update t.counting_bloom_filters
              (bloom_filter_id p) (some (cbf_mark bf (idxs p.key bf.num_hashes)))
            hash_tables := Function.update t.hash_tables (bloom_filter_id p)
              (some (store_next_hop H ht p.key p.next_hop).2) }) := by
  unfold gen_store is_prefix_valid
  simp [h0, h20, h32, hbf, hht, deref]
  rfl

theorem gen_store_class_fault (H : Nat → Nat) (idxs : Nat → Nat → Nat → Nat)
    (t : forwarding_table) (p : ipv4_prefix) (h0 : p.netmask ≠ 0) (h20 : p.netmask ≠ 20)
    (h32 : p.netmask ≤ 32)
    (hno : t.counting_bloom_filters (bloom_filter_id p) = none
      ∨ t.hash_tables (bloom_filter_id p) = none) :
    gen_store H idxs t (some p) = .error fault.null_deref := by
  unfold gen_store is_prefix_valid
  rcases hno with hno | hno
  · simp [h0, h20, h32, hno, deref]; rfl
  · cases hbf : t.counting_bloom_filters (bloom_filter_id p) with
    | none => simp [h0, h20, h32, hbf, deref]; rfl
    | some bf => simp [h0, h20, h32, hbf, hno, deref]; rfl


theorem set_default_route_fields (t : forwarding_table) (g : Nat) :
    (set_default_route t g).2.dla = t.dla
    ∧ (set_default_route t g).2.counting_bloom_filters = t.counting_bloom_filters
    ∧ (set_default_route t g).2.hash_tables = t.hash_tables
    ∧ (set_default_route t g).2.default_route.map (fun d => d.next_hop) = some g := by
  unfold set_default_route
  cases t.default_route <;> exact ⟨rfl, rfl, rfl, rfl⟩

/-- What a successful `gen_store` did, by the kind of prefix. -/
theorem gen_store_ok (H : Nat → Nat) (idxs : Nat → Nat → Nat → Nat)
    (t : forwarding_table) (pfx : Option ipv4_prefix) (r : Bool × forwarding_table)
    (h : gen_store H idxs t pfx = .ok r) :
    ∃ p, pfx = some p ∧ p.netmask ≤ 32 ∧
      ((p.netmask = 0 ∧ r = set_default_route t p.next_hop)
      ∨ (p.netmask = 20 ∧ r = (decide (t.dla (p.key >>> 12) = 0),
            { t with dla := Function.update t.dla (p.key >>> 12) p.next_hop }))
      ∨ (p.netmask ≠ 0 ∧ p.netmask ≠ 20 ∧ ∃ bf ht,
          t.counting_bloom_filters (bloom_filter_id p) = some bf
          ∧ t.hash_tables (bloom_filter_id p) = some ht
          ∧ r = ((store_next_hop H ht p.key p.next_hop).1,
            { t with
              counting_bloom_filters := Function.update t.counting_bloom_filters
                (bloom_filter_id p) (some (cbf_mark bf (idxs p.key bf.num_hashes)))
              hash_tables := Function.update t.hash_tables (bloom_filter_id p)
                (some (store_next_hop H ht p.key p.next_hop).2) }))) := by
  cases pfx with
  | none => simp [gen_store] at h
  | some p =>
    refine ⟨p, rfl, ?_⟩
    by_cases h32 : p.netmask ≤ 32
    · refine ⟨h32, ?_⟩
      by_cases h0 : p.netmask = 0
      · rw [gen_store_default H idxs t p h0] at h
        exact Or.inl ⟨h0, (Except.ok.inj h).symm⟩
      · by_cases h20 : p.netmask = 20
        · rw [gen_store_dla H idxs t p h20] at h
          exact Or.inr (Or.inl ⟨h20, (Except.ok.inj h).symm⟩)
        · refine Or.inr (Or.inr ⟨h0, h20, ?_⟩)
          cases hbf : t.counting_bloom_filters (bloom_filter_id p) with
          | none =>
            rw [gen_store_class_fault H idxs t p h0 h20 h32 (Or.inl hbf)] at h
            cases h
          | some bf =>
            cases hht : t.hash_tables (bloom_filter_id p) with
            | none =>
              rw [gen_store_class_fault H idxs t p h0 h20 h32 (Or.inr hht)] at h
              cases h
            | some ht =>
              rw [gen_store_class H idxs t p h0 h20 h32 bf ht hbf hht] at h
              exact ⟨bf, ht, rfl, rfl, (Except.ok.inj h).symm⟩
    · rw [gen_store_invalid H idxs t p (by omega)] at h
      cases h

theorem bloom_filter_id_lt (p : ipv4_prefix) : bloom_filter_id p = 0 ∨ bloom_filter_id p = 1 := by
  unfold bloom_filter_id
  by_cases h : p.netmask = 32
  · left; rw [if_pos h]
  · right; rw [if_neg h]

theorem gen_store_allocated (H : Nat → Nat) (idxs : Nat → Nat → Nat → Nat)
    (t : forwarding_table) (pfx : Option ipv4_prefix) (r : Bool × forwarding_table)
    (hall : allocated t) (h : gen_store H idxs t pfx = .ok r) : allocated r.2 := by
  obtain ⟨p, _, _, hc⟩ := gen_store_ok H idxs t pfx r h
  obtain ⟨bf0, bf1, ht0, ht1, hb0, hb1, hh0, hh1, hn0, hn1⟩ := hall
  rcases hc with ⟨_, hr⟩ | ⟨_, hr⟩ | ⟨_, _, bf, ht, hbf, hht, hr⟩
  · obtain ⟨_, e2, e3, _⟩ := set_default_route_fields t p.next_hop
    rw [hr]
    exact ⟨bf0, bf1, ht0, ht1, by rw [e2]; exact hb0, by rw [e2]; exact hb1,
      by rw [e3]; exact hh0, by rw [e3]; exact hh1, hn0, hn1⟩
  · rw [hr]
    exact ⟨bf0, bf1, ht0, ht1, hb0, hb1, hh0, hh1, hn0, hn1⟩
  · rw [hr]
    dsimp only
    rcases bloom_filter_id_lt p with hid | hid
    · rw [hid] at hbf hht ⊢
      have eb : bf = bf0 := Option.some.inj (hbf.symm.trans hb0)
      refine ⟨cbf_mark bf (idxs p.key bf.num_hashes), bf1,
        (store_next_hop H ht p.key p.next_hop).2, ht1, ?_, ?_, ?_, ?_, ?_, hn1⟩
      · simp
      · simp [hb1]
      · simp
      · simp [hh1]
      · rw [cbf_mark_num_hashes, eb]; exact hn0
    · rw [hid] at hbf hht ⊢
      have eb : bf = bf1 := Option.some.inj (hbf.symm.trans hb1)
      refine ⟨bf0, cbf_mark bf (idxs p.key bf.num_hashes), ht0,
        (store_next_hop H ht p.key p.next_hop).2, ?_, ?_, ?_, ?_, hn0, ?_⟩
      · simp [hb0]
      · simp
      · simp [hh0]
      · simp
      · rw [cbf_mark_num_hashes, eb]; exact hn1

theorem allocated_num_hashes (t : forwarding_table) (hall : allocated t) (id : Nat)
    (hid : id = 0 ∨ id = 1) (bf : counting_bloom_filter)
    (hbf : t.counting_bloom_filters id = some bf) : 0 < bf.num_hashes := by
  obtain ⟨bf0, bf1, ht0, ht1, hb0, hb1, _, _, hn0, hn1⟩ := hall
  rcases hid with hid | hid
  · rw [hid, hb0] at hbf; cases hbf; exact hn0
  · rw [hid, hb1] at hbf; cases hbf; exact hn1

/-- After the store loop marks the cells of a key, the probe accepts it, and
every key the probe accepted before is still accepted. -/
theorem probe_after_mark (idxs : Nat → Nat → Nat → Nat)
    (P : counting_bloom_filter → Nat → Bool) (hP : probe_sound idxs P)
    (bf : counting_bloom_filter) (hn : 0 < bf.num_hashes) (key : Nat) :
    P (cbf_mark bf (idxs key bf.num_hashes)) key = true
    ∧ ∀ k, P bf k = true → P (cbf_mark bf (idxs key bf.num_hashes)) k = true := by
  have hn' : 0 < (cbf_mark bf (idxs key bf.num_hashes)).num_hashes := by
    rw [cbf_mark_num_hashes]; exact hn
  constructor
  · rw [hP _ _ hn']
    intro i hi
    rw [cbf_mark_num_hashes] at hi ⊢
    rw [cbf_mark_bitmap_len]
    exact cbf_mark_set bf _ i hi
  · intro k hk
    rw [hP _ _ hn']
    rw [hP _ _ hn] at hk
    intro i hi
    rw [cbf_mark_num_hashes] at hi ⊢
    rw [cbf_mark_bitmap_len]
    exact cbf_mark_mono bf _ _ (hk i hi)

theorem gen_store_bloom_ok (H : Nat → Nat) (idxs : Nat → Nat → Nat → Nat)
    (P : counting_bloom_filter → Nat → Bool) (hP : probe_sound idxs P)
    (t : forwarding_table) (pfx : Option ipv4_prefix) (r : Bool × forwarding_table)
    (hall : allocated t) (hbl : bloom_ok H P t) (h : gen_store H idxs t pfx = .ok r) :
    bloom_ok H P r.2 := by
  obtain ⟨p, _, _, hc⟩ := gen_store_ok H idxs t pfx r h
  rcases hc with ⟨_, hr⟩ | ⟨_, hr⟩ | ⟨_, _, bf, ht, hbf, hht, hr⟩
  · obtain ⟨_, e2, e3, _⟩ := set_default_route_fields t p.next_hop
    rw [hr]
    intro id bf ht hb hh
    rw [e2] at hb; rw [e3] at hh
    exact hbl id bf ht hb hh
  · rw [hr]
    exact hbl
  · rw [hr]
    intro id bf' ht' hb hh k hk
    dsimp only at hb hh
    by_cases hid : id = bloom_filter_id p
    · subst hid
      rw [Function.update_same] at hb hh
      cases hb; cases hh
      have hn := allocated_num_hashes t hall _ (bloom_filter_id_lt p) bf hbf
      obtain ⟨hkey, hmono⟩ := probe_after_mark idxs P hP bf hn p.key
      rw [ht_get_store] at hk
      by_cases hkk : k = p.key
      · rw [hkk]; exact hkey
      · rw [if_neg hkk] at hk
        exact hmono k (hbl _ bf ht hbf hht k hk)
    · rw [Function.update_noteq hid] at hb hh
      exact hbl id bf' ht' hb hh k hk

theorem gen_store_all_inv (H : Nat → Nat) (idxs : Nat → Nat → Nat → Nat)
    (P : counting_bloom_filter → Nat → Bool) (hP : probe_sound idxs P)
    (ps : List (Option ipv4_prefix)) (t t' : forwarding_table)
    (hall : allocated t) (hbl : bloom_ok H P t) (h : gen_store_all H idxs t ps = .ok t') :
    allocated t' ∧ bloom_ok H P t' := by
  induction ps generalizing t with
  | nil =>
    unfold gen_store_all at h
    cases h
    exact ⟨hall, hbl⟩
  | cons pfx rest ih =>
    unfold gen_store_all at h
    cases hs : gen_store H idxs t pfx with
    | error e => rw [hs] at h; cases h
    | ok r =>
      rw [hs] at h
      exact ih r.2 (gen_store_allocated H idxs t pfx r hall hs)
        (gen_store_bloom_ok H idxs P hP t pfx r hall hbl hs) h

theorem gen_query_eq (H : Nat → Nat) (P : counting_bloom_filter → Nat → Bool)
    (t : forwarding_table) (id k nh0 : Nat) (bf : counting_bloom_filter) (ht : hash_table Nat)
    (hbf : t.counting_bloom_filters id = some bf) (hht : t.hash_tables id = some ht)
    (hok : (ht_get H ht k).isSome = true → P bf k = true) :
    gen_query H P t id k nh0
      = .ok (match ht_get H ht k with
             | some v => (true, v)
             | none => (false, nh0)) := by
  unfold gen_query
  rw [hbf, hht]
  simp only [deref, bind, Except.bind, pure, Except.pure]
  by_cases hp : P bf k = true
  · rw [if_pos hp, find_next_hop_eq]
    cases ht_get H ht k <;> rfl
  · rw [if_neg hp]
    cases hg : ht_get H ht k with
    | none => rfl
    | some v => rw [hg] at hok; exact absurd (hok rfl) hp

theorem gen_lookup_eq (H : Nat → Nat) (P : counting_bloom_filter → Nat → Bool)
    (t : forwarding_table) (a nh0 : Nat) (hall : allocated t) (hbl : bloom_ok H P t) :
    ∃ ht0 ht1, t.hash_tables 0 = some ht0 ∧ t.hash_tables 1 = some ht1
      ∧ gen_lookup H P t a nh0
          = .ok (as_result (cascade (ht_get H ht0) (ht_get H ht1) t a)) := by
  obtain ⟨bf0, bf1, ht0, ht1, hb0, hb1, hh0, hh1, _, _⟩ := hall
  refine ⟨ht0, ht1, hh0, hh1, ?_⟩
  unfold gen_lookup
  rw [gen_query_eq H P t 0 a nh0 bf0 ht0 hb0 hh0 (hbl 0 bf0 ht0 hb0 hh0 a)]
  unfold cascade
  cases h0 : ht_get H ht0 a with
  | some v =>
    simp [lookup_tail, as_result, bind, Except.bind, pure, Except.pure]
  | none =>
    simp only [bind, Except.bind, Bool.not_false, if_true]
    rw [gen_query_eq H P t 1 _ nh0 bf1 ht1 hb1 hh1 (hbl 1 bf1 ht1 hb1 hh1 _)]
    cases h1 : ht_get H ht1 (a &&& 0xffffff00) with
    | some v =>
      simp [lookup_tail, as_result, pure, Except.pure]
    | none =>
      simp only [lookup_tail, as_result, pure, Except.pure, Bool.not_false, if_true]
      by_cases hd : t.dla (a >>> 12) = 0
      · simp only [hd, ne_eq, not_true_eq_false, if_false]
        cases t.default_route <;> rfl
      · simp [hd]



/-! ## The table `new_forwarding_table` returns -/

theorem init_cbf_cons (sizing : Nat → Nat × Nat) (r : Nat × Nat) (l : List (Nat × Nat))
    (t : forwarding_table) :
    init_cbf sizing (r :: l) t
      = init_cbf sizing l
          (if r.1 = 32 then
            { t with
              counting_bloom_filters := Function.update t.counting_bloom_filters 0
                (some (new_counting_bloom_filter r.2 (sizing r.2).1 (sizing r.2).2)) }
          else if r.1 = 24 then
            { t with
              counting_bloom_filters := Function.update t.counting_bloom_filters 1
                (some (new_counting_bloom_filter r.2 (sizing r.2).1 (sizing r.2).2)) }
          else t) := by
  unfold init_cbf
  rw [List.foldl_cons]

theorem init_cbf_frame (sizing : Nat → Nat × Nat) (l : List (Nat × Nat))
    (t : forwarding_table) :
    (init_cbf sizing l t).dla = t.dla
    ∧ (init_cbf sizing l t).default_route = t.default_route
    ∧ (init_cbf sizing l t).hash_tables = t.hash_tables
    ∧ ∀ id, 2 ≤ id → (init_cbf sizing l t).counting_bloom_filters id
        = t.counting_bloom_filters id := by
  induction l generalizing t with
  | nil => exact ⟨rfl, rfl, rfl, fun _ _ => rfl⟩
  | cons r l ih =>
    rw [init_cbf_cons]
    by_cases h32 : r.1 = 32
    · rw [if_pos h32]
      obtain ⟨h1, h2, h3, h4⟩ := ih { t with
        counting_bloom_filters := Function.update t.counting_bloom_filters 0
          (some (new_counting_bloom_filter r.2 (sizing r.2).1 (sizing r.2).2)) }
      refine ⟨h1, h2, h3, fun id hid => ?_⟩
      rw [h4 id hid]
      have : id ≠ 0 := by omega
      exact Function.update_noteq this _ _
    · rw [if_neg h32]
      by_cases h24 : r.1 = 24
      · rw [if_pos h24]
        obtain ⟨h1, h2, h3, h4⟩ := ih { t with
          counting_bloom_filters := Function.update t.counting_bloom_filters 1
            (some (new_counting_bloom_filter r.2 (sizing r.2).1 (sizing r.2).2)) }
        refine ⟨h1, h2, h3, fun id hid => ?_⟩
        rw [h4 id hid]
        have : id ≠ 1 := by omega
        exact Function.update_noteq this _ _
      · rw [if_neg h24]
        exact ih t

/-- The slot of a class after `init_cbf`: a new filter for the class's last
record, or the slot as it was when the file has no record for the class. -/
theorem init_cbf_slot (sizing : Nat → Nat × Nat) (l : List (Nat × Nat))
    (t : forwarding_table) (m id : Nat)
    (hm : (m = 32 ∧ id = 0) ∨ (m = 24 ∧ id = 1)) :
    ((∃ q, (m, q) ∈ l) → ∃ q, (m, q) ∈ l ∧
        (init_cbf sizing l t).counting_bloom_filters id
          = some (new_counting_bloom_filter q (sizing q).1 (sizing q).2))
    ∧ ((¬ ∃ q, (m, q) ∈ l) →
        (init_cbf sizing l t).counting_bloom_filters id = t.counting_bloom_filters id) := by
  induction l generalizing t with
  | nil =>
    exact ⟨fun ⟨q, hq⟩ => (by cases hq), fun _ => rfl⟩
  | cons r l ih =>
    rw [init_cbf_cons]
    by_cases hl : ∃ q, (m, q) ∈ l
    · constructor
      · intro _
        obtain ⟨q, hq, he⟩ := (ih _).1 hl
        exact ⟨q, List.mem_cons_of_mem _ hq, he⟩
      · intro hno
        obtain ⟨q, hq⟩ := hl
        exact absurd ⟨q, List.mem_cons_of_mem _ hq⟩ hno
    · constructor
      · rintro ⟨q, hq⟩
        have hr : r = (m, q) := by
          rcases List.mem_cons.mp hq with h | h
          · exact h.symm
          · exact absurd ⟨q, h⟩ hl
        refine ⟨q, hq, ?_⟩
        rw [(ih _).2 hl]
        subst hr
        rcases hm with ⟨hm, hid⟩ | ⟨hm, hid⟩
        · subst hm; subst hid
          simp
        · subst hm; subst hid
          simp
      · intro hno
        rw [(ih _).2 hl]
        have hr : r.1 ≠ m := by
          intro h
          apply hno
          exact ⟨r.2, by rw [← h]; exact List.mem_cons_self _ _⟩
        rcases hm with ⟨hm, hid⟩ | ⟨hm, hid⟩
        · subst hm; subst hid
          rw [if_neg hr]
          by_cases h24 : r.1 = 24
          · rw [if_pos h24]; simp
          · rw [if_neg h24]
        · subst hm; subst hid
          rw [if_neg hr]
          by_cases h32 : r.1 = 32
          · rw [if_pos h32]; simp
          · rw [if_neg h32]

theorem init_ht_eq (t : forwarding_table) :
    (init_ht t).counting_bloom_filters = t.counting_bloom_filters
    ∧ (init_ht t).dla = t.dla
    ∧ (init_ht t).default_route = t.default_route
    ∧ (init_ht t).hash_tables 0
        = (t.counting_bloom_filters 0).map (fun bf => new_hash_table bf.capacity)
    ∧ (init_ht t).hash_tables 1
        = (t.counting_bloom_filters 1).map (fun bf => new_hash_table bf.capacity)
    ∧ ∀ id, 2 ≤ id → (init_ht t).hash_tables id = t.hash_tables id := by
  unfold init_ht
  have : List.range 2 = [0, 1] := by decide
  rw [this]
  simp only [List.foldl_cons, List.foldl_nil]
  cases h0 : t.counting_bloom_filters 0 <;> cases h1 : t.counting_bloom_filters 1 <;>
    simp [h0, h1] <;> intro id hid <;>
    (have n0 : id ≠ 0 := by omega
     have n1 : id ≠ 1 := by omega
     simp [Function.update_noteq, n0, n1])

theorem init_table_inv (H : Nat → Nat) (P : counting_bloom_filter → Nat → Bool)
    (sizing : Nat → Nat × Nat) (dist : List (Nat × Nat)) (hw : well_sized sizing dist)
    (t0 : forwarding_table)
    (ht0h : t0.hash_tables = fun _ => none) (ht0d : t0.dla = fun _ => 0)
    (ht0r : t0.default_route = none) :
    allocated (init_ht (init_cbf sizing dist t0))
    ∧ bloom_ok H P (init_ht (init_cbf sizing dist t0))
    ∧ (init_ht (init_cbf sizing dist t0)).default_route = none
    ∧ (∀ i, (init_ht (init_cbf sizing dist t0)).dla i = 0)
    ∧ ∀ id ht, (init_ht (init_cbf sizing dist t0)).hash_tables id = some ht →
        ∀ k, ht_get H ht k = none := by
  obtain ⟨h32, h24, hpos, hsz⟩ := hw
  obtain ⟨f1, f2, f3, f4⟩ := init_cbf_frame sizing dist t0
  obtain ⟨q0, hq0, hc0⟩ := (init_cbf_slot sizing dist t0 32 0 (Or.inl ⟨rfl, rfl⟩)).1 h32
  obtain ⟨q1, hq1, hc1⟩ := (init_cbf_slot sizing dist t0 24 1 (Or.inr ⟨rfl, rfl⟩)).1 h24
  obtain ⟨g1, g2, g3, g4, g5, g6⟩ := init_ht_eq (init_cbf sizing dist t0)
  have hht : ∀ id ht, (init_ht (init_cbf sizing dist t0)).hash_tables id = some ht →
      ∀ k, ht_get H ht k = none := by
    intro id ht hh k
    by_cases hid0 : id = 0
    · subst hid0
      rw [g4, hc0] at hh
      cases hh; rfl
    · by_cases hid1 : id = 1
      · subst hid1
        rw [g5, hc1] at hh
        cases hh; rfl
      · rw [g6 id (by omega), f3, ht0h] at hh
        cases hh
  refine ⟨?_, ?_, ?_, ?_, hht⟩
  · refine ⟨_, _, _, _, by rw [g1]; exact hc0, by rw [g1]; exact hc1,
      by rw [g4, hc0]; rfl, by rw [g5, hc1]; rfl, ?_, ?_⟩
    · exact (hsz q0 (hpos _ hq0)).2
    · exact (hsz q1 (hpos _ hq1)).2
  · intro id bf ht _ hh k hk
    rw [hht id ht hh k] at hk
    cases hk
  · rw [g3, f2, ht0r]
  · intro i
    rw [g2, f1, ht0d]

theorem new_forwarding_table_inv (H : Nat → Nat) (P : counting_bloom_filter → Nat → Bool)
    (sizing : Nat → Nat × Nat) (dist : List (Nat × Nat)) (hw : well_sized sizing dist) :
    allocated (new_forwarding_table sizing dist)
    ∧ bloom_ok H P (new_forwarding_table sizing dist)
    ∧ (new_forwarding_table sizing dist).default_route = none
    ∧ (∀ i, (new_forwarding_table sizing dist).dla i = 0)
    ∧ ∀ id ht, (new_forwarding_table sizing dist).hash_tables id = some ht →
        ∀ k, ht_get H ht k = none :=
  init_table_inv H P sizing dist hw _ rfl rfl rfl



/-! ## The two variants are instances of the common shape -/

namespace V4coop

/-- The `hashes` array of the v4-coop `store_prefix`. -/
theorem same_hash (cfg : config) (h : SAME_HASH_FUNCTIONS cfg = true) :
    BLOOM_HASH_FUNCTION cfg = HASHTBL_HASH_FUNCTION cfg := by
  unfold BLOOM_HASH_FUNCTION HASHTBL_HASH_FUNCTION
  unfold SAME_HASH_FUNCTIONS at h
  cases cfg with
  | mk b ht =>
    cases b <;> cases ht <;> simp at h <;> rfl

theorem store_prefix_eq_gen (cfg : config) (t : forwarding_table) (pfx : Option ipv4_prefix) :
    store_prefix cfg t pfx
      = gen_store (HASHTBL_HASH_FUNCTION cfg)
          (fun key n =>
            hashes (BLOOM_HASH_FUNCTION cfg) (BLOOM_HASH_FUNCTION cfg) key n (fun _ => 0))
          t pfx := rfl

theorem store_prefixes_eq_gen (cfg : config) (ps : List (Option ipv4_prefix))
    (t : forwarding_table) :
    store_prefixes cfg t ps
      = gen_store_all (HASHTBL_HASH_FUNCTION cfg)
          (fun key n =>
            hashes (BLOOM_HASH_FUNCTION cfg) (BLOOM_HASH_FUNCTION cfg) key n (fun _ => 0))
          t ps := by
  induction ps generalizing t with
  | nil => rfl
  | cons pfx rest ih =>
    unfold store_prefixes gen_store_all
    rw [store_prefix_eq_gen]
    cases gen_store (HASHTBL_HASH_FUNCTION cfg)
      (fun key n =>
        hashes (BLOOM_HASH_FUNCTION cfg) (BLOOM_HASH_FUNCTION cfg) key n (fun _ => 0)) t pfx with
    | error e => rfl
    | ok r => exact ih r.2

theorem find_in_eq (cfg : config) (ht : Option (hash_table Nat)) (k nh0 : Nat) :
    find_in cfg ht (BLOOM_HASH_FUNCTION cfg k) k nh0
      = (deref ht >>= fun ht => pure (find_next_hop (HASHTBL_HASH_FUNCTION cfg) ht k nh0)) := by
  unfold find_in
  cases ht with
  | none => rfl
  | some ht =>
    simp only [deref, bind, Except.bind]
    by_cases hs : SAME_HASH_FUNCTIONS cfg = true
    · rw [if_pos hs, same_hash cfg hs]
      rfl
    · rw [if_neg hs]

theorem query_class_eq_gen (cfg : config) (t : forwarding_table) (id k nh0 : Nat) :
    query_class cfg t id k nh0
      = gen_query (HASHTBL_HASH_FUNCTION cfg)
          (fun bf k => probe bf (BLOOM_HASH_FUNCTION cfg k)
            (BLOOM_HASH_FUNCTION cfg (BLOOM_HASH_FUNCTION cfg k)))
          t id k nh0 := by
  unfold query_class gen_query
  cases t.counting_bloom_filters id with
  | none => rfl
  | some bf =>
    simp only [deref, bind, Except.bind]
    rw [find_in_eq]
    rfl

theorem lookup_address_eq_gen (cfg : config) (t : forwarding_table) (a nh0 : Nat) :
    lookup_address cfg t a nh0
      = gen_lookup (HASHTBL_HASH_FUNCTION cfg)
          (fun bf k => probe bf (BLOOM_HASH_FUNCTION cfg k)
            (BLOOM_HASH_FUNCTION cfg (BLOOM_HASH_FUNCTION cfg k)))
          t a nh0 := by
  unfold lookup_address gen_lookup
  simp only [query_class_eq_gen]

theorem probe_sound_coop (cfg : config) :
    probe_sound
      (fun key n =>
        hashes (BLOOM_HASH_FUNCTION cfg) (BLOOM_HASH_FUNCTION cfg) key n (fun _ => 0))
      (fun bf k => probe bf (BLOOM_HASH_FUNCTION cfg k)
        (BLOOM_HASH_FUNCTION cfg (BLOOM_HASH_FUNCTION cfg k))) := by
  intro bf k hn
  dsimp only
  rw [probe_iff bf _ _ hn]
  constructor
  · intro h i hi
    rw [hashes_eq _ _ _ _ _ i hi]
    exact h i hi
  · intro h i hi
    rw [← hashes_eq (BLOOM_HASH_FUNCTION cfg) (BLOOM_HASH_FUNCTION cfg) k bf.num_hashes
      (fun _ => 0) i hi]
    exact h i hi

end V4coop

namespace Baseline

theorem bl_store_prefix_eq_gen (rand_r : Nat → Nat) (t : forwarding_table)
    (pfx : Option ipv4_prefix) :
    store_prefix rand_r t pfx
      = gen_store rand_r (fun key n => hashes rand_r key n (fun _ => 0)) t pfx := rfl

theorem bl_store_prefixes_eq_gen (rand_r : Nat → Nat) (ps : List (Option ipv4_prefix))
    (t : forwarding_table) :
    store_prefixes rand_r t ps
      = gen_store_all rand_r (fun key n => hashes rand_r key n (fun _ => 0)) t ps := by
  induction ps generalizing t with
  | nil => rfl
  | cons pfx rest ih =>
    unfold store_prefixes gen_store_all
    rw [bl_store_prefix_eq_gen]
    cases gen_store rand_r (fun key n => hashes rand_r key n (fun _ => 0)) t pfx with
    | error e => rfl
    | ok r => exact ih r.2

theorem bl_lookup_address_eq_gen (rand_r : Nat → Nat) (t : forwarding_table) (a nh0 : Nat) :
    lookup_address rand_r t a nh0
      = gen_lookup rand_r (fun bf k => probe_chain rand_r bf bf.num_hashes 0 k true)
          t a nh0 := rfl

/-- The chain the baseline `hashes` writes: cell `i` holds `rand_r` applied
`i + 1` times to the key. -/
theorem bl_hashes_foldl (rand_r : Nat → Nat) (n : Nat) (r : Nat → Nat) (key : Nat) :
    ((List.range n).foldl
      (fun (st : (Nat → Nat) × Nat) i =>
        let v := rand_r st.2
        (Function.update st.1 i v, v))
      (r, key)).2 = rand_r^[n] key
    ∧ ∀ i, i < n →
      ((List.range n).foldl
        (fun (st : (Nat → Nat) × Nat) i =>
          let v := rand_r st.2
          (Function.update st.1 i v, v))
        (r, key)).1 i = rand_r^[i + 1] key := by
  induction n with
  | zero => exact ⟨rfl, fun i hi => by omega⟩
  | succ n ih =>
    rw [List.range_succ, List.foldl_append]
    simp only [List.foldl_cons, List.foldl_nil]
    obtain ⟨h1, h2⟩ := ih
    constructor
    · rw [h1, Function.iterate_succ_apply']
    · intro i hi
      by_cases hin : i = n
      · subst hin
        rw [Function.update_same, h1, Function.iterate_succ_apply']
      · rw [Function.update_noteq hin]
        exact h2 i (by omega)

theorem bl_hashes_eq (rand_r : Nat → Nat) (key n : Nat) (r : Nat → Nat) (i : Nat) (hi : i < n) :
    hashes rand_r key n r i = rand_r^[i + 1] key :=
  (bl_hashes_foldl rand_r n r key).2 i hi

theorem probe_chain_iff (rand_r : Nat → Nat) (bf : counting_bloom_filter)
    (fuel j seed : Nat) (maybe : Bool) :
    probe_chain rand_r bf fuel j seed maybe = true
      ↔ maybe = true ∧ ∀ i, i < fuel → j + i < bf.num_hashes →
          bf.bitmap (rand_r^[i + 1] seed % bf.bitmap_len) = true := by
  induction fuel generalizing j seed maybe with
  | zero =>
    unfold probe_chain
    exact ⟨fun h => ⟨h, fun i hi => by omega⟩, fun h => h.1⟩
  | succ fuel ih =>
    unfold probe_chain
    by_cases hm : maybe = true
    · by_cases hj : j < bf.num_hashes
      · simp only [hm, hj, decide_True, Bool.and_self, if_true, true_and]
        rw [ih]
        constructor
        · rintro ⟨hb, hr⟩ i hif hin
          cases i with
          | zero => exact hb
          | succ i =>
            have := hr i (by omega) (by omega)
            rw [Function.iterate_succ_apply]
            exact this
        · intro h
          refine ⟨h 0 (by omega) (by omega), fun i hif hin => ?_⟩
          have := h (i + 1) (by omega) (by omega)
          rw [Function.iterate_succ_apply] at this
          exact this
      · simp only [hm, hj, decide_False, Bool.and_false, if_false, true_and]
        simp only [Bool.false_eq_true, if_false, true_iff]
        intro i _ hin
        omega
    · simp only [hm, Bool.false_and, if_false, false_and]
      simp [hm]

theorem probe_sound_baseline (rand_r : Nat → Nat) :
    probe_sound (fun key n => hashes rand_r key n (fun _ => 0))
      (fun bf k => probe_chain rand_r bf bf.num_hashes 0 k true) := by
  intro bf k _
  dsimp only
  rw [probe_chain_iff]
  constructor
  · rintro ⟨_, h⟩ i hi
    rw [bl_hashes_eq _ _ _ _ i hi]
    exact h i hi (by omega)
  · intro h
    refine ⟨rfl, fun i hi _ => ?_⟩
    rw [← bl_hashes_eq rand_r k bf.num_hashes (fun _ => 0) i hi]
    exact h i hi

end Baseline



/-! ## Stored keys keep their Bloom cells -/

/-- Any successful store leaves every filter in place with its sizes, and
never clears a bit. -/
theorem gen_store_keeps (H : Nat → Nat) (idxs : Nat → Nat → Nat → Nat)
    (t : forwarding_table) (pfx : Option ipv4_prefix) (r : Bool × forwarding_table)
    (h : gen_store H idxs t pfx = .ok r) (id : Nat) (bf : counting_bloom_filter)
    (hbf : t.counting_bloom_filters id = some bf) :
    ∃ bf', r.2.counting_bloom_filters id = some bf'
      ∧ bf'.num_hashes = bf.num_hashes ∧ bf'.bitmap_len = bf.bitmap_len
      ∧ ∀ x, bf.bitmap x = true → bf'.bitmap x = true := by
  obtain ⟨p, _, _, hc⟩ := gen_store_ok H idxs t pfx r h
  rcases hc with ⟨_, hr⟩ | ⟨_, hr⟩ | ⟨_, _, bf1, ht1, hbf1, hht1, hr⟩
  · obtain ⟨_, e2, _, _⟩ := set_default_route_fields t p.next_hop
    rw [hr, e2]
    exact ⟨bf, hbf, rfl, rfl, fun _ hx => hx⟩
  · rw [hr]
    exact ⟨bf, hbf, rfl, rfl, fun _ hx => hx⟩
  · rw [hr]
    dsimp only
    by_cases hid : id = bloom_filter_id p
    · subst hid
      rw [hbf] at hbf1
      cases hbf1
      refine ⟨cbf_mark bf (idxs p.key bf.num_hashes), by simp, cbf_mark_num_hashes _ _,
        cbf_mark_bitmap_len _ _, fun x hx => cbf_mark_mono _ _ x hx⟩
    · refine ⟨bf, ?_, rfl, rfl, fun _ hx => hx⟩
      rw [Function.update_noteq hid]; exact hbf

/-- A successful store into a class sets every cell derived for the key. -/
theorem gen_store_marks (H : Nat → Nat) (idxs : Nat → Nat → Nat → Nat)
    (t : forwarding_table) (p : ipv4_prefix) (r : Bool × forwarding_table)
    (h : gen_store H idxs t (some p) = .ok r) (h0 : p.netmask ≠ 0) (h20 : p.netmask ≠ 20) :
    ∃ bf, r.2.counting_bloom_filters (bloom_filter_id p) = some bf
      ∧ ∀ i, i < bf.num_hashes →
          bf.bitmap (idxs p.key bf.num_hashes i % bf.bitmap_len) = true := by
  obtain ⟨p', hp, _, hc⟩ := gen_store_ok H idxs t (some p) r h
  cases hp
  rcases hc with ⟨h, _⟩ | ⟨h, _⟩ | ⟨_, _, bf1, ht1, hbf1, hht1, hr⟩
  · exact absurd h h0
  · exact absurd h h20
  · rw [hr]
    dsimp only
    refine ⟨cbf_mark bf1 (idxs p.key bf1.num_hashes), by simp, ?_⟩
    intro i hi
    rw [cbf_mark_num_hashes] at hi ⊢
    rw [cbf_mark_bitmap_len]
    exact cbf_mark_set bf1 _ i hi

theorem gen_store_all_keeps (H : Nat → Nat) (idxs : Nat → Nat → Nat → Nat)
    (ps : List (Option ipv4_prefix)) (t t' : forwarding_table)
    (h : gen_store_all H idxs t ps = .ok t') (id : Nat) (bf : counting_bloom_filter)
    (hbf : t.counting_bloom_filters id = some bf) :
    ∃ bf', t'.counting_bloom_filters id = some bf'
      ∧ bf'.num_hashes = bf.num_hashes ∧ bf'.bitmap_len = bf.bitmap_len
      ∧ ∀ x, bf.bitmap x = true → bf'.bitmap x = true := by
  induction ps generalizing t bf with
  | nil =>
    unfold gen_store_all at h
    cases h
    exact ⟨bf, hbf, rfl, rfl, fun _ hx => hx⟩
  | cons pfx rest ih =>
    unfold gen_store_all at h
    cases hs : gen_store H idxs t pfx with
    | error e => rw [hs] at h; cases h
    | ok r =>
      rw [hs] at h
      obtain ⟨bf1, hb1, hn1, hl1, hm1⟩ := gen_store_keeps H idxs t pfx r hs id bf hbf
      obtain ⟨bf2, hb2, hn2, hl2, hm2⟩ := ih r.2 h bf1 hb1
      exact ⟨bf2, hb2, hn2.trans hn1, hl2.trans hl1, fun x hx => hm2 x (hm1 x hx)⟩

/-- Once a key is stored into a class, every cell derived for it is set in
every later state of the build. -/
theorem gen_store_all_marks (H : Nat → Nat) (idxs : Nat → Nat → Nat → Nat)
    (ps : List (Option ipv4_prefix)) (t t' : forwarding_table)
    (h : gen_store_all H idxs t ps = .ok t') (p : ipv4_prefix) (hp : some p ∈ ps)
    (h0 : p.netmask ≠ 0) (h20 : p.netmask ≠ 20) :
    ∃ bf, t'.counting_bloom_filters (bloom_filter_id p) = some bf
      ∧ ∀ i, i < bf.num_hashes →
          bf.bitmap (idxs p.key bf.num_hashes i % bf.bitmap_len) = true := by
  induction ps generalizing t with
  | nil => cases hp
  | cons pfx rest ih =>
    unfold gen_store_all at h
    cases hs : gen_store H idxs t pfx with
    | error e => rw [hs] at h; cases h
    | ok r =>
      rw [hs] at h
      rcases List.mem_cons.mp hp with hhead | htail
      · subst hhead
        obtain ⟨bf1, hb1, hc1⟩ := gen_store_marks H idxs t p r hs h0 h20
        obtain ⟨bf2, hb2, hn2, hl2, hm2⟩ :=
          gen_store_all_keeps H idxs rest r.2 t' h _ bf1 hb1
        refine ⟨bf2, hb2, fun i hi => ?_⟩
        rw [hn2] at hi ⊢
        rw [hl2]
        exact hm2 _ (hc1 i hi)
      · exact ih r.2 h htail

/-- The v4-coop half of Bloom-filter soundness. -/
theorem V4coop.stored_key_cells_set (cfg : V4coop.config) (t t' : forwarding_table)
    (ps : List (Option ipv4_prefix)) (p : ipv4_prefix)
    (h : V4coop.store_prefixes cfg t ps = .ok t') (hp : some p ∈ ps)
    (h0 : p.netmask ≠ 0) (h20 : p.netmask ≠ 20) :
    ∃ bf, t'.counting_bloom_filters (bloom_filter_id p) = some bf
      ∧ (∀ i, i < bf.num_hashes →
          bf.bitmap (dh_index (V4coop.BLOOM_HASH_FUNCTION cfg p.key)
            (V4coop.BLOOM_HASH_FUNCTION cfg (V4coop.BLOOM_HASH_FUNCTION cfg p.key)) i
              % bf.bitmap_len) = true)
      ∧ (0 < bf.num_hashes →
          probe bf (V4coop.BLOOM_HASH_FUNCTION cfg p.key)
            (V4coop.BLOOM_HASH_FUNCTION cfg (V4coop.BLOOM_HASH_FUNCTION cfg p.key)) = true) := by
  rw [V4coop.store_prefixes_eq_gen] at h
  obtain ⟨bf, hb, hc⟩ := gen_store_all_marks _ _ ps t t' h p hp h0 h20
  have hc' : ∀ i, i < bf.num_hashes →
      bf.bitmap (dh_index (V4coop.BLOOM_HASH_FUNCTION cfg p.key)
        (V4coop.BLOOM_HASH_FUNCTION cfg (V4coop.BLOOM_HASH_FUNCTION cfg p.key)) i
          % bf.bitmap_len) = true := by
    intro i hi
    have := hc i hi
    rw [hashes_eq _ _ _ _ _ i hi] at this
    exact this
  exact ⟨bf, hb, hc', fun hn => (probe_iff bf _ _ hn).2 hc'⟩



/-! ## The lookup cascade -/

theorem demo_well_sized : well_sized demo_sizing demo_dist :=
  ⟨⟨4, by decide⟩, ⟨4, by decide⟩, by decide,
    fun q hq => ⟨by unfold demo_sizing; show 0 < 10 * q; omega,
      by unfold demo_sizing; show 0 < 7; omega⟩⟩

theorem demo_table_built :
    V4coop.store_prefixes demo_cfg (new_forwarding_table demo_sizing demo_dist)
      (demo_prefixes.map some) = .ok demo_table := rfl

theorem demo_table_baseline_built :
    Baseline.store_prefixes demo_rand_r (new_forwarding_table demo_sizing demo_dist)
      (demo_prefixes.map some) = .ok demo_table_baseline := rfl

/-- The IPv4 lookup cascade where both classes exist.  On every table the build
phase reaches from `new_forwarding_table` with both classes sized,
`lookup_address` (v4-coop under every hash configuration, and the baseline
under every `rand_r`) returns exactly the outcome of the Bloom-free cascade over what hash table 0
holds for `a`, what hash table 1 holds for `a & 0xffffff00`, the DLA cell
`a >> 12` when it is non-zero, and the default route; a miss leaves the zero
read from the DLA in the out-parameter.  The Bloom bitmaps do not occur in the
cascade, so a false positive cannot change the result. -/
theorem lookup_address_eq_cascade (sizing : Nat → Nat × Nat) (dist : List (Nat × Nat))
    (hw : well_sized sizing dist) (ps : List (Option ipv4_prefix)) (a nh0 : Nat) :
    (∀ cfg t, V4coop.store_prefixes cfg (new_forwarding_table sizing dist) ps = .ok t →
      ∃ ht0 ht1, t.hash_tables 0 = some ht0 ∧ t.hash_tables 1 = some ht1
        ∧ V4coop.lookup_address cfg t a nh0
            = .ok (as_result (cascade (ht_get (V4coop.HASHTBL_HASH_FUNCTION cfg) ht0)
                (ht_get (V4coop.HASHTBL_HASH_FUNCTION cfg) ht1) t a)))
    ∧ (∀ rand_r t, Baseline.store_prefixes rand_r (new_forwarding_table sizing dist) ps = .ok t →
      ∃ ht0 ht1, t.hash_tables 0 = some ht0 ∧ t.hash_tables 1 = some ht1
        ∧ Baseline.lookup_address rand_r t a nh0
            = .ok (as_result (cascade (ht_get rand_r ht0) (ht_get rand_r ht1) t a))) := by
  constructor
  · intro cfg t h
    rw [V4coop.store_prefixes_eq_gen] at h
    obtain ⟨hall, hbl, _⟩ := new_forwarding_table_inv (V4coop.HASHTBL_HASH_FUNCTION cfg)
      (fun bf k => probe bf (V4coop.BLOOM_HASH_FUNCTION cfg k)
        (V4coop.BLOOM_HASH_FUNCTION cfg (V4coop.BLOOM_HASH_FUNCTION cfg k))) sizing dist hw
    obtain ⟨hall', hbl'⟩ := gen_store_all_inv _ _ _ (V4coop.probe_sound_coop cfg) ps _ t
      hall hbl h
    rw [V4coop.lookup_address_eq_gen]
    exact gen_lookup_eq _ _ t a nh0 hall' hbl'
  · intro rand_r t h
    rw [Baseline.bl_store_prefixes_eq_gen] at h
    obtain ⟨hall, hbl, _⟩ := new_forwarding_table_inv rand_r
      (fun bf k => Baseline.probe_chain rand_r bf bf.num_hashes 0 k true) sizing dist hw
    obtain ⟨hall', hbl'⟩ := gen_store_all_inv _ _ _ (Baseline.probe_sound_baseline rand_r) ps _ t
      hall hbl h
    rw [Baseline.bl_lookup_address_eq_gen]
    exact gen_lookup_eq _ _ t a nh0 hall' hbl'

/-- The cascade at the concrete build `demo_table`, address `192.168.1.1`. -/
theorem lookup_address_eq_cascade_witness :
    well_sized demo_sizing demo_dist
    ∧ V4coop.store_prefixes demo_cfg (new_forwarding_table demo_sizing demo_dist)
        (demo_prefixes.map some) = .ok demo_table
    ∧ ∃ ht0 ht1, demo_table.hash_tables 0 = some ht0 ∧ demo_table.hash_tables 1 = some ht1
        ∧ V4coop.lookup_address demo_cfg demo_table 0xC0A80101 0
            = .ok (as_result (cascade (ht_get (V4coop.HASHTBL_HASH_FUNCTION demo_cfg) ht0)
                (ht_get (V4coop.HASHTBL_HASH_FUNCTION demo_cfg) ht1) demo_table 0xC0A80101)) :=
  ⟨demo_well_sized, demo_table_built,
    (lookup_address_eq_cascade demo_sizing demo_dist demo_well_sized (demo_prefixes.map some)
      0xC0A80101 0).1 demo_cfg demo_table demo_table_built⟩



/-! ## Covering and masks -/

/-- Masking a 32-bit word with the complement of its low `k` bits clears
them. -/
theorem and_high_mask (a k : Nat) (hk : k ≤ 32) (ha : a < U32) :
    a &&& ((2 ^ (32 - k) - 1) <<< k) = (a >>> k) <<< k := by
  apply Nat.eq_of_testBit_eq
  intro i
  rw [Nat.testBit_and, Nat.testBit_shiftLeft, Nat.testBit_shiftLeft, Nat.testBit_shiftRight,
    Nat.testBit_two_pow_sub_one]
  by_cases hik : k ≤ i
  · have e : k + (i - k) = i := by omega
    rw [e]
    by_cases hi : i < 32
    · have : i - k < 32 - k := by omega
      simp [hik, this]
    · have hlt : a < 2 ^ i := by
        have h32 : (2 : Nat) ^ 32 ≤ 2 ^ i := Nat.pow_le_pow_right (by omega) (by omega)
        have : U32 = 2 ^ 32 := by decide
        omega
      rw [Nat.testBit_lt_two_pow hlt]
      simp
  · simp [hik]

theorem and_mask24 (a : Nat) (ha : a < U32) : a &&& 0xffffff00 = (a >>> 8) <<< 8 := by
  have := and_high_mask a 8 (by omega) ha
  have e : (2 ^ (32 - 8) - 1) <<< 8 = 0xffffff00 := by decide
  rw [e] at this
  exact this

theorem covers_24 (p : ipv4_prefix) (a : Nat) (hn : p.netmask = 24) (hc : canonical p)
    (ha : a < U32) : covers p a ↔ a &&& 0xffffff00 = p.key := by
  unfold covers
  unfold canonical at hc
  rw [hn] at hc ⊢
  rw [and_mask24 a ha]
  simp only [Nat.shiftRight_eq_div_pow, Nat.shiftLeft_eq]
  have e1 : (2 : Nat) ^ (32 - 24) = 256 := by decide
  rw [e1] at hc ⊢
  omega

theorem covers_32 (p : ipv4_prefix) (a : Nat) (hn : p.netmask = 32) :
    covers p a ↔ a = p.key := by
  unfold covers
  rw [hn]
  simp

theorem covers_20 (p : ipv4_prefix) (a : Nat) (hn : p.netmask = 20) :
    covers p a ↔ a >>> 12 = p.key >>> 12 := by
  unfold covers
  rw [hn]

theorem covers_0 (p : ipv4_prefix) (a : Nat) (hn : p.netmask = 0) (hc : canonical p)
    (ha : a < U32) : covers p a := by
  unfold covers
  unfold canonical at hc
  rw [hn]
  simp only [Nat.shiftRight_eq_div_pow]
  have e1 : (2 : Nat) ^ (32 - 0) = 4294967296 := by decide
  rw [e1]
  have := hc.1
  have hu : U32 = 4294967296 := rfl
  rw [Nat.div_eq_of_lt (by omega), Nat.div_eq_of_lt (by omega)]



/-! ## Longest-prefix match, one store at a time -/

theorem level_insert_32 (v : Nat) (o2 o1 : Option Nat) (d : Nat) (df : Option Nat) :
    level_of (some v) o1 d df = insert_level 32 v (level_of o2 o1 d df) := by
  cases o2 <;> cases o1 <;> by_cases hd : d = 0 <;> cases df <;>
    simp [level_of, insert_level, hd]

theorem level_insert_24 (v : Nat) (o2 o1 : Option Nat) (d : Nat) (df : Option Nat) :
    level_of o2 (some v) d df = insert_level 24 v (level_of o2 o1 d df) := by
  cases o2 <;> cases o1 <;> by_cases hd : d = 0 <;> cases df <;>
    simp [level_of, insert_level, hd]

theorem level_insert_20 (v : Nat) (hv : v ≠ 0) (o2 o1 : Option Nat) (d : Nat)
    (df : Option Nat) :
    level_of o2 o1 v df = insert_level 20 v (level_of o2 o1 d df) := by
  cases o2 <;> cases o1 <;> by_cases hd : d = 0 <;> cases df <;>
    simp [level_of, insert_level, hd, hv]

theorem level_insert_0 (v : Nat) (o2 o1 : Option Nat) (d : Nat) (df : Option Nat) :
    level_of o2 o1 d (some v) = insert_level 0 v (level_of o2 o1 d df) := by
  cases o2 <;> cases o1 <;> by_cases hd : d = 0 <;> cases df <;>
    simp [level_of, insert_level, hd]

theorem lpm_step_covers (a : Nat) (best : Option ipv4_prefix) (p : ipv4_prefix)
    (hc : covers p a) :
    (lpm_step a best p).map len_hop = insert_level p.netmask p.next_hop (best.map len_hop) := by
  unfold lpm_step
  rw [if_pos hc]
  cases best with
  | none => rfl
  | some b =>
    simp only [Option.map, insert_level, len_hop]
    by_cases h : b.netmask ≤ p.netmask
    · rw [if_pos h, if_pos h]
    · rw [if_neg h, if_neg h]

theorem lpm_step_not_covers (a : Nat) (best : Option ipv4_prefix) (p : ipv4_prefix)
    (hc : ¬ covers p a) : lpm_step a best p = best := by
  unfold lpm_step
  rw [if_neg hc]

theorem level_step (a : Nat) (ha : a < U32) (p : ipv4_prefix)
    (hv : p.netmask = 0 ∨ p.netmask = 20 ∨ p.netmask = 24 ∨ p.netmask = 32)
    (hnz : p.netmask = 20 → p.next_hop ≠ 0) (hc : canonical p)
    (o2 o1 : Option Nat) (d : Nat) (df : Option Nat) (best : Option ipv4_prefix)
    (h : level_of o2 o1 d df = best.map len_hop) :
    level_of (if p.netmask = 32 ∧ a = p.key then some p.next_hop else o2)
        (if p.netmask = 24 ∧ a &&& 0xffffff00 = p.key then some p.next_hop else o1)
        (if p.netmask = 20 ∧ a >>> 12 = p.key >>> 12 then p.next_hop else d)
        (if p.netmask = 0 then some p.next_hop else df)
      = (lpm_step a best p).map len_hop := by
  rcases hv with h0 | h20 | h24 | h32
  · have hcov := covers_0 p a h0 hc ha
    rw [lpm_step_covers a best p hcov, ← h, h0]
    simp only [Nat.reduceEqDiff, false_and, if_false, if_true]
    exact level_insert_0 _ _ _ _ _
  · have hcv := covers_20 p a h20
    rw [h20]
    simp only [Nat.reduceEqDiff, false_and, if_false, true_and]
    by_cases hcov : covers p a
    · rw [lpm_step_covers a best p hcov, ← h, h20, if_pos (hcv.1 hcov)]
      exact level_insert_20 _ (hnz h20) _ _ _ _
    · rw [lpm_step_not_covers a best p hcov, ← h, if_neg (fun hh => hcov (hcv.2 hh))]
  · have hcv := covers_24 p a h24 hc ha
    rw [h24]
    simp only [Nat.reduceEqDiff, false_and, if_false, true_and]
    by_cases hcov : covers p a
    · rw [lpm_step_covers a best p hcov, ← h, h24, if_pos (hcv.1 hcov)]
      exact level_insert_24 _ _ _ _ _
    · rw [lpm_step_not_covers a best p hcov, ← h, if_neg (fun hh => hcov (hcv.2 hh))]
  · have hcv := covers_32 p a h32
    rw [h32]
    simp only [Nat.reduceEqDiff, false_and, if_false, true_and]
    by_cases hcov : covers p a
    · rw [lpm_step_covers a best p hcov, ← h, h32, if_pos (hcv.1 hcov)]
      exact level_insert_32 _ _ _ _ _
    · rw [lpm_step_not_covers a best p hcov, ← h, if_neg (fun hh => hcov (hcv.2 hh))]



theorem gen_store_succeeds (H : Nat → Nat) (idxs : Nat → Nat → Nat → Nat)
    (t : forwarding_table) (p : ipv4_prefix) (hall : allocated t) (h32 : p.netmask ≤ 32) :
    ∃ r, gen_store H idxs t (some p) = .ok r := by
  obtain ⟨bf0, bf1, ht0, ht1, hb0, hb1, hh0, hh1, _, _⟩ := hall
  by_cases h0 : p.netmask = 0
  · exact ⟨_, gen_store_default H idxs t p h0⟩
  · by_cases h20 : p.netmask = 20
    · exact ⟨_, gen_store_dla H idxs t p h20⟩
    · rcases bloom_filter_id_lt p with hid | hid
      · exact ⟨_, gen_store_class H idxs t p h0 h20 h32 bf0 ht0 (by rw [hid]; exact hb0)
          (by rw [hid]; exact hh0)⟩
      · exact ⟨_, gen_store_class H idxs t p h0 h20 h32 bf1 ht1 (by rw [hid]; exact hb1)
          (by rw [hid]; exact hh1)⟩

/-- What the four stages hold after a store of a prefix of one of the four
expected lengths. -/
theorem gen_store_observe (H : Nat → Nat) (idxs : Nat → Nat → Nat → Nat)
    (t : forwarding_table) (p : ipv4_prefix) (r : Bool × forwarding_table)
    (h : gen_store H idxs t (some p) = .ok r)
    (hv : p.netmask = 0 ∨ p.netmask = 20 ∨ p.netmask = 24 ∨ p.netmask = 32)
    (ht0 ht1 : hash_table Nat) (hh0 : t.hash_tables 0 = some ht0)
    (hh1 : t.hash_tables 1 = some ht1) :
    ∃ ht0' ht1', r.2.hash_tables 0 = some ht0' ∧ r.2.hash_tables 1 = some ht1'
      ∧ (∀ k, ht_get H ht0' k
          = if p.netmask = 32 ∧ k = p.key then some p.next_hop else ht_get H ht0 k)
      ∧ (∀ k, ht_get H ht1' k
          = if p.netmask = 24 ∧ k = p.key then some p.next_hop else ht_get H ht1 k)
      ∧ (∀ i, r.2.dla i
          = if p.netmask = 20 ∧ i = p.key >>> 12 then p.next_hop else t.dla i)
      ∧ r.2.default_route.map (fun d => d.next_hop)
          = if p.netmask = 0 then some p.next_hop
            else t.default_route.map (fun d => d.next_hop) := by
  obtain ⟨p', hp, _, hc⟩ := gen_store_ok H idxs t (some p) r h
  cases hp
  rcases hc with ⟨h0, hr⟩ | ⟨h20, hr⟩ | ⟨h0, h20, bf, ht, hbf, hht, hr⟩
  · obtain ⟨e1, _, e3, e4⟩ := set_default_route_fields t p.next_hop
    rw [hr, e1, e3, e4]
    refine ⟨ht0, ht1, hh0, hh1, ?_, ?_, ?_, ?_⟩
    · intro k; simp [h0]
    · intro k; simp [h0]
    · intro i; simp [h0]
    · simp [h0]
  · rw [hr]
    refine ⟨ht0, ht1, hh0, hh1, ?_, ?_, ?_, ?_⟩
    · intro k; simp [h20]
    · intro k; simp [h20]
    · intro i
      dsimp only
      by_cases hi : i = p.key >>> 12
      · rw [hi, Function.update_same]; simp [h20]
      · rw [Function.update_noteq hi]; simp [hi]
    · simp [h20]
  · rw [hr]
    dsimp only
    rcases hv with hv | hv | hv | hv
    · exact absurd hv h0
    · exact absurd hv h20
    · have hid : bloom_filter_id p = 1 := by unfold bloom_filter_id; simp [hv]
      rw [hid] at hbf hht ⊢
      rw [hh1] at hht
      cases hht
      refine ⟨ht0, (store_next_hop H ht1 p.key p.next_hop).2, ?_, ?_, ?_, ?_, ?_, ?_⟩
      · rw [Function.update_noteq Nat.zero_ne_one]; exact hh0
      · rw [Function.update_same]
      · intro k; simp [hv]
      · intro k; rw [ht_get_store]; simp [hv]
      · intro i; simp [hv]
      · simp [hv]
    · have hid : bloom_filter_id p = 0 := by unfold bloom_filter_id; simp [hv]
      rw [hid] at hbf hht ⊢
      rw [hh0] at hht
      cases hht
      refine ⟨(store_next_hop H ht0 p.key p.next_hop).2, ht1, ?_, ?_, ?_, ?_, ?_, ?_⟩
      · rw [Function.update_same]
      · rw [Function.update_noteq Nat.one_ne_zero]; exact hh1
      · intro k; rw [ht_get_store]; simp [hv]
      · intro k; simp [hv]
      · intro i; simp [hv]
      · simp [hv]

theorem cascade_eq_level (g2 g1 : Nat → Option Nat) (t : forwarding_table) (a : Nat) :
    cascade g2 g1 t a
      = (level_of (g2 a) (g1 (a &&& 0xffffff00)) (t.dla (a >>> 12))
          (t.default_route.map (fun d => d.next_hop))).map (fun x => x.2) := by
  unfold cascade level_of
  cases g2 a with
  | some v => rfl
  | none =>
    cases g1 (a &&& 0xffffff00) with
    | some v => rfl
    | none =>
      by_cases hd : t.dla (a >>> 12) = 0
      · simp only [hd, ne_eq, not_true_eq_false, if_false]
        cases t.default_route <;> rfl
      · simp [hd]

/-- The build phase keeps the level under an address equal to the longest
prefix match over the prefixes stored so far. -/
theorem gen_store_all_level (H : Nat → Nat) (idxs : Nat → Nat → Nat → Nat)
    (a : Nat) (ha : a < U32) (ps : List ipv4_prefix)
    (hps : ∀ p ∈ ps, (p.netmask = 0 ∨ p.netmask = 20 ∨ p.netmask = 24 ∨ p.netmask = 32)
      ∧ (p.netmask = 20 → p.next_hop ≠ 0) ∧ canonical p)
    (t : forwarding_table) (best : Option ipv4_prefix) (hall : allocated t)
    (ht0 ht1 : hash_table Nat) (hh0 : t.hash_tables 0 = some ht0)
    (hh1 : t.hash_tables 1 = some ht1)
    (hlev : level_of (ht_get H ht0 a) (ht_get H ht1 (a &&& 0xffffff00)) (t.dla (a >>> 12))
      (t.default_route.map (fun d => d.next_hop)) = best.map len_hop) :
    ∃ t' ht0' ht1', gen_store_all H idxs t (ps.map some) = .ok t'
      ∧ t'.hash_tables 0 = some ht0' ∧ t'.hash_tables 1 = some ht1'
      ∧ level_of (ht_get H ht0' a) (ht_get H ht1' (a &&& 0xffffff00)) (t'.dla (a >>> 12))
          (t'.default_route.map (fun d => d.next_hop))
        = (ps.foldl (lpm_step a) best).map len_hop := by
  induction ps generalizing t best ht0 ht1 with
  | nil => exact ⟨t, ht0, ht1, rfl, hh0, hh1, hlev⟩
  | cons p rest ih =>
    obtain ⟨hv, hnz, hcan⟩ := hps p (List.mem_cons_self _ _)
    have h32 : p.netmask ≤ 32 := by rcases hv with h | h | h | h <;> omega
    obtain ⟨r, hr⟩ := gen_store_succeeds H idxs t p hall h32
    obtain ⟨ht0', ht1', e0, e1, o0, o1, od, odf⟩ :=
      gen_store_observe H idxs t p r hr hv ht0 ht1 hh0 hh1
    have hstep := level_step a ha p hv hnz hcan _ _ _ _ best hlev
    have hlev' : level_of (ht_get H ht0' a) (ht_get H ht1' (a &&& 0xffffff00))
        (r.2.dla (a >>> 12)) (r.2.default_route.map (fun d => d.next_hop))
        = (lpm_step a best p).map len_hop := by
      rw [o0, o1, od, odf]
      exact hstep
    obtain ⟨t', h0'', h1'', hs, f0, f1, fl⟩ :=
      ih (fun q hq => hps q (List.mem_cons_of_mem _ hq)) r.2 (lpm_step a best p)
        (gen_store_allocated H idxs t (some p) r hall hr) ht0' ht1' e0 e1 hlev'
    refine ⟨t', h0'', h1'', ?_, f0, f1, ?_⟩
    · rw [List.map_cons]
      unfold gen_store_all
      rw [hr]
      exact hs
    · rw [List.foldl_cons]
      exact fl



/-! ## Longest-prefix match -/

/-- Longest-prefix match for the common shape of the two IPv4 variants. -/
theorem gen_lookup_lpm (H : Nat → Nat) (idxs : Nat → Nat → Nat → Nat)
    (P : counting_bloom_filter → Nat → Bool) (hP : probe_sound idxs P)
    (sizing : Nat → Nat × Nat) (dist : List (Nat × Nat)) (hw : well_sized sizing dist)
    (ps : List ipv4_prefix)
    (hps : ∀ p ∈ ps, (p.netmask = 0 ∨ p.netmask = 20 ∨ p.netmask = 24 ∨ p.netmask = 32)
      ∧ (p.netmask = 20 → p.next_hop ≠ 0) ∧ canonical p) :
    ∃ t, gen_store_all H idxs (new_forwarding_table sizing dist) (ps.map some) = .ok t
      ∧ ∀ a nh0, a < U32 →
          gen_lookup H P t a nh0 = .ok (as_result ((lpm ps a).map (fun p => p.next_hop))) := by
  obtain ⟨hall, hbl, hdf, hdla, hemp⟩ := new_forwarding_table_inv H P sizing dist hw
  have hall0 := hall
  obtain ⟨bf0, bf1, ht0, ht1, hb0, hb1, hh0, hh1, hn0, hn1⟩ := hall0
  have hlev0 : ∀ a, level_of (ht_get H ht0 a) (ht_get H ht1 (a &&& 0xffffff00))
      ((new_forwarding_table sizing dist).dla (a >>> 12))
      ((new_forwarding_table sizing dist).default_route.map (fun d => d.next_hop))
      = (none : Option ipv4_prefix).map len_hop := by
    intro a
    rw [hemp 0 ht0 hh0, hemp 1 ht1 hh1, hdla, hdf]
    rfl
  obtain ⟨t, _, _, hst, _, _, _⟩ :=
    gen_store_all_level H idxs 0 (by decide) ps hps _ none hall ht0 ht1 hh0 hh1 (hlev0 0)
  refine ⟨t, hst, ?_⟩
  intro a nh0 ha
  obtain ⟨t', ht0', ht1', hst', e0, e1, hl⟩ :=
    gen_store_all_level H idxs a ha ps hps _ none hall ht0 ht1 hh0 hh1 (hlev0 a)
  rw [hst] at hst'
  cases hst'
  obtain ⟨hall', hbl'⟩ := gen_store_all_inv H idxs P hP _ _ t hall hbl hst
  obtain ⟨g0, g1, f0, f1, hlook⟩ := gen_lookup_eq H P t a nh0 hall' hbl'
  rw [e0] at f0
  rw [e1] at f1
  cases f0
  cases f1
  rw [hlook, cascade_eq_level, hl]
  unfold lpm
  cases List.foldl (lpm_step a) none ps <;> rfl

/-- **C1** IPv4 longest-prefix match.  For a table returned by
`new_forwarding_table` with both classes sized, and prefixes with canonical
keys, non-zero next hops and lengths in {0, 20, 24, 32}, the build phase
succeeds and `lookup_address` returns, for every 32-bit address, a hit with the
next hop of the longest stored prefix covering the address (the one stored last
among equals, the default route when only the length-0 prefix covers it), and a
miss exactly when no stored prefix covers it.  Proved for v4-coop under every
hash configuration and for the baseline under every `rand_r`. -/
theorem lookup_address_longest_prefix_match (sizing : Nat → Nat × Nat)
    (dist : List (Nat × Nat)) (hw : well_sized sizing dist) (ps : List ipv4_prefix)
    (hps : ∀ p ∈ ps, (p.netmask = 0 ∨ p.netmask = 20 ∨ p.netmask = 24 ∨ p.netmask = 32)
      ∧ p.next_hop ≠ 0 ∧ canonical p) :
    (∀ cfg, ∃ t,
      V4coop.store_prefixes cfg (new_forwarding_table sizing dist) (ps.map some) = .ok t
      ∧ ∀ a nh0, a < U32 →
          V4coop.lookup_address cfg t a nh0
            = .ok (as_result ((lpm ps a).map (fun p => p.next_hop))))
    ∧ (∀ rand_r, ∃ t,
      Baseline.store_prefixes rand_r (new_forwarding_table sizing dist) (ps.map some) = .ok t
      ∧ ∀ a nh0, a < U32 →
          Baseline.lookup_address rand_r t a nh0
            = .ok (as_result ((lpm ps a).map (fun p => p.next_hop)))) := by
  have hps' : ∀ p ∈ ps, (p.netmask = 0 ∨ p.netmask = 20 ∨ p.netmask = 24 ∨ p.netmask = 32)
      ∧ (p.netmask = 20 → p.next_hop ≠ 0) ∧ canonical p :=
    fun p hp => ⟨(hps p hp).1, fun _ => (hps p hp).2.1, (hps p hp).2.2⟩
  constructor
  · intro cfg
    obtain ⟨t, hst, hl⟩ := gen_lookup_lpm _ _ _ (V4coop.probe_sound_coop cfg) sizing dist hw
      ps hps'
    refine ⟨t, ?_, ?_⟩
    · rw [V4coop.store_prefixes_eq_gen]; exact hst
    · intro a nh0 ha
      rw [V4coop.lookup_address_eq_gen]
      exact hl a nh0 ha
  · intro rand_r
    obtain ⟨t, hst, hl⟩ := gen_lookup_lpm _ _ _ (Baseline.probe_sound_baseline rand_r) sizing
      dist hw ps hps'
    refine ⟨t, ?_, ?_⟩
    · rw [Baseline.bl_store_prefixes_eq_gen]; exact hst
    · intro a nh0 ha
      rw [Baseline.bl_lookup_address_eq_gen]
      exact hl a nh0 ha

theorem demo_prefixes_valid :
    ∀ p ∈ demo_prefixes,
      (p.netmask = 0 ∨ p.netmask = 20 ∨ p.netmask = 24 ∨ p.netmask = 32)
      ∧ p.next_hop ≠ 0 ∧ canonical p := by
  decide

/-- C1 at the concrete build `demo_table`: `192.168.1.1` resolves to the /24
prefix, next hop 9. -/
theorem lookup_address_longest_prefix_match_witness :
    well_sized demo_sizing demo_dist
    ∧ (∀ p ∈ demo_prefixes,
        (p.netmask = 0 ∨ p.netmask = 20 ∨ p.netmask = 24 ∨ p.netmask = 32)
        ∧ p.next_hop ≠ 0 ∧ canonical p)
    ∧ V4coop.lookup_address demo_cfg demo_table 0xC0A80101 0
        = .ok (as_result ((lpm demo_prefixes 0xC0A80101).map (fun p => p.next_hop)))
    ∧ as_result ((lpm demo_prefixes 0xC0A80101).map (fun p => p.next_hop)) = (true, 9) := by
  refine ⟨demo_well_sized, demo_prefixes_valid, ?_, by decide⟩
  obtain ⟨t, hst, hl⟩ := (lookup_address_longest_prefix_match demo_sizing demo_dist
    demo_well_sized demo_prefixes demo_prefixes_valid).1 demo_cfg
  rw [demo_table_built] at hst
  cases hst
  exact hl _ _ (by decide)



/-! ## No false negatives -/

theorem probe_mono (idxs : Nat → Nat → Nat → Nat) (P : counting_bloom_filter → Nat → Bool)
    (hP : probe_sound idxs P) (bf bf' : counting_bloom_filter)
    (hn : bf'.num_hashes = bf.num_hashes) (hl : bf'.bitmap_len = bf.bitmap_len)
    (hpos : 0 < bf.num_hashes) (hm : ∀ x, bf.bitmap x = true → bf'.bitmap x = true)
    (k : Nat) (hk : P bf k = true) : P bf' k = true := by
  have hpos' : 0 < bf'.num_hashes := by rw [hn]; exact hpos
  rw [hP bf' k hpos']
  rw [hP bf k hpos] at hk
  intro i hi
  rw [hn] at hi ⊢
  rw [hl]
  exact hm _ (hk i hi)

/-- Any successful store leaves every hash table in place and removes no
key. -/
theorem gen_store_keeps_ht (H : Nat → Nat) (idxs : Nat → Nat → Nat → Nat)
    (t : forwarding_table) (pfx : Option ipv4_prefix) (r : Bool × forwarding_table)
    (h : gen_store H idxs t pfx = .ok r) (id : Nat) (ht : hash_table Nat)
    (hht : t.hash_tables id = some ht) :
    ∃ ht', r.2.hash_tables id = some ht'
      ∧ ∀ k, (ht_get H ht k).isSome = true → (ht_get H ht' k).isSome = true := by
  obtain ⟨p, _, _, hc⟩ := gen_store_ok H idxs t pfx r h
  rcases hc with ⟨_, hr⟩ | ⟨_, hr⟩ | ⟨_, _, bf1, ht1, hbf1, hht1, hr⟩
  · obtain ⟨_, _, e3, _⟩ := set_default_route_fields t p.next_hop
    rw [hr, e3]
    exact ⟨ht, hht, fun _ hk => hk⟩
  · rw [hr]
    exact ⟨ht, hht, fun _ hk => hk⟩
  · rw [hr]
    dsimp only
    by_cases hid : id = bloom_filter_id p
    · subst hid
      rw [hht] at hht1
      cases hht1
      refine ⟨(store_next_hop H ht p.key p.next_hop).2, by simp, ?_⟩
      intro k hk
      rw [ht_get_store]
      by_cases hkk : k = p.key
      · rw [if_pos hkk]; rfl
      · rw [if_neg hkk]; exact hk
    · refine ⟨ht, ?_, fun _ hk => hk⟩
      rw [Function.update_noteq hid]; exact hht

/-- The outcome of one class query on an allocated class, whatever the
filter holds. -/
theorem gen_query_cases (H : Nat → Nat) (P : counting_bloom_filter → Nat → Bool)
    (t : forwarding_table) (id k nh0 : Nat) (bf : counting_bloom_filter) (ht : hash_table Nat)
    (hbf : t.counting_bloom_filters id = some bf) (hht : t.hash_tables id = some ht) :
    ∃ r, gen_query H P t id k nh0 = .ok r
      ∧ ((r.1 = true ∧ ht_get H ht k = some r.2)
        ∨ (r = (false, nh0) ∧ ¬ (P bf k = true ∧ (ht_get H ht k).isSome = true))) := by
  unfold gen_query
  rw [hbf, hht]
  simp only [deref, bind, Except.bind, pure, Except.pure]
  by_cases hp : P bf k = true
  · rw [if_pos hp, find_next_hop_eq]
    cases hg : ht_get H ht k with
    | none => exact ⟨_, rfl, Or.inr ⟨rfl, fun hc => by simp at hc⟩⟩
    | some v => exact ⟨_, rfl, Or.inl ⟨rfl, rfl⟩⟩
  · rw [if_neg hp]
    exact ⟨_, rfl, Or.inr ⟨rfl, fun hc => hp hc.1⟩⟩

theorem lookup_tail_found (t : forwarding_table) (a : Nat) (r : Bool × Nat)
    (h : r.1 = true) : lookup_tail t a r = r := by
  unfold lookup_tail
  simp [h]

theorem lookup_tail_miss_dla (t : forwarding_table) (a nh : Nat)
    (hd : t.dla (a >>> 12) ≠ 0) :
    lookup_tail t a (false, nh) = (true, t.dla (a >>> 12)) := by
  unfold lookup_tail
  simp [hd]

theorem lookup_tail_miss_default (t : forwarding_table) (a nh : Nat) (d : ipv4_prefix)
    (hd : t.dla (a >>> 12) = 0) (hdf : t.default_route = some d) :
    lookup_tail t a (false, nh) = (true, d.next_hop) := by
  unfold lookup_tail
  simp [hd, hdf]

theorem lookup_tail_miss_none (t : forwarding_table) (a nh : Nat)
    (hd : t.dla (a >>> 12) = 0) (hdf : t.default_route = none) :
    lookup_tail t a (false, nh) = (false, 0) := by
  unfold lookup_tail
  simp [hd, hdf]

/-- The outcome of a lookup on a table with both classes allocated, whatever
the filters hold: the stage that answered, and that no earlier stage could. -/
theorem gen_lookup_cases (H : Nat → Nat) (P : counting_bloom_filter → Nat → Bool)
    (t : forwarding_table) (a nh0 : Nat) (bf0 bf1 : counting_bloom_filter)
    (ht0 ht1 : hash_table Nat)
    (hb0 : t.counting_bloom_filters 0 = some bf0) (hb1 : t.counting_bloom_filters 1 = some bf1)
    (hh0 : t.hash_tables 0 = some ht0) (hh1 : t.hash_tables 1 = some ht1) :
    ∃ r, gen_lookup H P t a nh0 = .ok r
      ∧ ((r.1 = true ∧ ht_get H ht0 a = some r.2)
        ∨ (¬ (P bf0 a = true ∧ (ht_get H ht0 a).isSome = true)
          ∧ ((r.1 = true ∧ ht_get H ht1 (a &&& 0xffffff00) = some r.2)
            ∨ (¬ (P bf1 (a &&& 0xffffff00) = true
                  ∧ (ht_get H ht1 (a &&& 0xffffff00)).isSome = true)
              ∧ ((r.1 = true ∧ t.dla (a >>> 12) = r.2 ∧ r.2 ≠ 0)
                ∨ (t.dla (a >>> 12) = 0
                  ∧ ((r.1 = true ∧ t.default_route.map (fun d => d.next_hop) = some r.2)
                    ∨ (r.1 = false ∧ t.default_route = none)))))))) := by
  unfold gen_lookup
  obtain ⟨r0, hq0, hc0⟩ := gen_query_cases H P t 0 a nh0 bf0 ht0 hb0 hh0
  rw [hq0]
  simp only [bind, Except.bind, pure, Except.pure]
  rcases hc0 with ⟨hf, hg⟩ | ⟨hr, hno⟩
  · have e : (!r0.1) = false := by rw [hf]; rfl
    rw [e]
    simp only [Bool.false_eq_true, if_false]
    refine ⟨lookup_tail t a r0, rfl, Or.inl ?_⟩
    rw [lookup_tail_found t a r0 hf]
    exact ⟨hf, hg⟩
  · subst hr
    simp only [Bool.not_false, if_true]
    obtain ⟨r1, hq1, hc1⟩ := gen_query_cases H P t 1 (a &&& 0xffffff00) nh0 bf1 ht1 hb1 hh1
    rw [hq1]
    refine ⟨lookup_tail t a r1, rfl, Or.inr ⟨hno, ?_⟩⟩
    rcases hc1 with ⟨hf, hg⟩ | ⟨hr, hno1⟩
    · left
      rw [lookup_tail_found t a r1 hf]
      exact ⟨hf, hg⟩
    · subst hr
      right
      refine ⟨hno1, ?_⟩
      by_cases hd : t.dla (a >>> 12) = 0
      · right
        refine ⟨hd, ?_⟩
        cases hdf : t.default_route with
        | none =>
          right
          rw [lookup_tail_miss_none t a nh0 hd hdf]
          exact ⟨rfl, rfl⟩
        | some d =>
          left
          rw [lookup_tail_miss_default t a nh0 d hd hdf]
          exact ⟨rfl, rfl⟩
      · left
        rw [lookup_tail_miss_dla t a nh0 hd]
        exact ⟨rfl, rfl, hd⟩

/-- With the entry of some stage in place, the lookup is a hit. -/
theorem gen_lookup_found (H : Nat → Nat) (P : counting_bloom_filter → Nat → Bool)
    (t : forwarding_table) (a nh0 n : Nat) (hall : allocated t)
    (hs : stage_holds H P t n a) : ∃ nh, gen_lookup H P t a nh0 = .ok (true, nh) := by
  obtain ⟨bf0, bf1, ht0, ht1, hb0, hb1, hh0, hh1, _, _⟩ := hall
  obtain ⟨r, hr, hc⟩ := gen_lookup_cases H P t a nh0 bf0 bf1 ht0 ht1 hb0 hb1 hh0 hh1
  have key : r.1 = true → ∃ nh, gen_lookup H P t a nh0 = .ok (true, nh) := by
    intro hf
    refine ⟨r.2, ?_⟩
    rw [hr, ← hf]
  rcases hc with ⟨hf, _⟩ | ⟨hno0, hc⟩
  · exact key hf
  · rcases hc with ⟨hf, _⟩ | ⟨hno1, hc⟩
    · exact key hf
    · rcases hc with ⟨hf, _⟩ | ⟨hd, hc⟩
      · exact key hf
      · rcases hc with ⟨hf, _⟩ | ⟨_, hdf⟩
        · exact key hf
        · exfalso
          rcases hs with ⟨_, bf, ht, e1, e2, e3, e4⟩ | ⟨_, bf, ht, e1, e2, e3, e4⟩ | ⟨_, e⟩ | ⟨_, e⟩
          · rw [hb0] at e1; rw [hh0] at e2; cases e1; cases e2
            exact hno0 ⟨e3, e4⟩
          · rw [hb1] at e1; rw [hh1] at e2; cases e1; cases e2
            exact hno1 ⟨e3, e4⟩
          · exact e hd
          · rw [hdf] at e; cases e



/-- Storing a prefix of one of the four expected lengths puts the entry of its
stage in place for every address it covers. -/
theorem stage_after_store (H : Nat → Nat) (idxs : Nat → Nat → Nat → Nat)
    (P : counting_bloom_filter → Nat → Bool) (hP : probe_sound idxs P)
    (t : forwarding_table) (p : ipv4_prefix) (r : Bool × forwarding_table)
    (hall : allocated t) (h : gen_store H idxs t (some p) = .ok r)
    (hv : p.netmask = 0 ∨ p.netmask = 20 ∨ p.netmask = 24 ∨ p.netmask = 32)
    (hnz : p.netmask = 20 → p.next_hop ≠ 0) (hcan : canonical p)
    (a : Nat) (ha : a < U32) (hcov : covers p a) :
    stage_holds H P r.2 p.netmask a := by
  have hall' := gen_store_allocated H idxs t (some p) r hall h
  obtain ⟨bf0, bf1, ht0, ht1, hb0, hb1, hh0, hh1, hn0, hn1⟩ := hall
  obtain ⟨ht0', ht1', e0, e1, o0, o1, od, odf⟩ :=
    gen_store_observe H idxs t p r h hv ht0 ht1 hh0 hh1
  rcases hv with h0 | h20 | h24 | h32
  · right; right; right
    refine ⟨h0, ?_⟩
    rw [h0] at odf
    simp only [if_true] at odf
    cases hd : r.2.default_route with
    | none => rw [hd] at odf; cases odf
    | some d => rfl
  · right; right; left
    refine ⟨h20, ?_⟩
    rw [od, if_pos ⟨h20, (covers_20 p a h20).1 hcov⟩]
    exact hnz h20
  · right; left
    refine ⟨h24, ?_⟩
    have hkey := (covers_24 p a h24 hcan ha).1 hcov
    have h0 : p.netmask ≠ 0 := by omega
    have h20 : p.netmask ≠ 20 := by omega
    obtain ⟨bf, hbf, hc⟩ := gen_store_marks H idxs t p r h h0 h20
    have hid : bloom_filter_id p = 1 := by unfold bloom_filter_id; simp [h24]
    rw [hid] at hbf
    obtain ⟨bf1', hb1', hn1', _, _⟩ := gen_store_keeps H idxs t (some p) r h 1 bf1 hb1
    rw [hbf] at hb1'
    cases hb1'
    refine ⟨bf, ht1', hbf, e1, ?_, ?_⟩
    · rw [hkey, hP bf p.key (by rw [hn1']; exact hn1)]
      exact hc
    · rw [o1, if_pos ⟨h24, hkey⟩]; rfl
  · left
    refine ⟨h32, ?_⟩
    have hkey := (covers_32 p a h32).1 hcov
    have h0 : p.netmask ≠ 0 := by omega
    have h20 : p.netmask ≠ 20 := by omega
    obtain ⟨bf, hbf, hc⟩ := gen_store_marks H idxs t p r h h0 h20
    have hid : bloom_filter_id p = 0 := by unfold bloom_filter_id; simp [h32]
    rw [hid] at hbf
    obtain ⟨bf0', hb0', hn0', _, _⟩ := gen_store_keeps H idxs t (some p) r h 0 bf0 hb0
    rw [hbf] at hb0'
    cases hb0'
    refine ⟨bf, ht0', hbf, e0, ?_, ?_⟩
    · rw [hkey, hP bf p.key (by rw [hn0']; exact hn0)]
      exact hc
    · rw [o0, if_pos ⟨h32, hkey⟩]; rfl

/-- Later stores leave the entry of a stage in place, as long as no length-20
prefix with a zero next hop is stored. -/
theorem stage_keeps (H : Nat → Nat) (idxs : Nat → Nat → Nat → Nat)
    (P : counting_bloom_filter → Nat → Bool) (hP : probe_sound idxs P)
    (t : forwarding_table) (pfx : Option ipv4_prefix) (r : Bool × forwarding_table)
    (hall : allocated t) (h : gen_store H idxs t pfx = .ok r)
    (hnz : ∀ q, pfx = some q → q.netmask = 20 → q.next_hop ≠ 0)
    (n a : Nat) (hs : stage_holds H P t n a) : stage_holds H P r.2 n a := by
  rcases hs with ⟨hn, bf, ht, e1, e2, e3, e4⟩ | ⟨hn, bf, ht, e1, e2, e3, e4⟩ | ⟨hn, e⟩ | ⟨hn, e⟩
  · left
    obtain ⟨bf', hb', hn', hl', hm'⟩ := gen_store_keeps H idxs t pfx r h 0 bf e1
    obtain ⟨ht', hh', hk'⟩ := gen_store_keeps_ht H idxs t pfx r h 0 ht e2
    have hpos := allocated_num_hashes t hall 0 (Or.inl rfl) bf e1
    exact ⟨hn, bf', ht', hb', hh', probe_mono idxs P hP bf bf' hn' hl' hpos hm' _ e3, hk' _ e4⟩
  · right; left
    obtain ⟨bf', hb', hn', hl', hm'⟩ := gen_store_keeps H idxs t pfx r h 1 bf e1
    obtain ⟨ht', hh', hk'⟩ := gen_store_keeps_ht H idxs t pfx r h 1 ht e2
    have hpos := allocated_num_hashes t hall 1 (Or.inr rfl) bf e1
    exact ⟨hn, bf', ht', hb', hh', probe_mono idxs P hP bf bf' hn' hl' hpos hm' _ e3, hk' _ e4⟩
  · right; right; left
    refine ⟨hn, ?_⟩
    obtain ⟨p, hp, _, hc⟩ := gen_store_ok H idxs t pfx r h
    rcases hc with ⟨_, hr⟩ | ⟨h20, hr⟩ | ⟨_, _, bf1, ht1, _, _, hr⟩
    · obtain ⟨e1, _, _, _⟩ := set_default_route_fields t p.next_hop
      rw [hr, e1]; exact e
    · rw [hr]
      dsimp only
      by_cases hi : a >>> 12 = p.key >>> 12
      · rw [hi, Function.update_same]
        exact hnz p hp h20
      · rw [Function.update_noteq hi]; exact e
    · rw [hr]; exact e
  · right; right; right
    refine ⟨hn, ?_⟩
    obtain ⟨p, hp, _, hc⟩ := gen_store_ok H idxs t pfx r h
    rcases hc with ⟨_, hr⟩ | ⟨h20, hr⟩ | ⟨_, _, bf1, ht1, _, _, hr⟩
    · obtain ⟨_, _, _, e4⟩ := set_default_route_fields t p.next_hop
      rw [hr]
      cases hd : (set_default_route t p.next_hop).2.default_route with
      | none => rw [hd] at e4; cases e4
      | some d => rfl
    · rw [hr]; exact e
    · rw [hr]; exact e

theorem stage_keeps_all (H : Nat → Nat) (idxs : Nat → Nat → Nat → Nat)
    (P : counting_bloom_filter → Nat → Bool) (hP : probe_sound idxs P)
    (ps : List (Option ipv4_prefix)) (t t' : forwarding_table)
    (hall : allocated t) (h : gen_store_all H idxs t ps = .ok t')
    (hnz : ∀ q, some q ∈ ps → q.netmask = 20 → q.next_hop ≠ 0)
    (n a : Nat) (hs : stage_holds H P t n a) :
    allocated t' ∧ stage_holds H P t' n a := by
  induction ps generalizing t with
  | nil =>
    unfold gen_store_all at h
    cases h
    exact ⟨hall, hs⟩
  | cons pfx rest ih =>
    unfold gen_store_all at h
    cases hst : gen_store H idxs t pfx with
    | error e => rw [hst] at h; cases h
    | ok r =>
      rw [hst] at h
      exact ih r.2 (gen_store_allocated H idxs t pfx r hall hst) h
        (fun q hq => hnz q (List.mem_cons_of_mem _ hq))
        (stage_keeps H idxs P hP t pfx r hall hst
          (fun q hq => hnz q (by rw [hq]; exact List.mem_cons_self _ _)) n a hs)

/-- Right after a prefix is stored, an address it covers resolves to its next
hop or to a hit of an earlier stage. -/
theorem gen_lookup_after_store (H : Nat → Nat) (idxs : Nat → Nat → Nat → Nat)
    (P : counting_bloom_filter → Nat → Bool) (hP : probe_sound idxs P)
    (t : forwarding_table) (p : ipv4_prefix) (r : Bool × forwarding_table)
    (hall : allocated t) (h : gen_store H idxs t (some p) = .ok r)
    (hv : p.netmask = 0 ∨ p.netmask = 20 ∨ p.netmask = 24 ∨ p.netmask = 32)
    (hnz : p.netmask = 20 → p.next_hop ≠ 0) (hcan : canonical p)
    (a nh0 : Nat) (ha : a < U32) (hcov : covers p a) :
    ∃ nh, gen_lookup H P r.2 a nh0 = .ok (true, nh)
      ∧ (nh = p.next_hop ∨ longer_hit H r.2 p.netmask a nh) := by
  have hs := stage_after_store H idxs P hP t p r hall h hv hnz hcan a ha hcov
  have hall' := gen_store_allocated H idxs t (some p) r hall h
  obtain ⟨bf0, bf1, ht0, ht1, hb0, hb1, hh0, hh1, hn0, hn1⟩ := hall
  obtain ⟨ht0', ht1', e0, e1, o0, o1, od, odf⟩ :=
    gen_store_observe H idxs t p r h hv ht0 ht1 hh0 hh1
  obtain ⟨bf0', bf1', g0, g1, hb0', hb1', hh0', hh1', _, _⟩ := hall'
  rw [e0] at hh0'; rw [e1] at hh1'
  cases hh0'; cases hh1'
  obtain ⟨res, hres, hc⟩ := gen_lookup_cases H P r.2 a nh0 bf0' bf1' ht0' ht1' hb0' hb1' e0 e1
  -- the facts the stage of `p` gives
  have s32 : p.netmask = 32 → P bf0' a = true ∧ (ht_get H ht0' a).isSome = true := by
    intro hn
    rcases hs with ⟨_, bf, ht, x1, x2, x3, x4⟩ | ⟨c, _⟩ | ⟨c, _⟩ | ⟨c, _⟩
    · rw [hb0'] at x1; rw [e0] at x2; cases x1; cases x2; exact ⟨x3, x4⟩
    · omega
    · omega
    · omega
  have s24 : p.netmask = 24 → P bf1' (a &&& 0xffffff00) = true
      ∧ (ht_get H ht1' (a &&& 0xffffff00)).isSome = true := by
    intro hn
    rcases hs with ⟨c, _⟩ | ⟨_, bf, ht, x1, x2, x3, x4⟩ | ⟨c, _⟩ | ⟨c, _⟩
    · omega
    · rw [hb1'] at x1; rw [e1] at x2; cases x1; cases x2; exact ⟨x3, x4⟩
    · omega
    · omega
  have s20 : p.netmask = 20 → r.2.dla (a >>> 12) = p.next_hop ∧ p.next_hop ≠ 0 := by
    intro hn
    rw [od, if_pos ⟨hn, (covers_20 p a hn).1 hcov⟩]
    exact ⟨rfl, hnz hn⟩
  have s0 : p.netmask = 0 → r.2.default_route.map (fun d => d.next_hop) = some p.next_hop := by
    intro hn
    rw [odf, if_pos hn]
  have fin : res.1 = true → (res.2 = p.next_hop ∨ longer_hit H r.2 p.netmask a res.2) →
      ∃ nh, gen_lookup H P r.2 a nh0 = .ok (true, nh)
        ∧ (nh = p.next_hop ∨ longer_hit H r.2 p.netmask a nh) := by
    intro hf hx
    refine ⟨res.2, ?_, hx⟩
    rw [hres, ← hf]
  rcases hc with ⟨hf, hg⟩ | ⟨hno0, hc⟩
  · apply fin hf
    by_cases hn : p.netmask = 32
    · left
      rw [o0, if_pos ⟨hn, (covers_32 p a hn).1 hcov⟩] at hg
      exact (Option.some.inj hg).symm
    · right; left
      exact ⟨by rcases hv with h | h | h | h <;> omega, ht0', e0, hg⟩
  · have n32 : p.netmask ≠ 32 := fun hn => hno0 (s32 hn)
    rcases hc with ⟨hf, hg⟩ | ⟨hno1, hc⟩
    · apply fin hf
      by_cases hn : p.netmask = 24
      · left
        rw [o1, if_pos ⟨hn, (covers_24 p a hn hcan ha).1 hcov⟩] at hg
        exact (Option.some.inj hg).symm
      · right; right; left
        exact ⟨by rcases hv with h | h | h | h <;> omega, ht1', e1, hg⟩
    · have n24 : p.netmask ≠ 24 := fun hn => hno1 (s24 hn)
      rcases hc with ⟨hf, hg, hg0⟩ | ⟨hd, hc⟩
      · apply fin hf
        by_cases hn : p.netmask = 20
        · left
          rw [(s20 hn).1] at hg
          exact hg.symm
        · right; right; right
          exact ⟨by rcases hv with h | h | h | h <;> omega, hg, hg0⟩
      · have n20 : p.netmask ≠ 20 := fun hn => (s20 hn).2 (by rw [← (s20 hn).1]; exact hd)
        have h0 : p.netmask = 0 := by rcases hv with h | h | h | h <;> omega
        rcases hc with ⟨hf, hg⟩ | ⟨_, hdf⟩
        · apply fin hf
          left
          rw [s0 h0] at hg
          exact (Option.some.inj hg).symm
        · exfalso
          have := s0 h0
          rw [hdf] at this
          cases this



/-- **C4** (as amended) No false negatives, IPv4.  In a table with both
classes allocated, after `store_prefix` of a prefix of length 0, 20, 24 or 32
(canonical key, non-zero next hop when the length is 20), `lookup_address` of
every 32-bit address the prefix covers is a hit, with the prefix's next hop or
with the hit of a stage tried earlier (a longer match); and it is still a hit
after any further successful stores, provided none of them writes a zero next
hop at length 20. -/
theorem no_false_negatives (cfg : V4coop.config) (t t1 : forwarding_table)
    (p : ipv4_prefix) (created : Bool) (a nh0 : Nat) (hall : allocated t)
    (hst : V4coop.store_prefix cfg t (some p) = .ok (created, t1))
    (hv : p.netmask = 0 ∨ p.netmask = 20 ∨ p.netmask = 24 ∨ p.netmask = 32)
    (hnz : p.netmask = 20 → p.next_hop ≠ 0) (hcan : canonical p)
    (ha : a < U32) (hcov : covers p a) :
    (∃ nh, V4coop.lookup_address cfg t1 a nh0 = .ok (true, nh)
      ∧ (nh = p.next_hop
        ∨ longer_hit (V4coop.HASHTBL_HASH_FUNCTION cfg) t1 p.netmask a nh))
    ∧ ∀ ps t', V4coop.store_prefixes cfg t1 ps = .ok t' →
        (∀ q, some q ∈ ps → q.netmask = 20 → q.next_hop ≠ 0) →
        ∃ nh, V4coop.lookup_address cfg t' a nh0 = .ok (true, nh) := by
  rw [V4coop.store_prefix_eq_gen] at hst
  have hP := V4coop.probe_sound_coop cfg
  constructor
  · have := gen_lookup_after_store _ _ _ hP t p _ hall hst hv hnz hcan a nh0 ha hcov
    rw [V4coop.lookup_address_eq_gen]
    exact this
  · intro ps t' hps hq
    rw [V4coop.store_prefixes_eq_gen] at hps
    have hs := stage_after_store _ _ _ hP t p _ hall hst hv hnz hcan a ha hcov
    have hall1 := gen_store_allocated _ _ t (some p) _ hall hst
    obtain ⟨hall', hs'⟩ := stage_keeps_all _ _ _ hP ps t1 t' hall1 hps hq _ a hs
    rw [V4coop.lookup_address_eq_gen]
    exact gen_lookup_found _ _ t' a nh0 _ hall' hs'

/-- C4 as stated fails: `10.1.0.0/16` is a valid, canonical prefix; stored
into a fresh table with both classes allocated it lands in class 1 under key
`10.1.0.0`, and the lookup of `10.1.5.5`, which it covers, is a miss. -/
theorem no_false_negatives_counterexample :
    allocated (new_forwarding_table demo_sizing demo_dist)
    ∧ canonical demo_slash16 ∧ demo_slash16.netmask ≤ 32 ∧ covers demo_slash16 0x0A010505
    ∧ (match V4coop.store_prefix demo_cfg (new_forwarding_table demo_sizing demo_dist)
          (some demo_slash16) with
        | .ok r => V4coop.lookup_address demo_cfg r.2 0x0A010505 0
        | .error e => .error e) = .ok (false, 0) :=
  ⟨(new_forwarding_table_inv id (fun _ _ => true) demo_sizing demo_dist demo_well_sized).1,
    by decide, by decide, by decide, by decide⟩

/-- C4 (as amended) at a concrete input: `192.168.1.0/24 -> 9` stored into a
fresh table, looked up at `192.168.1.77`. -/
theorem no_false_negatives_witness :
    allocated (new_forwarding_table demo_sizing demo_dist)
    ∧ V4coop.store_prefix demo_cfg (new_forwarding_table demo_sizing demo_dist)
        (some { next_hop := 9, key := 0xC0A80100, netmask := 24 })
      = .ok (true,
          (match V4coop.store_prefix demo_cfg (new_forwarding_table demo_sizing demo_dist)
              (some { next_hop := 9, key := 0xC0A80100, netmask := 24 }) with
            | .ok r => r.2
            | .error _ => new_forwarding_table demo_sizing demo_dist))
    ∧ ∃ nh, V4coop.lookup_address demo_cfg
        (match V4coop.store_prefix demo_cfg (new_forwarding_table demo_sizing demo_dist)
            (some { next_hop := 9, key := 0xC0A80100, netmask := 24 }) with
          | .ok r => r.2
          | .error _ => new_forwarding_table demo_sizing demo_dist) 0xC0A8014D 0
        = .ok (true, nh) :=
  have hall := (new_forwarding_table_inv id (fun _ _ => true) demo_sizing demo_dist
    demo_well_sized).1
  ⟨hall, rfl,
    (no_false_negatives demo_cfg _ _ { next_hop := 9, key := 0xC0A80100, netmask := 24 } true
      0xC0A8014D 0 hall rfl (by decide) (by decide) (by decide) (by decide) (by decide)).1.elim
      (fun nh h => ⟨nh, h.1⟩)⟩



/-! ## Scalar and batched lookup (IPv4) -/

/-- A loop over lanes `0 .. n-1` whose body rewrites only lane `i` of the two
arrays, as a function `φ i` of what the lane held. -/
theorem lanes_foldlM {ε : Type} (f : (Nat → Bool) × (Nat → Nat) → Nat →
      Except ε ((Nat → Bool) × (Nat → Nat)))
    (φ : Nat → Bool × Nat → Bool × Nat)
    (hf : ∀ st i, f st i = .ok (Function.update st.1 i (φ i (st.1 i, st.2 i)).1,
      Function.update st.2 i (φ i (st.1 i, st.2 i)).2))
    (n : Nat) (st0 : (Nat → Bool) × (Nat → Nat)) :
    ∃ st, (List.range n).foldlM f st0 = .ok st
      ∧ ∀ j, (st.1 j, st.2 j)
          = if j < n then φ j (st0.1 j, st0.2 j) else (st0.1 j, st0.2 j) := by
  induction n with
  | zero => exact ⟨st0, rfl, fun j => by simp⟩
  | succ n ih =>
    obtain ⟨st, hst, hj⟩ := ih
    rw [List.range_succ, List.foldlM_append, hst]
    simp only [bind, Except.bind, List.foldlM_cons, List.foldlM_nil]
    rw [hf st n]
    refine ⟨_, rfl, ?_⟩
    intro j
    by_cases hjn : j = n
    · subst hjn
      simp only [Function.update_same]
      have := hj j
      simp only [lt_irrefl, if_false] at this
      rw [this]
      simp
    · simp only [Function.update_noteq hjn]
      rw [hj j]
      by_cases hlt : j < n
      · rw [if_pos hlt, if_pos (by omega)]
      · rw [if_neg hlt, if_neg (by omega)]


theorem foldl_update_range {α : Type} (g : Nat → α) (n : Nat) (a0 : Nat → α) (j : Nat) :
    ((List.range n).foldl (fun a i => Function.update a i (g i)) a0) j
      = if j < n then g j else a0 j := by
  induction n with
  | zero => simp
  | succ n ih =>
    rw [List.range_succ, List.foldl_append]
    simp only [List.foldl_cons, List.foldl_nil]
    by_cases hjn : j = n
    · subst hjn
      rw [Function.update_same, if_pos (by omega)]
    · rw [Function.update_noteq hjn, ih]
      by_cases hlt : j < n
      · rw [if_pos hlt, if_pos (by omega)]
      · rw [if_neg hlt, if_neg (by omega)]


namespace V4coop

theorem find_in_some (cfg : config) (ht : hash_table Nat) (h1 k n : Nat) :
    find_in cfg (some ht) h1 k n = .ok (opt_res (find_val cfg ht h1 k) n) := by
  unfold find_in find_val opt_res
  simp only [deref, bind, Except.bind, pure, Except.pure]
  by_cases hs : SAME_HASH_FUNCTIONS cfg = true
  · simp only [hs, if_true]
    unfold find_next_hop_with_hash
    dsimp only
    cases chain_find h1 k (ht.slots (h1 % ht.range)) <;> rfl
  · simp only [hs, if_false]
    rw [find_next_hop_eq]
    cases ht_get (HASHTBL_HASH_FUNCTION cfg) ht k <;> rfl

theorem query_class_some (cfg : config) (t : forwarding_table) (id k n : Nat)
    (bf : counting_bloom_filter) (ht : hash_table Nat)
    (hbf : t.counting_bloom_filters id = some bf) (hht : t.hash_tables id = some ht) :
    query_class cfg t id k n
      = .ok (if probe bf (BLOOM_HASH_FUNCTION cfg k)
                (BLOOM_HASH_FUNCTION cfg (BLOOM_HASH_FUNCTION cfg k)) = true
             then opt_res (find_val cfg ht (BLOOM_HASH_FUNCTION cfg k) k) n
             else (false, n)) := by
  unfold query_class
  rw [hbf, hht]
  simp only [deref, bind, Except.bind, pure, Except.pure]
  by_cases hp : probe bf (BLOOM_HASH_FUNCTION cfg k)
      (BLOOM_HASH_FUNCTION cfg (BLOOM_HASH_FUNCTION cfg k)) = true
  · rw [if_pos hp, if_pos hp, find_in_some]
  · rw [if_neg hp, if_neg hp]

theorem g2_lane_eq (cfg : config) (bf : counting_bloom_filter) (ht : hash_table Nat)
    (g2_addrs g2_h1 g2_h2 : Nat → Nat) (st : (Nat → Bool) × (Nat → Nat)) (i : Nat) :
    g2_lane cfg bf (some ht) g2_addrs g2_h1 g2_h2 st i
      = .ok (Function.update st.1 i
            (g2_lane_val cfg bf ht g2_addrs g2_h1 g2_h2 i (st.1 i, st.2 i)).1,
          Function.update st.2 i
            (g2_lane_val cfg bf ht g2_addrs g2_h1 g2_h2 i (st.1 i, st.2 i)).2) := by
  unfold g2_lane g2_lane_val
  dsimp only
  by_cases hp : probe bf (g2_h1 i) (g2_h2 i) = true
  · rw [if_pos hp, if_pos hp, find_in_some]
    rfl
  · rw [if_neg hp, if_neg hp]
    simp only [Function.update_eq_self]
    rfl

theorem g1_lane_eq (cfg : config) (t : forwarding_table) (bf : counting_bloom_filter)
    (ht : hash_table Nat) (g2_addrs g1_addrs g1_h1 g1_h2 : Nat → Nat)
    (st : (Nat → Bool) × (Nat → Nat)) (i : Nat) :
    g1_lane cfg t bf (some ht) g2_addrs g1_addrs g1_h1 g1_h2 st i
      = .ok (Function.update st.1 i
            (g1_lane_val cfg t bf ht g2_addrs g1_addrs g1_h1 g1_h2 i (st.1 i, st.2 i)).1,
          Function.update st.2 i
            (g1_lane_val cfg t bf ht g2_addrs g1_addrs g1_h1 g1_h2 i (st.1 i, st.2 i)).2) := by
  unfold g1_lane g1_lane_val
  dsimp only
  by_cases hf : st.1 i = true
  · rw [if_pos hf, if_pos hf]
    simp only [Function.update_eq_self]
    rfl
  · rw [if_neg hf, if_neg hf]
    have hff : st.1 i = false := by simpa using hf
    by_cases hp : probe bf (g1_h1 i) (g1_h2 i) = true
    · rw [if_pos hp, if_pos hp, find_in_some]
      simp only [bind, Except.bind, pure, Except.pure]
      cases hv : find_val cfg ht (g1_h1 i) (g1_addrs i) with
      | some v =>
        simp [opt_res, lookup_tail]
      | none =>
        simp only [opt_res, Function.update_same, Bool.not_false, if_true, lookup_tail]
        by_cases hd : t.dla (g2_addrs i >>> 12) = 0
        · simp only [hd, ne_eq, not_true_eq_false, if_false]
          cases t.default_route with
          | none => simp [Function.update_idem, hff]
          | some d => simp [Function.update_idem]
        · simp [hd, Function.update_idem]
    · rw [if_neg hp, if_neg hp]
      simp only [bind, Except.bind, pure, Except.pure, hff, Bool.not_false, if_true, lookup_tail]
      by_cases hd : t.dla (g2_addrs i >>> 12) = 0
      · simp only [Function.update_same, hd, ne_eq, not_true_eq_false, if_false]
        cases t.default_route with
        | none => simp [hff]
        | some d => simp [Function.update_idem]
      · simp [hd]

/-- The scalar lookup on a table with both classes allocated, stage by
stage. -/
theorem lookup_address_some (cfg : config) (t : forwarding_table)
    (bf0 bf1 : counting_bloom_filter) (ht0 ht1 : hash_table Nat)
    (hb0 : t.counting_bloom_filters 0 = some bf0) (hb1 : t.counting_bloom_filters 1 = some bf1)
    (hh0 : t.hash_tables 0 = some ht0) (hh1 : t.hash_tables 1 = some ht1) (a nh0 : Nat) :
    lookup_address cfg t a nh0
      = .ok ((fun (x : Bool × Nat) =>
          if x.1 = true then x
          else lookup_tail t a
            (if probe bf1 (BLOOM_HASH_FUNCTION cfg (a &&& 0xffffff00))
                (BLOOM_HASH_FUNCTION cfg (BLOOM_HASH_FUNCTION cfg (a &&& 0xffffff00))) = true
             then opt_res (find_val cfg ht1 (BLOOM_HASH_FUNCTION cfg (a &&& 0xffffff00))
                (a &&& 0xffffff00)) x.2
             else x))
          (if probe bf0 (BLOOM_HASH_FUNCTION cfg a)
              (BLOOM_HASH_FUNCTION cfg (BLOOM_HASH_FUNCTION cfg a)) = true
           then opt_res (find_val cfg ht0 (BLOOM_HASH_FUNCTION cfg a) a) nh0
           else (false, nh0))) := by
  unfold lookup_address
  rw [query_class_some cfg t 0 a nh0 bf0 ht0 hb0 hh0]
  simp only [bind, Except.bind, pure, Except.pure]
  generalize (if probe bf0 (BLOOM_HASH_FUNCTION cfg a)
      (BLOOM_HASH_FUNCTION cfg (BLOOM_HASH_FUNCTION cfg a)) = true
    then opt_res (find_val cfg ht0 (BLOOM_HASH_FUNCTION cfg a) a) nh0 else (false, nh0)) = r0
  by_cases hf : r0.1 = true
  · simp only [hf, Bool.not_true, Bool.false_eq_true, if_false, if_true]
    rw [lookup_tail_found t a r0 hf]
  · have hff : r0.1 = false := by simpa using hf
    simp only [hff, Bool.not_false, if_true, Bool.false_eq_true, if_false]
    rw [query_class_some cfg t 1 _ r0.2 bf1 ht1 hb1 hh1]
    simp only
    by_cases hp : probe bf1 (BLOOM_HASH_FUNCTION cfg (a &&& 0xffffff00))
        (BLOOM_HASH_FUNCTION cfg (BLOOM_HASH_FUNCTION cfg (a &&& 0xffffff00))) = true
    · rw [if_pos hp, if_pos hp]
    · rw [if_neg hp, if_neg hp]
      have : r0 = (false, r0.2) := by rw [← hff]
      rw [← this]

/-- The outcome of the two stages does not depend on what the out-parameter
held. -/
theorem stages_indep (t : forwarding_table) (a : Nat) (p0 p1 : Bool) (o0 o1 : Option Nat)
    (n n' : Nat) :
    (fun (x : Bool × Nat) =>
      if x.1 = true then x
      else lookup_tail t a (if p1 = true then opt_res o1 x.2 else x))
      (if p0 = true then opt_res o0 n else (false, n))
    = (fun (x : Bool × Nat) =>
      if x.1 = true then x
      else lookup_tail t a (if p1 = true then opt_res o1 x.2 else x))
      (if p0 = true then opt_res o0 n' else (false, n')) := by
  cases p0 <;> cases p1 <;> cases o0 <;> cases o1 <;> simp [opt_res, lookup_tail]

/-- Scalar/batch equivalence of the IPv4 lookups where both classes exist.  On
a table with both classes allocated, for every block of 16 addresses and whatever the two output arrays
held, `lookup_address_intrin` (the vector hash taken lane by lane as the scalar
`BLOOM_HASH_FUNCTION`) returns, and lanes `0..15` of `found` and `next_hops`
hold exactly what `lookup_address` returns for the address of the lane; the
cells past lane 15 are left as they were. -/
theorem lookup_address_intrin_eq_scalar (cfg : config) (t : forwarding_table)
    (bf0 bf1 : counting_bloom_filter) (ht0 ht1 : hash_table Nat)
    (hb0 : t.counting_bloom_filters 0 = some bf0) (hb1 : t.counting_bloom_filters 1 = some bf1)
    (hh0 : t.hash_tables 0 = some ht0) (hh1 : t.hash_tables 1 = some ht1)
    (g2_addrs : Nat → Nat) (found : Nat → Bool) (next_hops : Nat → Nat) :
    ∃ found' next_hops',
      lookup_address_intrin cfg t g2_addrs found next_hops = .ok (found', next_hops')
      ∧ (∀ i, i < 16 → ∀ nh0,
          lookup_address cfg t (g2_addrs i) nh0 = .ok (found' i, next_hops' i))
      ∧ ∀ i, 16 ≤ i → found' i = found i ∧ next_hops' i = next_hops i := by
  unfold lookup_address_intrin
  rw [hb0, hb1, hh0, hh1]
  simp only [deref, bind, Except.bind]
  obtain ⟨st2, hst2, hj2⟩ := lanes_foldlM
    (g2_lane cfg bf0 (some ht0) g2_addrs (BLOOM_HASH_FUNCTION_INTRIN cfg g2_addrs (fun _ => 0))
      (BLOOM_HASH_FUNCTION_INTRIN cfg
        (BLOOM_HASH_FUNCTION_INTRIN cfg g2_addrs (fun _ => 0)) (fun _ => 0)))
    (g2_lane_val cfg bf0 ht0 g2_addrs (BLOOM_HASH_FUNCTION_INTRIN cfg g2_addrs (fun _ => 0))
      (BLOOM_HASH_FUNCTION_INTRIN cfg
        (BLOOM_HASH_FUNCTION_INTRIN cfg g2_addrs (fun _ => 0)) (fun _ => 0)))
    (g2_lane_eq cfg bf0 ht0 g2_addrs (BLOOM_HASH_FUNCTION_INTRIN cfg g2_addrs (fun _ => 0))
      (BLOOM_HASH_FUNCTION_INTRIN cfg
        (BLOOM_HASH_FUNCTION_INTRIN cfg g2_addrs (fun _ => 0)) (fun _ => 0)))
    16 ((List.range 16).foldl (fun f i => Function.update f i false) found, next_hops)
  rw [hst2]
  simp only
  obtain ⟨st1, hst1, hj1⟩ := lanes_foldlM
    (g1_lane cfg t bf1 (some ht1) g2_addrs
      ((List.range 16).foldl (fun a i => Function.update a i (g2_addrs i &&& 0xffffff00))
        (fun _ => 0))
      (BLOOM_HASH_FUNCTION_INTRIN cfg
        ((List.range 16).foldl (fun a i => Function.update a i (g2_addrs i &&& 0xffffff00))
          (fun _ => 0)) (fun _ => 0))
      (BLOOM_HASH_FUNCTION_INTRIN cfg
        (BLOOM_HASH_FUNCTION_INTRIN cfg
          ((List.range 16).foldl (fun a i => Function.update a i (g2_addrs i &&& 0xffffff00))
            (fun _ => 0)) (fun _ => 0)) (fun _ => 0)))
    (g1_lane_val cfg t bf1 ht1 g2_addrs
      ((List.range 16).foldl (fun a i => Function.update a i (g2_addrs i &&& 0xffffff00))
        (fun _ => 0))
      (BLOOM_HASH_FUNCTION_INTRIN cfg
        ((List.range 16).foldl (fun a i => Function.update a i (g2_addrs i &&& 0xffffff00))
          (fun _ => 0)) (fun _ => 0))
      (BLOOM_HASH_FUNCTION_INTRIN cfg
        (BLOOM_HASH_FUNCTION_INTRIN cfg
          ((List.range 16).foldl (fun a i => Function.update a i (g2_addrs i &&& 0xffffff00))
            (fun _ => 0)) (fun _ => 0)) (fun _ => 0)))
    (g1_lane_eq cfg t bf1 ht1 g2_addrs
      ((List.range 16).foldl (fun a i => Function.update a i (g2_addrs i &&& 0xffffff00))
        (fun _ => 0))
      (BLOOM_HASH_FUNCTION_INTRIN cfg
        ((List.range 16).foldl (fun a i => Function.update a i (g2_addrs i &&& 0xffffff00))
          (fun _ => 0)) (fun _ => 0))
      (BLOOM_HASH_FUNCTION_INTRIN cfg
        (BLOOM_HASH_FUNCTION_INTRIN cfg
          ((List.range 16).foldl (fun a i => Function.update a i (g2_addrs i &&& 0xffffff00))
            (fun _ => 0)) (fun _ => 0)) (fun _ => 0)))
    16 st2
  refine ⟨st1.1, st1.2, hst1, ?_, ?_⟩
  · intro i hi nh0
    have h1 := hj1 i
    have h2 := hj2 i
    rw [if_pos hi] at h1 h2
    dsimp only at h2
    rw [h1, h2]
    rw [lookup_address_some cfg t bf0 bf1 ht0 ht1 hb0 hb1 hh0 hh1]
    unfold g1_lane_val g2_lane_val
    dsimp only
    have eF : (List.range 16).foldl (fun f i => Function.update f i false) found i = false := by
      rw [foldl_update_range (fun _ => false) 16 found i, if_pos hi]
    have eA : (List.range 16).foldl
        (fun a i => Function.update a i (g2_addrs i &&& 0xffffff00)) (fun _ => 0) i
        = g2_addrs i &&& 0xffffff00 := by
      rw [foldl_update_range (fun i => g2_addrs i &&& 0xffffff00) 16 (fun _ => 0) i, if_pos hi]
    simp only [BLOOM_HASH_FUNCTION_INTRIN, if_pos hi, eF, eA]
    have := stages_indep t (g2_addrs i)
      (probe bf0 (BLOOM_HASH_FUNCTION cfg (g2_addrs i))
        (BLOOM_HASH_FUNCTION cfg (BLOOM_HASH_FUNCTION cfg (g2_addrs i))))
      (probe bf1 (BLOOM_HASH_FUNCTION cfg (g2_addrs i &&& 0xffffff00))
        (BLOOM_HASH_FUNCTION cfg (BLOOM_HASH_FUNCTION cfg (g2_addrs i &&& 0xffffff00))))
      (find_val cfg ht0 (BLOOM_HASH_FUNCTION cfg (g2_addrs i)) (g2_addrs i))
      (find_val cfg ht1 (BLOOM_HASH_FUNCTION cfg (g2_addrs i &&& 0xffffff00))
        (g2_addrs i &&& 0xffffff00))
      nh0 (next_hops i)
    dsimp only at this
    rw [this]
  · intro i hi
    have h1 := hj1 i
    have h2 := hj2 i
    have hn : ¬ i < 16 := by omega
    rw [if_neg hn] at h1 h2
    dsimp only at h2
    rw [foldl_update_range (fun _ => false) 16 found i, if_neg hn] at h2
    have e1 := congrArg Prod.fst h1
    have e2 := congrArg Prod.snd h1
    have e3 := congrArg Prod.fst h2
    have e4 := congrArg Prod.snd h2
    dsimp only at e1 e2 e3 e4
    exact ⟨e1.trans e3, e2.trans e4⟩


end V4coop


theorem demo_table_classes :
    demo_table.counting_bloom_filters 0 = some (demo_bf 0)
    ∧ demo_table.counting_bloom_filters 1 = some (demo_bf 1)
    ∧ demo_table.hash_tables 0 = some (demo_ht 0)
    ∧ demo_table.hash_tables 1 = some (demo_ht 1) := ⟨rfl, rfl, rfl, rfl⟩

/-- The batch lookup at the concrete build `demo_table` and the block
`demo_addrs`, with `found` all true and `next_hops` all 99 before the call. -/
theorem lookup_address_intrin_eq_scalar_witness :
    (demo_table.counting_bloom_filters 0 = some (demo_bf 0)
      ∧ demo_table.counting_bloom_filters 1 = some (demo_bf 1)
      ∧ demo_table.hash_tables 0 = some (demo_ht 0)
      ∧ demo_table.hash_tables 1 = some (demo_ht 1))
    ∧ ∃ found' next_hops',
      V4coop.lookup_address_intrin demo_cfg demo_table demo_addrs (fun _ => true) (fun _ => 99)
        = .ok (found', next_hops')
      ∧ (∀ i, i < 16 → ∀ nh0,
          V4coop.lookup_address demo_cfg demo_table (demo_addrs i) nh0
            = .ok (found' i, next_hops' i))
      ∧ ∀ i, 16 ≤ i → found' i = true ∧ next_hops' i = 99 :=
  ⟨demo_table_classes,
    V4coop.lookup_address_intrin_eq_scalar demo_cfg demo_table (demo_bf 0) (demo_bf 1)
      (demo_ht 0) (demo_ht 1) demo_table_classes.1 demo_table_classes.2.1
      demo_table_classes.2.2.1 demo_table_classes.2.2.2 demo_addrs (fun _ => true)
      (fun _ => 99)⟩

/-! ## Vector and scalar hashes -/

theorem murmurhash3_64_vec512_v3_lane (keys : Nat → Nat) (koff : Nat) (hashes : Nat → Nat)
    (hoff i : Nat) (hi : i < 8) :
    murmurhash3_64_vec512_v3 keys koff hashes hoff (hoff + (2 * i + 1))
      = murmurhash3_64_32 (keys (koff + i)) := by
  unfold murmurhash3_64_vec512_v3 murmurhash3_64_32
  simp only [mm512_store_epi32, mm512_xor_epi32, mm512_srli_epi32, mm512_mullo_epi32,
    mm512_set1_epi32, mm512_fmadd_epi32, mm512_or_epi32, mm512_slli_epi32, mm512_swizzle_cdab,
    mm512_setzero_epi32, mm512_load_epi32_u64]
  have h1 : hoff ≤ hoff + (2 * i + 1) ∧ hoff + (2 * i + 1) < hoff + 16 := by omega
  have h2 : hoff + (2 * i + 1) - hoff = 2 * i + 1 := by omega
  have h3 : (2 * i + 1) % 2 ≠ 0 := by omega
  have h4 : (2 * i + 1 - 1) % 2 = 0 := by omega
  have h5 : (2 * i + 1) / 2 = i := by omega
  have h6 : (2 * i + 1 - 1) / 2 = i := by omega
  simp only [h1, h2, h3, h4, h5, h6, and_self, if_true, if_false, Nat.xor_zero, Nat.zero_xor]
  generalize (((keys (koff + i) / U32 % U32 * 3432918353 % U32) <<< 15 % U32 |||
      (keys (koff + i) / U32 % U32 * 3432918353 % U32) >>> 17) * 461845907 % U32) = b
  generalize (((keys (koff + i) % U32 * 3432918353 % U32) <<< 15 % U32 |||
      (keys (koff + i) % U32 * 3432918353 % U32) >>> 17) * 461845907 % U32) = a
  rw [Nat.xor_comm b]

theorem murmurhash3_64_vec512_v3_frame (keys : Nat → Nat) (koff : Nat) (hashes : Nat → Nat)
    (hoff x : Nat) (hx : x < hoff ∨ hoff + 16 ≤ x) :
    murmurhash3_64_vec512_v3 keys koff hashes hoff x = hashes x := by
  unfold murmurhash3_64_vec512_v3
  simp only [mm512_store_epi32]
  rw [if_neg (by omega)]

theorem murmurhash3_32_vec512_v3_lane (keys : Nat → Nat) (koff : Nat) (hashes : Nat → Nat)
    (hoff l : Nat) (hl : l < 16) :
    murmurhash3_32_vec512_v3 keys koff hashes hoff (hoff + l)
      = murmurhash3_32 (keys (koff + l)) := by
  unfold murmurhash3_32_vec512_v3 murmurhash3_32
  simp only [mm512_store_epi32, mm512_xor_epi32, mm512_srli_epi32, mm512_mullo_epi32,
    mm512_set1_epi32, mm512_fmadd_epi32, mm512_or_epi32, mm512_slli_epi32,
    mm512_setzero_epi32, mm512_load_epi32]
  have h1 : hoff ≤ hoff + l ∧ hoff + l < hoff + 16 := by omega
  have h2 : hoff + l - hoff = l := by omega
  simp only [h1, h2, and_self, if_true]

theorem murmurhash3_32_vec512_v3_frame (keys : Nat → Nat) (koff : Nat) (hashes : Nat → Nat)
    (hoff x : Nat) (hx : x < hoff ∨ hoff + 16 ≤ x) :
    murmurhash3_32_vec512_v3 keys koff hashes hoff x = hashes x := by
  unfold murmurhash3_32_vec512_v3
  simp only [mm512_store_epi32]
  rw [if_neg (by omega)]

/-- C9: vector/scalar hash agreement.  For every array of eight 64-bit keys
(and whatever the output array held), lane `2 i + 1` of the sixteen lanes
`murmurhash3_64_vec512_v3` stores is `murmurhash3_64_32 (keys i)`, for every
`i` in `0 .. 7`. -/
theorem murmurhash3_64_vec512_v3_agrees (keys hashes : Nat → Nat) (i : Nat) (hi : i < 8) :
    murmurhash3_64_vec512_v3 keys 0 hashes 0 (2 * i + 1) = murmurhash3_64_32 (keys i) := by
  have h := murmurhash3_64_vec512_v3_lane keys 0 hashes 0 i hi
  simp only [Nat.zero_add] at h
  exact h

theorem murmurhash3_64_vec512_v3_agrees_witness :
    murmurhash3_64_vec512_v3 demo_keys 0 (fun _ => 0) 0 7 = murmurhash3_64_32 (demo_keys 3)
    ∧ murmurhash3_64_32 (demo_keys 3) = 924919184 :=
  ⟨murmurhash3_64_vec512_v3_agrees demo_keys (fun _ => 0) 3 (by decide), by decide⟩

/-! ## IPv6: keys and covering -/

theorem probe_sound_hashes (B1 B : Nat → Nat) :
    probe_sound (fun key n => hashes B1 B key n (fun _ => 0))
      (fun bf k => probe bf (B1 k) (B (B1 k))) := by
  intro bf k hn
  dsimp only
  rw [probe_iff bf _ _ hn]
  constructor
  · intro h i hi
    rw [hashes_eq _ _ _ _ _ i hi]
    exact h i hi
  · intro h i hi
    rw [← hashes_eq B1 B k bf.num_hashes (fun _ => 0) i hi]
    exact h i hi

namespace V6

theorem prefix_key_eq (a L : Nat) (ha : a < U64) :
    prefix_key a L = (a >>> (64 - L)) <<< (64 - L) := by
  unfold prefix_key
  apply Nat.eq_of_testBit_eq
  intro i
  have e64 : U64 = 2 ^ 64 := by decide
  have em : (0xffffffffffffffff : Nat) = 2 ^ 64 - 1 := by decide
  rw [Nat.testBit_and, e64, Nat.testBit_mod_two_pow, em, Nat.testBit_shiftLeft,
    Nat.testBit_shiftLeft, Nat.testBit_shiftRight, Nat.testBit_two_pow_sub_one]
  by_cases hik : 64 - L ≤ i
  · have e : 64 - L + (i - (64 - L)) = i := by omega
    rw [e]
    by_cases hi : i < 64
    · have : i - (64 - L) < 64 := by omega
      simp [hik, this, hi]
    · have hlt : a < 2 ^ i := by
        have h64 : (2 : Nat) ^ 64 ≤ 2 ^ i := Nat.pow_le_pow_right (by omega) (by omega)
        omega
      rw [Nat.testBit_lt_two_pow hlt]
      simp
  · simp [hik]

theorem covers_iff (p : ipv6_prefix) (a : Nat) (hc : canonical p) (ha : a < U64) :
    covers p a ↔ prefix_key a p.len = p.key := by
  unfold covers
  rw [prefix_key_eq a _ ha]
  obtain ⟨_, hm⟩ := hc
  simp only [Nat.shiftRight_eq_div_pow, Nat.shiftLeft_eq]
  have hP : 0 < 2 ^ (64 - p.len) := Nat.pow_pos (by omega)
  generalize 2 ^ (64 - p.len) = P at hm hP
  have hk : p.key / P * P = p.key := Nat.div_mul_cancel (Nat.dvd_of_mod_eq_zero hm)
  constructor
  · intro h; rw [h, hk]
  · intro h
    rw [← h, Nat.mul_div_cancel _ hP]

end V6

/-! ## IPv6: what a store does -/

namespace V6

theorem set_default_route6_fields (t : forwarding_table) (gw : uint128) :
    (set_default_route t gw).2.counting_bloom_filters = t.counting_bloom_filters
    ∧ (set_default_route t gw).2.hash_tables = t.hash_tables
    ∧ (set_default_route t gw).2.has_prefix_length = t.has_prefix_length
    ∧ (set_default_route t gw).2.distinct_lengths = t.distinct_lengths
    ∧ (set_default_route t gw).2.bf_ids = t.bf_ids
    ∧ (set_default_route t gw).2.default_route.map (fun d => d.next_hop) = some gw := by
  unfold set_default_route
  cases t.default_route <;> exact ⟨rfl, rfl, rfl, rfl, rfl, rfl⟩

/-- What a store does to a consistent table whose class for the prefix is
allocated. -/
theorem store_prefix_spec (t : forwarding_table) (p : ipv6_prefix) (hw : wf t)
    (hlen : p.len ≤ 64)
    (hal : p.len ≠ 0 → (t.counting_bloom_filters (64 - p.len)).isSome = true) :
    ∃ c t', store_prefix t (some p) = .ok (c, t') ∧ wf t'
      ∧ (∀ i, (t'.counting_bloom_filters i).isSome = (t.counting_bloom_filters i).isSome)
      ∧ t'.has_prefix_length = t.has_prefix_length
      ∧ t'.distinct_lengths = t.distinct_lengths
      ∧ t'.bf_ids = t.bf_ids
      ∧ (∀ i k, class_get t' i k
          = if p.len ≠ 0 ∧ i = 64 - p.len ∧ k = p.key then some p.next_hop
            else class_get t i k)
      ∧ t'.default_route.map (fun d => d.next_hop)
          = if p.len = 0 then some p.next_hop
            else t.default_route.map (fun d => d.next_hop) := by
  have hv : is_prefix_valid (some p) = true := by
    unfold is_prefix_valid
    simp [hlen]
  by_cases h0 : p.len = 0
  · obtain ⟨f1, f2, f3, f4, f5, f6⟩ := set_default_route6_fields t p.next_hop
    refine ⟨(set_default_route t p.next_hop).1, (set_default_route t p.next_hop).2, ?_, ?_, ?_,
      f3, f4, f5, ?_, ?_⟩
    · unfold store_prefix
      simp only [hv, h0, Bool.not_true, Bool.false_eq_true, if_false, if_true]
    · intro i
      rw [f1, f2, f3]
      exact hw i
    · intro i; rw [f1]
    · intro i k
      have : ¬ (p.len ≠ 0 ∧ i = 64 - p.len ∧ k = p.key) := fun h => h.1 h0
      rw [if_neg this]
      unfold class_get
      rw [f1, f2, f3]
    · rw [if_pos h0]; exact f6
  · have hsome := hal h0
    obtain ⟨bf, hbf⟩ := Option.isSome_iff_exists.mp hsome
    obtain ⟨hflag, hcb, hrest⟩ := hw (64 - p.len)
    obtain ⟨ht, hht⟩ := Option.isSome_iff_exists.mp (hcb.mp hsome)
    obtain ⟨hnh, hkeys⟩ := hrest bf ht hbf hht
    have hP := probe_sound_hashes murmurhash3_64_32 murmurhash3_32
    obtain ⟨hpa, hpm⟩ := probe_after_mark _ _ hP bf hnh p.key
    refine ⟨(store_next_hop murmurhash3_64_32 ht p.key p.next_hop).1,
      { t with
        counting_bloom_filters := Function.update t.counting_bloom_filters (64 - p.len)
          (some (cbf_mark bf
            (hashes murmurhash3_64_32 murmurhash3_32 p.key bf.num_hashes (fun _ => 0))))
        hash_tables := Function.update t.hash_tables (64 - p.len)
          (some (store_next_hop murmurhash3_64_32 ht p.key p.next_hop).2) },
      ?_, ?_, ?_, rfl, rfl, rfl, ?_, ?_⟩
    · unfold store_prefix
      simp only [hv, h0, Bool.not_true, Bool.false_eq_true, if_false, bloom_filter_id, hbf, hht,
        deref, bind, Except.bind]
    · intro i
      dsimp only
      by_cases hi : i = 64 - p.len
      · subst hi
        rw [Function.update_same, Function.update_same]
        refine ⟨?_, ?_, ?_⟩
        · rw [hflag, hsome]; simp
        · simp
        · intro bf' ht' hb' hh'
          cases hb'; cases hh'
          refine ⟨by rw [cbf_mark_num_hashes]; exact hnh, ?_⟩
          intro k hk
          rw [ht_get_store] at hk
          by_cases hkk : k = p.key
          · rw [hkk]; exact hpa
          · rw [if_neg hkk] at hk
            exact hpm k (hkeys k hk)
      · rw [Function.update_noteq hi, Function.update_noteq hi]
        exact hw i
    · intro i
      dsimp only
      by_cases hi : i = 64 - p.len
      · subst hi; rw [Function.update_same, hbf]; rfl
      · rw [Function.update_noteq hi]
    · intro i k
      have hf : t.has_prefix_length (64 - p.len) = true := hflag.mpr hsome
      by_cases hi : i = 64 - p.len
      · by_cases hkk : k = p.key
        · rw [if_pos ⟨h0, hi, hkk⟩]
          unfold class_get
          dsimp only
          rw [hi, Function.update_same, Function.update_same, hf]
          simp only [if_true]
          rw [ht_get_store, if_pos hkk]
        · have hc : ¬ (p.len ≠ 0 ∧ i = 64 - p.len ∧ k = p.key) := fun h => hkk h.2.2
          rw [if_neg hc]
          unfold class_get
          dsimp only
          rw [hi, Function.update_same, Function.update_same, hf, hbf, hht]
          simp only [if_true]
          rw [ht_get_store, if_neg hkk]
      · have hc : ¬ (p.len ≠ 0 ∧ i = 64 - p.len ∧ k = p.key) := fun h => hi h.2.1
        rw [if_neg hc]
        unfold class_get
        dsimp only
        rw [Function.update_noteq hi, Function.update_noteq hi]
    · rw [if_neg h0]

end V6

namespace V6

theorem findSome_bound {ν : Type} (g : Nat → Option (Nat × ν))
    (hg : ∀ j x, g j = some x → x.1 = 64 - j) (n s : Nat) (x : Nat × ν)
    (h : (List.range' s n).findSome? g = some x) : x.1 ≤ 64 - s := by
  induction n generalizing s with
  | zero => simp at h
  | succ n ih =>
    rw [List.range'_succ, List.findSome?_cons] at h
    cases hgs : g s with
    | some y =>
      rw [hgs] at h
      have e : y = x := Option.some.inj h
      rw [← e, hg s y hgs]
    | none =>
      rw [hgs] at h
      have := ih (s + 1) h
      omega

theorem findSome_update (g : Nat → Option (Nat × uint128))
    (hg : ∀ j x, g j = some x → x.1 = 64 - j) (j0 : Nat) (hj0 : j0 < 64) (v : uint128)
    (n s : Nat) (hs : s ≤ j0) (hn : j0 < s + n) :
    (List.range' s n).findSome? (fun j => if j = j0 then some (64 - j0, v) else g j)
      = insert_level (64 - j0) v ((List.range' s n).findSome? g) := by
  induction n generalizing s with
  | zero => omega
  | succ n ih =>
    rw [List.range'_succ, List.findSome?_cons, List.findSome?_cons]
    by_cases hsj : s = j0
    · subst hsj
      simp only [if_true]
      cases hgs : g s with
      | some y =>
        obtain ⟨m, w⟩ := y
        have := hg s (m, w) hgs
        simp only at this
        unfold insert_level
        simp only
        rw [if_pos (by omega)]
      | none =>
        simp only
        cases hr : (List.range' (s + 1) n).findSome? g with
        | none => rfl
        | some y =>
          obtain ⟨m, w⟩ := y
          have := findSome_bound g hg n (s + 1) (m, w) hr
          simp only at this
          unfold insert_level
          simp only
          rw [if_pos (by omega)]
    · simp only [hsj, if_false]
      cases hgs : g s with
      | some y =>
        obtain ⟨m, w⟩ := y
        have := hg s (m, w) hgs
        simp only at this
        unfold insert_level
        simp only
        rw [if_neg (by omega)]
      | none =>
        simp only
        exact ih (s + 1) (by omega) (by omega)

theorem level_store (t t' : forwarding_table) (p : ipv6_prefix) (hlen : p.len ≤ 64)
    (hc : canonical p)
    (hcg : ∀ i k, class_get t' i k
          = if p.len ≠ 0 ∧ i = 64 - p.len ∧ k = p.key then some p.next_hop
            else class_get t i k)
    (hd : t'.default_route.map (fun d => d.next_hop)
          = if p.len = 0 then some p.next_hop
            else t.default_route.map (fun d => d.next_hop))
    (a : Nat) (ha : a < U64) :
    level t' a = if covers p a then insert_level p.len p.next_hop (level t a) else level t a := by
  have hg : ∀ j (x : Nat × uint128),
      (class_get t j (prefix_key a (64 - j))).map (fun v => (64 - j, v)) = some x →
        x.1 = 64 - j := by
    intro j x hx
    cases hcj : class_get t j (prefix_key a (64 - j)) with
    | none => rw [hcj] at hx; cases hx
    | some v => rw [hcj] at hx; cases hx; rfl
  have hd' : t'.default_route.map (fun d => ((0 : Nat), d.next_hop))
      = if p.len = 0 then some (0, p.next_hop)
        else t.default_route.map (fun d => ((0 : Nat), d.next_hop)) := by
    have e : ∀ (o : Option ipv6_prefix), o.map (fun d => ((0 : Nat), d.next_hop))
        = (o.map (fun d => d.next_hop)).map (fun v => ((0 : Nat), v)) := by
      intro o; cases o <;> rfl
    rw [e, e, hd]
    by_cases h0 : p.len = 0
    · rw [if_pos h0, if_pos h0]; rfl
    · rw [if_neg h0, if_neg h0]
  by_cases h0 : p.len = 0
  · have hcov : covers p a := by
      unfold covers
      rw [h0]
      have e64 : U64 = 2 ^ 64 := by decide
      rw [Nat.shiftRight_eq_div_pow, Nat.shiftRight_eq_div_pow,
        Nat.div_eq_of_lt (by omega), Nat.div_eq_of_lt (by have := hc.1; omega)]
    rw [if_pos hcov]
    unfold level
    have hsame : (fun j => (class_get t' j (prefix_key a (64 - j))).map (fun v => (64 - j, v)))
        = (fun j => (class_get t j (prefix_key a (64 - j))).map (fun v => (64 - j, v))) := by
      funext j
      rw [hcg, if_neg (fun h => h.1 h0)]
    rw [hsame, hd', if_pos h0]
    cases hr : (List.range 64).findSome?
        (fun j => (class_get t j (prefix_key a (64 - j))).map (fun v => (64 - j, v))) with
    | some x =>
      obtain ⟨m, w⟩ := x
      simp only
      obtain ⟨j, hj, hjx⟩ := List.exists_of_findSome?_eq_some hr
      have hm := hg j (m, w) hjx
      simp only at hm
      rw [List.mem_range] at hj
      unfold insert_level
      simp only
      rw [if_neg (by omega)]
    | none =>
      simp only
      rw [h0]
      cases t.default_route <;> rfl
  · by_cases hcov : covers p a
    · rw [if_pos hcov]
      have hk : prefix_key a p.len = p.key := (covers_iff p a hc ha).mp hcov
      unfold level
      have hupd : (fun j => (class_get t' j (prefix_key a (64 - j))).map (fun v => (64 - j, v)))
          = (fun j => if j = 64 - p.len then some (64 - (64 - p.len), p.next_hop)
              else (class_get t j (prefix_key a (64 - j))).map (fun v => (64 - j, v))) := by
        funext j
        rw [hcg]
        by_cases hj : j = 64 - p.len
        · have e : 64 - j = p.len := by omega
          rw [if_pos hj, if_pos ⟨h0, hj, by rw [e]; exact hk⟩]
          simp only [Option.map_some', hj]
        · rw [if_neg hj, if_neg (fun h => hj h.2.1)]
      rw [hupd, hd', if_neg h0, List.range_eq_range',
        findSome_update _ hg (64 - p.len) (by omega) p.next_hop 64 0 (by omega) (by omega)]
      have e : 64 - (64 - p.len) = p.len := by omega
      rw [e]
      cases hr : (List.range' 0 64).findSome?
          (fun j => (class_get t j (prefix_key a (64 - j))).map (fun v => (64 - j, v))) with
      | some x =>
        obtain ⟨m, w⟩ := x
        unfold insert_level
        simp only
        by_cases hm : m ≤ p.len
        · rw [if_pos hm]
        · rw [if_neg hm]
      | none =>
        simp only [insert_level]
        cases t.default_route with
        | none => rfl
        | some d =>
          simp only [Option.map_some', insert_level]
          rw [if_pos (by omega)]
    · rw [if_neg hcov]
      have hk : prefix_key a p.len ≠ p.key := fun h => hcov ((covers_iff p a hc ha).mpr h)
      unfold level
      have hsame : (fun j => (class_get t' j (prefix_key a (64 - j))).map (fun v => (64 - j, v)))
          = (fun j => (class_get t j (prefix_key a (64 - j))).map (fun v => (64 - j, v))) := by
        funext j
        rw [hcg, if_neg]
        rintro ⟨_, hj, hkk⟩
        have e : 64 - j = p.len := by omega
        rw [e] at hkk
        exact hk hkk
      rw [hsame, hd', if_neg h0]

theorem lpm_step_level (a : Nat) (best : Option ipv6_prefix) (p : ipv6_prefix) :
    (lpm_step a best p).map len_hop
      = if covers p a then insert_level p.len p.next_hop (best.map len_hop)
        else best.map len_hop := by
  unfold lpm_step
  by_cases hcov : covers p a
  · rw [if_pos hcov, if_pos hcov]
    cases best with
    | none => rfl
    | some b =>
      simp only [Option.map_some', len_hop, insert_level]
      by_cases hb : b.len ≤ p.len
      · rw [if_pos hb, if_pos hb]; rfl
      · rw [if_neg hb, if_neg hb]; rfl
  · rw [if_neg hcov, if_neg hcov]

end V6

/-! ## IPv6: the scan and the build phase -/

namespace V6

theorem findSome_snd {ν : Type} (g : Nat → Option ν) (h : Nat → Nat) (l : List Nat) :
    (l.findSome? (fun j => (g j).map (fun v => (h j, v)))).map Prod.snd = l.findSome? g := by
  induction l with
  | nil => rfl
  | cons j l ih =>
    rw [List.findSome?_cons, List.findSome?_cons]
    cases g j with
    | some v => rfl
    | none => exact ih

/-- The scan of a consistent table stops at the first class that holds the
key of the address at the class's length. -/
theorem scan_classes_eq (t : forwarding_table) (hw : wf t) (a : Nat) (l : List Nat)
    (st : Bool × uint128) :
    scan_classes t a l st
      = .ok (if st.1 = true then st
          else opt_res (l.findSome? (fun j => class_get t j (prefix_key a (64 - j)))) st.2) := by
  induction l generalizing st with
  | nil =>
    unfold scan_classes
    obtain ⟨f, n⟩ := st
    cases f <;> rfl
  | cons i l ih =>
    unfold scan_classes
    obtain ⟨f, n⟩ := st
    cases f with
    | true => rfl
    | false =>
      simp only [Bool.false_eq_true, if_false]
      rw [List.findSome?_cons]
      obtain ⟨hflag, hcb, hrest⟩ := hw i
      unfold class_get
      cases hf : t.has_prefix_length i with
      | false =>
        simp only [Bool.not_false, if_true, Bool.false_eq_true, if_false]
        rw [ih]
        rfl
      | true =>
        simp only [Bool.not_true, Bool.false_eq_true, if_false, if_true]
        obtain ⟨bf, hbf⟩ := Option.isSome_iff_exists.mp (hflag.mp hf)
        obtain ⟨ht, hht⟩ := Option.isSome_iff_exists.mp (hcb.mp (hflag.mp hf))
        obtain ⟨_, hkeys⟩ := hrest bf ht hbf hht
        rw [hbf, hht]
        simp only
        rw [find_next_hop_with_hash_eq]
        cases hg : ht_get murmurhash3_64_32 ht (prefix_key a (64 - i)) with
        | some v =>
          have hp := hkeys (prefix_key a (64 - i)) (by rw [hg]; rfl)
          rw [hp]
          simp only [if_true]
          rw [ih]
          rfl
        | none =>
          simp only
          by_cases hp : probe bf (murmurhash3_64_32 (prefix_key a (64 - i)))
              (murmurhash3_32 (murmurhash3_64_32 (prefix_key a (64 - i)))) = true
          · rw [if_pos hp, ih]; rfl
          · rw [if_neg hp, ih]; rfl

theorem lookup_address_eq_level (t : forwarding_table) (hw : wf t) (addr nh0 : uint128) :
    lookup_address t addr nh0 = .ok (opt_res ((level t addr.hi).map Prod.snd) nh0) := by
  unfold lookup_address
  dsimp only
  rw [scan_classes_eq t hw]
  simp only [bind, Except.bind, pure, Except.pure, Bool.false_eq_true, if_false]
  unfold level
  rw [← findSome_snd (fun j => class_get t j (prefix_key addr.hi (64 - j))) (fun j => 64 - j)]
  cases (List.range 64).findSome?
      (fun j => (class_get t j (prefix_key addr.hi (64 - j))).map (fun v => (64 - j, v))) with
  | some x => rfl
  | none =>
    simp only [Option.map_none', opt_res, default_tail]
    cases t.default_route <;> rfl

/-- The build phase on a consistent table with the classes of all the
prefixes allocated: it returns, and under every address the level moves as
longest-prefix match does. -/
theorem store_prefixes_level (ps : List ipv6_prefix) (t : forwarding_table) (hw : wf t)
    (hps : ∀ p ∈ ps, p.len ≤ 64 ∧ canonical p
      ∧ (p.len ≠ 0 → (t.counting_bloom_filters (64 - p.len)).isSome = true)) :
    ∃ t', store_prefixes t (ps.map some) = .ok t' ∧ wf t'
      ∧ t'.has_prefix_length = t.has_prefix_length
      ∧ t'.distinct_lengths = t.distinct_lengths
      ∧ t'.bf_ids = t.bf_ids
      ∧ (∀ i, (t'.counting_bloom_filters i).isSome = (t.counting_bloom_filters i).isSome)
      ∧ ∀ a, a < U64 → ∀ best, level t a = best.map len_hop →
          level t' a = (ps.foldl (lpm_step a) best).map len_hop := by
  induction ps generalizing t with
  | nil =>
    exact ⟨t, rfl, hw, rfl, rfl, rfl, fun _ => rfl, fun a _ best h => h⟩
  | cons p ps ih =>
    obtain ⟨hlen, hc, hal⟩ := hps p (List.mem_cons_self _ _)
    obtain ⟨c, t1, hst, hw1, hsome1, hf1, hd1, hb1, hcg, hdr⟩ := store_prefix_spec t p hw hlen hal
    have hps1 : ∀ q ∈ ps, q.len ≤ 64 ∧ canonical q
        ∧ (q.len ≠ 0 → (t1.counting_bloom_filters (64 - q.len)).isSome = true) := by
      intro q hq
      obtain ⟨h1, h2, h3⟩ := hps q (List.mem_cons_of_mem _ hq)
      exact ⟨h1, h2, fun h => by rw [hsome1]; exact h3 h⟩
    obtain ⟨t', hst', hw', hf', hd', hb', hsome', hlev⟩ := ih t1 hw1 hps1
    refine ⟨t', ?_, hw', hf'.trans hf1, hd'.trans hd1, hb'.trans hb1,
      fun i => (hsome' i).trans (hsome1 i), ?_⟩
    · rw [List.map_cons]
      unfold store_prefixes
      rw [hst]
      exact hst'
    · intro a ha best hbest
      rw [List.foldl_cons]
      apply hlev a ha
      rw [level_store t t1 p hlen hc hcg hdr a ha, lpm_step_level, hbest]

end V6

/-! ## IPv6: the table `new_forwarding_table` returns -/

theorem foldlM_inv {σ α ε : Type} (f : σ → α → Except ε σ) (I : σ → Prop)
    (hstep : ∀ st x st', f st x = .ok st' → I st → I st') (l : List α) (st st' : σ)
    (h : l.foldlM f st = .ok st') (h0 : I st) : I st' := by
  induction l generalizing st with
  | nil =>
    simp only [List.foldlM_nil, pure, Except.pure] at h
    cases h
    exact h0
  | cons x l ih =>
    rw [List.foldlM_cons] at h
    cases hx : f st x with
    | error e => rw [hx] at h; cases h
    | ok st1 =>
      rw [hx] at h
      exact ih st1 h (hstep st x st1 hx h0)

namespace V6

theorem init_hash_tables_step_spec (t : forwarding_table) (x : Nat) :
    (init_hash_tables_step t x).counting_bloom_filters = t.counting_bloom_filters
    ∧ (init_hash_tables_step t x).has_prefix_length = t.has_prefix_length
    ∧ (init_hash_tables_step t x).default_route = t.default_route
    ∧ (init_hash_tables_step t x).distinct_lengths = t.distinct_lengths
    ∧ (init_hash_tables_step t x).bf_ids = t.bf_ids
    ∧ (init_hash_tables_step t x).hash_tables
        = Function.update t.hash_tables x
            ((t.counting_bloom_filters x).map (fun bf => new_hash_table bf.capacity)) := by
  unfold init_hash_tables_step
  cases t.counting_bloom_filters x <;> exact ⟨rfl, rfl, rfl, rfl, rfl, rfl⟩

theorem init_hash_tables_fold (l : List Nat) (t : forwarding_table) :
    (l.foldl init_hash_tables_step t).counting_bloom_filters = t.counting_bloom_filters
    ∧ (l.foldl init_hash_tables_step t).has_prefix_length = t.has_prefix_length
    ∧ (l.foldl init_hash_tables_step t).default_route = t.default_route
    ∧ (l.foldl init_hash_tables_step t).distinct_lengths = t.distinct_lengths
    ∧ (l.foldl init_hash_tables_step t).bf_ids = t.bf_ids
    ∧ ∀ i, (l.foldl init_hash_tables_step t).hash_tables i
        = if i ∈ l then (t.counting_bloom_filters i).map (fun bf => new_hash_table bf.capacity)
          else t.hash_tables i := by
  induction l using List.reverseRecOn with
  | nil =>
    refine ⟨rfl, rfl, rfl, rfl, rfl, ?_⟩
    intro i
    simp
  | append_singleton l x ih =>
    simp only [List.foldl_append, List.foldl_cons, List.foldl_nil]
    obtain ⟨h1, h2, h3, h4, h5, h6⟩ := ih
    obtain ⟨g1, g2, g3, g4, g5, g6⟩ := init_hash_tables_step_spec (l.foldl init_hash_tables_step t) x
    refine ⟨g1.trans h1, g2.trans h2, g3.trans h3, g4.trans h4, g5.trans h5, ?_⟩
    intro i
    rw [g6, h1]
    by_cases hix : i = x
    · subst hix
      rw [Function.update_same]
      simp
    · rw [Function.update_noteq hix, h6 i]
      simp [hix]

theorem init_hash_tables_array_spec (t : forwarding_table) :
    (init_hash_tables_array t).counting_bloom_filters = t.counting_bloom_filters
    ∧ (init_hash_tables_array t).has_prefix_length = t.has_prefix_length
    ∧ (init_hash_tables_array t).default_route = t.default_route
    ∧ (init_hash_tables_array t).distinct_lengths = t.distinct_lengths
    ∧ (init_hash_tables_array t).bf_ids = t.bf_ids
    ∧ ∀ i, (init_hash_tables_array t).hash_tables i
        = if i < 64 then (t.counting_bloom_filters i).map (fun bf => new_hash_table bf.capacity)
          else t.hash_tables i := by
  unfold init_hash_tables_array
  obtain ⟨f1, f2, f3, f4, f5, f6⟩ := init_hash_tables_fold (List.range 64) t
  refine ⟨f1, f2, f3, f4, f5, ?_⟩
  intro i
  have := f6 i
  simp only [List.mem_range] at this
  exact this

/-- The table `new_forwarding_table` returns is consistent and empty. -/
theorem new_forwarding_table_wf (sizing : Nat → Nat × Nat) (dist : List (Nat × Nat))
    (dl0 : Nat) (ids0 : Nat → Nat) (t0 : forwarding_table)
    (hsz : ∀ q, 0 < q → 0 < (sizing q).2)
    (h : new_forwarding_table sizing dist dl0 ids0 = .ok t0) :
    wf t0 ∧ t0.default_route = none ∧ (∀ i k, class_get t0 i k = none) := by
  unfold new_forwarding_table init_counting_bloom_filters_array at h
  simp only [bind, Except.bind, pure, Except.pure] at h
  cases h1 : dist.foldlM (init_cbf_record sizing) ((fun _ => false), dl0, (fun _ => none)) with
  | error e => rw [h1] at h; cases h
  | ok s1 =>
    rw [h1] at h
    obtain ⟨hpl, dl, arr⟩ := s1
    simp only at h
    cases h2 : (List.range 64).foldlM (init_bf_ids_step hpl dl) (arr, ids0, 0) with
    | error e => rw [h2] at h; cases h
    | ok s2 =>
      rw [h2] at h
      obtain ⟨arr', ids, j⟩ := s2
      simp only at h
      -- the record loop
      have inv1 : ∀ i, (hpl i = true ↔ (arr i).isSome = true) ∧ (hpl i = true → i < 64)
          ∧ ∀ bf, arr i = some bf → 0 < bf.num_hashes := by
        refine foldlM_inv (init_cbf_record sizing)
          (fun s => ∀ i, (s.1 i = true ↔ (s.2.2 i).isSome = true) ∧ (s.1 i = true → i < 64)
            ∧ ∀ bf, s.2.2 i = some bf → 0 < bf.num_hashes) ?_ dist _ _ h1 ?_
        · intro st r st' hr hI i
          unfold init_cbf_record at hr
          dsimp only at hr
          by_cases hq : r.2 > 0
          · rw [if_pos hq] at hr
            by_cases hn : r.1 = 0 ∨ 64 < r.1
            · rw [if_pos hn] at hr; cases hr
            · rw [if_neg hn] at hr
              cases hr
              dsimp only
              by_cases hi : i = 64 - r.1
              · subst hi
                rw [Function.update_same, Function.update_same]
                refine ⟨by simp, fun _ => by omega, ?_⟩
                intro bf hbf
                cases hbf
                exact hsz _ hq
              · rw [Function.update_noteq hi, Function.update_noteq hi]
                exact hI i
          · rw [if_neg hq] at hr
            cases hr
            exact hI i
        · intro i
          simp
      -- the loop that fills the identifiers
      have inv2 : ∀ i, arr' i = arr i := by
        refine foldlM_inv (init_bf_ids_step hpl dl)
          (fun s => ∀ i, s.1 i = arr i) ?_ (List.range 64) _ _ h2 ?_
        · intro st x st' hx hI i
          unfold init_bf_ids_step at hx
          cases hf : hpl x with
          | false =>
            rw [hf] at hx
            simp only [Bool.not_false, if_true] at hx
            cases hx
            dsimp only
            by_cases hix : i = x
            · subst hix
              rw [Function.update_same]
              have := (inv1 i).1
              cases harr : arr i with
              | none => rfl
              | some bf =>
                rw [harr] at this
                have := this.mpr rfl
                rw [hf] at this
                cases this
            · rw [Function.update_noteq hix]
              exact hI i
          | true =>
            rw [hf] at hx
            simp only [Bool.not_true, Bool.false_eq_true, if_false] at hx
            by_cases hj : st.2.2 < dl
            · rw [if_pos hj] at hx
              cases hx
              exact hI i
            · rw [if_neg hj] at hx
              cases hx
        · intro i; rfl
      have earr : arr' = arr := funext inv2
      subst earr
      cases h
      obtain ⟨f1, f2, f3, f4, f5, f6⟩ := init_hash_tables_array_spec
        { default_route := none, counting_bloom_filters := arr', hash_tables := fun _ => none,
          has_prefix_length := hpl, distinct_lengths := dl, bf_ids := ids }
      dsimp only at f1 f2 f3 f4 f5 f6
      have hht : ∀ i, (init_hash_tables_array
          { default_route := none, counting_bloom_filters := arr', hash_tables := fun _ => none,
            has_prefix_length := hpl, distinct_lengths := dl, bf_ids := ids }).hash_tables i
          = (arr' i).map (fun bf => new_hash_table bf.capacity) := by
        intro i
        rw [f6 i]
        by_cases hi : i < 64
        · rw [if_pos hi]
        · rw [if_neg hi]
          cases harr : arr' i with
          | none => rfl
          | some bf =>
            have := (inv1 i).2.1 ((inv1 i).1.mpr (by rw [harr]; rfl))
            exact absurd this hi
      refine ⟨?_, f3, ?_⟩
      · intro i
        rw [f1, f2, hht i]
        refine ⟨(inv1 i).1, ?_, ?_⟩
        · cases arr' i <;> simp
        · intro bf ht hbf hh
          rw [hbf] at hh
          refine ⟨(inv1 i).2.2 bf hbf, ?_⟩
          intro k hk
          simp only [Option.map_some', Option.some.injEq] at hh
          rw [← hh, ht_get_new] at hk
          cases hk
      · intro i k
        unfold class_get
        rw [f1, f2, hht i]
        cases hpl i with
        | false => rfl
        | true =>
          simp only [if_true]
          cases arr' i with
          | none => rfl
          | some bf => exact ht_get_new _ _ _

theorem level_of_empty (t : forwarding_table) (hd : t.default_route = none)
    (hcg : ∀ i k, class_get t i k = none) (a : Nat) : level t a = none := by
  unfold level
  have : (List.range 64).findSome?
      (fun j => (class_get t j (prefix_key a (64 - j))).map (fun v => (64 - j, v))) = none := by
    rw [List.findSome?_eq_none_iff]
    intro j _
    rw [hcg]
    rfl
  rw [this, hd]
  rfl

end V6

/-! ## IPv6 longest-prefix match -/

theorem demo_new6_built :
    V6.new_forwarding_table demo_sizing demo_dist6 0 (fun _ => 0) = .ok demo_new6 := rfl

set_option maxRecDepth 100000 in
theorem demo_table6_built :
    V6.store_prefixes demo_new6 (demo_prefixes6.map some) = .ok demo_table6 := rfl

set_option maxRecDepth 100000 in
theorem demo_prefixes6_valid :
    ∀ p ∈ demo_prefixes6, p.len ≤ 64 ∧ V6.canonical p
      ∧ (p.len ≠ 0 → (demo_new6.counting_bloom_filters (64 - p.len)).isSome = true) := by
  decide

/-- C3: IPv6 longest-prefix match.  Take the table `new_forwarding_table`
returns (filters with at least one hash and one cell) and store prefixes
with lengths in `[0, 64]`, canonical 64-bit keys, and class `64 - L`
allocated for each stored length `L ≥ 1`.  Then the build phase returns a
table, and on it `lookup_address`, for every 128-bit address, returns the next
hop of the longest stored prefix covering the address's upper 64 bits (among
equally long ones the one stored last); a stored prefix of length 0 is the
default route and covers every address, so it answers exactly when the scan
of the classes misses; with no covering prefix at all the result is
`found = false` and the out-parameter is left as it was. -/
theorem lookup_address6_longest_prefix_match (sizing : Nat → Nat × Nat)
    (dist : List (Nat × Nat)) (dl0 : Nat) (ids0 : Nat → Nat) (t0 : V6.forwarding_table)
    (hsz : ∀ q, 0 < q → 0 < (sizing q).1 ∧ 0 < (sizing q).2)
    (hnew : V6.new_forwarding_table sizing dist dl0 ids0 = .ok t0)
    (ps : List V6.ipv6_prefix)
    (hps : ∀ p ∈ ps, p.len ≤ 64 ∧ V6.canonical p
      ∧ (p.len ≠ 0 → (t0.counting_bloom_filters (64 - p.len)).isSome = true)) :
    ∃ t, V6.store_prefixes t0 (ps.map some) = .ok t
      ∧ ∀ addr nh0, addr.hi < U64 →
          V6.lookup_address t addr nh0
            = .ok (V6.opt_res ((V6.lpm ps addr.hi).map (fun p => p.next_hop)) nh0) := by
  obtain ⟨hw0, hd0, hcg0⟩ := V6.new_forwarding_table_wf sizing dist dl0 ids0 t0
    (fun q hq => (hsz q hq).2) hnew
  obtain ⟨t, hst, hw, _, _, _, _, hlev⟩ := V6.store_prefixes_level ps t0 hw0 hps
  refine ⟨t, hst, ?_⟩
  intro addr nh0 ha
  rw [V6.lookup_address_eq_level t hw]
  have h := hlev addr.hi ha none (V6.level_of_empty t0 hd0 hcg0 addr.hi)
  rw [h]
  unfold V6.lpm
  cases ps.foldl (V6.lpm_step addr.hi) none <;> rfl

set_option maxRecDepth 100000 in
/-- C3 at the concrete build `demo_table6`: `2001:db8:1:3::1` resolves to the
/48 prefix, next hop `fe80::2`. -/
theorem lookup_address6_longest_prefix_match_witness :
    V6.lookup_address demo_table6 demo_addr6 { hi := 0, lo := 0 }
      = .ok (true, { hi := 0xfe80000000000000, lo := 2 }) := by
  obtain ⟨t, hst, hl⟩ := lookup_address6_longest_prefix_match demo_sizing demo_dist6 0
    (fun _ => 0) demo_new6
    (fun q hq => ⟨by unfold demo_sizing; show 0 < 10 * q; omega,
      by unfold demo_sizing; show 0 < 7; omega⟩)
    demo_new6_built demo_prefixes6 demo_prefixes6_valid
  rw [demo_table6_built] at hst
  cases hst
  rw [hl demo_addr6 _ (by decide)]
  decide

/-! ## Bloom-filter soundness -/
namespace V6

/-- The three ways a store returns. -/
theorem store_prefix_ok (t : forwarding_table) (pfx : Option ipv6_prefix)
    (r : Bool × forwarding_table) (h : store_prefix t pfx = .ok r) :
    ∃ p, pfx = some p ∧ p.len ≤ 64
      ∧ ((p.len = 0 ∧ r = set_default_route t p.next_hop)
        ∨ (p.len ≠ 0 ∧ ∃ bf ht, t.counting_bloom_filters (bloom_filter_id p) = some bf
            ∧ t.hash_tables (bloom_filter_id p) = some ht
            ∧ r = ((store_next_hop murmurhash3_64_32 ht p.key p.next_hop).1,
                { t with
                  counting_bloom_filters :=
                    Function.update t.counting_bloom_filters (bloom_filter_id p)
                      (some (cbf_mark bf (hashes murmurhash3_64_32 murmurhash3_32 p.key
                        bf.num_hashes (fun _ => 0))))
                  hash_tables := Function.update t.hash_tables (bloom_filter_id p)
                    (some (store_next_hop murmurhash3_64_32 ht p.key p.next_hop).2) }))) := by
  cases pfx with
  | none => unfold store_prefix at h; cases h
  | some p =>
    refine ⟨p, rfl, ?_⟩
    unfold store_prefix at h
    dsimp only at h
    by_cases hv : is_prefix_valid (some p) = true
    · have hlen : p.len ≤ 64 := by
        unfold is_prefix_valid at hv
        simp at hv
        exact hv
      refine ⟨hlen, ?_⟩
      simp only [hv, Bool.not_true, Bool.false_eq_true, if_false] at h
      by_cases h0 : p.len = 0
      · rw [if_pos h0] at h
        cases h
        exact Or.inl ⟨h0, rfl⟩
      · rw [if_neg h0] at h
        right
        refine ⟨h0, ?_⟩
        cases hbf : t.counting_bloom_filters (bloom_filter_id p) with
        | none =>
          rw [hbf] at h
          simp only [deref, bind, Except.bind] at h
          cases h
        | some bf =>
          cases hht : t.hash_tables (bloom_filter_id p) with
          | none =>
            rw [hbf, hht] at h
            simp only [deref, bind, Except.bind] at h
            cases h
          | some ht =>
            rw [hbf, hht] at h
            simp only [deref, bind, Except.bind] at h
            cases h
            exact ⟨bf, ht, rfl, rfl, rfl⟩
    · simp only [hv, Bool.not_false, if_true] at h
      cases h

/-- Any successful store leaves every filter in place with its sizes, and
never clears a bit. -/
theorem store_prefix_keeps (t : forwarding_table) (pfx : Option ipv6_prefix)
    (r : Bool × forwarding_table) (h : store_prefix t pfx = .ok r) (id : Nat)
    (bf : counting_bloom_filter) (hbf : t.counting_bloom_filters id = some bf) :
    ∃ bf', r.2.counting_bloom_filters id = some bf'
      ∧ bf'.num_hashes = bf.num_hashes ∧ bf'.bitmap_len = bf.bitmap_len
      ∧ ∀ x, bf.bitmap x = true → bf'.bitmap x = true := by
  obtain ⟨p, _, _, hc⟩ := store_prefix_ok t pfx r h
  rcases hc with ⟨_, hr⟩ | ⟨_, bf1, ht1, hbf1, hht1, hr⟩
  · obtain ⟨e1, _⟩ := set_default_route6_fields t p.next_hop
    rw [hr, e1]
    exact ⟨bf, hbf, rfl, rfl, fun _ hx => hx⟩
  · rw [hr]
    dsimp only
    by_cases hid : id = bloom_filter_id p
    · subst hid
      rw [hbf] at hbf1
      cases hbf1
      exact ⟨cbf_mark bf (hashes murmurhash3_64_32 murmurhash3_32 p.key bf.num_hashes
        (fun _ => 0)), by simp, cbf_mark_num_hashes _ _, cbf_mark_bitmap_len _ _,
        fun x hx => cbf_mark_mono _ _ x hx⟩
    · refine ⟨bf, ?_, rfl, rfl, fun _ hx => hx⟩
      rw [Function.update_noteq hid]; exact hbf

/-- A successful store into a class sets every cell derived for the key. -/
theorem store_prefix_marks (t : forwarding_table) (p : ipv6_prefix)
    (r : Bool × forwarding_table) (h : store_prefix t (some p) = .ok r) (h0 : p.len ≠ 0) :
    ∃ bf, r.2.counting_bloom_filters (bloom_filter_id p) = some bf
      ∧ ∀ i, i < bf.num_hashes →
          bf.bitmap (hashes murmurhash3_64_32 murmurhash3_32 p.key bf.num_hashes (fun _ => 0) i
            % bf.bitmap_len) = true := by
  obtain ⟨p', hp, _, hc⟩ := store_prefix_ok t (some p) r h
  cases hp
  rcases hc with ⟨h, _⟩ | ⟨_, bf1, ht1, hbf1, hht1, hr⟩
  · exact absurd h h0
  · rw [hr]
    dsimp only
    refine ⟨cbf_mark bf1 (hashes murmurhash3_64_32 murmurhash3_32 p.key bf1.num_hashes
      (fun _ => 0)), by simp, ?_⟩
    intro i hi
    rw [cbf_mark_num_hashes] at hi ⊢
    rw [cbf_mark_bitmap_len]
    exact cbf_mark_set bf1 _ i hi

theorem store_prefixes_keeps (ps : List (Option ipv6_prefix)) (t t' : forwarding_table)
    (h : store_prefixes t ps = .ok t') (id : Nat) (bf : counting_bloom_filter)
    (hbf : t.counting_bloom_filters id = some bf) :
    ∃ bf', t'.counting_bloom_filters id = some bf'
      ∧ bf'.num_hashes = bf.num_hashes ∧ bf'.bitmap_len = bf.bitmap_len
      ∧ ∀ x, bf.bitmap x = true → bf'.bitmap x = true := by
  induction ps generalizing t bf with
  | nil =>
    unfold store_prefixes at h
    cases h
    exact ⟨bf, hbf, rfl, rfl, fun _ hx => hx⟩
  | cons pfx rest ih =>
    unfold store_prefixes at h
    cases hs : store_prefix t pfx with
    | error e => rw [hs] at h; cases h
    | ok r =>
      rw [hs] at h
      obtain ⟨bf1, hb1, hn1, hl1, hm1⟩ := store_prefix_keeps t pfx r hs id bf hbf
      obtain ⟨bf2, hb2, hn2, hl2, hm2⟩ := ih r.2 h bf1 hb1
      exact ⟨bf2, hb2, hn2.trans hn1, hl2.trans hl1, fun x hx => hm2 x (hm1 x hx)⟩

/-- The IPv6 half of Bloom-filter soundness. -/
theorem stored_key_cells_set6 (t t' : forwarding_table) (ps : List (Option ipv6_prefix))
    (p : ipv6_prefix) (h : store_prefixes t ps = .ok t') (hp : some p ∈ ps) (h0 : p.len ≠ 0) :
    ∃ bf, t'.counting_bloom_filters (bloom_filter_id p) = some bf
      ∧ (∀ i, i < bf.num_hashes →
          bf.bitmap (dh_index (murmurhash3_64_32 p.key)
            (murmurhash3_32 (murmurhash3_64_32 p.key)) i % bf.bitmap_len) = true)
      ∧ (0 < bf.num_hashes →
          probe bf (murmurhash3_64_32 p.key) (murmurhash3_32 (murmurhash3_64_32 p.key))
            = true) := by
  induction ps generalizing t with
  | nil => cases hp
  | cons pfx rest ih =>
    unfold store_prefixes at h
    cases hs : store_prefix t pfx with
    | error e => rw [hs] at h; cases h
    | ok r =>
      rw [hs] at h
      rcases List.mem_cons.mp hp with hhead | htail
      · subst hhead
        obtain ⟨bf1, hb1, hc1⟩ := store_prefix_marks t p r hs h0
        obtain ⟨bf2, hb2, hn2, hl2, hm2⟩ := store_prefixes_keeps rest r.2 t' h _ bf1 hb1
        have hc' : ∀ i, i < bf2.num_hashes →
            bf2.bitmap (dh_index (murmurhash3_64_32 p.key)
              (murmurhash3_32 (murmurhash3_64_32 p.key)) i % bf2.bitmap_len) = true := by
          intro i hi
          rw [hn2] at hi
          rw [hl2]
          have := hc1 i hi
          rw [hashes_eq _ _ _ _ _ i hi] at this
          exact hm2 _ this
        exact ⟨bf2, hb2, hc', fun hn => (probe_iff bf2 _ _ hn).2 hc'⟩
      · exact ih r.2 h htail

end V6

/-- A counter that holds 255 wraps to 0 when its cell is marked again, and
the cell's bit stays set. -/
theorem cbf_mark_step_wraps (idxs : Nat → Nat) (b : counting_bloom_filter) (i : Nat)
    (hc : b.counters (idxs i % b.bitmap_len) = 255) :
    (cbf_mark_step idxs b i).counters (idxs i % b.bitmap_len) = 0
    ∧ (cbf_mark_step idxs b i).bitmap (idxs i % b.bitmap_len) = true := by
  unfold cbf_mark_step
  dsimp only
  rw [Function.update_same, Function.update_same, hc]
  exact ⟨rfl, rfl⟩

/-- C5: Bloom-filter soundness of the double-hashing variants.  In v4-coop
(under every hash configuration) and in v6, take any table and any sequence
of `store_prefix` calls that returns.  For every prefix of the sequence that
goes to a (CBF, HT) class (v4-coop: length other than 0 and 20; v6: length
other than 0), the filter of its class in the final table, that is after all
the later stores too, has every one of the `num_hashes` cells derived from
the key by double hashing set, and the Bloom probe of `lookup_address` for the
key yields `maybe = true` when the filter has at least one hash.  Nothing is
assumed about the counters. -/
theorem bloom_filter_soundness :
    (∀ (cfg : V4coop.config) (t t' : forwarding_table) (ps : List (Option ipv4_prefix))
        (p : ipv4_prefix),
        V4coop.store_prefixes cfg t ps = .ok t' → some p ∈ ps →
        p.netmask ≠ 0 → p.netmask ≠ 20 →
        ∃ bf, t'.counting_bloom_filters (bloom_filter_id p) = some bf
          ∧ (∀ i, i < bf.num_hashes →
              bf.bitmap (dh_index (V4coop.BLOOM_HASH_FUNCTION cfg p.key)
                (V4coop.BLOOM_HASH_FUNCTION cfg (V4coop.BLOOM_HASH_FUNCTION cfg p.key)) i
                  % bf.bitmap_len) = true)
          ∧ (0 < bf.num_hashes →
              probe bf (V4coop.BLOOM_HASH_FUNCTION cfg p.key)
                (V4coop.BLOOM_HASH_FUNCTION cfg (V4coop.BLOOM_HASH_FUNCTION cfg p.key))
                  = true))
    ∧ (∀ (t t' : V6.forwarding_table) (ps : List (Option V6.ipv6_prefix))
        (p : V6.ipv6_prefix),
        V6.store_prefixes t ps = .ok t' → some p ∈ ps → p.len ≠ 0 →
        ∃ bf, t'.counting_bloom_filters (V6.bloom_filter_id p) = some bf
          ∧ (∀ i, i < bf.num_hashes →
              bf.bitmap (dh_index (murmurhash3_64_32 p.key)
                (murmurhash3_32 (murmurhash3_64_32 p.key)) i % bf.bitmap_len) = true)
          ∧ (0 < bf.num_hashes →
              probe bf (murmurhash3_64_32 p.key) (murmurhash3_32 (murmurhash3_64_32 p.key))
                = true)) :=
  ⟨fun cfg t t' ps p h hp h0 h20 => V4coop.stored_key_cells_set cfg t t' ps p h hp h0 h20,
   fun t t' ps p h hp h0 => V6.stored_key_cells_set6 t t' ps p h hp h0⟩

set_option maxRecDepth 100000 in
/-- C5 at the concrete builds: the /24 prefix of `demo_table` and the /48
prefix of `demo_table6` pass the Bloom probe of their class. -/
theorem bloom_filter_soundness_witness :
    probe (demo_bf 1) (murmurhash3_32 0xC0A80100) (murmurhash3_32 (murmurhash3_32 0xC0A80100))
      = true
    ∧ ∃ bf, demo_table6.counting_bloom_filters 16 = some bf
        ∧ probe bf (murmurhash3_64_32 0x20010db800010000)
            (murmurhash3_32 (murmurhash3_64_32 0x20010db800010000)) = true := by
  constructor
  · obtain ⟨bf, hb, _, hp⟩ := bloom_filter_soundness.1 demo_cfg
      (new_forwarding_table demo_sizing demo_dist) demo_table (demo_prefixes.map some)
      { next_hop := 9, key := 0xC0A80100, netmask := 24 } demo_table_built
      (by decide) (by decide) (by decide)
    have hid : bloom_filter_id { next_hop := 9, key := 0xC0A80100, netmask := 24 } = 1 := rfl
    rw [hid, demo_table_classes.2.1] at hb
    cases hb
    exact hp (by decide)
  · obtain ⟨bf, hb, _, hp⟩ := bloom_filter_soundness.2 demo_new6 demo_table6
      (demo_prefixes6.map some)
      { next_hop := { hi := 0xfe80000000000000, lo := 2 }, key := 0x20010db800010000, len := 48 }
      demo_table6_built (by decide) (by decide)
    have hid : V6.bloom_filter_id
        { next_hop := { hi := 0xfe80000000000000, lo := 2 }, key := 0x20010db800010000,
          len := 48 } = 16 := rfl
    rw [hid] at hb
    have hb' : demo_table6.counting_bloom_filters 16
        = some ((demo_table6.counting_bloom_filters 16).getD (new_counting_bloom_filter 0 0 0)) :=
      rfl
    refine ⟨bf, hb, hp ?_⟩
    rw [hb'] at hb
    cases hb
    decide

/-! ## Scalar and batched lookup (IPv6) -/

theorem probe_loop_false (bitmap : Nat → Bool) (len n h1 h2 fuel j : Nat) :
    probe_loop bitmap len n h1 h2 fuel j false = false := by
  cases fuel <;> simp [probe_loop]

theorem probe_loop_done (bitmap : Nat → Bool) (len n h1 h2 fuel j : Nat) (maybe : Bool)
    (hj : n ≤ j) : probe_loop bitmap len n h1 h2 fuel j maybe = maybe := by
  cases fuel with
  | zero => rfl
  | succ fuel =>
    unfold probe_loop
    have : ¬ j < n := by omega
    simp [this]

/-- Fold over the starts of 16-cell chunks: a step that writes the target on
its chunk and leaves the other cells alone ends with the target on every cell
below `16 * c`. -/
theorem chunks_fold {σ : Type} (get : σ → Nat → Nat) (F : σ → Nat → σ) (tgt : Nat → Nat)
    (hval : ∀ st i m, m < 16 → get (F st i) (i + m) = tgt (i + m))
    (hframe : ∀ st i x, (x < i ∨ i + 16 ≤ x) → get (F st i) x = get st x)
    (c : Nat) (st : σ) (q : Nat) (hq : q < 16 * c) :
    get (((List.range c).map (fun c => 16 * c)).foldl F st) q = tgt q := by
  induction c with
  | zero => omega
  | succ c ih =>
    rw [List.range_succ, List.map_append, List.foldl_append]
    simp only [List.map_cons, List.map_nil, List.foldl_cons, List.foldl_nil]
    by_cases hqc : q < 16 * c
    · rw [hframe _ _ _ (Or.inl hqc)]
      exact ih hqc
    · have e : q = 16 * c + (q - 16 * c) := by omega
      rw [e]
      exact hval _ _ _ (by omega)

namespace V6

theorem probe_intrin_eq (bf : counting_bloom_filter) (h1 h2 : Nat) :
    probe_intrin bf h1 h2 = probe bf h1 h2 := by
  unfold probe_intrin probe
  dsimp only
  cases hm : bf.bitmap (h1 % bf.bitmap_len) with
  | false =>
    simp only [Bool.false_and, Bool.false_eq_true, if_false]
    exact probe_loop_false _ _ _ _ _ _ _
  | true =>
    simp only [Bool.true_and, if_true, decide_eq_true_eq]
    by_cases hn : bf.num_hashes > 1
    · rw [if_pos hn, if_pos hn]
    · rw [if_neg hn, if_neg hn]
      exact probe_loop_done _ _ _ _ _ _ _ _ (by omega)

theorem h1_tmp_spec (keys h1_tmp : Nat → Nat) (i m : Nat) (hm : m < 16) :
    murmurhash3_64_vec512_v3 keys (i + 8) (murmurhash3_64_vec512_v3 keys i h1_tmp 0) 16
        (2 * m + 1)
      = murmurhash3_64_32 (keys (i + m)) := by
  by_cases h8 : m < 8
  · rw [murmurhash3_64_vec512_v3_frame _ _ _ _ _ (Or.inl (by omega))]
    have := murmurhash3_64_vec512_v3_lane keys i h1_tmp 0 m h8
    rw [Nat.zero_add] at this
    exact this
  · have := murmurhash3_64_vec512_v3_lane keys (i + 8)
      (murmurhash3_64_vec512_v3 keys i h1_tmp 0) 16 (m - 8) (by omega)
    have e1 : 16 + (2 * (m - 8) + 1) = 2 * m + 1 := by omega
    have e2 : i + 8 + (m - 8) = i + m := by omega
    rw [e1, e2] at this
    exact this

theorem h1_chunk_val (keys : Nat → Nat) (st : (Nat → Nat) × (Nat → Nat)) (i m : Nat)
    (hm : m < 16) : (h1_chunk keys st i).1 (i + m) = murmurhash3_64_32 (keys (i + m)) := by
  unfold h1_chunk
  dsimp only
  have hs : ∀ m, m < 16 → ∀ k, k = 2 * m + 1 →
      murmurhash3_64_vec512_v3 keys (i + 8) (murmurhash3_64_vec512_v3 keys i st.2 0) 16 k
        = murmurhash3_64_32 (keys (i + m)) :=
    fun m hm k hk => by rw [hk]; exact h1_tmp_spec keys st.2 i m hm
  have s0 := hs 0 (by omega) 1 rfl
  have s1 := hs 1 (by omega) 3 rfl
  have s2 := hs 2 (by omega) 5 rfl
  have s3 := hs 3 (by omega) 7 rfl
  have s4 := hs 4 (by omega) 9 rfl
  have s5 := hs 5 (by omega) 11 rfl
  have s6 := hs 6 (by omega) 13 rfl
  have s7 := hs 7 (by omega) 15 rfl
  have s8 := hs 8 (by omega) 17 rfl
  have s9 := hs 9 (by omega) 19 rfl
  have s10 := hs 10 (by omega) 21 rfl
  have s11 := hs 11 (by omega) 23 rfl
  have s12 := hs 12 (by omega) 25 rfl
  have s13 := hs 13 (by omega) 27 rfl
  have s14 := hs 14 (by omega) 29 rfl
  have s15 := hs 15 (by omega) 31 rfl
  rw [s0, s1, s2, s3, s4, s5, s6, s7, s8, s9, s10, s11, s12, s13, s14, s15]
  clear hs s0 s1 s2 s3 s4 s5 s6 s7 s8 s9 s10 s11 s12 s13 s14 s15
  interval_cases m <;> simp [Function.update_apply]

theorem h1_chunk_frame (keys : Nat → Nat) (st : (Nat → Nat) × (Nat → Nat)) (i x : Nat)
    (hx : x < i ∨ i + 16 ≤ x) : (h1_chunk keys st i).1 x = st.1 x := by
  unfold h1_chunk
  dsimp only
  have n0 : x ≠ i := by omega
  have n1 : x ≠ i + 1 := by omega
  have n2 : x ≠ i + 2 := by omega
  have n3 : x ≠ i + 3 := by omega
  have n4 : x ≠ i + 4 := by omega
  have n5 : x ≠ i + 5 := by omega
  have n6 : x ≠ i + 6 := by omega
  have n7 : x ≠ i + 7 := by omega
  have n8 : x ≠ i + 8 := by omega
  have n9 : x ≠ i + 9 := by omega
  have n10 : x ≠ i + 10 := by omega
  have n11 : x ≠ i + 11 := by omega
  have n12 : x ≠ i + 12 := by omega
  have n13 : x ≠ i + 13 := by omega
  have n14 : x ≠ i + 14 := by omega
  have n15 : x ≠ i + 15 := by omega
  rw [Function.update_noteq n15, Function.update_noteq n14, Function.update_noteq n13,
    Function.update_noteq n12, Function.update_noteq n11, Function.update_noteq n10,
    Function.update_noteq n9, Function.update_noteq n8, Function.update_noteq n7,
    Function.update_noteq n6, Function.update_noteq n5, Function.update_noteq n4,
    Function.update_noteq n3, Function.update_noteq n2, Function.update_noteq n1,
    Function.update_noteq n0]

theorem chunk_starts_eq (n : Nat) (hn : n % 16 = 0) :
    chunk_starts n = (List.range (n / 16)).map (fun c => 16 * c) := by
  unfold chunk_starts
  have : (n + 15) / 16 = n / 16 := by omega
  rw [this]

/-- After the first hash loop, `h1[q]` is the scalar hash of `pfx_keys[q]`. -/
theorem h1_loop_spec (keys : Nat → Nat) (n : Nat) (hn : n % 16 = 0)
    (st : (Nat → Nat) × (Nat → Nat)) (q : Nat) (hq : q < n) :
    ((chunk_starts n).foldl (h1_chunk keys) st).1 q = murmurhash3_64_32 (keys q) := by
  rw [chunk_starts_eq n hn]
  exact chunks_fold (fun st => st.1) (h1_chunk keys) (fun q => murmurhash3_64_32 (keys q))
    (fun st i m hm => h1_chunk_val keys st i m hm)
    (fun st i x hx => h1_chunk_frame keys st i x hx) (n / 16) st q (by omega)

/-- After the second hash loop, `h2[q]` is the scalar hash of `h1[q]`. -/
theorem h2_loop_spec (h1 : Nat → Nat) (n : Nat) (hn : n % 16 = 0) (h2 : Nat → Nat) (q : Nat)
    (hq : q < n) :
    ((chunk_starts n).foldl (fun h2 i => murmurhash3_32_vec512_v3 h1 i h2 i) h2) q
      = murmurhash3_32 (h1 q) := by
  rw [chunk_starts_eq n hn]
  exact chunks_fold (fun h2 => h2) (fun h2 i => murmurhash3_32_vec512_v3 h1 i h2 i)
    (fun q => murmurhash3_32 (h1 q))
    (fun st i m hm => murmurhash3_32_vec512_v3_lane h1 i st i m hm)
    (fun st i x hx => murmurhash3_32_vec512_v3_frame h1 i st i x hx) (n / 16) h2 q (by omega)

end V6

theorem fill_inner (f : Nat → Nat) (n : Nat) (st : (Nat → Nat) × Nat) :
    ((List.range n).foldl (fun st j => (Function.update st.1 st.2 (f j), st.2 + 1)) st).2
        = st.2 + n
    ∧ (∀ j, j < n →
        ((List.range n).foldl (fun st j => (Function.update st.1 st.2 (f j), st.2 + 1)) st).1
          (st.2 + j) = f j)
    ∧ ∀ x, x < st.2 →
        ((List.range n).foldl (fun st j => (Function.update st.1 st.2 (f j), st.2 + 1)) st).1 x
          = st.1 x := by
  induction n with
  | zero =>
    refine ⟨rfl, fun j hj => by omega, fun x _ => rfl⟩
  | succ n ih =>
    obtain ⟨h1, h2, h3⟩ := ih
    rw [List.range_succ, List.foldl_append]
    simp only [List.foldl_cons, List.foldl_nil]
    rw [h1]
    refine ⟨by omega, ?_, ?_⟩
    · intro j hj
      by_cases hjn : j = n
      · subst hjn
        rw [Function.update_same]
      · rw [Function.update_noteq (by omega)]
        exact h2 j (by omega)
    · intro x hx
      rw [Function.update_noteq (by omega)]
      exact h3 x hx

namespace V6

theorem fill_outer (addrs : Nat → uint128) (dl : Nat) (ids : Nat → Nat) (len : Nat)
    (a : Nat → Nat) :
    ((List.range len).foldl
      (fun st i =>
        (List.range dl).foldl
          (fun st j =>
            (Function.update st.1 st.2
              (prefix_key (addrs i).hi ((64 + 256 - ids j) % 256)), st.2 + 1))
          st)
      (a, 0)).2 = dl * len
    ∧ ∀ i j, i < len → j < dl →
      ((List.range len).foldl
        (fun st i =>
          (List.range dl).foldl
            (fun st j =>
              (Function.update st.1 st.2
                (prefix_key (addrs i).hi ((64 + 256 - ids j) % 256)), st.2 + 1))
            st)
        (a, 0)).1 (dl * i + j) = prefix_key (addrs i).hi ((64 + 256 - ids j) % 256) := by
  induction len with
  | zero => exact ⟨rfl, fun i j hi _ => by omega⟩
  | succ len ih =>
    obtain ⟨h1, h2⟩ := ih
    rw [List.range_succ, List.foldl_append]
    simp only [List.foldl_cons, List.foldl_nil]
    obtain ⟨g1, g2, g3⟩ := fill_inner
      (fun j => prefix_key (addrs len).hi ((64 + 256 - ids j) % 256)) dl
      ((List.range len).foldl
        (fun st i =>
          (List.range dl).foldl
            (fun st j =>
              (Function.update st.1 st.2
                (prefix_key (addrs i).hi ((64 + 256 - ids j) % 256)), st.2 + 1))
            st)
        (a, 0))
    rw [h1] at g1 g2 g3
    refine ⟨by rw [g1, Nat.mul_succ], ?_⟩
    intro i j hi hj
    by_cases hil : i = len
    · subst hil
      exact g2 j hj
    · have hlt : i < len := by omega
      have hb : dl * i + j < dl * len := by
        have : dl * (i + 1) ≤ dl * len := Nat.mul_le_mul_left dl (by omega)
        rw [Nat.mul_succ] at this
        omega
      rw [g3 _ hb]
      exact h2 i j hlt hj

theorem fill_pfx_keys_spec (addrs : Nat → uint128) (dl : Nat) (ids : Nat → Nat) (len : Nat)
    (a : Nat → Nat) (i j : Nat) (hi : i < len) (hj : j < dl) :
    fill_pfx_keys addrs dl ids len a (dl * i + j)
      = prefix_key (addrs i).hi ((64 + 256 - ids j) % 256) :=
  (fill_outer addrs dl ids len a).2 i j hi hj

theorem scan_classes_cons (t : forwarding_table) (a i : Nat) (rest : List Nat)
    (st : Bool × uint128) :
    scan_classes t a (i :: rest) st
      = if st.1 then pure st
        else if !t.has_prefix_length i then scan_classes t a rest st
        else
          match t.counting_bloom_filters i with
          | none => scan_classes t a rest st
          | some bf =>
            if probe bf (murmurhash3_64_32 (prefix_key a (64 - i)))
                (murmurhash3_32 (murmurhash3_64_32 (prefix_key a (64 - i)))) then
              match t.hash_tables i with
              | none => .error fault.null_deref
              | some ht =>
                scan_classes t a rest
                  (find_next_hop_with_hash ht (murmurhash3_64_32 (prefix_key a (64 - i)))
                    (prefix_key a (64 - i)) st.2)
            else scan_classes t a rest st := by
  rw [scan_classes]

theorem scan_classes_found (t : forwarding_table) (a : Nat) (l : List Nat)
    (st : Bool × uint128) (hs : st.1 = true) : scan_classes t a l st = .ok st := by
  cases l with
  | nil => rfl
  | cons i l => rw [scan_classes_cons, if_pos hs]; rfl

theorem scan_ids_cons (t : forwarding_table) (pfx_keys h1 h2 : Nat → Nat) (j k : Nat)
    (rest : List Nat) (st : Bool × uint128) :
    scan_ids t pfx_keys h1 h2 j (k :: rest) st
      = if st.1 then pure st
        else
          match t.counting_bloom_filters (t.bf_ids k) with
          | none => .error fault.lookup_error
          | some bf =>
            if probe_intrin bf (h1 (j + k)) (h2 (j + k)) then
              match t.hash_tables (t.bf_ids k) with
              | none => .error fault.null_deref
              | some ht =>
                scan_ids t pfx_keys h1 h2 j rest
                  (find_next_hop_with_hash ht (h1 (j + k)) (pfx_keys (j + k)) st.2)
            else scan_ids t pfx_keys h1 h2 j rest st := by
  rw [scan_ids]

/-- The scalar scan skips the classes without flag or filter. -/
theorem scan_classes_filter (t : forwarding_table) (a : Nat) (l : List Nat)
    (st : Bool × uint128) :
    scan_classes t a l st
      = scan_classes t a
          (l.filter (fun i => t.has_prefix_length i && (t.counting_bloom_filters i).isSome)) st := by
  induction l generalizing st with
  | nil => rfl
  | cons i l ih =>
    by_cases hs : st.1 = true
    · rw [scan_classes_found t a _ st hs, scan_classes_found t a _ st hs]
    · rw [List.filter_cons, scan_classes_cons, if_neg hs]
      cases hf : t.has_prefix_length i with
      | false =>
        simp only [Bool.false_and, Bool.false_eq_true, if_false, Bool.not_false, if_true]
        exact ih st
      | true =>
        cases hb : t.counting_bloom_filters i with
        | none =>
          simp only [Option.isSome_none, Bool.and_false, Bool.false_eq_true, if_false,
            Bool.not_true]
          exact ih st
        | some bf =>
          simp only [Option.isSome_some, Bool.and_self, if_true, Bool.not_true,
            Bool.false_eq_true, if_false]
          rw [scan_classes_cons, if_neg hs, hf, hb]
          simp only [Bool.not_true, Bool.false_eq_true, if_false]
          split
          · cases t.hash_tables i with
            | none => rfl
            | some ht => exact ih _
          · exact ih _

/-- The batch scan over positions of `bf_ids` that name populated classes,
with the keys and hashes the batch precomputes, is the scalar scan over the
classes named. -/
theorem scan_ids_eq (t : forwarding_table) (a : Nat) (pfx_keys h1 h2 : Nat → Nat) (j : Nat)
    (ks : List Nat)
    (hk : ∀ k ∈ ks, t.has_prefix_length (t.bf_ids k) = true
      ∧ (t.counting_bloom_filters (t.bf_ids k)).isSome = true
      ∧ pfx_keys (j + k) = prefix_key a (64 - t.bf_ids k)
      ∧ h1 (j + k) = murmurhash3_64_32 (pfx_keys (j + k))
      ∧ h2 (j + k) = murmurhash3_32 (h1 (j + k)))
    (st : Bool × uint128) :
    scan_ids t pfx_keys h1 h2 j ks st = scan_classes t a (ks.map t.bf_ids) st := by
  induction ks generalizing st with
  | nil => rfl
  | cons k ks ih =>
    obtain ⟨hf, hb, e1, e2, e3⟩ := hk k (List.mem_cons_self _ _)
    have ih' := ih (fun k' hk' => hk k' (List.mem_cons_of_mem _ hk'))
    obtain ⟨bf, hbf⟩ := Option.isSome_iff_exists.mp hb
    rw [List.map_cons]
    by_cases hs : st.1 = true
    · rw [scan_classes_found t a _ st hs, scan_ids_cons, if_pos hs]; rfl
    · rw [scan_ids_cons, scan_classes_cons, if_neg hs, if_neg hs, hf, hbf]
      simp only [Bool.not_true, Bool.false_eq_true, if_false]
      rw [probe_intrin_eq, e3, e2, e1]
      split
      · cases t.hash_tables (t.bf_ids k) with
        | none => rfl
        | some ht => exact ih' _
      · exact ih' _

end V6

section
variable {ν : Type}

/-- A lane loop whose body runs `g i` on `next_hops[i]` and stores the
result in lane `i`: when every `g i` returns, the loop returns the arrays
with the results in lanes below `m`. -/
theorem lanes_ok (g : Nat → ν → Except fault (Bool × ν))
    (f : (Nat → ν) × (Nat → Bool) → Nat → Except fault ((Nat → ν) × (Nat → Bool))) (n : Nat)
    (hf : ∀ st i, i < n → f st i
      = store_lane st i (g i (st.1 i)))
    (st0 : (Nat → ν) × (Nat → Bool)) (m : Nat) (hm : m ≤ n)
    (hg : ∀ i, i < m → ∃ r, g i (st0.1 i) = .ok r) :
    (List.range m).foldlM f st0
      = .ok (fun i => if i < m then (result_or (false, st0.1 i) (g i (st0.1 i))).2 else st0.1 i,
          fun i => if i < m then (result_or (false, st0.1 i) (g i (st0.1 i))).1 else st0.2 i) := by
  induction m with
  | zero =>
    simp only [List.range_zero, List.foldlM_nil, pure, Except.pure, Nat.not_lt_zero, if_false]
  | succ m ih =>
    rw [List.range_succ, List.foldlM_append, ih (by omega) (fun i hi => hg i (by omega))]
    simp only [bind, Except.bind, List.foldlM_cons, List.foldlM_nil]
    rw [hf _ m (by omega)]
    simp only [lt_irrefl, if_false]
    obtain ⟨r, hr⟩ := hg m (by omega)
    rw [hr]
    simp only [pure, Except.pure, store_lane]
    congr 1
    refine Prod.ext ?_ ?_
    · funext i
      dsimp only
      by_cases him : i = m
      · subst him
        rw [Function.update_same, if_pos (by omega), hr]
        rfl
      · rw [Function.update_noteq him]
        by_cases hlt : i < m
        · rw [if_pos hlt, if_pos (by omega)]
        · rw [if_neg hlt, if_neg (by omega)]
    · funext i
      dsimp only
      by_cases him : i = m
      · subst him
        rw [Function.update_same, if_pos (by omega), hr]
        rfl
      · rw [Function.update_noteq him]
        by_cases hlt : i < m
        · rw [if_pos hlt, if_pos (by omega)]
        · rw [if_neg hlt, if_neg (by omega)]

/-- A lane loop that returns ran every `g i` to its end. -/
theorem lanes_returned (g : Nat → ν → Except fault (Bool × ν))
    (f : (Nat → ν) × (Nat → Bool) → Nat → Except fault ((Nat → ν) × (Nat → Bool))) (n : Nat)
    (hf : ∀ st i, i < n → f st i
      = store_lane st i (g i (st.1 i)))
    (st0 : (Nat → ν) × (Nat → Bool)) (m : Nat) (hm : m ≤ n)
    (st : (Nat → ν) × (Nat → Bool)) (h : (List.range m).foldlM f st0 = .ok st) :
    ∀ i, i < m → ∃ r, g i (st0.1 i) = .ok r := by
  induction m generalizing st with
  | zero => intro i hi; omega
  | succ m ih =>
    rw [List.range_succ, List.foldlM_append] at h
    cases h1 : (List.range m).foldlM f st0 with
    | error e =>
      rw [h1] at h
      simp only [bind, Except.bind] at h
      cases h
    | ok s1 =>
      have hprev := ih (by omega) s1 h1
      rw [lanes_ok g f n hf st0 m (by omega) hprev] at h
      simp only [bind, Except.bind, List.foldlM_cons, List.foldlM_nil] at h
      rw [hf _ m (by omega)] at h
      intro i hi
      by_cases him : i = m
      · subst him
        simp only [lt_irrefl, if_false] at h
        cases hgm : g i (st0.1 i) with
        | error e => rw [hgm] at h; simp only [store_lane] at h; cases h
        | ok r => exact ⟨r, rfl⟩
      · exact hprev i (by omega)

end

namespace V6

/-- With the keys and hashes of address `i` in their cells, the body of the
last loop of the batch is the scalar lookup of the address, stored in lane
`i`. -/
theorem lookup_lane_eq (t : forwarding_table) (a : uint128) (pfx_keys h1 h2 : Nat → Nat)
    (i : Nat)
    (hids : (List.range t.distinct_lengths).map t.bf_ids
      = (List.range 64).filter
          (fun i => t.has_prefix_length i && (t.counting_bloom_filters i).isSome))
    (hfacts : ∀ k, k < t.distinct_lengths →
      pfx_keys (t.distinct_lengths * i + k)
          = prefix_key a.hi ((64 + 256 - t.bf_ids k) % 256)
      ∧ h1 (t.distinct_lengths * i + k)
          = murmurhash3_64_32 (pfx_keys (t.distinct_lengths * i + k))
      ∧ h2 (t.distinct_lengths * i + k) = murmurhash3_32 (h1 (t.distinct_lengths * i + k)))
    (st : (Nat → uint128) × (Nat → Bool)) :
    lookup_lane t pfx_keys h1 h2 st i
      = store_lane st i (lookup_address t a (st.1 i)) := by
  have hk : ∀ k ∈ List.range t.distinct_lengths,
      t.has_prefix_length (t.bf_ids k) = true
      ∧ (t.counting_bloom_filters (t.bf_ids k)).isSome = true
      ∧ pfx_keys (t.distinct_lengths * i + k) = prefix_key a.hi (64 - t.bf_ids k)
      ∧ h1 (t.distinct_lengths * i + k)
          = murmurhash3_64_32 (pfx_keys (t.distinct_lengths * i + k))
      ∧ h2 (t.distinct_lengths * i + k)
          = murmurhash3_32 (h1 (t.distinct_lengths * i + k)) := by
    intro k hkm
    have hmem : t.bf_ids k ∈ (List.range t.distinct_lengths).map t.bf_ids :=
      List.mem_map_of_mem _ hkm
    rw [hids, List.mem_filter, List.mem_range] at hmem
    obtain ⟨hlt, hpop⟩ := hmem
    simp only [Bool.and_eq_true] at hpop
    obtain ⟨e1, e2, e3⟩ := hfacts k (List.mem_range.mp hkm)
    have e : (64 + 256 - t.bf_ids k) % 256 = 64 - t.bf_ids k := by omega
    rw [e] at e1
    exact ⟨hpop.1, hpop.2, e1, e2, e3⟩
  unfold lookup_lane lookup_address store_lane
  dsimp only
  rw [scan_ids_eq t a.hi pfx_keys h1 h2 _ _ hk, hids, ← scan_classes_filter]
  cases scan_classes t a.hi (List.range 64) (false, st.1 i) <;> rfl

end V6

/-- C8: scalar/batch equivalence (IPv6).  Take any table whose `bf_ids`
lists, in its first `distinct_lengths` cells, the populated classes (flag set
and filter allocated) in increasing order, and any batch of `len` addresses
with `len * distinct_lengths` a multiple of 16.  Then
`lookup_address_intrin`, with the vector hashes computed lane-wise and packed
from the odd lanes as the source does, returns exactly when `lookup_address`
returns on every address of the batch, and when it returns, lane `i` of its
two output arrays holds the found flag and the next hop `lookup_address`
gives for `addrs[i]` started on `next_hops[i]`, for every `i < len`; the
lanes from `len` on are untouched. -/
theorem lookup_address_intrin6_eq_scalar (t : V6.forwarding_table)
    (addrs next_hops : Nat → V6.uint128) (found_vec : Nat → Bool) (len : Nat)
    (hids : (List.range t.distinct_lengths).map t.bf_ids
      = (List.range 64).filter
          (fun i => t.has_prefix_length i && (t.counting_bloom_filters i).isSome))
    (hlen : (len * t.distinct_lengths) % 16 = 0) :
    (∀ r, V6.lookup_address_intrin t addrs next_hops found_vec len = .ok r →
      (∀ i, i < len → V6.lookup_address t (addrs i) (next_hops i) = .ok (r.2 i, r.1 i))
      ∧ ∀ i, len ≤ i → r.1 i = next_hops i ∧ r.2 i = found_vec i)
    ∧ ((∀ i, i < len → ∃ x, V6.lookup_address t (addrs i) (next_hops i) = .ok x) →
      ∃ r, V6.lookup_address_intrin t addrs next_hops found_vec len = .ok r) := by
  have hf : ∀ (st : (Nat → V6.uint128) × (Nat → Bool)) (i : Nat), i < len →
      V6.lookup_lane t
        (V6.fill_pfx_keys addrs t.distinct_lengths t.bf_ids len (fun _ => 0))
        ((V6.chunk_starts (len * t.distinct_lengths)).foldl
          (V6.h1_chunk (V6.fill_pfx_keys addrs t.distinct_lengths t.bf_ids len (fun _ => 0)))
          (fun _ => 0, fun _ => 0)).1
        ((V6.chunk_starts (len * t.distinct_lengths)).foldl
          (fun h2 i => murmurhash3_32_vec512_v3
            ((V6.chunk_starts (len * t.distinct_lengths)).foldl
              (V6.h1_chunk (V6.fill_pfx_keys addrs t.distinct_lengths t.bf_ids len (fun _ => 0)))
              (fun _ => 0, fun _ => 0)).1 i h2 i) (fun _ => 0))
        st i
      = store_lane st i (V6.lookup_address t (addrs i) (st.1 i)) := by
    intro st i hi
    apply V6.lookup_lane_eq t (addrs i) _ _ _ i hids
    intro k hk
    have hb : t.distinct_lengths * i + k < len * t.distinct_lengths := by
      have : t.distinct_lengths * (i + 1) ≤ t.distinct_lengths * len :=
        Nat.mul_le_mul_left _ (by omega)
      rw [Nat.mul_succ, Nat.mul_comm t.distinct_lengths len] at this
      omega
    exact ⟨V6.fill_pfx_keys_spec addrs _ _ len _ i k hi hk,
      V6.h1_loop_spec _ _ hlen _ _ hb, V6.h2_loop_spec _ _ hlen _ _ hb⟩
  have hunf : V6.lookup_address_intrin t addrs next_hops found_vec len
      = (List.range len).foldlM
          (V6.lookup_lane t
            (V6.fill_pfx_keys addrs t.distinct_lengths t.bf_ids len (fun _ => 0))
            ((V6.chunk_starts (len * t.distinct_lengths)).foldl
              (V6.h1_chunk (V6.fill_pfx_keys addrs t.distinct_lengths t.bf_ids len (fun _ => 0)))
              (fun _ => 0, fun _ => 0)).1
            ((V6.chunk_starts (len * t.distinct_lengths)).foldl
              (fun h2 i => murmurhash3_32_vec512_v3
                ((V6.chunk_starts (len * t.distinct_lengths)).foldl
                  (V6.h1_chunk
                    (V6.fill_pfx_keys addrs t.distinct_lengths t.bf_ids len (fun _ => 0)))
                  (fun _ => 0, fun _ => 0)).1 i h2 i) (fun _ => 0)))
          (next_hops, found_vec) := by
    unfold V6.lookup_address_intrin
    dsimp only
    rw [if_neg (by rw [hlen]; simp)]
  rw [hunf]
  constructor
  · intro r hr
    have hall := lanes_returned (fun i x => V6.lookup_address t (addrs i) x) _ len hf
      (next_hops, found_vec) len (le_refl _) r hr
    rw [lanes_ok (fun i x => V6.lookup_address t (addrs i) x) _ len hf
      (next_hops, found_vec) len (le_refl _) hall] at hr
    cases hr
    dsimp only
    constructor
    · intro i hi
      obtain ⟨x, hx⟩ := hall i hi
      dsimp only at hx
      rw [if_pos hi, if_pos hi, hx]
      rfl
    · intro i hi
      rw [if_neg (by omega), if_neg (by omega)]
      exact ⟨rfl, rfl⟩
  · intro hall
    exact ⟨_, lanes_ok (fun i x => V6.lookup_address t (addrs i) x) _ len hf
      (next_hops, found_vec) len (le_refl _) hall⟩

set_option maxRecDepth 100000 in
theorem demo_table6_wf : V6.wf demo_table6 := by
  obtain ⟨hw0, _, _⟩ := V6.new_forwarding_table_wf demo_sizing demo_dist6 0 (fun _ => 0) demo_new6
    (fun q _ => by unfold demo_sizing; show 0 < 7; omega) demo_new6_built
  obtain ⟨t, hst, hw, _⟩ := V6.store_prefixes_level demo_prefixes6 demo_new6 hw0
    demo_prefixes6_valid
  rw [demo_table6_built] at hst
  cases hst
  exact hw

set_option maxRecDepth 100000 in
theorem demo_table6_ids :
    (List.range demo_table6.distinct_lengths).map demo_table6.bf_ids
      = (List.range 64).filter
          (fun i => demo_table6.has_prefix_length i
            && (demo_table6.counting_bloom_filters i).isSome) := by
  decide

set_option maxRecDepth 100000 in
/-- C8 at the concrete build `demo_table6` (three classes) and the batch
`demo_addrs6` of sixteen addresses, with the output arrays zeroed before the
call. -/
theorem lookup_address_intrin6_eq_scalar_witness :
    ∃ r, V6.lookup_address_intrin demo_table6 demo_addrs6 (fun _ => { hi := 0, lo := 0 })
        (fun _ => false) 16 = .ok r
      ∧ ∀ i, i < 16 →
          V6.lookup_address demo_table6 (demo_addrs6 i) { hi := 0, lo := 0 }
            = .ok (r.2 i, r.1 i) := by
  have H := lookup_address_intrin6_eq_scalar demo_table6 demo_addrs6
    (fun _ => { hi := 0, lo := 0 }) (fun _ => false) 16 demo_table6_ids (by decide)
  obtain ⟨r, hr⟩ := H.2 (fun i _ => ⟨_, V6.lookup_address_eq_level demo_table6 demo_table6_wf _ _⟩)
  exact ⟨r, hr, (H.1 r hr).1⟩

/-! ## Hash table: get after put, creation and uniqueness -/

section
variable {ν : Type}

/-- C13: hash-table get-after-put.  For every hash function, table, keys `k`
and `k'` and next hop `nh`: after `store_next_hop (tbl, k, nh)`,
`find_next_hop (tbl, k')` returns `(true, nh)` when `k' = k` and otherwise
exactly what it returned before the store; the same holds for
`find_next_hop_with_hash` handed the hash of `k'`, which the builds with
`SAME_HASH_FUNCTIONS` call. -/
theorem find_next_hop_after_store (H : Nat → Nat) (tbl : hash_table ν) (k k' : Nat)
    (nh nh0 : ν) :
    find_next_hop H (store_next_hop H tbl k nh).2 k' nh0
        = (if k' = k then (true, nh) else find_next_hop H tbl k' nh0)
    ∧ find_next_hop_with_hash (store_next_hop H tbl k nh).2 (H k') k' nh0
        = (if k' = k then (true, nh) else find_next_hop_with_hash tbl (H k') k' nh0) := by
  rw [find_next_hop_eq, find_next_hop_with_hash_eq, find_next_hop_eq,
    find_next_hop_with_hash_eq, ht_get_store]
  by_cases hk : k' = k
  · simp only [hk, if_true, and_self]
  · simp only [hk, if_false, and_self]

end

section
variable {ν : Type}

theorem chain_find_some (h k : Nat) (c : List (hash_table_entry ν)) (e : hash_table_entry ν)
    (hf : chain_find h k c = some e) : e ∈ c ∧ e.hash = h ∧ e.key = k := by
  induction c with
  | nil => cases hf
  | cons x xs ih =>
    unfold chain_find at hf
    by_cases hm : x.hash = h ∧ x.key = k
    · rw [if_pos hm] at hf
      cases hf
      exact ⟨List.mem_cons_self _ _, hm.1, hm.2⟩
    · rw [if_neg hm] at hf
      obtain ⟨h1, h2, h3⟩ := ih hf
      exact ⟨List.mem_cons_of_mem _ h1, h2, h3⟩

theorem chain_find_none (h k : Nat) (c : List (hash_table_entry ν)) :
    chain_find h k c = none ↔ ∀ e ∈ c, ¬ (e.hash = h ∧ e.key = k) := by
  induction c with
  | nil => simp [chain_find]
  | cons x xs ih =>
    unfold chain_find
    by_cases hm : x.hash = h ∧ x.key = k
    · rw [if_pos hm]
      constructor
      · intro hc; cases hc
      · intro hall; exact absurd hm (hall x (List.mem_cons_self _ _))
    · rw [if_neg hm, ih]
      constructor
      · intro hall e he
        rcases List.mem_cons.mp he with rfl | he'
        · exact hm
        · exact hall e he'
      · intro hall e he
        exact hall e (List.mem_cons_of_mem _ he)

/-- The chain after an update in place: the entries before the match, the
match with the new next hop, the entries after it. -/
theorem chain_set_split (h k : Nat) (v : ν) (c : List (hash_table_entry ν))
    (e : hash_table_entry ν) (hf : chain_find h k c = some e) :
    ∃ pre post, c = pre ++ e :: post
      ∧ chain_set h k v c = pre ++ { e with next_hop := v } :: post
      ∧ ∀ x ∈ pre, ¬ (x.hash = h ∧ x.key = k) := by
  induction c with
  | nil => cases hf
  | cons x xs ih =>
    unfold chain_find at hf
    unfold chain_set
    by_cases hm : x.hash = h ∧ x.key = k
    · rw [if_pos hm] at hf
      cases hf
      rw [if_pos hm]
      exact ⟨[], xs, rfl, rfl, fun _ hx => by cases hx⟩
    · rw [if_neg hm] at hf
      rw [if_neg hm]
      obtain ⟨pre, post, h1, h2, h3⟩ := ih hf
      refine ⟨x :: pre, post, by rw [h1]; rfl, by rw [h2]; rfl, ?_⟩
      intro y hy
      rcases List.mem_cons.mp hy with rfl | hy'
      · exact hm
      · exact h3 y hy'

theorem chain_set_length (h k : Nat) (v : ν) (c : List (hash_table_entry ν)) :
    (chain_set h k v c).length = c.length := by
  induction c with
  | nil => rfl
  | cons x xs ih =>
    unfold chain_set
    by_cases hm : x.hash = h ∧ x.key = k
    · rw [if_pos hm]; rfl
    · rw [if_neg hm]; simp [ih]

theorem chain_set_keys (h k : Nat) (v : ν) (c : List (hash_table_entry ν)) :
    (chain_set h k v c).map (fun e => (e.hash, e.key)) = c.map (fun e => (e.hash, e.key)) := by
  induction c with
  | nil => rfl
  | cons x xs ih =>
    unfold chain_set
    by_cases hm : x.hash = h ∧ x.key = k
    · rw [if_pos hm]; rfl
    · rw [if_neg hm]; simp [ih]

/-- In a table whose entries are placed by hash, the chain scan of the
store misses exactly when no chain holds the key. -/
theorem chain_find_none_placed (H : Nat → Nat) (tbl : hash_table ν) (hp : ht_placed H tbl)
    (k : Nat) :
    chain_find (H k) k (tbl.slots (H k % tbl.range)) = none
      ↔ ∀ i e, e ∈ tbl.slots i → e.key ≠ k := by
  rw [chain_find_none]
  constructor
  · intro hall i e he hk
    obtain ⟨h1, h2⟩ := hp i e he
    have hh : e.hash = H k := by rw [h1, hk]
    have hi : i = H k % tbl.range := by rw [h2, hh]
    rw [hi] at he
    exact hall e he ⟨hh, hk⟩
  · intro hall e he hc
    exact hall _ e he hc.2

theorem store_next_hop_created (H : Nat → Nat) (tbl : hash_table ν) (k : Nat) (v : ν) :
    (store_next_hop H tbl k v).1 = true
      ↔ chain_find (H k) k (tbl.slots (H k % tbl.range)) = none := by
  unfold store_next_hop
  dsimp only
  cases chain_find (H k) k (tbl.slots (H k % tbl.range)) <;> simp

theorem store_next_hop_total (H : Nat → Nat) (tbl : hash_table ν) (k : Nat) (v : ν) :
    (store_next_hop H tbl k v).2.total
      = if (store_next_hop H tbl k v).1 = true then (tbl.total + 1) % U32 else tbl.total := by
  unfold store_next_hop
  dsimp only
  cases chain_find (H k) k (tbl.slots (H k % tbl.range)) <;> simp

end

theorem sum_range_update (f g : Nat → Nat) (idx n : Nat) (hn : idx < n)
    (hfg : ∀ i, i ≠ idx → f i = g i) :
    ((List.range n).map f).sum + g idx = ((List.range n).map g).sum + f idx := by
  induction n with
  | zero => omega
  | succ n ih =>
    rw [List.range_succ, List.map_append, List.map_append, List.sum_append, List.sum_append]
    simp only [List.map_cons, List.map_nil, List.sum_cons, List.sum_nil, Nat.add_zero]
    by_cases hin : idx = n
    · subst hin
      have hsame : (List.range idx).map f = (List.range idx).map g := by
        apply List.map_congr_left
        intro i hi
        rw [List.mem_range] at hi
        exact hfg i (by omega)
      rw [hsame]
      omega
    · have := ih (by omega)
      have hn' := hfg n (fun h => hin h.symm)
      omega

section
variable {ν : Type}

theorem ht_placed_new (H : Nat → Nat) (cap : Nat) :
    ht_placed H (new_hash_table cap : hash_table ν) := by
  intro i e he
  cases he

theorem ht_placed_store (H : Nat → Nat) (tbl : hash_table ν) (hp : ht_placed H tbl)
    (k : Nat) (v : ν) : ht_placed H (store_next_hop H tbl k v).2 := by
  intro i e he
  rw [store_next_hop_range]
  rw [store_next_hop_slots] at he
  by_cases hi : i = H k % tbl.range
  · subst hi
    rw [Function.update_same] at he
    cases hf : chain_find (H k) k (tbl.slots (H k % tbl.range)) with
    | none =>
      rw [hf] at he
      rcases List.mem_cons.mp he with rfl | he'
      · exact ⟨rfl, rfl⟩
      · exact hp _ e he'
    | some x =>
      rw [hf] at he
      obtain ⟨pre, post, h1, h2, _⟩ := chain_set_split (H k) k v _ x hf
      simp only at he
      rw [h2] at he
      obtain ⟨hx1, hx2⟩ := hp _ x (by rw [h1]; simp)
      rcases List.mem_append.mp he with hpre | hrest
      · exact hp _ e (by rw [h1]; exact List.mem_append_left _ hpre)
      · rcases List.mem_cons.mp hrest with rfl | hpost
        · exact ⟨hx1, hx2⟩
        · exact hp _ e (by rw [h1]; simp [hpost])
  · rw [Function.update_noteq hi] at he
    exact hp i e he

theorem store_slots_none (H : Nat → Nat) (tbl : hash_table ν) (k : Nat) (v : ν)
    (hf : chain_find (H k) k (tbl.slots (H k % tbl.range)) = none) :
    (store_next_hop H tbl k v).2.slots
      = Function.update tbl.slots (H k % tbl.range)
          ({ hash := H k, key := k, next_hop := v } :: tbl.slots (H k % tbl.range)) := by
  rw [store_next_hop_slots, hf]

theorem store_slots_some (H : Nat → Nat) (tbl : hash_table ν) (k : Nat) (v : ν)
    (x : hash_table_entry ν)
    (hf : chain_find (H k) k (tbl.slots (H k % tbl.range)) = some x) :
    (store_next_hop H tbl k v).2.slots
      = Function.update tbl.slots (H k % tbl.range)
          (chain_set (H k) k v (tbl.slots (H k % tbl.range))) := by
  rw [store_next_hop_slots, hf]

/-- What a store keeps: placement by hash, one entry per key in a chain,
entries only in buckets below `range`, and `total` counting the entries
modulo `2 ^ 32`. -/
theorem ht_store_inv (H : Nat → Nat) (tbl : hash_table ν) (k : Nat) (v : ν)
    (hr : 0 < tbl.range) (hp : ht_placed H tbl)
    (hnd : ∀ i, ((tbl.slots i).map (fun e => e.key)).Nodup)
    (hb : ∀ i, tbl.range ≤ i → tbl.slots i = [])
    (ht : tbl.total = num_entries tbl % U32) :
    (∀ i, (((store_next_hop H tbl k v).2.slots i).map (fun e => e.key)).Nodup)
    ∧ (∀ i, (store_next_hop H tbl k v).2.range ≤ i → (store_next_hop H tbl k v).2.slots i = [])
    ∧ (store_next_hop H tbl k v).2.total = num_entries (store_next_hop H tbl k v).2 % U32
    ∧ num_entries (store_next_hop H tbl k v).2
        = if (store_next_hop H tbl k v).1 = true then num_entries tbl + 1
          else num_entries tbl := by
  have hidx : H k % tbl.range < tbl.range := Nat.mod_lt _ hr
  have hcount : num_entries (store_next_hop H tbl k v).2
        = if (store_next_hop H tbl k v).1 = true then num_entries tbl + 1
          else num_entries tbl := by
    unfold num_entries
    rw [store_next_hop_range]
    cases hf : chain_find (H k) k (tbl.slots (H k % tbl.range)) with
    | none =>
      have hc : (store_next_hop H tbl k v).1 = true := (store_next_hop_created H tbl k v).2 hf
      rw [if_pos hc, store_slots_none H tbl k v hf]
      have hsum := sum_range_update
        (fun i => (Function.update tbl.slots (H k % tbl.range)
            ({ hash := H k, key := k, next_hop := v } :: tbl.slots (H k % tbl.range)) i).length)
        (fun i => (tbl.slots i).length) (H k % tbl.range) tbl.range hidx
        (fun i hi => by simp only [Function.update_noteq hi])
      simp only [Function.update_same, List.length_cons] at hsum
      omega
    | some x =>
      have hc : ¬ (store_next_hop H tbl k v).1 = true := by
        rw [store_next_hop_created, hf]; simp
      rw [if_neg hc, store_slots_some H tbl k v x hf]
      have hsum := sum_range_update
        (fun i => (Function.update tbl.slots (H k % tbl.range)
            (chain_set (H k) k v (tbl.slots (H k % tbl.range))) i).length)
        (fun i => (tbl.slots i).length) (H k % tbl.range) tbl.range hidx
        (fun i hi => by simp only [Function.update_noteq hi])
      simp only [Function.update_same, chain_set_length] at hsum
      omega
  refine ⟨?_, ?_, ?_, hcount⟩
  · intro i
    cases hf : chain_find (H k) k (tbl.slots (H k % tbl.range)) with
    | none =>
      rw [store_slots_none H tbl k v hf]
      by_cases hi : i = H k % tbl.range
      · subst hi
        rw [Function.update_same]
        simp only [List.map_cons]
        refine List.nodup_cons.mpr ⟨?_, hnd _⟩
        intro hmem
        obtain ⟨e, he, hek⟩ := List.mem_map.mp hmem
        obtain ⟨h1, _⟩ := hp _ e he
        exact (chain_find_none _ _ _).mp hf e he ⟨by rw [h1, hek], hek⟩
      · rw [Function.update_noteq hi]
        exact hnd i
    | some x =>
      rw [store_slots_some H tbl k v x hf]
      by_cases hi : i = H k % tbl.range
      · subst hi
        rw [Function.update_same]
        have := congrArg (List.map Prod.snd) (chain_set_keys (H k) k v
          (tbl.slots (H k % tbl.range)))
        simp only [List.map_map] at this
        have e1 : (Prod.snd ∘ fun (e : hash_table_entry ν) => (e.hash, e.key))
            = fun e => e.key := rfl
        rw [e1] at this
        rw [this]
        exact hnd _
      · rw [Function.update_noteq hi]
        exact hnd i
  · intro i hi
    rw [store_next_hop_range] at hi
    rw [store_next_hop_slots, Function.update_noteq (by omega)]
    exact hb i hi
  · rw [store_next_hop_total, hcount, ht]
    by_cases hc : (store_next_hop H tbl k v).1 = true
    · rw [if_pos hc, if_pos hc]
      show (num_entries tbl % 4294967296 + 1) % 4294967296
        = (num_entries tbl + 1) % 4294967296
      omega
    · rw [if_neg hc, if_neg hc]

end

section
variable {ν : Type}

theorem ht_fold_inv (H : Nat → Nat) (ops : List (Nat × ν)) (tbl : hash_table ν)
    (hr : 0 < tbl.range) (hp : ht_placed H tbl)
    (hnd : ∀ i, ((tbl.slots i).map (fun e => e.key)).Nodup)
    (hb : ∀ i, tbl.range ≤ i → tbl.slots i = [])
    (ht : tbl.total = num_entries tbl % U32) :
    0 < (ops.foldl (fun tbl kv => (store_next_hop H tbl kv.1 kv.2).2) tbl).range
    ∧ ht_placed H (ops.foldl (fun tbl kv => (store_next_hop H tbl kv.1 kv.2).2) tbl)
    ∧ (∀ i, (((ops.foldl (fun tbl kv => (store_next_hop H tbl kv.1 kv.2).2) tbl).slots i).map
        (fun e => e.key)).Nodup)
    ∧ (∀ i, (ops.foldl (fun tbl kv => (store_next_hop H tbl kv.1 kv.2).2) tbl).range ≤ i →
        (ops.foldl (fun tbl kv => (store_next_hop H tbl kv.1 kv.2).2) tbl).slots i = [])
    ∧ (ops.foldl (fun tbl kv => (store_next_hop H tbl kv.1 kv.2).2) tbl).total
        = num_entries (ops.foldl (fun tbl kv => (store_next_hop H tbl kv.1 kv.2).2) tbl) % U32 := by
  induction ops generalizing tbl with
  | nil => exact ⟨hr, hp, hnd, hb, ht⟩
  | cons kv ops ih =>
    rw [List.foldl_cons]
    obtain ⟨h1, h2, h3, _⟩ := ht_store_inv H tbl kv.1 kv.2 hr hp hnd hb ht
    exact ih _ (by rw [store_next_hop_range]; exact hr) (ht_placed_store H tbl hp kv.1 kv.2)
      h1 h2 h3

theorem ht_after_inv (H : Nat → Nat) (cap : Nat) (ops : List (Nat × ν)) (hcap : 0 < cap) :
    0 < (ht_after H cap ops).range
    ∧ ht_placed H (ht_after H cap ops)
    ∧ (∀ i, (((ht_after H cap ops).slots i).map (fun e => e.key)).Nodup)
    ∧ (∀ i, (ht_after H cap ops).range ≤ i → (ht_after H cap ops).slots i = [])
    ∧ (ht_after H cap ops).total = num_entries (ht_after H cap ops) % U32 := by
  unfold ht_after
  apply ht_fold_inv H ops (new_hash_table cap) hcap (ht_placed_new H cap)
  · intro i; exact List.nodup_nil
  · intro i _; rfl
  · unfold num_entries new_hash_table
    simp

/-- C14: what `store_next_hop` returns and changes.  In a table whose
entries are placed by hash (every table the code builds), the call returns
true iff no chain held an entry with the key before.  When it returns false
the bucket of the key is `pre ++ e :: post` with `e` the entry of the key, and
afterwards it is `pre ++ e' :: post` with `e'` equal to `e` but for the new
next hop, every other bucket, `total` and `range` being unchanged.  When it
returns true the one new entry `(hash, key, next_hop)` is at the head of bucket
`hash mod range`, the rest of the chains is unchanged, and `total`, a
`uint32_t`, is incremented (by one whenever it is below `2 ^ 32 - 1`). -/
theorem store_next_hop_creates_iff_absent (H : Nat → Nat) (tbl : hash_table ν) (k : Nat)
    (nh : ν) (hp : ht_placed H tbl) :
    ((store_next_hop H tbl k nh).1 = true ↔ ∀ i e, e ∈ tbl.slots i → e.key ≠ k)
    ∧ ((store_next_hop H tbl k nh).1 = false →
        ∃ pre e post, tbl.slots (H k % tbl.range) = pre ++ e :: post
          ∧ e.key = k ∧ (∀ x ∈ pre, x.key ≠ k)
          ∧ (store_next_hop H tbl k nh).2.slots
              = Function.update tbl.slots (H k % tbl.range)
                  (pre ++ { e with next_hop := nh } :: post)
          ∧ (store_next_hop H tbl k nh).2.total = tbl.total
          ∧ (store_next_hop H tbl k nh).2.range = tbl.range)
    ∧ ((store_next_hop H tbl k nh).1 = true →
        (store_next_hop H tbl k nh).2.slots
            = Function.update tbl.slots (H k % tbl.range)
                ({ hash := H k, key := k, next_hop := nh } :: tbl.slots (H k % tbl.range))
          ∧ (store_next_hop H tbl k nh).2.total = (tbl.total + 1) % U32
          ∧ (tbl.total + 1 < U32 → (store_next_hop H tbl k nh).2.total = tbl.total + 1)
          ∧ (store_next_hop H tbl k nh).2.range = tbl.range) := by
  refine ⟨?_, ?_, ?_⟩
  · rw [store_next_hop_created, chain_find_none_placed H tbl hp]
  · intro hc
    have hne : chain_find (H k) k (tbl.slots (H k % tbl.range)) ≠ none := by
      intro h
      rw [(store_next_hop_created H tbl k nh).2 h] at hc
      cases hc
    obtain ⟨x, hx⟩ := Option.ne_none_iff_exists'.mp hne
    obtain ⟨pre, post, h1, h2, h3⟩ := chain_set_split (H k) k nh _ x hx
    obtain ⟨_, _, hxk⟩ := chain_find_some _ _ _ _ hx
    refine ⟨pre, x, post, h1, hxk, ?_, ?_, ?_, store_next_hop_range _ _ _ _⟩
    · intro y hy hyk
      have hmem : y ∈ tbl.slots (H k % tbl.range) := by
        rw [h1]; exact List.mem_append_left _ hy
      obtain ⟨hh, _⟩ := hp _ y hmem
      exact h3 y hy ⟨by rw [hh, hyk], hyk⟩
    · rw [store_slots_some H tbl k nh x hx, h2]
    · rw [store_next_hop_total, hc]
      simp
  · intro hc
    have hf := (store_next_hop_created H tbl k nh).1 hc
    refine ⟨store_slots_none H tbl k nh hf, ?_, ?_, store_next_hop_range _ _ _ _⟩
    · rw [store_next_hop_total, if_pos hc]
    · intro hlt
      rw [store_next_hop_total, if_pos hc]
      exact Nat.mod_eq_of_lt hlt

/-- C14 at a concrete table: one key stored in a fresh table of four
buckets, then stored again. -/
theorem store_next_hop_creates_iff_absent_witness :
    (store_next_hop murmurhash3_32 (ht_after murmurhash3_32 4 [(1, 7)]) 1 8).1 = false
    ∧ (store_next_hop murmurhash3_32 (ht_after murmurhash3_32 4 [(1, 7)]) 5 9).1 = true
    ∧ ((store_next_hop murmurhash3_32 (ht_after murmurhash3_32 4 [((1 : Nat), (7 : Nat))])
          5 9).1 = true
        ↔ ∀ i e, e ∈ (ht_after murmurhash3_32 4 [((1 : Nat), (7 : Nat))]).slots i → e.key ≠ 5) :=
  ⟨by decide, by decide,
    (store_next_hop_creates_iff_absent murmurhash3_32 (ht_after murmurhash3_32 4 [(1, 7)]) 5 9
      (ht_after_inv murmurhash3_32 4 [(1, 7)] (by decide)).2.1).1⟩

/-- C15: hash-table uniqueness invariant.  In every table reached from
`new_hash_table` (with at least one bucket) by `store_next_hop` calls: each
entry carries the hash of its key and sits in bucket `hash mod range`, below
`range`; two entries with the same key, in whatever chains, are in the same
bucket and are the same entry, and no chain holds a key twice; and `total`
is the number of entries (as a `uint32_t`: modulo `2 ^ 32`, hence equal to it
whenever that number is below `2 ^ 32`). -/
theorem ht_after_unique (H : Nat → Nat) (cap : Nat) (ops : List (Nat × ν)) (hcap : 0 < cap) :
    (∀ i e, e ∈ (ht_after H cap ops).slots i →
        e.hash = H e.key ∧ i = e.hash % (ht_after H cap ops).range
          ∧ i < (ht_after H cap ops).range)
    ∧ (∀ i j e e', e ∈ (ht_after H cap ops).slots i → e' ∈ (ht_after H cap ops).slots j →
        e.key = e'.key → i = j ∧ e = e')
    ∧ (∀ i, (((ht_after H cap ops).slots i).map (fun e => e.key)).Nodup)
    ∧ (ht_after H cap ops).total = num_entries (ht_after H cap ops) % U32
    ∧ (num_entries (ht_after H cap ops) < U32 →
        (ht_after H cap ops).total = num_entries (ht_after H cap ops)) := by
  obtain ⟨hr, hp, hnd, hb, ht⟩ := ht_after_inv H cap ops hcap
  refine ⟨?_, ?_, hnd, ht, fun hlt => by rw [ht]; exact Nat.mod_eq_of_lt hlt⟩
  · intro i e he
    obtain ⟨h1, h2⟩ := hp i e he
    exact ⟨h1, h2, by rw [h2]; exact Nat.mod_lt _ hr⟩
  · intro i j e e' he he' hk
    obtain ⟨h1, h2⟩ := hp i e he
    obtain ⟨h1', h2'⟩ := hp j e' he'
    have hij : i = j := by rw [h2, h2', h1, h1', hk]
    subst hij
    exact ⟨rfl, List.inj_on_of_nodup_map (hnd i) he he' hk⟩

/-- C15 at a concrete table: three stores, two of them of the same key,
leave two entries. -/
theorem ht_after_unique_witness :
    demo_small_ht.total = 2 ∧ num_entries demo_small_ht = 2
    ∧ (∀ i, ((demo_small_ht.slots i).map (fun e => e.key)).Nodup) :=
  ⟨by decide, by decide,
    (ht_after_unique murmurhash3_32 4 [(1, 7), (5, 9), (1, 8)] (by decide)).2.2.1⟩

end

/-! ## The default route -/

theorem new_forwarding_table_default_route (sizing : Nat → Nat × Nat)
    (dist : List (Nat × Nat)) : (new_forwarding_table sizing dist).default_route = none := by
  unfold new_forwarding_table
  dsimp only
  rw [(init_ht_eq _).2.2.1, (init_cbf_frame sizing dist _).2.1]
  rfl

/-- A successful store sets the default route for a length-0 prefix and
leaves it alone otherwise. -/
theorem gen_store_default_route (H : Nat → Nat) (idxs : Nat → Nat → Nat → Nat)
    (t : forwarding_table) (pfx : Option ipv4_prefix) (r : Bool × forwarding_table)
    (h : gen_store H idxs t pfx = .ok r) :
    ∃ p, pfx = some p
      ∧ r.2.default_route.map (fun d => d.next_hop)
          = if p.netmask = 0 then some p.next_hop
            else t.default_route.map (fun d => d.next_hop) := by
  obtain ⟨p, hp, _, hc⟩ := gen_store_ok H idxs t pfx r h
  refine ⟨p, hp, ?_⟩
  rcases hc with ⟨h0, hr⟩ | ⟨h20, hr⟩ | ⟨h0, _, bf, ht, _, _, hr⟩
  · rw [if_pos h0, hr]
    exact (set_default_route_fields t p.next_hop).2.2.2
  · rw [if_neg (by omega), hr]
  · rw [if_neg h0, hr]

theorem gen_store_all_default_route (H : Nat → Nat) (idxs : Nat → Nat → Nat → Nat)
    (ps : List (Option ipv4_prefix)) (t t' : forwarding_table)
    (h : gen_store_all H idxs t ps = .ok t') :
    t'.default_route.map (fun d => d.next_hop)
      = last_default_from (t.default_route.map (fun d => d.next_hop)) ps := by
  induction ps generalizing t with
  | nil =>
    unfold gen_store_all at h
    cases h
    rfl
  | cons pfx rest ih =>
    unfold gen_store_all at h
    cases hs : gen_store H idxs t pfx with
    | error e => rw [hs] at h; cases h
    | ok r =>
      rw [hs] at h
      obtain ⟨p, hp, hd⟩ := gen_store_default_route H idxs t pfx r hs
      rw [ih r.2 h, hd, hp]
      rfl

theorem last_default_from_some (ps : List (Option ipv4_prefix)) (acc : Option Nat) :
    (last_default_from acc ps).isSome = true
      ↔ acc.isSome = true ∨ ∃ p, some p ∈ ps ∧ p.netmask = 0 := by
  induction ps generalizing acc with
  | nil => simp [last_default_from]
  | cons pfx rest ih =>
    cases pfx with
    | none =>
      unfold last_default_from
      rw [ih]
      simp
    | some p =>
      unfold last_default_from
      rw [ih]
      by_cases h0 : p.netmask = 0
      · simp only [h0, if_true, Option.isSome_some, true_or, true_iff]
        exact Or.inr ⟨p, List.mem_cons_self _ _, h0⟩
      · simp only [h0, if_false]
        constructor
        · rintro (h | ⟨q, hq, hq0⟩)
          · exact Or.inl h
          · exact Or.inr ⟨q, List.mem_cons_of_mem _ hq, hq0⟩
        · rintro (h | ⟨q, hq, hq0⟩)
          · exact Or.inl h
          · rcases List.mem_cons.mp hq with heq | hmem
            · cases heq; exact absurd hq0 h0
            · exact Or.inr ⟨q, hmem, hq0⟩

/-- C20: default-route invariant.  In every table the build phase reaches
from `new_forwarding_table` (v4-coop under every hash configuration, and the
baseline), the default route is present iff a length-0 prefix is among the
records stored, and its next hop is then that of the last such record; and a
`store_prefix` of a length-0 prefix leaves the DLA, the two filters and the
two hash tables as they were. -/
theorem default_route_invariant (sizing : Nat → Nat × Nat) (dist : List (Nat × Nat))
    (ps : List (Option ipv4_prefix)) :
    (∀ cfg t, V4coop.store_prefixes cfg (new_forwarding_table sizing dist) ps = .ok t →
      t.default_route.map (fun d => d.next_hop) = last_default ps
      ∧ (t.default_route.isSome = true ↔ ∃ p, some p ∈ ps ∧ p.netmask = 0))
    ∧ (∀ rand_r t, Baseline.store_prefixes rand_r (new_forwarding_table sizing dist) ps = .ok t →
      t.default_route.map (fun d => d.next_hop) = last_default ps
      ∧ (t.default_route.isSome = true ↔ ∃ p, some p ∈ ps ∧ p.netmask = 0))
    ∧ (∀ cfg (t : forwarding_table) (p : ipv4_prefix) r, p.netmask = 0 →
      V4coop.store_prefix cfg t (some p) = .ok r →
      r.2.dla = t.dla ∧ r.2.counting_bloom_filters = t.counting_bloom_filters
        ∧ r.2.hash_tables = t.hash_tables
        ∧ r.2.default_route.map (fun d => d.next_hop) = some p.next_hop) := by
  have key : ∀ (H : Nat → Nat) (idxs : Nat → Nat → Nat → Nat) (t : forwarding_table),
      gen_store_all H idxs (new_forwarding_table sizing dist) ps = .ok t →
      t.default_route.map (fun d => d.next_hop) = last_default ps
      ∧ (t.default_route.isSome = true ↔ ∃ p, some p ∈ ps ∧ p.netmask = 0) := by
    intro H idxs t h
    have hd := gen_store_all_default_route H idxs ps _ t h
    rw [new_forwarding_table_default_route] at hd
    have hd' : t.default_route.map (fun d => d.next_hop) = last_default ps := hd
    refine ⟨hd', ?_⟩
    have hs := last_default_from_some ps none
    simp only [Option.isSome_none, Bool.false_eq_true, false_or] at hs
    rw [← hs]
    have : last_default_from none ps = t.default_route.map (fun d => d.next_hop) := hd.symm
    rw [this]
    cases t.default_route <;> simp
  refine ⟨?_, ?_, ?_⟩
  · intro cfg t h
    rw [V4coop.store_prefixes_eq_gen] at h
    exact key _ _ t h
  · intro rand_r t h
    rw [Baseline.bl_store_prefixes_eq_gen] at h
    exact key _ _ t h
  · intro cfg t p r h0 h
    rw [V4coop.store_prefix_eq_gen, gen_store_default _ _ t p h0] at h
    cases h
    obtain ⟨e1, e2, e3, e4⟩ := set_default_route_fields t p.next_hop
    exact ⟨e1, e2, e3, e4⟩

/-- C20 at the concrete build `demo_table`: the default route is present
with the next hop 13 of the one length-0 record. -/
theorem default_route_invariant_witness :
    demo_table.default_route.map (fun d => d.next_hop) = last_default (demo_prefixes.map some)
    ∧ last_default (demo_prefixes.map some) = some 13 :=
  ⟨((default_route_invariant demo_sizing demo_dist (demo_prefixes.map some)).1
      demo_cfg demo_table demo_table_built).1, by decide⟩

/-! ## Storing a prefix twice -/

theorem set_default_route_again (t : forwarding_table) (g g2 : Nat) :
    (set_default_route (set_default_route t g).2 g2).1 = false := by
  unfold set_default_route
  cases t.default_route <;> rfl

theorem store_next_hop_again {ν : Type} (H : Nat → Nat) (tbl : hash_table ν) (k : Nat)
    (v v2 : ν) : (store_next_hop H (store_next_hop H tbl k v).2 k v2).1 = false := by
  cases hc : (store_next_hop H (store_next_hop H tbl k v).2 k v2).1 with
  | false => rfl
  | true =>
    exfalso
    have hf := (store_next_hop_created H _ k v2).1 hc
    have hg := ht_get_store H tbl k k v
    unfold ht_get at hg
    rw [hf] at hg
    simp at hg

/-- Two stores of the same key and length in a row: both return, and the
second reports an update when the first did not write 0 to a DLA cell. -/
theorem gen_store_twice (H : Nat → Nat) (idxs : Nat → Nat → Nat → Nat)
    (t : forwarding_table) (key len nh1 nh2 : Nat) (r1 : Bool × forwarding_table)
    (h1 : gen_store H idxs t (some { next_hop := nh1, key := key, netmask := len }) = .ok r1)
    (hnz : len = 20 → nh1 ≠ 0) :
    ∃ t2, gen_store H idxs r1.2 (some { next_hop := nh2, key := key, netmask := len })
      = .ok (false, t2) := by
  obtain ⟨p, hp, h32, hc⟩ := gen_store_ok H idxs t _ r1 h1
  cases hp
  dsimp only at h32 hc
  rcases hc with ⟨h0, hr⟩ | ⟨h20, hr⟩ | ⟨h0, h20, bf, ht, hbf, hht, hr⟩
  · refine ⟨(set_default_route r1.2 nh2).2, ?_⟩
    rw [gen_store_default H idxs r1.2 _ h0, hr]
    dsimp only
    have := set_default_route_again t nh1 nh2
    rw [← this]
  · refine ⟨{ r1.2 with dla := Function.update r1.2.dla (key >>> 12) nh2 }, ?_⟩
    rw [gen_store_dla H idxs r1.2 _ h20]
    dsimp only
    have hcell : r1.2.dla (key >>> 12) = nh1 := by
      rw [hr]
      dsimp only
      rw [Function.update_same]
    rw [hcell]
    have : decide (nh1 = 0) = false := by simp [hnz h20]
    rw [this]
  · have hid : bloom_filter_id { next_hop := nh2, key := key, netmask := len }
        = bloom_filter_id { next_hop := nh1, key := key, netmask := len } := rfl
    have hb2 : r1.2.counting_bloom_filters
        (bloom_filter_id { next_hop := nh2, key := key, netmask := len })
        = some (cbf_mark bf (idxs key bf.num_hashes)) := by
      rw [hr, hid]
      dsimp only
      rw [Function.update_same]
    have hh2 : r1.2.hash_tables
        (bloom_filter_id { next_hop := nh2, key := key, netmask := len })
        = some (store_next_hop H ht key nh1).2 := by
      rw [hr, hid]
      dsimp only
      rw [Function.update_same]
    have e := gen_store_class H idxs r1.2 { next_hop := nh2, key := key, netmask := len }
      h0 h20 h32 _ _ hb2 hh2
    dsimp only at e
    rw [store_next_hop_again] at e
    exact ⟨_, e⟩

/-- C16 (amended): update in place.  On a v4-coop table with both classes
allocated, for every key, every length up to 32 and all next hops `nh1`,
`nh2`, with `nh1` non-zero when the length is 20: `store_prefix` of
`(key, length, nh1)` followed by `store_prefix` of `(key, length, nh2)` both
return, the second with `created = false`; and afterwards, when the length is
0, 20 (with `nh2` non-zero), 24 or 32 and the key is canonical, every
`lookup_address` of an address the prefix covers is a hit that returns `nh2`
unless a stage for longer prefixes answers first. -/
theorem store_twice_updates (cfg : V4coop.config) (t : forwarding_table)
    (key len nh1 nh2 : Nat) (hall : allocated t) (hlen : len ≤ 32)
    (hnz : len = 20 → nh1 ≠ 0) :
    ∃ c1 t1 t2,
      V4coop.store_prefix cfg t (some { next_hop := nh1, key := key, netmask := len })
        = .ok (c1, t1)
      ∧ V4coop.store_prefix cfg t1 (some { next_hop := nh2, key := key, netmask := len })
        = .ok (false, t2)
      ∧ ∀ a nh0, a < U32 → (len = 0 ∨ len = 20 ∨ len = 24 ∨ len = 32) →
          canonical { next_hop := nh2, key := key, netmask := len } →
          covers { next_hop := nh2, key := key, netmask := len } a →
          (len = 20 → nh2 ≠ 0) →
          ∃ nh, V4coop.lookup_address cfg t2 a nh0 = .ok (true, nh)
            ∧ (nh = nh2 ∨ longer_hit (V4coop.HASHTBL_HASH_FUNCTION cfg) t2 len a nh) := by
  obtain ⟨r1, h1⟩ := gen_store_succeeds (V4coop.HASHTBL_HASH_FUNCTION cfg)
    (fun key n => hashes (V4coop.BLOOM_HASH_FUNCTION cfg) (V4coop.BLOOM_HASH_FUNCTION cfg)
      key n (fun _ => 0)) t { next_hop := nh1, key := key, netmask := len } hall hlen
  obtain ⟨t2, h2⟩ := gen_store_twice _ _ t key len nh1 nh2 r1 h1 hnz
  have hall1 := gen_store_allocated _ _ t _ r1 hall h1
  refine ⟨r1.1, r1.2, t2, ?_, ?_, ?_⟩
  · rw [V4coop.store_prefix_eq_gen]; exact h1
  · rw [V4coop.store_prefix_eq_gen]; exact h2
  · intro a nh0 ha hv hcan hcov hnz2
    rw [V4coop.lookup_address_eq_gen]
    exact gen_lookup_after_store _ _ _ (V4coop.probe_sound_coop cfg) r1.2
      { next_hop := nh2, key := key, netmask := len } (false, t2) hall1 h2 hv hnz2 hcan
      a nh0 ha hcov

/-- The claim of C16 as stated fails for a DLA entry whose first next hop is
0: the cell still reads as empty, so the second store reports a creation. -/
theorem store_twice_updates_counterexample :
    ∃ c1 t1 t2,
      V4coop.store_prefix demo_cfg (new_forwarding_table demo_sizing demo_dist)
        (some { next_hop := 0, key := 0x0A000000, netmask := 20 }) = .ok (c1, t1)
      ∧ V4coop.store_prefix demo_cfg t1
        (some { next_hop := 5, key := 0x0A000000, netmask := 20 }) = .ok (true, t2) :=
  ⟨_, _, _, rfl, rfl⟩

/-- C16 at a concrete input: `192.168.1.0/24` stored with next hop 9 and
then with next hop 10 in the fresh table of the demo sizes. -/
theorem store_twice_updates_witness :
    ∃ c1 t1 t2,
      V4coop.store_prefix demo_cfg (new_forwarding_table demo_sizing demo_dist)
        (some { next_hop := 9, key := 0xC0A80100, netmask := 24 }) = .ok (c1, t1)
      ∧ V4coop.store_prefix demo_cfg t1
        (some { next_hop := 10, key := 0xC0A80100, netmask := 24 }) = .ok (false, t2)
      ∧ ∀ a nh0, a < U32 → ((24 : Nat) = 0 ∨ (24 : Nat) = 20 ∨ (24 : Nat) = 24 ∨ (24 : Nat) = 32) →
          canonical { next_hop := 10, key := 0xC0A80100, netmask := 24 } →
          covers { next_hop := 10, key := 0xC0A80100, netmask := 24 } a →
          ((24 : Nat) = 20 → (10 : Nat) ≠ 0) →
          ∃ nh, V4coop.lookup_address demo_cfg t2 a nh0 = .ok (true, nh)
            ∧ (nh = 10 ∨ longer_hit (V4coop.HASHTBL_HASH_FUNCTION demo_cfg) t2 24 a nh) :=
  store_twice_updates demo_cfg (new_forwarding_table demo_sizing demo_dist) 0xC0A80100 24 9 10
    (new_forwarding_table_inv id (fun _ _ => true) demo_sizing demo_dist demo_well_sized).1
    (by decide) (by decide)

theorem cbf_mark_foldl_bitmap (idxs : Nat → Nat) (l : List Nat) (b : counting_bloom_filter)
    (x : Nat) :
    (l.foldl (cbf_mark_step idxs) b).bitmap x = true
      ↔ b.bitmap x = true ∨ ∃ i ∈ l, x = idxs i % b.bitmap_len := by
  induction l generalizing b with
  | nil => simp
  | cons j l ih =>
    rw [List.foldl_cons, ih]
    have hlen : (cbf_mark_step idxs b j).bitmap_len = b.bitmap_len := rfl
    rw [hlen]
    have hstep : (cbf_mark_step idxs b j).bitmap x = true
        ↔ b.bitmap x = true ∨ x = idxs j % b.bitmap_len := by
      unfold cbf_mark_step
      dsimp only
      by_cases hx : x = idxs j % b.bitmap_len
      · rw [hx, Function.update_same]; simp
      · rw [Function.update_noteq hx]; simp [hx]
    rw [hstep]
    constructor
    · rintro ((h | h) | ⟨i, hi, hx⟩)
      · exact Or.inl h
      · exact Or.inr ⟨j, List.mem_cons_self _ _, h⟩
      · exact Or.inr ⟨i, List.mem_cons_of_mem _ hi, hx⟩
    · rintro (h | ⟨i, hi, hx⟩)
      · exact Or.inl (Or.inl h)
      · rcases List.mem_cons.mp hi with rfl | hi'
        · exact Or.inl (Or.inr hx)
        · exact Or.inr ⟨i, hi', hx⟩

/-- Marking the cells of a key a second time changes no bit and no size. -/
theorem cbf_mark_again (bf : counting_bloom_filter) (idxs : Nat → Nat) :
    (cbf_mark (cbf_mark bf idxs) idxs).bitmap = (cbf_mark bf idxs).bitmap
    ∧ (cbf_mark (cbf_mark bf idxs) idxs).bitmap_len = (cbf_mark bf idxs).bitmap_len
    ∧ (cbf_mark (cbf_mark bf idxs) idxs).num_hashes = (cbf_mark bf idxs).num_hashes
    ∧ (cbf_mark (cbf_mark bf idxs) idxs).capacity = (cbf_mark bf idxs).capacity := by
  refine ⟨?_, cbf_mark_bitmap_len _ _, cbf_mark_num_hashes _ _,
    (cbf_mark_foldl_fields idxs _ _).2.2⟩
  funext x
  rw [Bool.eq_iff_iff]
  unfold cbf_mark
  rw [cbf_mark_foldl_bitmap, cbf_mark_foldl_bitmap]
  have hn : ((List.range bf.num_hashes).foldl (cbf_mark_step idxs) bf).num_hashes
      = bf.num_hashes := (cbf_mark_foldl_fields idxs _ bf).2.1
  have hl : ((List.range bf.num_hashes).foldl (cbf_mark_step idxs) bf).bitmap_len
      = bf.bitmap_len := (cbf_mark_foldl_fields idxs _ bf).1
  rw [hn, hl]
  constructor
  · rintro (h | h)
    · exact h
    · exact Or.inr h
  · intro h
    exact Or.inl h

section
variable {ν : Type}

theorem chain_set_same (h k : Nat) (v : ν) (c : List (hash_table_entry ν))
    (e : hash_table_entry ν) (hf : chain_find h k c = some e) (hv : e.next_hop = v) :
    chain_set h k v c = c := by
  induction c with
  | nil => rfl
  | cons x xs ih =>
    unfold chain_find at hf
    unfold chain_set
    by_cases hm : x.hash = h ∧ x.key = k
    · rw [if_pos hm] at hf
      rw [if_pos hm]
      cases hf
      rw [← hv]
    · rw [if_neg hm] at hf
      rw [if_neg hm, ih hf]

/-- A second `store_next_hop` of the same key and next hop returns false and
leaves the table as it is. -/
theorem store_next_hop_idem (H : Nat → Nat) (tbl : hash_table ν) (k : Nat) (v : ν) :
    store_next_hop H (store_next_hop H tbl k v).2 k v
      = (false, (store_next_hop H tbl k v).2) := by
  have hg := ht_get_store H tbl k k v
  rw [if_pos rfl] at hg
  unfold ht_get at hg
  cases hf : chain_find (H k) k
      ((store_next_hop H tbl k v).2.slots (H k % (store_next_hop H tbl k v).2.range)) with
  | none => rw [hf] at hg; cases hg
  | some e =>
    rw [hf] at hg
    have hv : e.next_hop = v := by
      simp only [Option.map_some', Option.some.injEq] at hg
      exact hg
    have hcs := chain_set_same (H k) k v _ e hf hv
    generalize store_next_hop H tbl k v = r at hf hcs ⊢
    unfold store_next_hop
    dsimp only
    rw [hf]
    dsimp only
    rw [hcs, Function.update_eq_self]

end

theorem set_default_route_idem (t : forwarding_table) (g : Nat) :
    (set_default_route (set_default_route t g).2 g).2 = (set_default_route t g).2 := by
  unfold set_default_route
  cases t.default_route <;> rfl

/-- A second store of the same record returns and leaves everything but the
counters of the filters as the first store left it. -/
theorem gen_store_idem (H : Nat → Nat) (idxs : Nat → Nat → Nat → Nat)
    (t : forwarding_table) (p : ipv4_prefix) (r1 : Bool × forwarding_table)
    (h1 : gen_store H idxs t (some p) = .ok r1) :
    ∃ r2, gen_store H idxs r1.2 (some p) = .ok r2
      ∧ r2.2.default_route = r1.2.default_route ∧ r2.2.dla = r1.2.dla
      ∧ r2.2.hash_tables = r1.2.hash_tables
      ∧ ∀ id, (r2.2.counting_bloom_filters id).map
            (fun bf => (bf.bitmap, bf.bitmap_len, bf.num_hashes, bf.capacity))
          = (r1.2.counting_bloom_filters id).map
            (fun bf => (bf.bitmap, bf.bitmap_len, bf.num_hashes, bf.capacity)) := by
  obtain ⟨p', hp, h32, hc⟩ := gen_store_ok H idxs t _ r1 h1
  cases hp
  rcases hc with ⟨h0, hr⟩ | ⟨h20, hr⟩ | ⟨h0, h20, bf, ht, hbf, hht, hr⟩
  · refine ⟨set_default_route r1.2 p.next_hop, gen_store_default H idxs r1.2 p h0, ?_⟩
    rw [hr, set_default_route_idem]
    exact ⟨rfl, rfl, rfl, fun _ => rfl⟩
  · refine ⟨_, gen_store_dla H idxs r1.2 p h20, ?_⟩
    rw [hr]
    dsimp only
    rw [Function.update_idem]
    exact ⟨rfl, rfl, rfl, fun _ => rfl⟩
  · have hb2 : r1.2.counting_bloom_filters (bloom_filter_id p)
        = some (cbf_mark bf (idxs p.key bf.num_hashes)) := by
      rw [hr]
      dsimp only
      rw [Function.update_same]
    have hh2 : r1.2.hash_tables (bloom_filter_id p)
        = some (store_next_hop H ht p.key p.next_hop).2 := by
      rw [hr]
      dsimp only
      rw [Function.update_same]
    refine ⟨_, gen_store_class H idxs r1.2 p h0 h20 h32 _ _ hb2 hh2, ?_⟩
    dsimp only
    rw [store_next_hop_idem, cbf_mark_num_hashes]
    dsimp only
    refine ⟨rfl, rfl, ?_, ?_⟩
    · rw [← hh2, Function.update_eq_self]
    · intro id
      by_cases hid : id = bloom_filter_id p
      · rw [hid, Function.update_same, hb2]
        obtain ⟨e1, e2, e3, e4⟩ := cbf_mark_again bf (idxs p.key bf.num_hashes)
        simp only [Option.map_some', e1, e2, e3, e4]
      · rw [Function.update_noteq hid]

namespace V6

theorem set_default_route6_idem (t : forwarding_table) (g : uint128) :
    (set_default_route (set_default_route t g).2 g).2 = (set_default_route t g).2 := by
  unfold set_default_route
  cases t.default_route <;> rfl

/-- The IPv6 store of the same record a second time returns and leaves
everything but the counters of the filters as the first store left it. -/
theorem store_prefix_idem (t : forwarding_table) (p : ipv6_prefix)
    (r1 : Bool × forwarding_table) (h1 : store_prefix t (some p) = .ok r1) :
    ∃ r2, store_prefix r1.2 (some p) = .ok r2
      ∧ r2.2.default_route = r1.2.default_route
      ∧ r2.2.hash_tables = r1.2.hash_tables
      ∧ r2.2.has_prefix_length = r1.2.has_prefix_length
      ∧ r2.2.distinct_lengths = r1.2.distinct_lengths
      ∧ r2.2.bf_ids = r1.2.bf_ids
      ∧ ∀ id, (r2.2.counting_bloom_filters id).map
            (fun bf => (bf.bitmap, bf.bitmap_len, bf.num_hashes, bf.capacity))
          = (r1.2.counting_bloom_filters id).map
            (fun bf => (bf.bitmap, bf.bitmap_len, bf.num_hashes, bf.capacity)) := by
  obtain ⟨p', hp, h64, hc⟩ := store_prefix_ok t _ r1 h1
  cases hp
  have hv : is_prefix_valid (some p) = true := by
    unfold is_prefix_valid
    simp [h64]
  rcases hc with ⟨h0, hr⟩ | ⟨h0, bf, ht, hbf, hht, hr⟩
  · refine ⟨set_default_route r1.2 p.next_hop, ?_, ?_⟩
    · unfold store_prefix
      simp only [hv, h0, Bool.not_true, Bool.false_eq_true, if_false, if_true]
    · rw [hr, set_default_route6_idem]
      exact ⟨rfl, rfl, rfl, rfl, rfl, fun _ => rfl⟩
  · have hb2 : r1.2.counting_bloom_filters (bloom_filter_id p)
        = some (cbf_mark bf
            (hashes murmurhash3_64_32 murmurhash3_32 p.key bf.num_hashes (fun _ => 0))) := by
      rw [hr]
      dsimp only
      rw [Function.update_same]
    have hh2 : r1.2.hash_tables (bloom_filter_id p)
        = some (store_next_hop murmurhash3_64_32 ht p.key p.next_hop).2 := by
      rw [hr]
      dsimp only
      rw [Function.update_same]
    have e : store_prefix r1.2 (some p)
        = .ok ((store_next_hop murmurhash3_64_32
              (store_next_hop murmurhash3_64_32 ht p.key p.next_hop).2 p.key p.next_hop).1,
            { r1.2 with
              counting_bloom_filters :=
                Function.update r1.2.counting_bloom_filters (bloom_filter_id p)
                  (some (cbf_mark (cbf_mark bf
                      (hashes murmurhash3_64_32 murmurhash3_32 p.key bf.num_hashes (fun _ => 0)))
                    (hashes murmurhash3_64_32 murmurhash3_32 p.key
                      (cbf_mark bf (hashes murmurhash3_64_32 murmurhash3_32 p.key bf.num_hashes
                        (fun _ => 0))).num_hashes (fun _ => 0))))
              hash_tables := Function.update r1.2.hash_tables (bloom_filter_id p)
                (some (store_next_hop murmurhash3_64_32
                  (store_next_hop murmurhash3_64_32 ht p.key p.next_hop).2 p.key
                    p.next_hop).2) }) := by
      unfold store_prefix
      simp only [hv, h0, Bool.not_true, Bool.false_eq_true, if_false, hb2, hh2, deref, bind,
        Except.bind]
    refine ⟨_, e, ?_⟩
    dsimp only
    rw [store_next_hop_idem, cbf_mark_num_hashes]
    dsimp only
    refine ⟨rfl, ?_, rfl, rfl, rfl, ?_⟩
    · rw [← hh2, Function.update_eq_self]
    · intro id
      by_cases hid : id = bloom_filter_id p
      · rw [hid, Function.update_same, hb2]
        obtain ⟨e1, e2, e3, e4⟩ := cbf_mark_again bf
          (hashes murmurhash3_64_32 murmurhash3_32 p.key bf.num_hashes (fun _ => 0))
        simp only [Option.map_some', e1, e2, e3, e4]
      · rw [Function.update_noteq hid]

end V6

/-! ## Masked keys -/

theorem testBit_top_mask (l i : Nat) :
    (top_mask l).testBit i = (decide (i < 32) && decide (32 - l ≤ i)) := by
  unfold top_mask
  have e32 : U32 = 2 ^ 32 := by decide
  have em : (0xffffffff : Nat) = 2 ^ 32 - 1 := by decide
  rw [e32, Nat.testBit_mod_two_pow, em, Nat.testBit_shiftLeft, Nat.testBit_two_pow_sub_one]
  by_cases hi : i < 32
  · by_cases hs : 32 - l ≤ i
    · have : i - (32 - l) < 32 := by omega
      simp [hi, hs, this]
    · simp [hi, hs]
  · simp [hi]

theorem and_top_mask_canonical (k l : Nat) (hk : k < U32) (hc : k % 2 ^ (32 - l) = 0) :
    k &&& top_mask l = k := by
  apply Nat.eq_of_testBit_eq
  intro i
  rw [Nat.testBit_and, testBit_top_mask]
  by_cases hi : i < 32
  · by_cases hs : 32 - l ≤ i
    · simp [hi, hs]
    · have hz : (k % 2 ^ (32 - l)).testBit i = false := by rw [hc]; simp
      rw [Nat.testBit_mod_two_pow] at hz
      have hlt : i < 32 - l := by omega
      simp only [hlt, decide_True, Bool.true_and] at hz
      simp [hz]
  · have hlt : k < 2 ^ i := by
      have h32 : (2 : Nat) ^ 32 ≤ 2 ^ i := Nat.pow_le_pow_right (by omega) (by omega)
      have : U32 = 2 ^ 32 := by decide
      omega
    rw [Nat.testBit_lt_two_pow hlt]
    simp

theorem and_top_mask_20 (k : Nat) (hk : k < U32) : (k &&& top_mask 20) >>> 12 = k >>> 12 := by
  apply Nat.eq_of_testBit_eq
  intro i
  rw [Nat.testBit_shiftRight, Nat.testBit_shiftRight, Nat.testBit_and, testBit_top_mask]
  by_cases hi : 12 + i < 32
  · have : 32 - 20 ≤ 12 + i := by omega
    simp [hi, this]
  · have hlt : k < 2 ^ (12 + i) := by
      have h32 : (2 : Nat) ^ 32 ≤ 2 ^ (12 + i) := Nat.pow_le_pow_right (by omega) (by omega)
      have : U32 = 2 ^ 32 := by decide
      omega
    rw [Nat.testBit_lt_two_pow hlt]
    simp

/-- A store of a record whose length is 0 or 20, or whose key is already
canonical, is the store of the record with the masked key. -/
theorem gen_store_masked (H : Nat → Nat) (idxs : Nat → Nat → Nat → Nat)
    (t : forwarding_table) (k l nh : Nat) (hk : k < U32)
    (hl : l = 0 ∨ l = 20 ∨ k % 2 ^ (32 - l) = 0) :
    gen_store H idxs t (some { next_hop := nh, key := k, netmask := l })
      = gen_store H idxs t (some { next_hop := nh, key := k &&& top_mask l, netmask := l }) := by
  rcases hl with h0 | h20 | hc
  · rw [gen_store_default H idxs t _ h0, gen_store_default H idxs t _ h0]
  · rw [gen_store_dla H idxs t _ h20, gen_store_dla H idxs t _ h20]
    dsimp only
    rw [h20, and_top_mask_20 k hk]
  · rw [and_top_mask_canonical k l hk hc]

/-- C18 (amended): canonicalization by `store_prefix`.  In v4-coop (under
every hash configuration) and in the baseline, for every table, 32-bit key
`k`, length `l` and next hop `nh`: when `l` is 0 or 20, or `k` has its low
`32 - l` bits clear already (as every key of length 32 has), `store_prefix`
of `(k, l, nh)` returns the same flag and leaves the same table as
`store_prefix` of `(k & mask l, l, nh)`. -/
theorem store_prefix_masked (t : forwarding_table) (k l nh : Nat) (hk : k < U32)
    (hl : l = 0 ∨ l = 20 ∨ k % 2 ^ (32 - l) = 0) :
    (∀ cfg, V4coop.store_prefix cfg t (some { next_hop := nh, key := k, netmask := l })
      = V4coop.store_prefix cfg t
          (some { next_hop := nh, key := k &&& top_mask l, netmask := l }))
    ∧ (∀ rand_r, Baseline.store_prefix rand_r t (some { next_hop := nh, key := k, netmask := l })
      = Baseline.store_prefix rand_r t
          (some { next_hop := nh, key := k &&& top_mask l, netmask := l })) := by
  refine ⟨?_, ?_⟩
  · intro cfg
    rw [V4coop.store_prefix_eq_gen, V4coop.store_prefix_eq_gen]
    exact gen_store_masked _ _ t k l nh hk hl
  · intro rand_r
    rw [Baseline.bl_store_prefix_eq_gen, Baseline.bl_store_prefix_eq_gen]
    exact gen_store_masked _ _ t k l nh hk hl

set_option maxRecDepth 100000 in
/-- The claim of C18 as stated fails for a hash-table class: `store_prefix`
of `(192.168.1.5, 24, 9)` files the key `192.168.1.5` as it is, so the table
differs from the one `store_prefix` of the masked record
`(192.168.1.0, 24, 9)` leaves. -/
theorem store_prefix_masked_counterexample :
    (0xC0A80105 &&& top_mask 24 = 0xC0A80100)
    ∧ V4coop.store_prefix demo_cfg (new_forwarding_table demo_sizing demo_dist)
        (some { next_hop := 9, key := 0xC0A80105, netmask := 24 })
      ≠ V4coop.store_prefix demo_cfg (new_forwarding_table demo_sizing demo_dist)
        (some { next_hop := 9, key := 0xC0A80105 &&& top_mask 24, netmask := 24 }) := by
  refine ⟨by decide, ?_⟩
  intro h
  have h' := congrArg demo_probe h
  revert h'
  decide

/-- C18 at a concrete input: `10.0.5.7` with length 20. -/
theorem store_prefix_masked_witness :
    (0x0A000507 &&& top_mask 20 = 0x0A000000)
    ∧ V4coop.store_prefix demo_cfg demo_table
        (some { next_hop := 11, key := 0x0A000507, netmask := 20 })
      = V4coop.store_prefix demo_cfg demo_table
        (some { next_hop := 11, key := 0x0A000507 &&& top_mask 20, netmask := 20 }) :=
  ⟨by decide, (store_prefix_masked demo_table 0x0A000507 20 11 (by decide)
    (Or.inr (Or.inl rfl))).1 demo_cfg⟩

/-! ## Prefix constructors -/
theorem shl_or_defined (w x : Nat) (s : Nat) (u : Nat) (hs : s < w) :
    shl_or w x (s : Int) u = (x <<< s) % 2 ^ w := by
  unfold shl_or
  have : (0 : Int) ≤ (s : Int) ∧ (s : Int) < (w : Int) := ⟨by omega, by omega⟩
  rw [if_pos this]
  simp

/-- For a netmask in `[1, 32]` the constructor returns the prefix whose key
is the address with its low `32 - netmask` bits cleared, whatever the value of
an undefined shift. -/
theorem new_ipv4_prefix_canonical (a b c d netmask next_hop u : Nat) (h1 : 1 ≤ netmask)
    (h32 : netmask ≤ 32) :
    new_ipv4_prefix a b c d netmask next_hop u
      = some { key := new_ipv4_addr a b c d &&& top_mask netmask, netmask := netmask,
               next_hop := next_hop }
    ∧ canonical { key := new_ipv4_addr a b c d &&& top_mask netmask, netmask := netmask,
                  next_hop := next_hop } := by
  have hs : (32 : Int) - (netmask : Int) = ((32 - netmask : Nat) : Int) := by omega
  constructor
  · unfold new_ipv4_prefix is_prefix_valid
    simp only [hs]
    rw [shl_or_defined 32 _ (32 - netmask) u (by omega)]
    simp [h32, top_mask]
  · unfold canonical
    dsimp only
    have hlt : new_ipv4_addr a b c d &&& top_mask netmask < U32 := by
      apply Nat.lt_of_le_of_lt Nat.and_le_right
      unfold top_mask
      exact Nat.mod_lt _ (by decide)
    refine ⟨hlt, ?_⟩
    apply Nat.eq_of_testBit_eq
    intro i
    rw [Nat.testBit_mod_two_pow, Nat.testBit_and, testBit_top_mask]
    by_cases hi : i < 32 - netmask
    · have : ¬ 32 - netmask ≤ i := by omega
      simp [hi, this]
    · simp [hi]

theorem new_ipv4_prefix_invalid (a b c d netmask next_hop u : Nat) (h32 : 32 < netmask) :
    new_ipv4_prefix a b c d netmask next_hop u = none := by
  unfold new_ipv4_prefix is_prefix_valid
  have : ¬ netmask ≤ 32 := by omega
  simp [this]

namespace V6

theorem prefix_key_at_eq (u pfx len : Nat) (h1 : 1 ≤ len) (h64 : len ≤ 64) :
    prefix_key_at u pfx len = prefix_key pfx len := by
  unfold prefix_key_at prefix_key
  have hs : (64 : Int) - (len : Int) = ((64 - len : Nat) : Int) := by omega
  rw [hs, shl_or_defined 64 _ (64 - len) u (by omega)]
  rfl

/-- For a length in `[1, 64]` the constructor returns the prefix whose key
is the packed upper half with its low `64 - len` bits cleared. -/
theorem new_ipv6_prefix_canonical (a b c d len : Nat) (next_hop : uint128) (u : Nat)
    (h1 : 1 ≤ len) (h64 : len ≤ 64) :
    new_ipv6_prefix a b c d len next_hop u
      = some { key := prefix_key (pack_hi a b c d) len, len := len, next_hop := next_hop }
    ∧ canonical { key := prefix_key (pack_hi a b c d) len, len := len,
                  next_hop := next_hop } := by
  have hp : pack_hi a b c d < U64 := by
    unfold pack_hi
    exact Nat.mod_lt _ (by decide)
  constructor
  · unfold new_ipv6_prefix is_prefix_valid
    rw [prefix_key_at_eq u _ len h1 h64]
    simp [h64]
  · unfold canonical
    dsimp only
    rw [prefix_key_eq _ _ hp]
    constructor
    · simp only [Nat.shiftRight_eq_div_pow, Nat.shiftLeft_eq]
      have hP : 0 < 2 ^ (64 - len) := Nat.pow_pos (by omega)
      have := Nat.div_mul_le_self (pack_hi a b c d) (2 ^ (64 - len))
      omega
    · simp only [Nat.shiftLeft_eq]
      exact Nat.mul_mod_left _ _

end V6

/-- C19 at the failing input: for `10.0.0.0/0` the mask is `0xffffffff << 32`,
which C leaves undefined; with the value an x86 shift gives (the count taken
modulo 32, so the mask stays `0xffffffff`) the key `new_ipv4_prefix` returns is
`10.0.0.0`, not 0.  The same holds for `new_ipv6_prefix` at length 0, whose
mask is `0xffffffffffffffff << 64`. -/
theorem new_prefix_at_length_zero :
    new_ipv4_prefix 10 0 0 0 0 7 0xffffffff
      = some { key := 0x0A000000, netmask := 0, next_hop := 7 }
    ∧ V6.new_ipv6_prefix 0x2001 0x0db8 0 0 0 { hi := 0, lo := 7 } 0xffffffffffffffff
      = some { key := 0x20010db800000000, len := 0, next_hop := { hi := 0, lo := 7 } } := by
  constructor <;> decide

/-! ## The binary trie of the expansion tool -/

namespace Cpe

theorem node_at_null (q : List Bool) : node_at .null q = .null := by
  cases q <;> rfl

theorem nhop_at_null (q : List Bool) : nhop_at .null q = none := by
  unfold nhop_at
  rw [node_at_null]

theorem nhop_at_nil (h : Bool) (x : Nat) (l r : btrie_node) :
    nhop_at (.node h x l r) [] = if h then some x else none := by
  cases h <;> rfl

theorem nhop_at_cons (h : Bool) (x : Nat) (l r : btrie_node) (c : Bool) (q : List Bool) :
    nhop_at (.node h x l r) (c :: q) = nhop_at (if c then r else l) q := rfl

theorem nhop_at_new (q : List Bool) : nhop_at btrie_node_new q = none := by
  cases q with
  | nil => rfl
  | cons c q =>
    unfold btrie_node_new
    rw [nhop_at_cons]
    cases c <;> exact nhop_at_null q

theorem nhop_at_or_new (t : btrie_node) (q : List Bool) : nhop_at (or_new t) q = nhop_at t q := by
  cases t with
  | null =>
    show nhop_at btrie_node_new q = _
    rw [nhop_at_new, nhop_at_null]
  | node h x l r => rfl

theorem or_new_ne_null (t : btrie_node) : or_new t ≠ .null := by
  cases t with
  | null => intro h; cases h
  | node h x l r => intro h; cases h

theorem or_new_of_ne (t : btrie_node) (h : t ≠ .null) : or_new t = t := by
  cases t with
  | null => exact absurd rfl h
  | node h x l r => rfl

theorem ins_ne_null (nh : Nat) (au : Bool) (q : List Bool) (t : btrie_node) (h : t ≠ .null) :
    ins nh au q t ≠ .null := by
  cases t with
  | null => exact absurd rfl h
  | node hh x l r =>
    cases q with
    | nil =>
      unfold ins
      split <;> (intro h; cases h)
    | cons c q =>
      unfold ins
      split <;> (intro h; cases h)

theorem get_bit_testBit (v len n : Nat) (h : n < len) :
    get_bit v len (len - (n + 1)) = if v.testBit n then 1 else 0 := by
  unfold get_bit
  have e : len - 1 - (len - (n + 1)) = n := by omega
  rw [e, Nat.testBit, Nat.and_comm]
  simp only [Nat.one_and_eq_mod_two]
  have := Nat.mod_two_eq_zero_or_one (v >>> n)
  rcases this with h0 | h1
  · simp [h0]
  · simp [h1]

/-- The loop of `btrie_insert` returns, with the trie `ins` describes. -/
theorem btrie_insert_from_eq (p : prefix_rec) (au : Bool) (n : Nat) :
    ∀ t : btrie_node, t ≠ .null → n ≤ p.len →
      btrie_insert_from p au n t
        = .ok (if (nhop_at t (bits p.pfx n)).isSome && au then 1 else 0,
            ins p.nhop au (bits p.pfx n) t) := by
  induction n with
  | zero =>
    intro t ht _
    cases t with
    | null => exact absurd rfl ht
    | node h x l r =>
      cases h <;> cases au <;> rfl
  | succ n ih =>
    intro t ht hn
    cases t with
    | null => exact absurd rfl ht
    | node h x l r =>
      have hg := get_bit_testBit p.pfx p.len n (by omega)
      unfold btrie_insert_from
      rw [hg]
      have hb : bits p.pfx (n + 1) = p.pfx.testBit n :: bits p.pfx n := rfl
      rw [hb, nhop_at_cons]
      cases hc : p.pfx.testBit n
      · simp only [Bool.false_eq_true, if_false]
        have := ih (or_new l) (or_new_ne_null l) (by omega)
        unfold or_new at this
        rw [this]
        simp only [ins, Bool.false_eq_true, if_false]
        rw [← nhop_at_or_new l]
        rfl
      · simp only [if_true]
        have := ih (or_new r) (or_new_ne_null r) (by omega)
        unfold or_new at this
        simp only [one_ne_zero, if_false]
        rw [this]
        simp only [ins, if_true]
        rw [← nhop_at_or_new r]
        rfl

theorem btrie_insert_eq (t : btrie_node) (p : prefix_rec) (au : Bool) (ht : t ≠ .null)
    (hl : p.len ≤ 32) :
    btrie_insert t p au
      = .ok (if (nhop_at t (bits p.pfx p.len)).isSome && au then 1 else 0,
          ins p.nhop au (bits p.pfx p.len) t) := by
  unfold btrie_insert
  rw [if_neg (by omega)]
  exact btrie_insert_from_eq p au p.len t ht (Nat.le_refl _)

/-- The next hops after an insertion: at the end of the path the new next
hop, unless the node had one and updates are off; elsewhere the old ones. -/
theorem nhop_at_ins (nh : Nat) (au : Bool) (path : List Bool) :
    ∀ (t : btrie_node) (q : List Bool), t ≠ .null →
      nhop_at (ins nh au path t) q
        = if q = path then
            (if au || (nhop_at t path).isNone then some nh else nhop_at t path)
          else nhop_at t q := by
  induction path with
  | nil =>
    intro t q ht
    cases t with
    | null => exact absurd rfl ht
    | node h x l r =>
      cases q with
      | nil =>
        cases h <;> cases au <;> rfl
      | cons c q =>
        rw [if_neg (by simp)]
        unfold ins
        split <;> rfl
  | cons c path ih =>
    intro t q ht
    cases t with
    | null => exact absurd rfl ht
    | node h x l r =>
      cases q with
      | nil =>
        rw [if_neg (by simp)]
        unfold ins
        split <;> (rw [nhop_at_nil, nhop_at_nil])
      | cons d q =>
        rw [nhop_at_cons, nhop_at_cons]
        cases c <;> cases d
        · simp only [ins, Bool.false_eq_true, if_false, nhop_at_cons]
          rw [ih (or_new l) q (or_new_ne_null l), nhop_at_or_new, nhop_at_or_new]
          simp
        · simp only [ins, Bool.false_eq_true, if_false, if_true, nhop_at_cons]
          rw [if_neg (by simp)]
        · simp only [ins, Bool.false_eq_true, if_false, if_true, nhop_at_cons]
          rw [if_neg (by simp)]
        · simp only [ins, if_true, nhop_at_cons]
          rw [ih (or_new r) q (or_new_ne_null r), nhop_at_or_new, nhop_at_or_new]
          simp

end Cpe

/-- C12: `btrie_insert` on a trie and a prefix of length at most 32 returns;
no node off the prefix's path end changes its next hop; with `allow_update`
false a next hop already at the end of the path stays and the call returns 0
(a node without one receives the new next hop); with `allow_update` true the
node carries the new next hop and the call returns 1 iff it carried one
before. -/
theorem btrie_insert_allow_update (btrie : Cpe.btrie_node) (p : Cpe.prefix_rec)
    (allow_update : Bool) (hb : btrie ≠ .null) (hl : p.len ≤ 32) :
    ∃ rc t, Cpe.btrie_insert btrie p allow_update = .ok (rc, t)
      ∧ (∀ q, q ≠ Cpe.bits p.pfx p.len → Cpe.nhop_at t q = Cpe.nhop_at btrie q)
      ∧ (allow_update = false →
          (Cpe.nhop_at btrie (Cpe.bits p.pfx p.len) ≠ none →
            rc = 0
            ∧ Cpe.nhop_at t (Cpe.bits p.pfx p.len) = Cpe.nhop_at btrie (Cpe.bits p.pfx p.len))
          ∧ (Cpe.nhop_at btrie (Cpe.bits p.pfx p.len) = none →
            rc = 0 ∧ Cpe.nhop_at t (Cpe.bits p.pfx p.len) = some p.nhop))
      ∧ (allow_update = true →
          Cpe.nhop_at t (Cpe.bits p.pfx p.len) = some p.nhop
          ∧ (rc = 1 ↔ Cpe.nhop_at btrie (Cpe.bits p.pfx p.len) ≠ none)) := by
  refine ⟨_, _, Cpe.btrie_insert_eq btrie p allow_update hb hl, ?_, ?_, ?_⟩
  · intro q hq
    rw [Cpe.nhop_at_ins _ _ _ _ _ hb, if_neg hq]
  · intro ha
    subst ha
    constructor
    · intro hn
      refine ⟨by simp, ?_⟩
      rw [Cpe.nhop_at_ins _ _ _ _ _ hb, if_pos rfl]
      cases h : Cpe.nhop_at btrie (Cpe.bits p.pfx p.len) with
      | none => exact absurd h hn
      | some v => simp
    · intro hn
      refine ⟨by simp, ?_⟩
      rw [Cpe.nhop_at_ins _ _ _ _ _ hb, if_pos rfl, hn]
      simp
  · intro ha
    subst ha
    constructor
    · rw [Cpe.nhop_at_ins _ _ _ _ _ hb, if_pos rfl]
      simp
    · cases h : Cpe.nhop_at btrie (Cpe.bits p.pfx p.len) <;> simp

set_option maxRecDepth 100000 in
/-- C12 on the trie of `demo_file`: `10.0.0.0/8` is inserted again without
update. -/
theorem btrie_insert_allow_update_witness :
    demo_trie ≠ .null ∧ (8 : Nat) ≤ 32
    ∧ ∃ rc t, Cpe.btrie_insert demo_trie { pfx := 10, len := 8, nhop := 9 } false = .ok (rc, t)
      ∧ (∀ q, q ≠ Cpe.bits 10 8 → Cpe.nhop_at t q = Cpe.nhop_at demo_trie q)
      ∧ (false = false →
          (Cpe.nhop_at demo_trie (Cpe.bits 10 8) ≠ none →
            rc = 0
            ∧ Cpe.nhop_at t (Cpe.bits 10 8) = Cpe.nhop_at demo_trie (Cpe.bits 10 8))
          ∧ (Cpe.nhop_at demo_trie (Cpe.bits 10 8) = none →
            rc = 0 ∧ Cpe.nhop_at t (Cpe.bits 10 8) = some 9))
      ∧ (false = true →
          Cpe.nhop_at t (Cpe.bits 10 8) = some 9
          ∧ (rc = 1 ↔ Cpe.nhop_at demo_trie (Cpe.bits 10 8) ≠ none)) :=
  ⟨by decide, by decide,
    btrie_insert_allow_update demo_trie { pfx := 10, len := 8, nhop := 9 } false
      (by decide) (by decide)⟩

theorem demo_trie_has : Cpe.nhop_at demo_trie (Cpe.bits 10 8) = some 3232235521 := by
  decide

namespace Cpe

theorem node_at_nil (t : btrie_node) : node_at t [] = t := by
  cases t <;> rfl

theorem subst_at_nil (t t1 : btrie_node) : subst_at t [] t1 = t1 := by
  cases t <;> rfl

theorem node_at_append (t : btrie_node) (b q : List Bool) :
    node_at t (b ++ q) = node_at (node_at t b) q := by
  induction b generalizing t with
  | nil => rw [node_at_nil]; rfl
  | cons c b ih =>
    cases t with
    | null => rw [List.cons_append]; simp only [node_at]; rw [node_at_null]
    | node h x l r =>
      rw [List.cons_append]
      simp only [node_at]
      exact ih _

theorem node_at_child (t : btrie_node) (b : List Bool) (h : Bool) (x : Nat)
    (l r : btrie_node) (ht : node_at t b = .node h x l r) (c : Bool) :
    node_at t (b ++ [c]) = if c then r else l := by
  rw [node_at_append, ht]
  cases c
  · show node_at l [] = _
    rw [node_at_nil]
    rfl
  · show node_at r [] = _
    rw [node_at_nil]
    rfl

theorem node_at_subst (root : btrie_node) (b : List Bool) (t1 : btrie_node)
    (h : node_at root b ≠ .null) : node_at (subst_at root b t1) b = t1 := by
  induction b generalizing root with
  | nil => rw [subst_at_nil, node_at_nil]
  | cons c b ih =>
    cases root with
    | null => exact absurd rfl h
    | node hh x l r =>
      cases c
      · simp only [subst_at, node_at, Bool.false_eq_true, if_false]
        exact ih l h
      · simp only [subst_at, node_at, if_true]
        exact ih r h

theorem subst_at_self (root : btrie_node) (b : List Bool) :
    subst_at root b (node_at root b) = root := by
  induction b generalizing root with
  | nil => rw [subst_at_nil, node_at_nil]
  | cons c b ih =>
    cases root with
    | null => rfl
    | node hh x l r =>
      cases c
      · simp only [subst_at, node_at, Bool.false_eq_true, if_false]
        rw [ih l]
      · simp only [subst_at, node_at, if_true]
        rw [ih r]

theorem subst_at_subst (root : btrie_node) (b : List Bool) (t1 t2 : btrie_node) :
    subst_at (subst_at root b t1) b t2 = subst_at root b t2 := by
  induction b generalizing root with
  | nil => rw [subst_at_nil, subst_at_nil]
  | cons c b ih =>
    cases root with
    | null => rfl
    | node hh x l r =>
      cases c
      · simp only [subst_at, Bool.false_eq_true, if_false]
        rw [ih l]
      · simp only [subst_at, if_true]
        rw [ih r]

theorem subst_at_ne_null (root : btrie_node) (b : List Bool) (t1 : btrie_node)
    (hr : root ≠ .null) (h1 : t1 ≠ .null) : subst_at root b t1 ≠ .null := by
  cases b with
  | nil => rw [subst_at_nil]; exact h1
  | cons c b =>
    cases root with
    | null => exact absurd rfl hr
    | node hh x l r =>
      cases c
      · simp only [subst_at, Bool.false_eq_true, if_false]
        intro h; cases h
      · simp only [subst_at, if_true]
        intro h; cases h

theorem ne_null_of_node_at (root : btrie_node) (b : List Bool) (h : node_at root b ≠ .null) :
    root ≠ .null := by
  intro e
  rw [e, node_at_null] at h
  exact h rfl

/-- Replacing a child of the node at `b` replaces the node. -/
theorem subst_at_child (root : btrie_node) (b : List Bool) (h : Bool) (x : Nat)
    (l r : btrie_node) (ht : node_at root b = .node h x l r) (c : Bool) (t1 : btrie_node) :
    subst_at root (b ++ [c]) t1
      = subst_at root b (if c then .node h x l t1 else .node h x t1 r) := by
  induction b generalizing root with
  | nil =>
    rw [node_at_nil] at ht
    subst ht
    rw [subst_at_nil]
    cases c
    · show btrie_node.node h x (subst_at l [] t1) r = _
      rw [subst_at_nil]
      rfl
    · show btrie_node.node h x l (subst_at r [] t1) = _
      rw [subst_at_nil]
      rfl
  | cons d b ih =>
    cases root with
    | null => rw [node_at_null] at ht; cases ht
    | node hh y ll rr =>
      rw [List.cons_append]
      cases d
      · simp only [subst_at, Bool.false_eq_true, if_false]
        rw [ih ll ht]
      · simp only [subst_at, if_true]
        rw [ih rr ht]

/-- An insertion whose path runs through `b` is an insertion into the subtrie
at `b`. -/
theorem ins_append (nh : Nat) (au : Bool) (b q : List Bool) (root : btrie_node)
    (h : node_at root b ≠ .null) :
    ins nh au (b ++ q) root = subst_at root b (ins nh au q (node_at root b)) := by
  induction b generalizing root with
  | nil => rw [subst_at_nil, node_at_nil]; rfl
  | cons c b ih =>
    cases root with
    | null => exact absurd rfl h
    | node hh x l r =>
      rw [List.cons_append]
      cases c
      · have hl : l ≠ .null := ne_null_of_node_at l b h
        simp only [ins, subst_at, node_at, Bool.false_eq_true, if_false]
        rw [or_new_of_ne l hl, ih l h]
      · have hr : r ≠ .null := ne_null_of_node_at r b h
        simp only [ins, subst_at, node_at, if_true]
        rw [or_new_of_ne r hr, ih r h]

theorem clear_subst (root : btrie_node) (b : List Bool) (t1 : btrie_node)
    (h : node_at root b ≠ .null) :
    clear_has_nhop (subst_at root b t1) b = subst_at root b (clear_has_nhop t1 []) := by
  induction b generalizing root with
  | nil => rw [subst_at_nil, subst_at_nil]
  | cons c b ih =>
    cases root with
    | null => exact absurd rfl h
    | node hh x l r =>
      cases c
      · simp only [subst_at, clear_has_nhop, Bool.false_eq_true, if_false]
        rw [ih l h]
      · simp only [subst_at, clear_has_nhop, if_true]
        rw [ih r h]

theorem cpe_spec_null (n : Nat) : cpe_spec n .null = .null := by
  cases n <;> rfl

theorem fill_ne_null (nh k : Nat) (t : btrie_node) (h : t ≠ .null) : fill nh k t ≠ .null := by
  cases t with
  | null => exact absurd rfl h
  | node hh x l r =>
    cases k with
    | zero =>
      unfold fill
      split <;> (intro h; cases h)
    | succ k => intro h; cases h

end Cpe

namespace Cpe

theorem bits_length (v n : Nat) : (bits v n).length = n := by
  induction n with
  | zero => rfl
  | succ n ih => simp [bits, ih]

theorem bits_congr (v w n : Nat) (h : ∀ m, m < n → v.testBit m = w.testBit m) :
    bits v n = bits w n := by
  induction n with
  | zero => rfl
  | succ n ih =>
    simp only [bits]
    rw [h n (by omega), ih (fun m hm => h m (by omega))]

theorem bits_succ (v n : Nat) : bits v (n + 1) = v.testBit n :: bits v n := rfl

/-- The path of a key followed by `k` further bits. -/
theorem bits_append (pfx i len k : Nat) (hi : i < 2 ^ k) :
    bits ((pfx <<< k) ||| i) (len + k) = bits pfx len ++ bits i k := by
  induction len with
  | zero =>
    rw [Nat.zero_add]
    show _ = [] ++ _
    rw [List.nil_append]
    apply bits_congr
    intro m hm
    rw [Nat.testBit_or, Nat.testBit_shiftLeft]
    have : ¬ m ≥ k := by omega
    simp [this]
  | succ len ih =>
    have e : len + 1 + k = (len + k) + 1 := by omega
    rw [e, bits_succ, bits_succ, ih, List.cons_append]
    congr 1
    rw [Nat.testBit_or, Nat.testBit_shiftLeft]
    have h1 : len + k ≥ k := by omega
    have h2 : i.testBit (len + k) = false := by
      apply Nat.testBit_eq_false_of_lt
      exact Nat.lt_of_lt_of_le hi (Nat.pow_le_pow_right (by decide) (by omega))
    simp [h1, h2]

theorem shl_mod_u32 (pfx len k : Nat) (hp : pfx < 2 ^ len) (hk : len + k ≤ 32) :
    (pfx <<< k) % U32 = pfx <<< k := by
  apply Nat.mod_eq_of_lt
  rw [Nat.shiftLeft_eq]
  have h1 : pfx * 2 ^ k < 2 ^ len * 2 ^ k := Nat.mul_lt_mul_of_pos_right hp (Nat.pow_pos (by decide))
  rw [← Nat.pow_add] at h1
  exact Nat.lt_of_lt_of_le h1 (Nat.pow_le_pow_right (by decide) hk)

theorem shl_or_lt (pfx i len k : Nat) (hp : pfx < 2 ^ len) (hi : i < 2 ^ k) :
    (pfx <<< k) ||| i < 2 ^ (len + k) := by
  apply Nat.or_lt_two_pow
  · rw [Nat.shiftLeft_eq]
    have h1 : pfx * 2 ^ k < 2 ^ len * 2 ^ k :=
      Nat.mul_lt_mul_of_pos_right hp (Nat.pow_pos (by decide))
    rw [← Nat.pow_add] at h1
    exact h1
  · exact Nat.lt_of_lt_of_le hi (Nat.pow_le_pow_right (by decide) (by omega))

theorem bits_low (j k : Nat) (hj : j < 2 ^ k) : bits j (k + 1) = false :: bits j k := by
  rw [bits_succ, Nat.testBit_eq_false_of_lt hj]

theorem bits_high (j k : Nat) (hj : j < 2 ^ k) : bits (2 ^ k + j) (k + 1) = true :: bits j k := by
  rw [bits_succ]
  congr 1
  · rw [Nat.testBit_two_pow_add_eq, Nat.testBit_eq_false_of_lt hj]
    rfl
  · apply bits_congr
    intro m hm
    exact Nat.testBit_two_pow_add_gt hm j

theorem ins_false_cons (nh : Nat) (q : List Bool) (h : Bool) (x : Nat) (l r : btrie_node) :
    ins nh false (false :: q) (.node h x l r) = .node h x (ins nh false q (or_new l)) r := by
  simp [ins]

theorem ins_true_cons (nh : Nat) (q : List Bool) (h : Bool) (x : Nat) (l r : btrie_node) :
    ins nh false (true :: q) (.node h x l r) = .node h x l (ins nh false q (or_new r)) := by
  simp [ins]

theorem foldl_ins_left (nh : Nat) {ι : Type} (f : ι → List Bool) (h : Bool) (x : Nat)
    (r : btrie_node) (L : List ι) :
    ∀ l : btrie_node, l ≠ .null →
      L.foldl (fun t i => ins nh false (false :: f i) t) (.node h x l r)
        = .node h x (L.foldl (fun t i => ins nh false (f i) t) l) r := by
  induction L with
  | nil => intro l _; rfl
  | cons a L ih =>
    intro l hl
    rw [List.foldl_cons, List.foldl_cons, ins_false_cons, or_new_of_ne l hl]
    exact ih _ (ins_ne_null nh false (f a) l hl)

theorem foldl_ins_right (nh : Nat) {ι : Type} (f : ι → List Bool) (h : Bool) (x : Nat)
    (l : btrie_node) (L : List ι) :
    ∀ r : btrie_node, r ≠ .null →
      L.foldl (fun t i => ins nh false (true :: f i) t) (.node h x l r)
        = .node h x l (L.foldl (fun t i => ins nh false (f i) t) r) := by
  induction L with
  | nil => intro r _; rfl
  | cons a L ih =>
    intro r hr
    rw [List.foldl_cons, List.foldl_cons, ins_true_cons, or_new_of_ne r hr]
    exact ih _ (ins_ne_null nh false (f a) r hr)

theorem foldl_ins_left_new (nh : Nat) {ι : Type} (f : ι → List Bool) (h : Bool) (x : Nat)
    (l r : btrie_node) (L : List ι) (hL : L ≠ []) :
    L.foldl (fun t i => ins nh false (false :: f i) t) (.node h x l r)
      = .node h x (L.foldl (fun t i => ins nh false (f i) t) (or_new l)) r := by
  cases L with
  | nil => exact absurd rfl hL
  | cons a L =>
    rw [List.foldl_cons, List.foldl_cons, ins_false_cons]
    exact foldl_ins_left nh f h x r L _ (ins_ne_null nh false (f a) _ (or_new_ne_null l))

theorem foldl_ins_right_new (nh : Nat) {ι : Type} (f : ι → List Bool) (h : Bool) (x : Nat)
    (l r : btrie_node) (L : List ι) (hL : L ≠ []) :
    L.foldl (fun t i => ins nh false (true :: f i) t) (.node h x l r)
      = .node h x l (L.foldl (fun t i => ins nh false (f i) t) (or_new r)) := by
  cases L with
  | nil => exact absurd rfl hL
  | cons a L =>
    rw [List.foldl_cons, List.foldl_cons, ins_true_cons]
    exact foldl_ins_right nh f h x l L _ (ins_ne_null nh false (f a) _ (or_new_ne_null r))

theorem range_two_pow_ne_nil (k : Nat) : List.range (2 ^ k) ≠ [] := by
  intro h
  have := congrArg List.length h
  rw [List.length_range] at this
  have hp : 0 < 2 ^ k := Nat.pow_pos (by decide)
  simp at this

/-- The expansion loop, as insertions into a subtrie, fills the subtrie. -/
theorem foldl_ins_fill (nh : Nat) (k : Nat) :
    ∀ t : btrie_node, t ≠ .null →
      (List.range (2 ^ k)).foldl (fun t i => ins nh false (bits i k) t) t = fill nh k t := by
  induction k with
  | zero =>
    intro t ht
    cases t with
    | null => exact absurd rfl ht
    | node h x l r =>
      cases h <;> rfl
  | succ k ih =>
    intro t ht
    cases t with
    | null => exact absurd rfl ht
    | node h x l r =>
      have e : 2 ^ (k + 1) = 2 ^ k + 2 ^ k := by rw [Nat.pow_succ]; omega
      rw [e, List.range_add, List.foldl_append, List.foldl_map]
      have h1 : (List.range (2 ^ k)).foldl (fun t i => ins nh false (bits i (k + 1)) t)
            (.node h x l r)
          = (List.range (2 ^ k)).foldl (fun t i => ins nh false (false :: bits i k) t)
            (.node h x l r) := by
        apply List.foldl_ext
        intro a i hi
        rw [bits_low i k (List.mem_range.mp hi)]
      rw [h1, foldl_ins_left_new nh (fun i => bits i k) h x l r _ (range_two_pow_ne_nil k)]
      have h2 : ∀ t0 : btrie_node,
          (List.range (2 ^ k)).foldl (fun t i => ins nh false (bits (2 ^ k + i) (k + 1)) t) t0
          = (List.range (2 ^ k)).foldl (fun t i => ins nh false (true :: bits i k) t) t0 := by
        intro t0
        apply List.foldl_ext
        intro a i hi
        rw [bits_high i k (List.mem_range.mp hi)]
      rw [h2, foldl_ins_right_new nh (fun i => bits i k) h x _ r _ (range_two_pow_ne_nil k)]
      rw [ih _ (or_new_ne_null l), ih _ (or_new_ne_null r)]
      rfl

end Cpe

namespace Cpe

theorem ins_top (nh x : Nat) (q : List Bool) (l r : btrie_node) :
    ∃ l1 r1, ins nh false q (.node true x l r) = .node true x l1 r1 := by
  cases q with
  | nil => exact ⟨l, r, rfl⟩
  | cons c q =>
    cases c
    · exact ⟨_, _, ins_false_cons nh q true x l r⟩
    · exact ⟨_, _, ins_true_cons nh q true x l r⟩

/-- One iteration of the expansion loop, on a trie whose node at `b` carries
the next hop `x`: an insertion into the subtrie at `b`. -/
theorem cpe_expand_step_eq (root : btrie_node) (b : List Bool) (stride pfx k len x i : Nat)
    (l r : btrie_node) (hroot : node_at root b ≠ .null) (hb : b = bits pfx len)
    (hp : pfx < 2 ^ len) (hs : len + k = stride) (h32 : stride ≤ 32) (hi : i < 2 ^ k) :
    cpe_expand_step b stride pfx k (subst_at root b (.node true x l r)) i
      = .ok (subst_at root b (ins x false (bits i k) (.node true x l r))) := by
  have hn : node_at (subst_at root b (.node true x l r)) b = .node true x l r :=
    node_at_subst root b _ hroot
  have hne : subst_at root b (.node true x l r) ≠ .null :=
    subst_at_ne_null root b _ (ne_null_of_node_at root b hroot) (by intro h; cases h)
  unfold cpe_expand_step
  rw [hn]
  dsimp only
  rw [btrie_insert_eq _ _ false hne h32]
  dsimp only
  rw [shl_mod_u32 pfx len k hp (by omega), ← hs, bits_append pfx i len k hi, ← hb,
    ins_append x false b (bits i k) _ (by rw [hn]; intro h; cases h), hn, subst_at_subst]
  rfl

theorem cpe_expand_fold (root : btrie_node) (b : List Bool) (stride pfx k len x : Nat)
    (hroot : node_at root b ≠ .null) (hb : b = bits pfx len)
    (hp : pfx < 2 ^ len) (hs : len + k = stride) (h32 : stride ≤ 32) (L : List Nat) :
    (∀ i ∈ L, i < 2 ^ k) → ∀ l r : btrie_node,
      L.foldlM (cpe_expand_step b stride pfx k) (subst_at root b (.node true x l r))
        = .ok (subst_at root b
            (L.foldl (fun t i => ins x false (bits i k) t) (.node true x l r))) := by
  induction L with
  | nil => intro _ l r; rfl
  | cons i L ih =>
    intro hL l r
    rw [List.foldlM_cons,
      cpe_expand_step_eq root b stride pfx k len x i l r hroot hb hp hs h32
        (hL i (List.mem_cons_self _ _))]
    obtain ⟨l1, r1, e⟩ := ins_top x x (bits i k) l r
    rw [List.foldl_cons, e]
    exact ih (fun j hj => hL j (List.mem_cons_of_mem _ hj)) l1 r1

/-- The expansion loop of `btrie_perform_cpe` at a node with a next hop, at
most 30 levels above the stride: the subtrie is filled. -/
theorem cpe_expand_eq (root : btrie_node) (b : List Bool) (stride pfx k len x : Nat)
    (l r : btrie_node) (hn : node_at root b = .node true x l r) (hb : b = bits pfx len)
    (hp : pfx < 2 ^ len) (hs : len + k = stride) (h32 : stride ≤ 32) (hk : k ≤ 30) :
    cpe_expand root b stride pfx k
      = .ok (subst_at root b (fill x k (.node true x l r))) := by
  have hroot : node_at root b ≠ .null := by rw [hn]; intro h; cases h
  unfold cpe_expand
  rw [if_neg (by omega)]
  have e : root = subst_at root b (.node true x l r) := by rw [← hn, subst_at_self]
  rw [e, cpe_expand_fold root b stride pfx k len x hroot hb hp hs h32 _
    (fun i hi => List.mem_range.mp hi) l r, foldl_ins_fill x k _ (by intro h; cases h)]
  rw [← e]

end Cpe

namespace Cpe

theorem bits_snoc (pfx len : Nat) (c : Bool) (hp : pfx < 2 ^ len) (h32 : len + 1 ≤ 32) :
    bits (((pfx <<< 1) % U32) ||| (if c then 1 else 0)) (len + 1) = bits pfx len ++ [c]
    ∧ ((pfx <<< 1) % U32) ||| (if c then 1 else 0) < 2 ^ (len + 1) := by
  rw [shl_mod_u32 pfx len 1 hp h32]
  have hi : (if c then 1 else 0) < 2 ^ 1 := by cases c <;> decide
  refine ⟨?_, shl_or_lt pfx _ len 1 hp hi⟩
  rw [bits_append pfx _ len 1 hi]
  cases c <;> rfl

/-- The recursion on a child of the node at `b`, given the recursion on
subtries of height `n`. -/
theorem perform_cpe_child (stride n : Nat) (h32 : stride ≤ 32) (hn1 : n + 1 ≤ stride)
    (ih : ∀ (root : btrie_node) (b : List Bool) (pfx : Nat) (t : btrie_node),
      b = bits pfx (stride - n) → pfx < 2 ^ (stride - n) → node_at root b = t → t ≠ .null →
      expandable n t →
      btrie_perform_cpe_at stride n root b pfx = .ok (subst_at root b (cpe_spec n t)))
    (root : btrie_node) (b : List Bool) (pfx : Nat) (h : Bool) (x : Nat) (l r : btrie_node)
    (hb : b = bits pfx (stride - (n + 1))) (hp : pfx < 2 ^ (stride - (n + 1)))
    (hn : node_at root b = .node h x l r) (c : Bool)
    (he : expandable n (if c then r else l)) :
    (if !is_null (if c then r else l) then
        btrie_perform_cpe_at stride n root (b ++ [c])
          (((pfx <<< 1) % U32) ||| (if c then 1 else 0))
      else .ok root)
      = .ok (subst_at root b
          (if c then .node h x l (cpe_spec n r) else .node h x (cpe_spec n l) r)) := by
  have hlen : stride - n = (stride - (n + 1)) + 1 := by omega
  have hs := bits_snoc pfx (stride - (n + 1)) c hp (by omega)
  have hchild := node_at_child root b h x l r hn c
  cases hc : (if c then r else l) with
  | null =>
    have e : (if c then btrie_node.node h x l (cpe_spec n r)
        else btrie_node.node h x (cpe_spec n l) r) = .node h x l r := by
      cases c
      · simp only [Bool.false_eq_true, if_false] at hc ⊢
        rw [hc, cpe_spec_null]
      · simp only [if_true] at hc ⊢
        rw [hc, cpe_spec_null]
    rw [e, ← hn, subst_at_self]
    rfl
  | node h1 x1 l1 r1 =>
    have hne : (if c then r else l) ≠ .null := by rw [hc]; intro h; cases h
    have := ih root (b ++ [c]) (((pfx <<< 1) % U32) ||| (if c then 1 else 0))
      (if c then r else l) (by rw [hlen, hs.1, hb]) (by rw [hlen]; exact hs.2) hchild hne he
    rw [hc] at this
    simp only [is_null, Bool.not_false, if_true]
    rw [this, subst_at_child root b h x l r hn c]
    cases c
    · simp only [Bool.false_eq_true, if_false] at hc ⊢
      rw [hc]
    · simp only [if_true] at hc ⊢
      rw [hc]

/-- The recursion of `btrie_perform_cpe` returns, with the subtrie at `b`
expanded, wherever every expansion loop stays within an `int`. -/
theorem btrie_perform_cpe_at_eq (stride : Nat) (h32 : stride ≤ 32) (n : Nat) :
    n ≤ stride →
    ∀ (root : btrie_node) (b : List Bool) (pfx : Nat) (t : btrie_node),
      b = bits pfx (stride - n) → pfx < 2 ^ (stride - n) → node_at root b = t → t ≠ .null →
      expandable n t →
      btrie_perform_cpe_at stride n root b pfx = .ok (subst_at root b (cpe_spec n t)) := by
  induction n with
  | zero =>
    intro _ root b pfx t _ _ hn _ _
    show Except.ok root = _
    rw [← hn]
    show _ = Except.ok (subst_at root b (node_at root b))
    rw [subst_at_self]
  | succ n ih =>
    intro hn1 root b pfx t hb hp hn ht he
    have ih1 := ih (by omega)
    cases t with
    | null => exact absurd rfl ht
    | node h x l r =>
      have hroot : node_at root b ≠ .null := by rw [hn]; intro h; cases h
      obtain ⟨heh, hel, her⟩ := he
      unfold btrie_perform_cpe_at
      simp only [hn]
      have hL := perform_cpe_child stride n h32 hn1 ih1 root b pfx h x l r hb hp hn false hel
      simp only [Bool.false_eq_true, if_false, Nat.or_zero] at hL
      rw [hL]
      simp only [node_at_subst root b _ hroot]
      have hn2 : node_at (subst_at root b (.node h x (cpe_spec n l) r)) b
          = .node h x (cpe_spec n l) r := node_at_subst root b _ hroot
      have hR := perform_cpe_child stride n h32 hn1 ih1 _ b pfx h x (cpe_spec n l) r hb hp
        hn2 true her
      simp only [if_true] at hR
      rw [hR, subst_at_subst]
      simp only [node_at_subst root b _ hroot]
      cases h with
      | false =>
        simp only [Bool.false_eq_true, if_false]
        rfl
      | true =>
        simp only [if_true]
        have hk : stride - (stride - (n + 1)) = n + 1 := by omega
        rw [hk, cpe_expand_eq _ b stride pfx (n + 1) (stride - (n + 1)) x (cpe_spec n l)
          (cpe_spec n r) (node_at_subst root b _ hroot) hb hp (by omega) h32 (heh rfl)]
        simp only []
        rw [subst_at_subst, clear_subst root b _ hroot]
        rfl

/-- The C call `btrie_perform_cpe(root, root, stride, 0, 0)` returns the
expanded trie. -/
theorem btrie_perform_cpe_eq (root : btrie_node) (stride : Nat) (h32 : stride ≤ 32)
    (hr : root ≠ .null) (he : expandable stride root) :
    btrie_perform_cpe root [] stride 0 0 = .ok (cpe_spec stride root) := by
  unfold btrie_perform_cpe
  rw [Nat.sub_zero, btrie_perform_cpe_at_eq stride h32 stride (Nat.le_refl _) root [] 0 root
    (by rw [Nat.sub_self]; rfl) (Nat.pow_pos (by decide)) (node_at_nil root) hr he,
    subst_at_nil]

end Cpe

namespace Cpe

theorem nhop_at_fill (nh k : Nat) :
    ∀ (t : btrie_node) (s : List Bool), t ≠ .null →
      nhop_at (fill nh k t) s
        = if s.length = k then some ((nhop_at t s).getD nh) else nhop_at t s := by
  induction k with
  | zero =>
    intro t s ht
    cases t with
    | null => exact absurd rfl ht
    | node h x l r =>
      cases s with
      | nil => cases h <;> rfl
      | cons c s =>
        rw [if_neg (by simp)]
        unfold fill
        split <;> rfl
  | succ k ih =>
    intro t s ht
    cases t with
    | null => exact absurd rfl ht
    | node h x l r =>
      cases s with
      | nil =>
        rw [if_neg (by simp)]
        unfold fill
        rw [nhop_at_nil, nhop_at_nil]
      | cons c s =>
        unfold fill
        rw [nhop_at_cons, nhop_at_cons]
        cases c
        · simp only [Bool.false_eq_true, if_false, List.length_cons, Nat.add_right_cancel_iff]
          rw [ih _ s (or_new_ne_null l), nhop_at_or_new]
        · simp only [if_true, List.length_cons, Nat.add_right_cancel_iff]
          rw [ih _ s (or_new_ne_null r), nhop_at_or_new]

theorem lpm_at_nil (t : btrie_node) : lpm_at t [] = nhop_at t [] := by
  cases t with
  | null => rfl
  | node h x l r => cases h <;> rfl

theorem lpm_at_null (s : List Bool) : lpm_at .null s = none := by
  cases s <;> rfl

theorem lpm_at_cons (h : Bool) (x : Nat) (l r : btrie_node) (c : Bool) (s : List Bool) :
    lpm_at (.node h x l r) (c :: s)
      = match lpm_at (if c then r else l) s with
        | some v => some v
        | none => if h then some x else none := rfl

/-- The next hops of the expanded subtrie: at relative depth `n` those of the
longest prefixes, none above, the old ones below. -/
theorem nhop_at_cpe_spec (n : Nat) :
    ∀ (t : btrie_node) (s : List Bool),
      nhop_at (cpe_spec n t) s
        = if s.length = n then lpm_at t s
          else if s.length < n then none else nhop_at t s := by
  induction n with
  | zero =>
    intro t s
    cases s with
    | nil =>
      simp only [List.length_nil, if_true]
      rw [lpm_at_nil]
      cases t <;> rfl
    | cons c s =>
      rw [if_neg (by simp), if_neg (by simp)]
      cases t <;> rfl
  | succ n ih =>
    intro t s
    cases t with
    | null =>
      rw [cpe_spec_null, nhop_at_null, lpm_at_null]
      simp
    | node h x l r =>
      cases s with
      | nil =>
        rw [if_neg (by simp), if_pos (by simp)]
        cases h <;> rfl
      | cons c s =>
        simp only [List.length_cons, Nat.add_right_cancel_iff, Nat.add_lt_add_iff_right]
        rw [lpm_at_cons, nhop_at_cons]
        cases h
        · have e : cpe_spec (n + 1) (.node false x l r)
              = .node false x (cpe_spec n l) (cpe_spec n r) := rfl
          rw [e, nhop_at_cons]
          cases c
          · simp only [Bool.false_eq_true, if_false]
            rw [ih l s]
            split
            · cases lpm_at l s <;> rfl
            · rfl
          · simp only [if_true, Bool.false_eq_true, if_false]
            rw [ih r s]
            split
            · cases lpm_at r s <;> rfl
            · rfl
        · have e : cpe_spec (n + 1) (.node true x l r)
              = .node false x (fill x n (or_new (cpe_spec n l)))
                  (fill x n (or_new (cpe_spec n r))) := rfl
          rw [e, nhop_at_cons]
          cases c
          · simp only [Bool.false_eq_true, if_false, if_true]
            rw [nhop_at_fill x n _ s (or_new_ne_null _), nhop_at_or_new, ih l s]
            by_cases hs : s.length = n
            · simp only [hs, if_true]
              cases lpm_at l s <;> rfl
            · simp only [hs, if_false]
          · simp only [if_true]
            rw [nhop_at_fill x n _ s (or_new_ne_null _), nhop_at_or_new, ih r s]
            by_cases hs : s.length = n
            · simp only [hs, if_true]
              cases lpm_at r s <;> rfl
            · simp only [hs, if_false]

/-- Without a next hop on any prefix of the path there is no longest one. -/
theorem lpm_at_none_iff (s : List Bool) :
    ∀ t : btrie_node, lpm_at t s = none ↔ ∀ L, L ≤ s.length → nhop_at t (s.take L) = none := by
  induction s with
  | nil =>
    intro t
    rw [lpm_at_nil]
    constructor
    · intro h L _
      rw [List.take_nil]
      exact h
    · intro h
      exact h 0 (Nat.le_refl _)
  | cons c s ih =>
    intro t
    cases t with
    | null =>
      rw [lpm_at_null]
      constructor
      · intro _ L _
        exact nhop_at_null _
      · intro _; rfl
    | node h x l r =>
      rw [lpm_at_cons]
      constructor
      · intro hl L hL
        cases hc : lpm_at (if c then r else l) s with
        | some v => rw [hc] at hl; cases hl
        | none =>
          rw [hc] at hl
          cases L with
          | zero =>
            rw [List.take_zero, nhop_at_nil]
            exact hl
          | succ m =>
            rw [List.take_succ_cons, nhop_at_cons]
            exact (ih _).mp hc m (by simpa using hL)
      · intro hall
        have h0 := hall 0 (Nat.zero_le _)
        rw [List.take_zero, nhop_at_nil] at h0
        have hc : lpm_at (if c then r else l) s = none := by
          apply (ih _).mpr
          intro m hm
          have := hall (m + 1) (by simpa using hm)
          rw [List.take_succ_cons, nhop_at_cons] at this
          exact this
        rw [hc]
        exact h0

/-- The longest prefix of the path with a next hop decides `lpm_at`. -/
theorem lpm_at_of_longest (s : List Bool) :
    ∀ (t : btrie_node) (L : Nat), L ≤ s.length → nhop_at t (s.take L) ≠ none →
      (∀ L1, L < L1 → L1 ≤ s.length → nhop_at t (s.take L1) = none) →
      lpm_at t s = nhop_at t (s.take L) := by
  induction s with
  | nil =>
    intro t L _ _ _
    rw [List.take_nil, lpm_at_nil]
  | cons c s ih =>
    intro t L hL hv hmax
    cases t with
    | null => exact absurd (nhop_at_null _) hv
    | node h x l r =>
      rw [lpm_at_cons]
      cases L with
      | zero =>
        have hc : lpm_at (if c then r else l) s = none := by
          apply (lpm_at_none_iff s _).mpr
          intro m hm
          have := hmax (m + 1) (by omega) (by simpa using hm)
          rw [List.take_succ_cons, nhop_at_cons] at this
          exact this
        rw [hc, List.take_zero, nhop_at_nil]
      | succ m =>
        rw [List.take_succ_cons, nhop_at_cons] at hv ⊢
        have := ih (if c then r else l) m (by simpa using hL) hv
          (fun L1 h1 h2 => by
            have := hmax (L1 + 1) (by omega) (by simpa using h2)
            rw [List.take_succ_cons, nhop_at_cons] at this
            exact this)
        rw [this]
        cases hh : nhop_at (if c then r else l) (List.take m s) with
        | none => exact absurd hh hv
        | some v => rfl

end Cpe

namespace Cpe

theorem build_step_eq (t : btrie_node) (p : prefix_rec × Bool) (ht : t ≠ .null)
    (hl : p.1.len ≤ 32) :
    build_step t p = .ok (ins p.1.nhop p.2 (bits p.1.pfx p.1.len) t) := by
  unfold build_step
  rw [btrie_insert_eq t p.1 p.2 ht hl]
  rfl

/-- A build returns a trie whose next hops sit at the ends of the paths of
the prefixes inserted. -/
theorem build_fold (ps : List (prefix_rec × Bool)) :
    ∀ t0 : btrie_node, t0 ≠ .null → (∀ p ∈ ps, p.1.len ≤ 32) →
      ∃ root, ps.foldlM build_step t0 = .ok root ∧ root ≠ .null
        ∧ ∀ q, nhop_at root q ≠ none →
            nhop_at t0 q ≠ none ∨ ∃ p ∈ ps, q = bits p.1.pfx p.1.len := by
  induction ps with
  | nil =>
    intro t0 ht _
    exact ⟨t0, rfl, ht, fun q hq => Or.inl hq⟩
  | cons p ps ih =>
    intro t0 ht hl
    have hp := hl p (List.mem_cons_self _ _)
    obtain ⟨root, h1, h2, h3⟩ := ih (ins p.1.nhop p.2 (bits p.1.pfx p.1.len) t0)
      (ins_ne_null _ _ _ _ ht) (fun p1 h => hl p1 (List.mem_cons_of_mem _ h))
    refine ⟨root, ?_, h2, ?_⟩
    · rw [List.foldlM_cons, build_step_eq t0 p ht hp]
      exact h1
    · intro q hq
      rcases h3 q hq with h | ⟨p1, hp1, e⟩
      · rw [nhop_at_ins _ _ _ _ _ ht] at h
        by_cases hqp : q = bits p.1.pfx p.1.len
        · exact Or.inr ⟨p, List.mem_cons_self _ _, hqp⟩
        · rw [if_neg hqp] at h
          exact Or.inl h
      · exact Or.inr ⟨p1, List.mem_cons_of_mem _ hp1, e⟩

theorem build_spec (ps : List (prefix_rec × Bool)) (hl : ∀ p ∈ ps, p.1.len ≤ 32) :
    ∃ root, build ps = .ok root ∧ root ≠ .null
      ∧ ∀ q, nhop_at root q ≠ none → ∃ p ∈ ps, q = bits p.1.pfx p.1.len := by
  obtain ⟨root, h1, h2, h3⟩ := build_fold ps btrie_node_new (by intro h; cases h) hl
  refine ⟨root, h1, h2, ?_⟩
  intro q hq
  rcases h3 q hq with h | h
  · exact absurd (nhop_at_new q) h
  · exact h

theorem expandable_of_depth (n : Nat) :
    ∀ t : btrie_node, (∀ q, nhop_at t q ≠ none → n ≤ q.length + 30) → expandable n t := by
  induction n with
  | zero => intro t _; cases t <;> exact True.intro
  | succ n ih =>
    intro t h
    cases t with
    | null => exact True.intro
    | node hh x l r =>
      refine ⟨?_, ?_, ?_⟩
      · intro e
        subst e
        have := h [] (by rw [nhop_at_nil]; simp)
        simpa using this
      · apply ih
        intro q hq
        have := h (false :: q) (by rw [nhop_at_cons]; exact hq)
        simp only [List.length_cons] at this
        omega
      · apply ih
        intro q hq
        have := h (true :: q) (by rw [nhop_at_cons]; exact hq)
        simp only [List.length_cons] at this
        omega

end Cpe

/-- C10, for a stride of at most 32 and prefixes at most 30 bits shorter than
the stride: the trie is built, `btrie_perform_cpe(root, root, T, 0, 0)`
returns, and the node at the end of a path `s` of length `T` then carries a
next hop iff some prefix of `s` (of length `L ≤ T`) carried one before the
call, and it carries the next hop of the longest such prefix. -/
theorem btrie_perform_cpe_longest_prefix (ps : List (Cpe.prefix_rec × Bool)) (T : Nat)
    (s : List Bool) (hT : T ≤ 32) (hp : ∀ p ∈ ps, p.1.len ≤ T ∧ T ≤ p.1.len + 30)
    (hs : s.length = T) :
    ∃ root root1, Cpe.build ps = .ok root
      ∧ Cpe.btrie_perform_cpe root [] T 0 0 = .ok root1
      ∧ (Cpe.nhop_at root1 s ≠ none ↔ ∃ L, L ≤ T ∧ Cpe.nhop_at root (s.take L) ≠ none)
      ∧ ∀ L, L ≤ T → Cpe.nhop_at root (s.take L) ≠ none →
          (∀ L1, L < L1 → L1 ≤ T → Cpe.nhop_at root (s.take L1) = none) →
          Cpe.nhop_at root1 s = Cpe.nhop_at root (s.take L) := by
  obtain ⟨root, h1, h2, h3⟩ := Cpe.build_spec ps (fun p h => by have := hp p h; omega)
  have he : Cpe.expandable T root := by
    apply Cpe.expandable_of_depth
    intro q hq
    obtain ⟨p, hpm, e⟩ := h3 q hq
    rw [e, Cpe.bits_length]
    exact (hp p hpm).2
  refine ⟨root, _, h1, Cpe.btrie_perform_cpe_eq root T hT h2 he, ?_, ?_⟩
  · rw [Cpe.nhop_at_cpe_spec, if_pos hs]
    constructor
    · intro h
      by_contra hno
      apply h
      apply (Cpe.lpm_at_none_iff s root).mpr
      intro L hL
      by_contra hc
      exact hno ⟨L, by omega, hc⟩
    · intro ⟨L, hL, hv⟩ hnone
      exact hv ((Cpe.lpm_at_none_iff s root).mp hnone L (by omega))
  · intro L hL hv hmax
    rw [Cpe.nhop_at_cpe_spec, if_pos hs]
    exact Cpe.lpm_at_of_longest s root L (by omega) hv
      (fun L1 h1 h2 => hmax L1 h1 (by omega))

/-- The claim of C10 as stated fails at stride 32 for a trie with a prefix of
length 1: the expansion loop would need 2^31 iterations of an `int` counter,
and the call does not return. -/
theorem btrie_perform_cpe_longest_prefix_counterexample :
    ∃ root, Cpe.build [({ pfx := 0, len := 1, nhop := 1 }, true)] = .ok root
      ∧ Cpe.btrie_perform_cpe root [] 32 0 0 = .error fault.int_overflow :=
  ⟨_, rfl, rfl⟩

/-- C10 on `10.0.0.0/8` and `10.1.0.0/16` at stride 20, for the path of
`10.1.0.0/20`. -/
theorem btrie_perform_cpe_longest_prefix_witness :
    (20 : Nat) ≤ 32 ∧ (∀ p ∈ demo_ps, p.1.len ≤ 20 ∧ 20 ≤ p.1.len + 30)
    ∧ (Cpe.bits 0x0A010 20).length = 20
    ∧ ∃ root root1, Cpe.build demo_ps = .ok root
      ∧ Cpe.btrie_perform_cpe root [] 20 0 0 = .ok root1
      ∧ (Cpe.nhop_at root1 (Cpe.bits 0x0A010 20) ≠ none
          ↔ ∃ L, L ≤ 20 ∧ Cpe.nhop_at root ((Cpe.bits 0x0A010 20).take L) ≠ none)
      ∧ ∀ L, L ≤ 20 → Cpe.nhop_at root ((Cpe.bits 0x0A010 20).take L) ≠ none →
          (∀ L1, L < L1 → L1 ≤ 20 →
            Cpe.nhop_at root ((Cpe.bits 0x0A010 20).take L1) = none) →
          Cpe.nhop_at root1 (Cpe.bits 0x0A010 20)
            = Cpe.nhop_at root ((Cpe.bits 0x0A010 20).take L) :=
  ⟨by decide, by decide, by decide,
    btrie_perform_cpe_longest_prefix demo_ps 20 (Cpe.bits 0x0A010 20) (by decide)
      (by decide) (by decide)⟩

namespace Cpe

theorem dla_fill_empty (size stride : Nat) (t : btrie_node) :
    ∀ (dla : Nat → Nat) (pfx len : Nat), t ≠ .null → (∀ q, nhop_at t q = none) →
      dla_fill size dla t stride pfx len = .ok dla := by
  induction t with
  | null => intro _ _ _ h; exact absurd rfl h
  | node h x l r ihl ihr =>
    intro dla pfx len _ hq
    have hh : h = false := by
      have := hq []
      rw [nhop_at_nil] at this
      cases h
      · rfl
      · simp at this
    subst hh
    have hl : (if !is_null l then dla_fill size dla l stride ((pfx <<< 1) % U32) (len + 1)
        else .ok dla) = .ok dla := by
      cases hc : l with
      | null => rfl
      | node h1 x1 l1 r1 =>
        simp only [is_null, Bool.not_false, if_true]
        rw [← hc]
        exact ihl dla _ _ (by rw [hc]; intro h; cases h) (fun q => hq (false :: q))
    have hr : (if !is_null r then
          dla_fill size dla r stride (((pfx <<< 1) % U32) ||| 1) (len + 1)
        else .ok dla) = .ok dla := by
      cases hc : r with
      | null => rfl
      | node h1 x1 l1 r1 =>
        simp only [is_null, Bool.not_false, if_true]
        rw [← hc]
        exact ihr dla _ _ (by rw [hc]; intro h; cases h) (fun q => hq (true :: q))
    unfold dla_fill
    rw [hl]
    simp only []
    rw [hr]
    rfl

theorem shl_one_val (pfx len : Nat) (hp : pfx < 2 ^ len) (h32 : len + 1 ≤ 32) :
    (pfx <<< 1) % U32 = 2 * pfx ∧ ((pfx <<< 1) % U32) ||| 1 = 2 * pfx + 1 := by
  rw [shl_mod_u32 pfx len 1 hp h32]
  have e : pfx <<< 1 = 2 * pfx := by rw [Nat.shiftLeft_eq]; omega
  refine ⟨e, ?_⟩
  rw [e]
  apply Nat.eq_of_testBit_eq
  intro i
  rw [Nat.testBit_or]
  cases i with
  | zero =>
    simp [Nat.testBit_zero]
    omega
  | succ i =>
    rw [Nat.testBit_succ, Nat.testBit_succ, Nat.testBit_succ]
    have h1 : (2 * pfx + 1) / 2 = pfx := by omega
    have h2 : 2 * pfx / 2 = pfx := by omega
    rw [h1, h2]
    simp

/-- The recursion of `dla_fill` on a subtrie whose next hops all sit `n`
levels below its root: the cells the subtrie covers receive its next hops. -/
theorem dla_fill_spec (size stride : Nat) (n : Nat) :
    ∀ (t : btrie_node) (dla : Nat → Nat) (pfx len : Nat), t ≠ .null →
      (∀ q, nhop_at t q ≠ none → q.length = n) → pfx < 2 ^ len → len + n ≤ 32 →
      2 ^ (len + n) ≤ size →
      ∃ dla1, dla_fill size dla t stride pfx len = .ok dla1
        ∧ ∀ j, dla1 j
            = if j >>> n = pfx then (nhop_at t (bits j n)).getD (dla j) else dla j := by
  induction n with
  | zero =>
    intro t dla pfx len ht hq hp _ hsz
    cases t with
    | null => exact absurd rfl ht
    | node h x l r =>
      have hl : (if !is_null l then dla_fill size dla l stride ((pfx <<< 1) % U32) (len + 1)
          else .ok dla) = .ok dla := by
        cases hc : l with
        | null => rfl
        | node h1 x1 l1 r1 =>
          simp only [is_null, Bool.not_false, if_true]
          rw [← hc]
          apply dla_fill_empty size stride l dla _ _ (by rw [hc]; intro h; cases h)
          intro q
          by_contra hne
          have := hq (false :: q) hne
          simp at this
      have hr : (if !is_null r then
            dla_fill size dla r stride (((pfx <<< 1) % U32) ||| 1) (len + 1)
          else .ok dla) = .ok dla := by
        cases hc : r with
        | null => rfl
        | node h1 x1 l1 r1 =>
          simp only [is_null, Bool.not_false, if_true]
          rw [← hc]
          apply dla_fill_empty size stride r dla _ _ (by rw [hc]; intro h; cases h)
          intro q
          by_contra hne
          have := hq (true :: q) hne
          simp at this
      have hps : pfx < size := Nat.lt_of_lt_of_le hp (by simpa using hsz)
      unfold dla_fill
      rw [hl]
      simp only []
      rw [hr]
      simp only []
      cases h
      · refine ⟨dla, rfl, ?_⟩
        intro j
        simp [bits, nhop_at_nil]
      · refine ⟨Function.update dla pfx x, by simp [hps], ?_⟩
        intro j
        simp only [Nat.shiftRight_zero, bits, nhop_at_nil, if_true, Option.getD_some]
        by_cases hj : j = pfx
        · subst hj
          simp
        · simp [hj, Function.update]
  | succ n ih =>
    intro t dla pfx len ht hq hp h32 hsz
    cases t with
    | null => exact absurd rfl ht
    | node h x l r =>
      have hh : h = false := by
        cases h
        · rfl
        · have := hq [] (by rw [nhop_at_nil]; simp)
          simp at this
      subst hh
      obtain ⟨e0, e1⟩ := shl_one_val pfx len hp (by omega)
      have hp0 : 2 * pfx < 2 ^ (len + 1) := by rw [Nat.pow_succ]; omega
      have hp1 : 2 * pfx + 1 < 2 ^ (len + 1) := by rw [Nat.pow_succ]; omega
      have hsz1 : 2 ^ (len + 1 + n) ≤ size := by
        have : len + 1 + n = len + (n + 1) := by omega
        rw [this]; exact hsz
      have hl : ∃ dla1, (if !is_null l then
            dla_fill size dla l stride ((pfx <<< 1) % U32) (len + 1)
          else .ok dla) = .ok dla1
          ∧ ∀ j, dla1 j = if j >>> n = 2 * pfx then (nhop_at l (bits j n)).getD (dla j)
              else dla j := by
        cases hc : l with
        | null =>
          refine ⟨dla, rfl, ?_⟩
          intro j
          rw [nhop_at_null]
          simp
        | node h1 x1 l1 r1 =>
          simp only [is_null, Bool.not_false, if_true]
          rw [← hc, e0]
          apply ih l dla (2 * pfx) (len + 1) (by rw [hc]; intro h; cases h) _ hp0 (by omega) hsz1
          intro q hne
          have := hq (false :: q) hne
          simpa using this
      obtain ⟨dla1, hl1, hl2⟩ := hl
      have hr : ∃ dla2, (if !is_null r then
            dla_fill size dla1 r stride (((pfx <<< 1) % U32) ||| 1) (len + 1)
          else .ok dla1) = .ok dla2
          ∧ ∀ j, dla2 j = if j >>> n = 2 * pfx + 1 then (nhop_at r (bits j n)).getD (dla1 j)
              else dla1 j := by
        cases hc : r with
        | null =>
          refine ⟨dla1, rfl, ?_⟩
          intro j
          rw [nhop_at_null]
          simp
        | node h1 x1 l1 r1 =>
          simp only [is_null, Bool.not_false, if_true]
          rw [← hc, e1]
          apply ih r dla1 (2 * pfx + 1) (len + 1) (by rw [hc]; intro h; cases h) _ hp1
            (by omega) hsz1
          intro q hne
          have := hq (true :: q) hne
          simpa using this
      obtain ⟨dla2, hr1, hr2⟩ := hr
      refine ⟨dla2, ?_, ?_⟩
      · unfold dla_fill
        rw [hl1]
        simp only []
        rw [hr1]
        rfl
      · intro j
        rw [hr2, hl2, bits_succ, nhop_at_cons, Nat.shiftRight_succ, Nat.testBit_to_div_mod,
          ← Nat.shiftRight_eq_div_pow]
        generalize j >>> n = a
        by_cases h0 : a = 2 * pfx
        · have h1 : ¬ a = 2 * pfx + 1 := by omega
          have h2 : a / 2 = pfx := by omega
          have h3 : ¬ a % 2 = 1 := by omega
          simp [h0, h1, h2, h3]
        · by_cases h1 : a = 2 * pfx + 1
          · have h2 : a / 2 = pfx := by omega
            have h3 : a % 2 = 1 := by omega
            simp [h1, h2, h3]
            have h4 : (2 * pfx + 1) / 2 = pfx := by omega
            have h5 : ¬ (2 * pfx + 1 = 2 * pfx) := by omega
            have h6 : (2 * pfx + 1) % 2 = 1 := by omega
            simp [h4, h5, h6]
          · have h2 : ¬ a / 2 = pfx := by omega
            simp [h0, h1, h2]

/-- The C `dla_create` on a trie whose next hops all sit at depth `stride`:
every cell holds the next hop at the end of its path, or 0. -/
theorem dla_create_spec (t : btrie_node) (stride : Nat) (ht : t ≠ .null)
    (hq : ∀ q, nhop_at t q ≠ none → q.length = stride) (h32 : stride ≤ 32) :
    ∃ dla, dla_create t stride = .ok dla
      ∧ ∀ j, j < 2 ^ stride → dla j = (nhop_at t (bits j stride)).getD 0 := by
  obtain ⟨dla, h1, h2⟩ := dla_fill_spec (2 ^ stride) stride stride t (fun _ => 0) 0 0 ht hq
    (by decide) (by omega) (by rw [Nat.zero_add])
  refine ⟨dla, h1, ?_⟩
  intro j hj
  rw [h2, if_pos]
  rw [Nat.shiftRight_eq_div_pow]
  exact Nat.div_eq_of_lt hj

end Cpe

namespace Cpe

theorem bits_split (v a b : Nat) : bits v (a + b) = bits (v >>> b) a ++ bits v b := by
  induction a with
  | zero =>
    rw [Nat.zero_add]
    rfl
  | succ a ih =>
    have e : a + 1 + b = (a + b) + 1 := by omega
    rw [e, bits_succ, bits_succ, ih, List.cons_append, Nat.testBit_shiftRight]
    have e2 : b + a = a + b := by omega
    rw [e2]

theorem take_bits (j T L : Nat) (hL : L ≤ T) :
    (bits j T).take L = bits (j >>> (T - L)) L := by
  have e : T = L + (T - L) := by omega
  rw [e, bits_split]
  have e2 : L + (T - L) - L = T - L := by omega
  rw [e2, List.take_left' (bits_length _ _)]

theorem testBit_of_bits_eq (a b L : Nat) (h : bits a L = bits b L) :
    ∀ m, m < L → a.testBit m = b.testBit m := by
  induction L with
  | zero => intro m hm; omega
  | succ L ih =>
    intro m hm
    rw [bits_succ, bits_succ] at h
    injection h with h1 h2
    by_cases e : m = L
    · rw [e]; exact h1
    · exact ih h2 m (by omega)

theorem bits_eq_iff (a b L : Nat) (ha : a < 2 ^ L) (hb : b < 2 ^ L) :
    bits a L = bits b L ↔ a = b := by
  constructor
  · intro h
    apply Nat.eq_of_testBit_eq
    intro m
    by_cases hm : m < L
    · exact testBit_of_bits_eq a b L h m hm
    · have h1 : 2 ^ L ≤ 2 ^ m := Nat.pow_le_pow_right (by decide) (by omega)
      rw [Nat.testBit_eq_false_of_lt (by omega), Nat.testBit_eq_false_of_lt (by omega)]
  · intro h
    rw [h]

/-- The next hops of a trie holding one prefix. -/
theorem nhop_at_single (pfx L nh : Nat) (au : Bool) (q : List Bool) :
    nhop_at (ins nh au (bits pfx L) btrie_node_new) q
      = if q = bits pfx L then some nh else none := by
  rw [nhop_at_ins nh au _ _ q (by intro h; cases h), nhop_at_new, nhop_at_new]
  simp

/-- The next hops after the expansion of a trie holding one prefix. -/
theorem nhop_at_cpe_single (pfx L nh T : Nat) (au : Bool) (hL : L ≤ T) (q : List Bool) :
    nhop_at (cpe_spec T (ins nh au (bits pfx L) btrie_node_new)) q
      = if q.length = T ∧ q.take L = bits pfx L then some nh else none := by
  rw [nhop_at_cpe_spec]
  by_cases hq : q.length = T
  · rw [if_pos hq]
    by_cases ht : q.take L = bits pfx L
    · rw [if_pos ⟨hq, ht⟩]
      have h1 := lpm_at_of_longest q (ins nh au (bits pfx L) btrie_node_new) L (by omega)
        (by rw [nhop_at_single, if_pos ht]; simp)
        (by
          intro L1 h1 h2
          rw [nhop_at_single, if_neg]
          intro e
          have := congrArg List.length e
          rw [List.length_take, bits_length] at this
          omega)
      rw [h1, nhop_at_single, if_pos ht]
    · rw [if_neg (fun h => ht h.2)]
      apply (lpm_at_none_iff q _).mpr
      intro L1 h1
      rw [nhop_at_single, if_neg]
      intro e
      have hl := congrArg List.length e
      rw [List.length_take, bits_length] at hl
      have : L1 = L := by omega
      rw [this] at e
      exact ht e
  · have hc : ¬ (q.length = T ∧ q.take L = bits pfx L) := fun h => hq h.1
    rw [if_neg hq, if_neg hc]
    by_cases hlt : q.length < T
    · rw [if_pos hlt]
    · rw [if_neg hlt, nhop_at_single, if_neg]
      intro e
      have := congrArg List.length e
      rw [bits_length] at this
      omega

end Cpe

/-- C11, for a stride of at most 32 and a prefix at most 30 bits shorter than
the stride: in the trie holding the prefix `pfx` of length `L` with next hop
`nh`, `btrie_perform_cpe` to stride `T` returns; the nodes that then carry a
next hop are those at depth `T` whose path extends the prefix, and they carry
`nh`; `dla_create` returns an array with `nh` in the `2 ^ (T - L)` slots from
`pfx * 2 ^ (T - L)` on and 0 in every other slot. -/
theorem cpe_single_prefix (pfx L nh T : Nat) (allow_update : Bool) (hp : pfx < 2 ^ L)
    (hL : L ≤ T) (hT : T ≤ 32) (hk : T ≤ L + 30) :
    ∃ root root1 dla,
      Cpe.btrie_insert Cpe.btrie_node_new { pfx := pfx, len := L, nhop := nh } allow_update
        = .ok (0, root)
      ∧ Cpe.btrie_perform_cpe root [] T 0 0 = .ok root1
      ∧ (∀ q, Cpe.nhop_at root1 q
          = if q.length = T ∧ q.take L = Cpe.bits pfx L then some nh else none)
      ∧ Cpe.dla_create root1 T = .ok dla
      ∧ ∀ j, j < 2 ^ T →
          dla j = if pfx * 2 ^ (T - L) ≤ j ∧ j < pfx * 2 ^ (T - L) + 2 ^ (T - L) then nh
            else 0 := by
  have hnew : Cpe.btrie_node_new ≠ .null := by intro h; cases h
  have hroot : Cpe.ins nh allow_update (Cpe.bits pfx L) Cpe.btrie_node_new ≠ .null :=
    Cpe.ins_ne_null _ _ _ _ hnew
  have hins := Cpe.btrie_insert_eq Cpe.btrie_node_new { pfx := pfx, len := L, nhop := nh }
    allow_update hnew (by show L ≤ 32; omega)
  rw [Cpe.nhop_at_new] at hins
  have he : Cpe.expandable T (Cpe.ins nh allow_update (Cpe.bits pfx L) Cpe.btrie_node_new) := by
    apply Cpe.expandable_of_depth
    intro q hq
    rw [Cpe.nhop_at_single] at hq
    by_cases e : q = Cpe.bits pfx L
    · rw [e, Cpe.bits_length]; exact hk
    · rw [if_neg e] at hq; exact absurd rfl hq
  have hcpe := Cpe.btrie_perform_cpe_eq _ T hT hroot he
  have hne1 : Cpe.cpe_spec T (Cpe.ins nh allow_update (Cpe.bits pfx L) Cpe.btrie_node_new)
      ≠ .null := by
    intro e
    have h1 := Cpe.nhop_at_cpe_single pfx L nh T allow_update hL
      (Cpe.bits (pfx <<< (T - L)) T)
    rw [e, Cpe.nhop_at_null, if_pos] at h1
    · cases h1
    · refine ⟨Cpe.bits_length _ _, ?_⟩
      rw [Cpe.take_bits _ T L hL, Nat.shiftLeft_shiftRight]
  obtain ⟨dla, hd1, hd2⟩ := Cpe.dla_create_spec _ T hne1
    (by
      intro q hq
      rw [Cpe.nhop_at_cpe_single pfx L nh T allow_update hL] at hq
      by_contra hlen
      rw [if_neg (fun h => hlen h.1)] at hq
      exact hq rfl) hT
  refine ⟨_, _, dla, hins, hcpe, Cpe.nhop_at_cpe_single pfx L nh T allow_update hL, hd1, ?_⟩
  intro j hj
  rw [hd2 j hj, Cpe.nhop_at_cpe_single pfx L nh T allow_update hL, Cpe.take_bits j T L hL]
  have hP : 0 < 2 ^ (T - L) := Nat.pow_pos (by decide)
  have hjs : j >>> (T - L) < 2 ^ L := by
    rw [Nat.shiftRight_eq_div_pow, Nat.div_lt_iff_lt_mul hP, ← Nat.pow_add]
    have : L + (T - L) = T := by omega
    rw [this]; exact hj
  have hiff : (Cpe.bits (j >>> (T - L)) L = Cpe.bits pfx L)
      ↔ (pfx * 2 ^ (T - L) ≤ j ∧ j < pfx * 2 ^ (T - L) + 2 ^ (T - L)) := by
    rw [Cpe.bits_eq_iff _ _ L hjs hp, Nat.shiftRight_eq_div_pow]
    constructor
    · intro e
      rw [← e]
      have h1 := Nat.div_mul_le_self j (2 ^ (T - L))
      have h2 := Nat.lt_div_mul_add hP (a := j)
      omega
    · intro ⟨h1, h2⟩
      apply Nat.div_eq_of_lt_le
      · exact h1
      · rw [Nat.succ_mul]; exact h2
  by_cases hc : Cpe.bits (j >>> (T - L)) L = Cpe.bits pfx L
  · rw [if_pos ⟨Cpe.bits_length _ _, hc⟩, if_pos (hiff.mp hc)]
    rfl
  · rw [if_neg (fun h => hc h.2), if_neg (fun h => hc (hiff.mpr h))]
    rfl

/-- The claim of C11 as stated fails at stride 32 for the prefix
`128.0.0.0/1`: the expansion loop would need 2^31 iterations of an `int`
counter, and the call does not return. -/
theorem cpe_single_prefix_counterexample :
    ∃ root,
      Cpe.btrie_insert Cpe.btrie_node_new { pfx := 1, len := 1, nhop := 7 } true = .ok (0, root)
      ∧ Cpe.btrie_perform_cpe root [] 32 0 0 = .error fault.int_overflow :=
  ⟨_, rfl, rfl⟩

/-- C11 on `10.0.0.0/8` at stride 20: the slots `0x0A000` to `0x0AFFF` hold
the next hop. -/
theorem cpe_single_prefix_witness :
    (10 : Nat) < 2 ^ 8 ∧ (8 : Nat) ≤ 20 ∧ (20 : Nat) ≤ 32 ∧ (20 : Nat) ≤ 8 + 30
    ∧ ∃ root root1 dla,
      Cpe.btrie_insert Cpe.btrie_node_new { pfx := 10, len := 8, nhop := 7 } true
        = .ok (0, root)
      ∧ Cpe.btrie_perform_cpe root [] 20 0 0 = .ok root1
      ∧ (∀ q, Cpe.nhop_at root1 q
          = if q.length = 20 ∧ q.take 8 = Cpe.bits 10 8 then some 7 else none)
      ∧ Cpe.dla_create root1 20 = .ok dla
      ∧ ∀ j, j < 2 ^ 20 →
          dla j = if 10 * 2 ^ (20 - 8) ≤ j ∧ j < 10 * 2 ^ (20 - 8) + 2 ^ (20 - 8) then 7
            else 0 :=
  ⟨by decide, by decide, by decide, by decide,
    cpe_single_prefix 10 8 7 20 true (by decide) (by decide) (by decide) (by decide)⟩

/-! ## The expansion tool and the forwarding table -/

namespace Cpe

theorem lpm_len_at_null (s : List Bool) : lpm_len_at .null s = none := by
  cases s <;> rfl

theorem lpm_len_at_nil (h : Bool) (x : Nat) (l r : btrie_node) :
    lpm_len_at (.node h x l r) [] = if h then some (0, x) else none := rfl

theorem lpm_len_at_cons (h : Bool) (x : Nat) (l r : btrie_node) (c : Bool) (s : List Bool) :
    lpm_len_at (.node h x l r) (c :: s)
      = match lpm_len_at (if c then r else l) s with
        | some (d, v) => some (d + 1, v)
        | none => if h then some (0, x) else none := rfl

theorem lpm_len_at_new (s : List Bool) : lpm_len_at btrie_node_new s = none := by
  cases s with
  | nil => rfl
  | cons c s =>
    unfold btrie_node_new
    rw [lpm_len_at_cons]
    cases c <;> simp [lpm_len_at_null]

theorem lpm_len_at_or_new (t : btrie_node) (s : List Bool) :
    lpm_len_at (or_new t) s = lpm_len_at t s := by
  cases t with
  | null =>
    show lpm_len_at btrie_node_new s = _
    rw [lpm_len_at_new, lpm_len_at_null]
  | node h x l r => rfl

/-- The next hop `lpm_at` gives is the one `lpm_len_at` gives. -/
theorem lpm_at_eq_len (s : List Bool) :
    ∀ t : btrie_node, lpm_at t s = (lpm_len_at t s).map (fun x => x.2) := by
  induction s with
  | nil =>
    intro t
    cases t with
    | null => rfl
    | node h x l r => cases h <;> rfl
  | cons c s ih =>
    intro t
    cases t with
    | null => rfl
    | node h x l r =>
      rw [lpm_at_cons, lpm_len_at_cons, ih]
      cases lpm_len_at (if c then r else l) s with
      | none => cases h <;> rfl
      | some dv => rfl

/-- The depth `lpm_len_at` gives is that of a node with the next hop. -/
theorem lpm_len_at_sound (s : List Bool) :
    ∀ (t : btrie_node) (d v : Nat), lpm_len_at t s = some (d, v) →
      d ≤ s.length ∧ nhop_at t (s.take d) = some v := by
  induction s with
  | nil =>
    intro t d v h
    cases t with
    | null => cases h
    | node hh x l r =>
      rw [lpm_len_at_nil] at h
      cases hh
      · cases h
      · simp only [if_true] at h
        cases h
        exact ⟨Nat.le_refl _, rfl⟩
  | cons c s ih =>
    intro t d v h
    cases t with
    | null => cases h
    | node hh x l r =>
      rw [lpm_len_at_cons] at h
      cases hc : lpm_len_at (if c then r else l) s with
      | some dv =>
        obtain ⟨d1, v1⟩ := dv
        rw [hc] at h
        simp only [Option.some.injEq, Prod.mk.injEq] at h
        obtain ⟨hd, hv⟩ := h
        obtain ⟨h1, h2⟩ := ih _ d1 v1 hc
        rw [← hd, ← hv]
        refine ⟨by simpa using h1, ?_⟩
        rw [List.take_succ_cons, nhop_at_cons]
        exact h2
      | none =>
        rw [hc] at h
        cases hh
        · cases h
        · simp only [if_true] at h
          cases h
          exact ⟨Nat.zero_le _, rfl⟩

/-- An insertion with update, seen from a path: it enters like an entry of
the length of its path where the path starts with it. -/
theorem lpm_len_at_ins (nh : Nat) (q : List Bool) :
    ∀ (t : btrie_node) (s : List Bool), t ≠ .null →
      lpm_len_at (ins nh true q t) s
        = if s.take q.length = q then insert_level q.length nh (lpm_len_at t s)
          else lpm_len_at t s := by
  induction q with
  | nil =>
    intro t s ht
    cases t with
    | null => exact absurd rfl ht
    | node h x l r =>
      have e : ins nh true [] (.node h x l r) = .node true nh l r := by
        cases h <;> rfl
      rw [e]
      simp only [List.length_nil, List.take_zero, if_true]
      cases s with
      | nil => cases h <;> rfl
      | cons c s =>
        rw [lpm_len_at_cons, lpm_len_at_cons]
        cases lpm_len_at (if c then r else l) s with
        | none => cases h <;> rfl
        | some dv => rfl
  | cons c q ih =>
    intro t s ht
    cases t with
    | null => exact absurd rfl ht
    | node h x l r =>
      cases s with
      | nil =>
        rw [if_neg (by simp)]
        cases c <;> rfl
      | cons d s =>
        simp only [List.length_cons, List.take_succ_cons, List.cons.injEq]
        cases c <;> cases d
        · simp only [ins, Bool.false_eq_true, if_false, true_and]
          rw [lpm_len_at_cons, lpm_len_at_cons]
          simp only [Bool.false_eq_true, if_false]
          rw [ih _ s (or_new_ne_null l), lpm_len_at_or_new]
          by_cases hq : List.take q.length s = q
          · simp only [hq, if_true]
            cases lpm_len_at l s with
            | none => cases h <;> simp [insert_level]
            | some dv =>
              obtain ⟨d1, v1⟩ := dv
              simp only [insert_level]
              by_cases hd : d1 ≤ q.length
              · simp [hd]
              · simp [hd]
          · simp only [hq, if_false]
        · simp only [ins, Bool.false_eq_true, if_false, false_and]
          rfl
        · simp only [ins, Bool.true_eq_false, if_true, false_and, if_false]
          rfl
        · simp only [ins, if_true, true_and]
          rw [lpm_len_at_cons, lpm_len_at_cons]
          simp only [if_true]
          rw [ih _ s (or_new_ne_null r), lpm_len_at_or_new]
          by_cases hq : List.take q.length s = q
          · simp only [hq, if_true]
            cases lpm_len_at r s with
            | none => cases h <;> simp [insert_level]
            | some dv =>
              obtain ⟨d1, v1⟩ := dv
              simp only [insert_level]
              by_cases hd : d1 ≤ q.length
              · simp [hd]
              · simp [hd]
          · simp only [hq, if_false]

end Cpe

namespace Cpe

theorem prefix_of_line_len (r : line) : (prefix_of_line r).len = r.mask := rfl

theorem prefix_of_line_nhop (r : line) : (prefix_of_line r).nhop = (entry r).next_hop := rfl

theorem prefix_of_line_pfx (r : line) (h : 0 < r.mask) :
    (prefix_of_line r).pfx = (entry r).key >>> (32 - r.mask) := by
  unfold prefix_of_line entry new_ipv4_addr
  simp only [h, if_true]

theorem entry_key_lt (r : line) : (entry r).key < U32 := by
  unfold entry new_ipv4_addr
  exact Nat.mod_lt _ (by decide)

theorem entry_hop_lt (r : line) : (entry r).next_hop < U32 := by
  unfold entry new_ipv4_addr
  exact Nat.mod_lt _ (by decide)

theorem create_ins_ne_null (start stop : Nat) (t : btrie_node) (r : line) (ht : t ≠ .null) :
    create_ins start stop t r ≠ .null := by
  unfold create_ins
  split
  · exact ins_ne_null _ _ _ _ ht
  · exact ht

/-- The loop of `btrie_create` returns the trie `create_ins` describes. -/
theorem btrie_create_fold (start stop : Nat) (fp : List line) (hfp : ∀ r ∈ fp, r.mask ≤ 32) :
    ∀ t : btrie_node, t ≠ .null →
      fp.foldlM
        (fun btrie r =>
          if start ≤ r.mask ∧ r.mask ≤ stop then
            (btrie_insert btrie (prefix_of_line r) true).map Prod.snd
          else .ok btrie) t
        = .ok (fp.foldl (create_ins start stop) t) := by
  induction fp with
  | nil => intro t _; rfl
  | cons r fp ih =>
    intro t ht
    rw [List.foldlM_cons, List.foldl_cons]
    have hr := hfp r (List.mem_cons_self _ _)
    have e : (if start ≤ r.mask ∧ r.mask ≤ stop then
          (btrie_insert t (prefix_of_line r) true).map Prod.snd
        else .ok t) = .ok (create_ins start stop t r) := by
      unfold create_ins
      by_cases hc : start ≤ r.mask ∧ r.mask ≤ stop
      · rw [if_pos hc, if_pos hc, btrie_insert_eq t _ true ht (by rw [prefix_of_line_len]; exact hr)]
        rfl
      · rw [if_neg hc, if_neg hc]
    rw [e]
    exact ih (fun r1 h => hfp r1 (List.mem_cons_of_mem _ h)) _
      (create_ins_ne_null start stop t r ht)

theorem btrie_create_eq (start stop : Nat) (fp : List line) (hfp : ∀ r ∈ fp, r.mask ≤ 32) :
    btrie_create fp start stop = .ok (fp.foldl (create_ins start stop) btrie_node_new) :=
  btrie_create_fold start stop fp hfp btrie_node_new (by intro h; cases h)

theorem foldl_create_ins_ne_null (start stop : Nat) (fp : List line) :
    ∀ t : btrie_node, t ≠ .null → fp.foldl (create_ins start stop) t ≠ .null := by
  induction fp with
  | nil => intro t ht; exact ht
  | cons r fp ih =>
    intro t ht
    exact ih _ (create_ins_ne_null start stop t r ht)

theorem depth_in_create_ins (start stop : Nat) (t : btrie_node) (r : line) (ht : t ≠ .null)
    (hd : depth_in start stop t) : depth_in start stop (create_ins start stop t r) := by
  unfold create_ins
  by_cases hc : start ≤ r.mask ∧ r.mask ≤ stop
  · rw [if_pos hc]
    intro q hq
    rw [nhop_at_ins _ _ _ _ _ ht] at hq
    by_cases e : q = bits (prefix_of_line r).pfx r.mask
    · rw [e, bits_length]; exact hc
    · rw [if_neg e] at hq
      exact hd q hq
  · rw [if_neg hc]; exact hd

theorem depth_in_new (lo hi : Nat) : depth_in lo hi btrie_node_new := by
  intro q hq
  exact absurd (nhop_at_new q) hq

theorem foldl_create_ins_depth (start stop : Nat) (fp : List line) :
    ∀ t : btrie_node, t ≠ .null → depth_in start stop t →
      depth_in start stop (fp.foldl (create_ins start stop) t) := by
  induction fp with
  | nil => intro t _ hd; exact hd
  | cons r fp ih =>
    intro t ht hd
    exact ih _ (create_ins_ne_null start stop t r ht) (depth_in_create_ins start stop t r ht hd)

theorem shr_lt (a m : Nat) (ha : a < U32) (hm : m ≤ 32) : a >>> (32 - m) < 2 ^ m := by
  rw [Nat.shiftRight_eq_div_pow, Nat.div_lt_iff_lt_mul (Nat.pow_pos (by decide)), ← Nat.pow_add]
  have : m + (32 - m) = 32 := by omega
  rw [this]
  exact ha

/-- The path of a record starts the path of an address exactly when the
entry covers the address. -/
theorem take_eq_iff_covers (a : Nat) (ha : a < U32) (r : line) (T : Nat) (h1 : 1 ≤ r.mask)
    (hT : r.mask ≤ T) (h32 : T ≤ 32) :
    (bits (a >>> (32 - T)) T).take (bits (prefix_of_line r).pfx r.mask).length
        = bits (prefix_of_line r).pfx r.mask
      ↔ covers (entry r) a := by
  rw [bits_length, take_bits _ T r.mask hT, ← Nat.shiftRight_add,
    prefix_of_line_pfx r (by omega)]
  have e : 32 - T + (T - r.mask) = 32 - r.mask := by omega
  rw [e, bits_eq_iff _ _ r.mask (shr_lt a r.mask ha (by omega))
    (shr_lt _ r.mask (entry_key_lt r) (by omega))]
  rfl

theorem lpm_len_depth (lo hi : Nat) (t : btrie_node) (hd : depth_in lo hi t) (s : List Bool)
    (d v : Nat) (h : lpm_len_at t s = some (d, v)) : lo ≤ d ∧ d ≤ hi := by
  obtain ⟨h1, h2⟩ := lpm_len_at_sound s t d v h
  have := hd (s.take d) (by rw [h2]; simp)
  rw [List.length_take] at this
  omega

theorem first3_insert_0 (o2 o1 o0 : Option (Nat × Nat)) (m nh : Nat)
    (h2 : ∀ d v, o2 = some (d, v) → m < d) (h1 : ∀ d v, o1 = some (d, v) → m < d) :
    first3 o2 o1 (insert_level m nh o0) = insert_level m nh (first3 o2 o1 o0) := by
  cases o2 with
  | some x =>
    obtain ⟨d, v⟩ := x
    have := h2 d v rfl
    simp only [first3, insert_level]
    rw [if_neg (by omega)]
  | none =>
    cases o1 with
    | some x =>
      obtain ⟨d, v⟩ := x
      have := h1 d v rfl
      simp only [first3, insert_level]
      rw [if_neg (by omega)]
    | none => rfl

theorem first3_insert_1 (o2 o1 o0 : Option (Nat × Nat)) (m nh : Nat)
    (h2 : ∀ d v, o2 = some (d, v) → m < d) (h0 : ∀ d v, o0 = some (d, v) → d ≤ m) :
    first3 o2 (insert_level m nh o1) o0 = insert_level m nh (first3 o2 o1 o0) := by
  cases o2 with
  | some x =>
    obtain ⟨d, v⟩ := x
    have := h2 d v rfl
    simp only [first3, insert_level]
    rw [if_neg (by omega)]
  | none =>
    cases o1 with
    | some x =>
      obtain ⟨d, v⟩ := x
      simp only [first3, insert_level]
      by_cases hd : d ≤ m
      · simp only [hd, if_true]
      · simp only [hd, if_false]
    | none =>
      cases o0 with
      | some x =>
        obtain ⟨d, v⟩ := x
        have := h0 d v rfl
        simp only [first3, insert_level]
        rw [if_pos this]
      | none => rfl

theorem first3_insert_2 (o2 o1 o0 : Option (Nat × Nat)) (m nh : Nat)
    (h1 : ∀ d v, o1 = some (d, v) → d ≤ m) (h0 : ∀ d v, o0 = some (d, v) → d ≤ m) :
    first3 (insert_level m nh o2) o1 o0 = insert_level m nh (first3 o2 o1 o0) := by
  cases o2 with
  | some x =>
    obtain ⟨d, v⟩ := x
    simp only [first3, insert_level]
    by_cases hd : d ≤ m
    · simp only [hd, if_true]
    · simp only [hd, if_false]
  | none =>
    cases o1 with
    | some x =>
      obtain ⟨d, v⟩ := x
      have := h1 d v rfl
      simp only [first3, insert_level]
      rw [if_pos this]
    | none =>
      cases o0 with
      | some x =>
        obtain ⟨d, v⟩ := x
        have := h0 d v rfl
        simp only [first3, insert_level]
        rw [if_pos this]
      | none => rfl

theorem create_ins_in (start stop : Nat) (t : btrie_node) (r : line)
    (h : start ≤ r.mask ∧ r.mask ≤ stop) :
    create_ins start stop t r
      = ins (prefix_of_line r).nhop true (bits (prefix_of_line r).pfx r.mask) t := by
  unfold create_ins; rw [if_pos h]

theorem create_ins_out (start stop : Nat) (t : btrie_node) (r : line)
    (h : ¬ (start ≤ r.mask ∧ r.mask ≤ stop)) : create_ins start stop t r = t := by
  unfold create_ins; rw [if_neg h]

/-- The trie of a group after one more record, seen from an address the
group resolves at depth `T`. -/
theorem lpm_len_create_ins (a : Nat) (ha : a < U32) (r : line) (h1 : 1 ≤ r.mask)
    (start stop T : Nat) (hst : stop ≤ T) (hT : T ≤ 32) (t : btrie_node) (ht : t ≠ .null)
    (hin : start ≤ r.mask ∧ r.mask ≤ stop) :
    lpm_len_at (create_ins start stop t r) (bits (a >>> (32 - T)) T)
      = if covers (entry r) a then
          insert_level r.mask (entry r).next_hop (lpm_len_at t (bits (a >>> (32 - T)) T))
        else lpm_len_at t (bits (a >>> (32 - T)) T) := by
  rw [create_ins_in start stop t r hin, lpm_len_at_ins _ _ _ _ ht]
  have hc := take_eq_iff_covers a ha r T h1 (by omega) hT
  by_cases h : covers (entry r) a
  · rw [if_pos h, if_pos (hc.mpr h), bits_length, prefix_of_line_nhop]
  · rw [if_neg h, if_neg (fun x => h (hc.mp x))]

/-- One record read by the three calls of `btrie_create`, seen from an
address: the level under the address changes as longest-prefix match
prescribes. -/
theorem create_level_step (a : Nat) (ha : a < U32) (r : line) (h1 : 1 ≤ r.mask)
    (h32 : r.mask ≤ 32) (t0 t1 t2 : btrie_node) (best : Option ipv4_prefix)
    (n0 : t0 ≠ .null) (n1 : t1 ≠ .null) (n2 : t2 ≠ .null)
    (d0 : depth_in 1 20 t0) (d1 : depth_in 21 24 t1) (d2 : depth_in 25 32 t2)
    (hl : first3 (lpm_len_at t2 (bits a 32)) (lpm_len_at t1 (bits (a >>> 8) 24))
        (lpm_len_at t0 (bits (a >>> 12) 20)) = best.map len_hop) :
    first3 (lpm_len_at (create_ins 25 32 t2 r) (bits a 32))
        (lpm_len_at (create_ins 21 24 t1 r) (bits (a >>> 8) 24))
        (lpm_len_at (create_ins 1 20 t0 r) (bits (a >>> 12) 20))
      = (lpm_step a best (entry r)).map len_hop := by
  have r0 := lpm_len_depth 1 20 t0 d0 (bits (a >>> 12) 20)
  have r1 := lpm_len_depth 21 24 t1 d1 (bits (a >>> 8) 24)
  have r2 := lpm_len_depth 25 32 t2 d2 (bits a 32)
  have k0 := lpm_len_create_ins a ha r h1 1 20 20 (Nat.le_refl _) (by decide) t0 n0
  have k1 := lpm_len_create_ins a ha r h1 21 24 24 (Nat.le_refl _) (by decide) t1 n1
  have k2 := lpm_len_create_ins a ha r h1 25 32 32 (Nat.le_refl _) (by decide) t2 n2
  simp only [Nat.sub_self, Nat.shiftRight_zero] at k2
  have e8 : 32 - 24 = 8 := rfl
  have e12 : 32 - 20 = 12 := rfl
  rw [e8] at k1
  rw [e12] at k0
  have hm : (entry r).netmask = r.mask := rfl
  by_cases g0 : r.mask ≤ 20
  · rw [k0 ⟨h1, g0⟩, create_ins_out 21 24 t1 r (by omega), create_ins_out 25 32 t2 r (by omega)]
    by_cases hc : covers (entry r) a
    · rw [if_pos hc, lpm_step_covers a best _ hc, ← hl, hm]
      exact first3_insert_0 _ _ _ _ _
        (fun d v h => by have := r2 d v h; omega) (fun d v h => by have := r1 d v h; omega)
    · rw [if_neg hc, lpm_step_not_covers a best _ hc, hl]
  · by_cases g1 : r.mask ≤ 24
    · rw [k1 ⟨by omega, g1⟩, create_ins_out 1 20 t0 r (by omega),
        create_ins_out 25 32 t2 r (by omega)]
      by_cases hc : covers (entry r) a
      · rw [if_pos hc, lpm_step_covers a best _ hc, ← hl, hm]
        exact first3_insert_1 _ _ _ _ _
          (fun d v h => by have := r2 d v h; omega) (fun d v h => by have := r0 d v h; omega)
      · rw [if_neg hc, lpm_step_not_covers a best _ hc, hl]
    · rw [k2 ⟨by omega, h32⟩, create_ins_out 1 20 t0 r (by omega),
        create_ins_out 21 24 t1 r (by omega)]
      by_cases hc : covers (entry r) a
      · rw [if_pos hc, lpm_step_covers a best _ hc, ← hl, hm]
        exact first3_insert_2 _ _ _ _ _
          (fun d v h => by have := r1 d v h; omega) (fun d v h => by have := r0 d v h; omega)
      · rw [if_neg hc, lpm_step_not_covers a best _ hc, hl]

/-- The three tries `btrie_create` builds from a prefix file, seen from an
address: the first next hop among the longest matches of the three groups is
that of the longest entry of the file covering the address. -/
theorem create_level (a : Nat) (ha : a < U32) (fp : List line)
    (hfp : ∀ r ∈ fp, 1 ≤ r.mask ∧ r.mask ≤ 32) :
    ∀ (t0 t1 t2 : btrie_node) (best : Option ipv4_prefix),
      t0 ≠ .null → t1 ≠ .null → t2 ≠ .null →
      depth_in 1 20 t0 → depth_in 21 24 t1 → depth_in 25 32 t2 →
      first3 (lpm_len_at t2 (bits a 32)) (lpm_len_at t1 (bits (a >>> 8) 24))
          (lpm_len_at t0 (bits (a >>> 12) 20)) = best.map len_hop →
      first3 (lpm_len_at (fp.foldl (create_ins 25 32) t2) (bits a 32))
          (lpm_len_at (fp.foldl (create_ins 21 24) t1) (bits (a >>> 8) 24))
          (lpm_len_at (fp.foldl (create_ins 1 20) t0) (bits (a >>> 12) 20))
        = ((fp.map entry).foldl (lpm_step a) best).map len_hop := by
  induction fp with
  | nil => intro t0 t1 t2 best _ _ _ _ _ _ hl; exact hl
  | cons r fp ih =>
    intro t0 t1 t2 best n0 n1 n2 d0 d1 d2 hl
    obtain ⟨h1, h32⟩ := hfp r (List.mem_cons_self _ _)
    rw [List.foldl_cons, List.foldl_cons, List.foldl_cons, List.map_cons, List.foldl_cons]
    exact ih (fun r1 h => hfp r1 (List.mem_cons_of_mem _ h)) _ _ _ _
      (create_ins_ne_null _ _ _ _ n0) (create_ins_ne_null _ _ _ _ n1)
      (create_ins_ne_null _ _ _ _ n2)
      (depth_in_create_ins _ _ _ _ n0 d0) (depth_in_create_ins _ _ _ _ n1 d1)
      (depth_in_create_ins _ _ _ _ n2 d2)
      (create_level_step a ha r h1 h32 t0 t1 t2 best n0 n1 n2 d0 d1 d2 hl)

/-- The longest matches in the three tries of a prefix file give the next
hop of longest-prefix match over the file. -/
theorem create_lpm (a : Nat) (ha : a < U32) (fp : List line)
    (hfp : ∀ r ∈ fp, 1 ≤ r.mask ∧ r.mask ≤ 32) :
    first3 (lpm_at (fp.foldl (create_ins 25 32) btrie_node_new) (bits a 32))
        (lpm_at (fp.foldl (create_ins 21 24) btrie_node_new) (bits (a >>> 8) 24))
        (lpm_at (fp.foldl (create_ins 1 20) btrie_node_new) (bits (a >>> 12) 20))
      = (lpm (fp.map entry) a).map (fun p => p.next_hop) := by
  have hnew : btrie_node_new ≠ .null := by intro h; cases h
  have h := create_level a ha fp hfp btrie_node_new btrie_node_new btrie_node_new none
    hnew hnew hnew (depth_in_new _ _) (depth_in_new _ _) (depth_in_new _ _)
    (by rw [lpm_len_at_new, lpm_len_at_new, lpm_len_at_new]; rfl)
  rw [lpm_at_eq_len, lpm_at_eq_len, lpm_at_eq_len]
  unfold lpm
  have hm : ∀ o : Option ipv4_prefix,
      o.map (fun p => p.next_hop) = (o.map len_hop).map (fun x => x.2) := by
    intro o; cases o <;> rfl
  rw [hm, ← h]
  generalize lpm_len_at (fp.foldl (create_ins 25 32) btrie_node_new) (bits a 32) = o2
  generalize lpm_len_at (fp.foldl (create_ins 21 24) btrie_node_new) (bits (a >>> 8) 24) = o1
  generalize lpm_len_at (fp.foldl (create_ins 1 20) btrie_node_new) (bits (a >>> 12) 20) = o0
  cases o2 <;> cases o1 <;> cases o0 <;> rfl

end Cpe

namespace Cpe

/-- Four octets written by the print functions and read back give the 32-bit
value. -/
theorem new_ipv4_addr_octets (x : Nat) (hx : x < U32) :
    new_ipv4_addr ((x >>> 24) % 256) ((x >>> 16) &&& 0xff) ((x >>> 8) &&& 0xff) (x &&& 0xff)
      = x := by
  unfold new_ipv4_addr
  have e32 : U32 = 2 ^ 32 := by decide
  have e8 : (256 : Nat) = 2 ^ 8 := by decide
  have eff : (0xff : Nat) = 2 ^ 8 - 1 := by decide
  rw [e32, e8, eff]
  apply Nat.eq_of_testBit_eq
  intro i
  rw [Nat.testBit_mod_two_pow]
  simp only [Nat.testBit_or, Nat.testBit_shiftLeft, Nat.testBit_and, Nat.testBit_shiftRight,
    Nat.testBit_mod_two_pow, Nat.testBit_two_pow_sub_one]
  by_cases h32 : i < 32
  · by_cases h24 : 24 ≤ i
    · have a1 : 24 + (i - 24) = i := by omega
      have a2 : i - 24 < 8 := by omega
      have a3 : ¬ i - 16 < 8 := by omega
      have a4 : ¬ i - 8 < 8 := by omega
      have a5 : ¬ i < 8 := by omega
      have a6 : i ≥ 24 := h24
      simp [h32, a1, a2, a3, a4, a5, a6]
    · by_cases h16 : 16 ≤ i
      · have a1 : 16 + (i - 16) = i := by omega
        have a2 : i - 16 < 8 := by omega
        have a4 : ¬ i - 8 < 8 := by omega
        have a5 : ¬ i < 8 := by omega
        have a6 : ¬ i ≥ 24 := h24
        have a7 : i ≥ 16 := h16
        simp [h32, a1, a2, a4, a5, a6, a7]
      · by_cases h8 : 8 ≤ i
        · have a1 : 8 + (i - 8) = i := by omega
          have a4 : i - 8 < 8 := by omega
          have a5 : ¬ i < 8 := by omega
          have a6 : ¬ i ≥ 24 := h24
          have a7 : ¬ i ≥ 16 := h16
          have a8 : i ≥ 8 := h8
          simp [h32, a1, a4, a5, a6, a7, a8]
        · have a5 : i < 8 := by omega
          have a6 : ¬ i ≥ 24 := h24
          have a7 : ¬ i ≥ 16 := h16
          have a8 : ¬ i ≥ 8 := h8
          simp [h32, a5, a6, a7, a8]
  · have hlt : x.testBit i = false := by
      apply Nat.testBit_eq_false_of_lt
      rw [e32] at hx
      exact Nat.lt_of_lt_of_le hx (Nat.pow_le_pow_right (by decide) (by omega))
    simp [h32, hlt]

/-- A record written by the print functions, read back as an entry. -/
theorem entry_out_line (addr len nhop : Nat) (ha : addr < U32) (hl : len < 256)
    (hn : nhop < U32) :
    entry (out_line addr len nhop) = { key := addr, netmask := len, next_hop := nhop } := by
  unfold entry out_line
  simp only
  rw [new_ipv4_addr_octets addr ha, new_ipv4_addr_octets nhop hn, Nat.mod_eq_of_lt hl]

theorem btrie_print_empty (t : btrie_node) :
    ∀ (pfx len : Nat), (∀ q, nhop_at t q = none) → btrie_print t pfx len = [] := by
  induction t with
  | null => intro _ _ _; rfl
  | node h x l r ihl ihr =>
    intro pfx len hq
    have hh : h = false := by
      have := hq []
      rw [nhop_at_nil] at this
      cases h
      · rfl
      · simp at this
    subst hh
    unfold btrie_print
    rw [ihl _ _ (fun q => hq (false :: q)), ihr _ _ (fun q => hq (true :: q))]
    rfl

/-- The records `btrie_print` writes for a subtrie whose next hops all sit
`n` levels below its root, at depth `T` of the trie: one for every path that
ends at a next hop. -/
theorem mem_btrie_print (T : Nat) (hT : T ≤ 32) (n : Nat) :
    ∀ (t : btrie_node) (pfx len : Nat), len + n = T → pfx < 2 ^ len →
      (∀ q, nhop_at t q ≠ none → q.length = n) →
      ∀ rec, rec ∈ btrie_print t pfx len
        ↔ ∃ j nh, j < 2 ^ n ∧ nhop_at t (bits j n) = some nh
            ∧ rec = out_line (print_addr T (pfx * 2 ^ n + j)) T nh := by
  induction n with
  | zero =>
    intro t pfx len hlen hp hq rec
    cases t with
    | null =>
      constructor
      · intro h; cases h
      · intro ⟨j, nh, _, h, _⟩
        rw [nhop_at_null] at h; cases h
    | node h x l r =>
      have hl : btrie_print l ((pfx <<< 1) % U32) (len + 1) = [] := by
        apply btrie_print_empty
        intro q
        by_contra hne
        have := hq (false :: q) hne
        simp at this
      have hr : btrie_print r (((pfx <<< 1) % U32) ||| 1) (len + 1) = [] := by
        apply btrie_print_empty
        intro q
        by_contra hne
        have := hq (true :: q) hne
        simp at this
      have hlen' : len = T := by omega
      unfold btrie_print
      rw [hl, hr, hlen']
      simp only [List.nil_append, pow_zero, Nat.lt_one_iff, mul_one]
      cases h
      · simp [bits, nhop_at_nil]
      · simp only [if_true, List.mem_singleton, bits, nhop_at_nil]
        constructor
        · intro e
          exact ⟨0, x, rfl, rfl, by rw [e]; rfl⟩
        · intro ⟨j, nh, hj, hnh, e⟩
          subst hj
          simp only [Option.some.injEq] at hnh
          subst hnh
          rw [e]; rfl
  | succ n ih =>
    intro t pfx len hlen hp hq rec
    cases t with
    | null =>
      constructor
      · intro h; cases h
      · intro ⟨j, nh, _, h, _⟩
        rw [nhop_at_null] at h; cases h
    | node h x l r =>
      have hh : h = false := by
        cases h
        · rfl
        · have := hq [] (by rw [nhop_at_nil]; simp)
          simp at this
      subst hh
      obtain ⟨e0, e1⟩ := shl_one_val pfx len hp (by omega)
      have hp0 : 2 * pfx < 2 ^ (len + 1) := by rw [Nat.pow_succ]; omega
      have hp1 : 2 * pfx + 1 < 2 ^ (len + 1) := by rw [Nat.pow_succ]; omega
      have il := ih l (2 * pfx) (len + 1) (by omega) hp0
        (fun q hne => by have := hq (false :: q) hne; simpa using this) rec
      have ir := ih r (2 * pfx + 1) (len + 1) (by omega) hp1
        (fun q hne => by have := hq (true :: q) hne; simpa using this) rec
      unfold btrie_print
      rw [e1, e0]
      simp only [Bool.false_eq_true, if_false, List.append_nil, List.mem_append]
      rw [il, ir]
      have hpow : 2 ^ (n + 1) = 2 ^ n + 2 ^ n := by rw [Nat.pow_succ]; omega
      have hm0 : 2 * pfx * 2 ^ n = pfx * 2 ^ (n + 1) := by rw [Nat.pow_succ]; ring
      have hm1 : (2 * pfx + 1) * 2 ^ n = pfx * 2 ^ (n + 1) + 2 ^ n := by
        rw [Nat.pow_succ]; ring
      constructor
      · intro hc
        rcases hc with ⟨j, nh, hj, hnh, e⟩ | ⟨j, nh, hj, hnh, e⟩
        · refine ⟨j, nh, by omega, ?_, ?_⟩
          · rw [bits_low j n hj, nhop_at_cons]; exact hnh
          · rw [e, hm0]
        · refine ⟨2 ^ n + j, nh, by omega, ?_, ?_⟩
          · rw [bits_high j n hj, nhop_at_cons]; exact hnh
          · rw [e, hm1, Nat.add_assoc]
      · intro ⟨j, nh, hj, hnh, e⟩
        by_cases hlow : j < 2 ^ n
        · left
          refine ⟨j, nh, hlow, ?_, ?_⟩
          · rw [bits_low j n hlow, nhop_at_cons] at hnh; exact hnh
          · rw [e, hm0]
        · right
          have ej : j = 2 ^ n + (j - 2 ^ n) := by omega
          refine ⟨j - 2 ^ n, nh, by omega, ?_, ?_⟩
          · rw [ej, bits_high _ n (by omega), nhop_at_cons] at hnh; exact hnh
          · rw [e, hm1, Nat.add_assoc, ← ej]

end Cpe

namespace Cpe

/-- A pass of longest-prefix match over entries of one length that do not
cover the address leaves the best entry. -/
theorem foldl_lpm_step_none (a : Nat) (L : List ipv4_prefix) :
    ∀ best : Option ipv4_prefix, (∀ p ∈ L, ¬ covers p a) → L.foldl (lpm_step a) best = best := by
  induction L with
  | nil => intro best _; rfl
  | cons p L ih =>
    intro best h
    rw [List.foldl_cons, lpm_step_not_covers a best p (h p (List.mem_cons_self _ _))]
    exact ih best (fun p1 h1 => h p1 (List.mem_cons_of_mem _ h1))

theorem foldl_lpm_step_keep (a n v : Nat) (L : List ipv4_prefix)
    (hn : ∀ p ∈ L, p.netmask = n) (hv : ∀ p ∈ L, covers p a → p.next_hop = v) :
    ∀ b : ipv4_prefix, b.netmask = n → b.next_hop = v →
      ∃ p, L.foldl (lpm_step a) (some b) = some p ∧ p.netmask = n ∧ p.next_hop = v := by
  induction L with
  | nil => intro b h1 h2; exact ⟨b, rfl, h1, h2⟩
  | cons p L ih =>
    intro b h1 h2
    rw [List.foldl_cons]
    have hn' := fun p1 h => hn p1 (List.mem_cons_of_mem _ h)
    have hv' := fun p1 h => hv p1 (List.mem_cons_of_mem _ h)
    by_cases hc : covers p a
    · have e : lpm_step a (some b) p = some p := by
        unfold lpm_step
        rw [if_pos hc]
        simp only
        rw [if_pos (by rw [h1, hn p (List.mem_cons_self _ _)])]
      rw [e]
      exact ih hn' hv' p (hn p (List.mem_cons_self _ _)) (hv p (List.mem_cons_self _ _) hc)
    · rw [lpm_step_not_covers a _ p hc]
      exact ih hn' hv' b h1 h2

/-- A pass of longest-prefix match over entries of one length `n`, at least
that of the best entry so far, one of which covers the address: the best
entry has length `n` and the next hop the covering entries share. -/
theorem foldl_lpm_step_some (a n v : Nat) (L : List ipv4_prefix)
    (hn : ∀ p ∈ L, p.netmask = n) (hv : ∀ p ∈ L, covers p a → p.next_hop = v) :
    ∀ best : Option ipv4_prefix, (∀ b, best = some b → b.netmask ≤ n) →
      (∃ p ∈ L, covers p a) →
      ∃ p, L.foldl (lpm_step a) best = some p ∧ p.netmask = n ∧ p.next_hop = v := by
  induction L with
  | nil => intro best _ ⟨p, hp, _⟩; cases hp
  | cons p L ih =>
    intro best hb hex
    rw [List.foldl_cons]
    have hn' := fun p1 h => hn p1 (List.mem_cons_of_mem _ h)
    have hv' := fun p1 h => hv p1 (List.mem_cons_of_mem _ h)
    by_cases hc : covers p a
    · have e : lpm_step a best p = some p := by
        unfold lpm_step
        rw [if_pos hc]
        cases best with
        | none => rfl
        | some b =>
          simp only
          rw [if_pos (by rw [hn p (List.mem_cons_self _ _)]; exact hb b rfl)]
      rw [e]
      exact foldl_lpm_step_keep a n v L hn' hv' p (hn p (List.mem_cons_self _ _))
        (hv p (List.mem_cons_self _ _) hc)
    · rw [lpm_step_not_covers a _ p hc]
      apply ih hn' hv' best hb
      obtain ⟨p1, hp1, hc1⟩ := hex
      rcases List.mem_cons.mp hp1 with e | h
      · rw [e] at hc1; exact absurd hc1 hc
      · exact ⟨p1, h, hc1⟩

theorem cpe_spec_ne_null (n : Nat) (t : btrie_node) (ht : t ≠ .null) :
    cpe_spec n t ≠ .null := by
  cases t with
  | null => exact absurd rfl ht
  | node h x l r =>
    cases n with
    | zero => exact ht
    | succ n =>
      cases h
      · intro e; cases e
      · intro e; cases e

/-- After the expansion to the top of the range every next hop sits at the
stride. -/
theorem cpe_spec_leveled (lo T : Nat) (t : btrie_node) (hd : depth_in lo T t) :
    ∀ q, nhop_at (cpe_spec T t) q ≠ none → q.length = T := by
  intro q hq
  rw [nhop_at_cpe_spec] at hq
  by_contra hne
  rw [if_neg hne] at hq
  by_cases hlt : q.length < T
  · rw [if_pos hlt] at hq; exact hq rfl
  · rw [if_neg hlt] at hq
    have := hd q hq
    omega

theorem expandable_of_depth_in (lo T : Nat) (t : btrie_node) (hd : depth_in lo T t)
    (h30 : T ≤ lo + 30) : expandable T t := by
  apply expandable_of_depth
  intro q hq
  have := hd q hq
  omega

theorem hops_ok_new : hops_ok btrie_node_new := by
  intro q v h
  rw [nhop_at_new] at h
  cases h

theorem hops_ok_create_ins (start stop : Nat) (t : btrie_node) (r : line) (ht : t ≠ .null)
    (hr : (entry r).next_hop ≠ 0) (ho : hops_ok t) : hops_ok (create_ins start stop t r) := by
  unfold create_ins
  by_cases hc : start ≤ r.mask ∧ r.mask ≤ stop
  · rw [if_pos hc]
    intro q v hq
    rw [nhop_at_ins _ _ _ _ _ ht] at hq
    by_cases e : q = bits (prefix_of_line r).pfx r.mask
    · rw [if_pos e] at hq
      simp only [Bool.true_or, if_true, Option.some.injEq] at hq
      rw [← hq, prefix_of_line_nhop]
      exact ⟨hr, entry_hop_lt r⟩
    · rw [if_neg e] at hq
      exact ho q v hq
  · rw [if_neg hc]; exact ho

theorem foldl_create_ins_hops (start stop : Nat) (fp : List line)
    (hfp : ∀ r ∈ fp, (entry r).next_hop ≠ 0) :
    ∀ t : btrie_node, t ≠ .null → hops_ok t → hops_ok (fp.foldl (create_ins start stop) t) := by
  induction fp with
  | nil => intro t _ ho; exact ho
  | cons r fp ih =>
    intro t ht ho
    exact ih (fun r1 h => hfp r1 (List.mem_cons_of_mem _ h)) _
      (create_ins_ne_null start stop t r ht)
      (hops_ok_create_ins start stop t r ht (hfp r (List.mem_cons_self _ _)) ho)

theorem lpm_at_hop (t : btrie_node) (ho : hops_ok t) (s : List Bool) (v : Nat)
    (h : lpm_at t s = some v) : v ≠ 0 ∧ v < U32 := by
  rw [lpm_at_eq_len] at h
  cases hl : lpm_len_at t s with
  | none => rw [hl] at h; cases h
  | some dv =>
    obtain ⟨d, w⟩ := dv
    rw [hl] at h
    simp only [Option.map_some', Option.some.injEq] at h
    subst h
    exact ho _ _ (lpm_len_at_sound s t d w hl).2

/-- The three files `main` writes for a prefix file with masks of at most 32:
the cells of a DLA holding the longest matches of group `[1, 20]`, and the
records of the expanded tries of groups `[21, 24]` and `[25, 32]`. -/
theorem main_eq (fp : List line) (hfp : ∀ r ∈ fp, r.mask ≤ 32) :
    ∃ dla, main fp
        = .ok (dla_print dla 20,
            btrie_print (cpe_spec 24 (fp.foldl (create_ins 21 24) btrie_node_new)) 0 0,
            btrie_print (cpe_spec 32 (fp.foldl (create_ins 25 32) btrie_node_new)) 0 0)
      ∧ ∀ j, j < 2 ^ 20 →
          dla j = (lpm_at (fp.foldl (create_ins 1 20) btrie_node_new) (bits j 20)).getD 0 := by
  have hnew : btrie_node_new ≠ .null := by intro h; cases h
  have n0 := foldl_create_ins_ne_null 1 20 fp _ hnew
  have n1 := foldl_create_ins_ne_null 21 24 fp _ hnew
  have n2 := foldl_create_ins_ne_null 25 32 fp _ hnew
  have d0 := foldl_create_ins_depth 1 20 fp _ hnew (depth_in_new _ _)
  have d1 := foldl_create_ins_depth 21 24 fp _ hnew (depth_in_new _ _)
  have d2 := foldl_create_ins_depth 25 32 fp _ hnew (depth_in_new _ _)
  obtain ⟨dla, hd1, hd2⟩ := dla_create_spec _ 20 (cpe_spec_ne_null 20 _ n0)
    (cpe_spec_leveled 1 20 _ d0) (by decide)
  refine ⟨dla, ?_, ?_⟩
  · unfold main
    rw [btrie_create_eq 1 20 fp hfp]
    simp only
    rw [btrie_perform_cpe_eq _ 20 (by decide) n0 (expandable_of_depth_in 1 20 _ d0 (by decide))]
    simp only
    rw [hd1]
    simp only
    rw [btrie_create_eq 21 24 fp hfp]
    simp only
    rw [btrie_perform_cpe_eq _ 24 (by decide) n1 (expandable_of_depth_in 21 24 _ d1 (by decide))]
    simp only
    rw [btrie_create_eq 25 32 fp hfp]
    simp only
    rw [btrie_perform_cpe_eq _ 32 (by decide) n2 (expandable_of_depth_in 25 32 _ d2 (by decide))]
  · intro j hj
    rw [hd2 j hj, nhop_at_cpe_spec, if_pos (bits_length _ _)]

end Cpe

namespace Cpe

/-- A pass of longest-prefix match over entries of one length `n`, among
which the entries covering the address carry the next hop `val` (and exist
when `val` is one). -/
theorem lpm_pass (a n : Nat) (L : List ipv4_prefix) (val : Option Nat)
    (hn : ∀ p ∈ L, p.netmask = n)
    (h1 : ∀ p ∈ L, covers p a → val = some p.next_hop)
    (h2 : ∀ v, val = some v → ∃ p ∈ L, covers p a)
    (best : Option ipv4_prefix) (hb : ∀ b, best = some b → b.netmask ≤ n) :
    (∀ b, L.foldl (lpm_step a) best = some b → b.netmask ≤ n)
    ∧ (L.foldl (lpm_step a) best).map (fun p => p.next_hop)
        = first3 val (best.map (fun p => p.next_hop)) none := by
  cases val with
  | none =>
    have hno : ∀ p ∈ L, ¬ covers p a := by
      intro p hp hc
      have := h1 p hp hc
      cases this
    rw [foldl_lpm_step_none a L best hno]
    refine ⟨hb, ?_⟩
    cases best <;> rfl
  | some v =>
    obtain ⟨p, hp, hpn, hpv⟩ := foldl_lpm_step_some a n v L hn
      (fun p hp hc => by
        have := h1 p hp hc
        simp only [Option.some.injEq] at this
        exact this.symm)
      best hb (h2 v rfl)
    rw [hp]
    refine ⟨?_, ?_⟩
    · intro b hb1
      cases hb1
      omega
    · simp only [Option.map_some', hpv]
      rfl

theorem print_addr_eq (T j : Nat) (hT : T ≤ 32) (hj : j < 2 ^ T) :
    print_addr T j = j <<< (32 - T) := by
  unfold print_addr
  by_cases h : T < 32
  · rw [if_pos h, shl_mod_u32 j T (32 - T) hj (by omega)]
  · rw [if_neg h]
    have : 32 - T = 0 := by omega
    rw [this]
    rfl

theorem shl_lt_u32 (T j : Nat) (hT : T ≤ 32) (hj : j < 2 ^ T) : j <<< (32 - T) < U32 := by
  have := shl_or_lt j 0 T (32 - T) hj (Nat.pow_pos (by decide))
  rw [Nat.or_zero] at this
  have e : T + (32 - T) = 32 := by omega
  rw [e] at this
  exact this

theorem covers_shl (T j v a : Nat) :
    covers { key := j <<< (32 - T), netmask := T, next_hop := v } a ↔ a >>> (32 - T) = j := by
  unfold covers
  simp only
  rw [Nat.shiftLeft_shiftRight]

theorem canonical_shl (T j v : Nat) (hT : T ≤ 32) (hj : j < 2 ^ T) :
    canonical { key := j <<< (32 - T), netmask := T, next_hop := v } := by
  unfold canonical
  simp only
  refine ⟨shl_lt_u32 T j hT hj, ?_⟩
  rw [Nat.shiftLeft_eq]
  exact Nat.mul_mod_left _ _

/-- The entries of the file `btrie_print` writes for the expanded trie of a
group: one entry of the stride's length for every path with a longest match
in the group. -/
theorem mem_group_entries (lo T : Nat) (hT : T ≤ 32) (t : btrie_node) (hd : depth_in lo T t)
    (ho : hops_ok t) (p : ipv4_prefix) :
    p ∈ (btrie_print (cpe_spec T t) 0 0).map entry
      ↔ ∃ j v, j < 2 ^ T ∧ lpm_at t (bits j T) = some v
          ∧ p = { key := j <<< (32 - T), netmask := T, next_hop := v } := by
  rw [List.mem_map]
  have hm := mem_btrie_print T hT T (cpe_spec T t) 0 0 (by omega) (Nat.pow_pos (by decide))
    (cpe_spec_leveled lo T t hd)
  constructor
  · intro ⟨rec, hrec, e⟩
    obtain ⟨j, nh, hj, hnh, er⟩ := (hm rec).mp hrec
    rw [nhop_at_cpe_spec, if_pos (bits_length _ _)] at hnh
    refine ⟨j, nh, hj, hnh, ?_⟩
    rw [← e, er, Nat.zero_mul, Nat.zero_add, print_addr_eq T j hT hj,
      entry_out_line _ _ _ (shl_lt_u32 T j hT hj) (by omega) (lpm_at_hop t ho _ _ hnh).2]
  · intro ⟨j, v, hj, hv, e⟩
    refine ⟨out_line (print_addr T (0 * 2 ^ T + j)) T v, ?_, ?_⟩
    · apply (hm _).mpr
      refine ⟨j, v, hj, ?_, rfl⟩
      rw [nhop_at_cpe_spec, if_pos (bits_length _ _)]
      exact hv
    · rw [e, Nat.zero_mul, Nat.zero_add, print_addr_eq T j hT hj,
        entry_out_line _ _ _ (shl_lt_u32 T j hT hj) (by omega) (lpm_at_hop t ho _ _ hv).2]

/-- A pass of longest-prefix match over the entries of a group file. -/
theorem lpm_pass_group (a : Nat) (ha : a < U32) (lo T : Nat) (hT : T ≤ 32) (t : btrie_node)
    (hd : depth_in lo T t) (ho : hops_ok t) (best : Option ipv4_prefix)
    (hb : ∀ b, best = some b → b.netmask ≤ T) :
    (∀ b, ((btrie_print (cpe_spec T t) 0 0).map entry).foldl (lpm_step a) best = some b →
      b.netmask ≤ T)
    ∧ (((btrie_print (cpe_spec T t) 0 0).map entry).foldl (lpm_step a) best).map
          (fun p => p.next_hop)
        = first3 (lpm_at t (bits (a >>> (32 - T)) T)) (best.map (fun p => p.next_hop))
            none := by
  apply lpm_pass a T _ (lpm_at t (bits (a >>> (32 - T)) T))
  · intro p hp
    obtain ⟨j, v, _, _, e⟩ := (mem_group_entries lo T hT t hd ho p).mp hp
    rw [e]
  · intro p hp hc
    obtain ⟨j, v, _, hv, e⟩ := (mem_group_entries lo T hT t hd ho p).mp hp
    rw [e] at hc ⊢
    rw [(covers_shl T j v a).mp hc, hv]
  · intro v hv
    refine ⟨{ key := (a >>> (32 - T)) <<< (32 - T), netmask := T, next_hop := v }, ?_, ?_⟩
    · exact (mem_group_entries lo T hT t hd ho _).mpr
        ⟨a >>> (32 - T), v, shr_lt a T ha hT, hv, rfl⟩
    · exact (covers_shl T _ v a).mpr rfl
  · exact hb

/-- A pass of longest-prefix match over the entries of the non-zero DLA
records. -/
theorem lpm_pass_dla (a : Nat) (ha : a < U32) (t : btrie_node) (ho : hops_ok t)
    (dla : Nat → Nat)
    (hdla : ∀ j, j < 2 ^ 20 → dla j = (lpm_at t (bits j 20)).getD 0) :
    (∀ b, (((List.range (2 ^ 20)).filter (fun i => decide (dla i ≠ 0))).map
        (dla_entry dla)).foldl (lpm_step a) none = some b → b.netmask ≤ 20)
    ∧ ((((List.range (2 ^ 20)).filter (fun i => decide (dla i ≠ 0))).map
        (dla_entry dla)).foldl (lpm_step a) none).map (fun p => p.next_hop)
        = lpm_at t (bits (a >>> 12) 20) := by
  have hlt : a >>> 12 < 2 ^ 20 := shr_lt a 20 ha (by decide)
  have hp := lpm_pass a 20
    (((List.range (2 ^ 20)).filter (fun i => decide (dla i ≠ 0))).map (dla_entry dla))
    (lpm_at t (bits (a >>> 12) 20))
    (by
      intro p hp
      obtain ⟨i, _, e⟩ := List.mem_map.mp hp
      rw [← e]; rfl)
    (by
      intro p hp hc
      obtain ⟨i, hi, e⟩ := List.mem_map.mp hp
      obtain ⟨hi1, hi2⟩ := List.mem_filter.mp hi
      rw [← e] at hc ⊢
      have hia : a >>> 12 = i := (covers_shl 20 i (dla i) a).mp hc
      rw [hia]
      have hnz : dla i ≠ 0 := by simpa using hi2
      have hv := hdla i (List.mem_range.mp hi1)
      cases hl : lpm_at t (bits i 20) with
      | none => rw [hl] at hv; exact absurd hv hnz
      | some v =>
        rw [hl] at hv
        show some v = some (dla i)
        rw [hv]; rfl)
    (by
      intro v hv
      refine ⟨dla_entry dla (a >>> 12), ?_, (covers_shl 20 _ _ a).mpr rfl⟩
      apply List.mem_map.mpr
      refine ⟨a >>> 12, List.mem_filter.mpr ⟨List.mem_range.mpr hlt, ?_⟩, rfl⟩
      have := hdla _ hlt
      rw [hv] at this
      have hne := (lpm_at_hop t ho _ _ hv).1
      simp only [Option.getD_some] at this
      simpa [this] using hne)
    none (by intro b h; cases h)
  refine ⟨hp.1, ?_⟩
  rw [hp.2]
  cases lpm_at t (bits (a >>> 12) 20) <;> rfl

/-- Longest-prefix match over the entries of the three files gives the first
of the longest matches of the three groups. -/
theorem lpm_streams (a : Nat) (ha : a < U32) (t0 t1 t2 : btrie_node)
    (d1 : depth_in 21 24 t1) (d2 : depth_in 25 32 t2)
    (o0 : hops_ok t0) (o1 : hops_ok t1) (o2 : hops_ok t2) (dla : Nat → Nat)
    (hdla : ∀ j, j < 2 ^ 20 → dla j = (lpm_at t0 (bits j 20)).getD 0) :
    (lpm ((((List.range (2 ^ 20)).filter (fun i => decide (dla i ≠ 0))).map (dla_entry dla))
        ++ (btrie_print (cpe_spec 24 t1) 0 0).map entry
        ++ (btrie_print (cpe_spec 32 t2) 0 0).map entry) a).map (fun p => p.next_hop)
      = first3 (lpm_at t2 (bits a 32)) (lpm_at t1 (bits (a >>> 8) 24))
          (lpm_at t0 (bits (a >>> 12) 20)) := by
  unfold lpm
  rw [List.foldl_append, List.foldl_append]
  obtain ⟨b0, v0⟩ := lpm_pass_dla a ha t0 o0 dla hdla
  obtain ⟨b1, v1⟩ := lpm_pass_group a ha 21 24 (by decide) t1 d1 o1 _
    (fun b h => by have := b0 b h; omega)
  obtain ⟨_, v2⟩ := lpm_pass_group a ha 25 32 (by decide) t2 d2 o2 _
    (fun b h => by have := b1 b h; omega)
  rw [v2, v1, v0]
  have e8 : 32 - 24 = 8 := rfl
  simp only [Nat.sub_self, Nat.shiftRight_zero, e8]
  cases lpm_at t2 (bits a 32) <;> cases lpm_at t1 (bits (a >>> 8) 24) <;>
    cases lpm_at t0 (bits (a >>> 12) 20) <;> rfl

end Cpe

/-- A record with a mask in `[1, 32]` and a key without host bits is read by
`load_prefixes` as its entry. -/
theorem load_entry (r : Cpe.line) (u : Nat) (h1 : 1 ≤ r.mask) (h32 : r.mask ≤ 32)
    (hc : canonical (Cpe.entry r)) :
    new_ipv4_prefix r.a r.b r.c r.d r.mask (new_ipv4_addr r.a1 r.b1 r.c1 r.d1) u
      = some (Cpe.entry r) := by
  rw [(new_ipv4_prefix_canonical r.a r.b r.c r.d r.mask _ u h1 h32).1]
  have := and_top_mask_canonical (new_ipv4_addr r.a r.b r.c r.d) r.mask hc.1 hc.2
  rw [this]
  rfl

theorem load_prefixes_eq (cfg : V4coop.config) (t : forwarding_table) (pfxs : List Cpe.line)
    (u : Nat) (h : ∀ r ∈ pfxs, 1 ≤ r.mask ∧ r.mask ≤ 32 ∧ canonical (Cpe.entry r)) :
    V4coop.load_prefixes cfg t pfxs u
      = V4coop.store_prefixes cfg t ((pfxs.map Cpe.entry).map some) := by
  unfold V4coop.load_prefixes
  congr 1
  rw [List.map_map]
  apply List.map_congr_left
  intro r hr
  obtain ⟨h1, h32, hc⟩ := h r hr
  exact load_entry r u h1 h32 hc

theorem gen_store_all_cons (H : Nat → Nat) (idxs : Nat → Nat → Nat → Nat)
    (t : forwarding_table) (p : Option ipv4_prefix) (rest : List (Option ipv4_prefix)) :
    gen_store_all H idxs t (p :: rest)
      = match gen_store H idxs t p with
        | .ok r => gen_store_all H idxs r.2 rest
        | .error e => .error e := rfl

theorem gen_store_all_append (H : Nat → Nat) (idxs : Nat → Nat → Nat → Nat)
    (l1 l2 : List (Option ipv4_prefix)) :
    ∀ t : forwarding_table,
      gen_store_all H idxs t (l1 ++ l2)
        = match gen_store_all H idxs t l1 with
          | .ok t1 => gen_store_all H idxs t1 l2
          | .error e => .error e := by
  induction l1 with
  | nil => intro t; rfl
  | cons p l1 ih =>
    intro t
    rw [List.cons_append, gen_store_all_cons, gen_store_all_cons]
    cases gen_store H idxs t p with
    | error e => rfl
    | ok r => exact ih r.2

/-- A DLA record with next hop 0 stored where the cell is still empty leaves
the table as it is. -/
theorem gen_store_dla_zero (H : Nat → Nat) (idxs : Nat → Nat → Nat → Nat)
    (t : forwarding_table) (p : ipv4_prefix) (h : p.netmask = 20) (hz : p.next_hop = 0)
    (hd : t.dla (p.key >>> 12) = 0) :
    gen_store H idxs t (some p) = .ok (true, t) := by
  rw [gen_store_dla H idxs t p h, hz, hd]
  have e : Function.update t.dla (p.key >>> 12) 0 = t.dla := by
    rw [← hd]
    exact Function.update_eq_self _ _
  rw [e]
  simp

/-- The records of empty DLA cells can be left out of the build. -/
theorem gen_store_all_dla_filter (H : Nat → Nat) (idxs : Nat → Nat → Nat → Nat)
    (dla : Nat → Nat) (rest : List (Option ipv4_prefix)) (L : List Nat) (hn : L.Nodup) :
    ∀ t : forwarding_table, (∀ i ∈ L, t.dla i = 0) →
      gen_store_all H idxs t ((L.map (Cpe.dla_entry dla)).map some ++ rest)
        = gen_store_all H idxs t
            (((L.filter (fun i => decide (dla i ≠ 0))).map (Cpe.dla_entry dla)).map some
              ++ rest) := by
  induction L with
  | nil => intro t _; rfl
  | cons i L ih =>
    intro t ht
    obtain ⟨hi, hn'⟩ := List.nodup_cons.mp hn
    have hk : (Cpe.dla_entry dla i).key >>> 12 = i := by
      show (i <<< 12) >>> 12 = i
      rw [Nat.shiftLeft_shiftRight]
    by_cases hz : dla i = 0
    · have hf : (i :: L).filter (fun i => decide (dla i ≠ 0))
          = L.filter (fun i => decide (dla i ≠ 0)) := by
        rw [List.filter_cons_of_neg]
        simp [hz]
      rw [hf, List.map_cons, List.map_cons, List.cons_append, gen_store_all_cons,
        gen_store_dla_zero H idxs t _ rfl hz (by rw [hk]; exact ht i (List.mem_cons_self _ _))]
      exact ih hn' t (fun j hj => ht j (List.mem_cons_of_mem _ hj))
    · have hf : (i :: L).filter (fun i => decide (dla i ≠ 0))
          = i :: L.filter (fun i => decide (dla i ≠ 0)) := by
        rw [List.filter_cons_of_pos]
        simp [hz]
      rw [hf, List.map_cons, List.map_cons, List.cons_append, List.map_cons, List.map_cons,
        List.cons_append, gen_store_all_cons, gen_store_all_cons,
        gen_store_dla H idxs t _ rfl]
      simp only
      apply ih hn'
      intro j hj
      rw [hk]
      show Function.update t.dla i _ j = 0
      rw [Function.update_noteq (by intro e; rw [e] at hj; exact hi hj)]
      exact ht j (List.mem_cons_of_mem _ hj)

theorem lpm_step_of_some (a : Nat) (b q : ipv4_prefix) :
    ∃ b1, lpm_step a (some b) q = some b1 := by
  unfold lpm_step
  by_cases hq : covers q a
  · rw [if_pos hq]
    simp only
    by_cases h : b.netmask ≤ q.netmask
    · rw [if_pos h]; exact ⟨q, rfl⟩
    · rw [if_neg h]; exact ⟨b, rfl⟩
  · rw [if_neg hq]; exact ⟨b, rfl⟩

theorem lpm_step_of_covers (a : Nat) (best : Option ipv4_prefix) (p : ipv4_prefix)
    (hc : covers p a) : ∃ b, lpm_step a best p = some b := by
  cases best with
  | none =>
    unfold lpm_step
    rw [if_pos hc]
    exact ⟨p, rfl⟩
  | some b => exact lpm_step_of_some a b p

theorem foldl_lpm_step_of_some (a : Nat) (L : List ipv4_prefix) :
    ∀ b : ipv4_prefix, ∃ b1, L.foldl (lpm_step a) (some b) = some b1 := by
  induction L with
  | nil => intro b; exact ⟨b, rfl⟩
  | cons q L ih =>
    intro b
    rw [List.foldl_cons]
    obtain ⟨b1, e⟩ := lpm_step_of_some a b q
    rw [e]
    exact ih b1

/-- Longest-prefix match misses exactly when no entry covers the address. -/
theorem lpm_none_iff (a : Nat) (ps : List ipv4_prefix) :
    lpm ps a = none ↔ ∀ p ∈ ps, ¬ covers p a := by
  constructor
  · intro h p hp hc
    obtain ⟨l1, l2, e⟩ := List.append_of_mem hp
    unfold lpm at h
    rw [e, List.foldl_append, List.foldl_cons] at h
    obtain ⟨b, hb⟩ := lpm_step_of_covers a (List.foldl (lpm_step a) none l1) p hc
    rw [hb] at h
    obtain ⟨b1, hb1⟩ := foldl_lpm_step_of_some a l2 b
    rw [hb1] at h
    cases h
  · intro h
    exact Cpe.foldl_lpm_step_none a ps none h

theorem dla_cell_lt (t : Cpe.btrie_node) (ho : Cpe.hops_ok t) (dla : Nat → Nat)
    (hdla : ∀ j, j < 2 ^ 20 → dla j = (Cpe.lpm_at t (Cpe.bits j 20)).getD 0) (i : Nat)
    (hi : i < 2 ^ 20) : dla i < U32 := by
  rw [hdla i hi]
  cases h : Cpe.lpm_at t (Cpe.bits i 20) with
  | none => decide
  | some v => exact (Cpe.lpm_at_hop t ho _ _ h).2

/-- The entries of the file `dla_print` writes: one for every DLA slot. -/
theorem dla_print_entries (t : Cpe.btrie_node) (ho : Cpe.hops_ok t) (dla : Nat → Nat)
    (hdla : ∀ j, j < 2 ^ 20 → dla j = (Cpe.lpm_at t (Cpe.bits j 20)).getD 0) :
    (Cpe.dla_print dla 20).map Cpe.entry = (List.range (2 ^ 20)).map (Cpe.dla_entry dla) := by
  unfold Cpe.dla_print
  rw [List.map_map]
  apply List.map_congr_left
  intro i hi
  have hi' := List.mem_range.mp hi
  show Cpe.entry (Cpe.out_line (i <<< (32 - 20)) 20 (dla i)) = _
  rw [Cpe.entry_out_line _ _ _ (Cpe.shl_lt_u32 20 i (by decide) hi') (by decide)
    (dla_cell_lt t ho dla hdla i hi')]
  rfl

/-- The build `initialize_forwarding_table` makes from three files of
records with masks in `[1, 32]` and keys without host bits: the entries of the
files are stored in order. -/
theorem initialize_forwarding_table_eq (cfg : V4coop.config) (t : forwarding_table)
    (dla g1 g2 : List Cpe.line) (u : Nat)
    (hd : ∀ r ∈ dla, 1 ≤ r.mask ∧ r.mask ≤ 32 ∧ canonical (Cpe.entry r))
    (h1 : ∀ r ∈ g1, 1 ≤ r.mask ∧ r.mask ≤ 32 ∧ canonical (Cpe.entry r))
    (h2 : ∀ r ∈ g2, 1 ≤ r.mask ∧ r.mask ≤ 32 ∧ canonical (Cpe.entry r)) :
    V4coop.initialize_forwarding_table cfg t dla g1 g2 u
      = gen_store_all (V4coop.HASHTBL_HASH_FUNCTION cfg)
          (fun key n =>
            hashes (V4coop.BLOOM_HASH_FUNCTION cfg) (V4coop.BLOOM_HASH_FUNCTION cfg) key n
              (fun _ => 0))
          t ((dla.map Cpe.entry).map some
            ++ ((g1.map Cpe.entry).map some ++ (g2.map Cpe.entry).map some)) := by
  unfold V4coop.initialize_forwarding_table
  rw [gen_store_all_append, load_prefixes_eq cfg t dla u hd, V4coop.store_prefixes_eq_gen]
  cases gen_store_all (V4coop.HASHTBL_HASH_FUNCTION cfg)
      (fun key n =>
        hashes (V4coop.BLOOM_HASH_FUNCTION cfg) (V4coop.BLOOM_HASH_FUNCTION cfg) key n
          (fun _ => 0)) t ((dla.map Cpe.entry).map some) with
  | error e => rfl
  | ok t1 =>
    simp only
    rw [gen_store_all_append, load_prefixes_eq cfg t1 g1 u h1, V4coop.store_prefixes_eq_gen]
    cases gen_store_all (V4coop.HASHTBL_HASH_FUNCTION cfg)
        (fun key n =>
          hashes (V4coop.BLOOM_HASH_FUNCTION cfg) (V4coop.BLOOM_HASH_FUNCTION cfg) key n
            (fun _ => 0)) t1 ((g1.map Cpe.entry).map some) with
    | error e => rfl
    | ok t2 =>
      simp only
      rw [load_prefixes_eq cfg t2 g2 u h2, V4coop.store_prefixes_eq_gen]

/-- **C2** The expansion tool and the forwarding table, end to end.  For a
prefix file whose records have masks in `[1, 32]` and non-zero next hops, the
tool writes its three files; `initialize_forwarding_table` loads them into a
table returned by `new_forwarding_table` with both classes sized; and
`lookup_address` then returns, for every 32-bit address, a hit with the next
hop of the longest entry of the prefix file covering the address (the last
among equals), and a miss exactly when no entry covers it. -/
theorem cpe_pipeline_longest_prefix_match (sizing : Nat → Nat × Nat)
    (dist : List (Nat × Nat)) (hw : well_sized sizing dist) (cfg : V4coop.config) (u : Nat)
    (fp : List Cpe.line)
    (hfp : ∀ r ∈ fp, 1 ≤ r.mask ∧ r.mask ≤ 32 ∧ (Cpe.entry r).next_hop ≠ 0) :
    ∃ dla g1 g2 t, Cpe.main fp = .ok (dla, g1, g2)
      ∧ V4coop.initialize_forwarding_table cfg (new_forwarding_table sizing dist) dla g1 g2 u
          = .ok t
      ∧ ∀ a nh0, a < U32 →
          V4coop.lookup_address cfg t a nh0
            = .ok (as_result ((lpm (fp.map Cpe.entry) a).map (fun p => p.next_hop)))
          ∧ (V4coop.lookup_address cfg t a nh0 = .ok (false, 0)
              ↔ ∀ r ∈ fp, ¬ covers (Cpe.entry r) a) := by
  have hnew : Cpe.btrie_node_new ≠ .null := by intro h; cases h
  have hm32 : ∀ r ∈ fp, r.mask ≤ 32 := fun r hr => (hfp r hr).2.1
  have hm : ∀ r ∈ fp, 1 ≤ r.mask ∧ r.mask ≤ 32 := fun r hr => ⟨(hfp r hr).1, (hfp r hr).2.1⟩
  have hnz : ∀ r ∈ fp, (Cpe.entry r).next_hop ≠ 0 := fun r hr => (hfp r hr).2.2
  have d1 := Cpe.foldl_create_ins_depth 21 24 fp _ hnew (Cpe.depth_in_new _ _)
  have d2 := Cpe.foldl_create_ins_depth 25 32 fp _ hnew (Cpe.depth_in_new _ _)
  have o0 := Cpe.foldl_create_ins_hops 1 20 fp hnz _ hnew Cpe.hops_ok_new
  have o1 := Cpe.foldl_create_ins_hops 21 24 fp hnz _ hnew Cpe.hops_ok_new
  have o2 := Cpe.foldl_create_ins_hops 25 32 fp hnz _ hnew Cpe.hops_ok_new
  obtain ⟨dla, hmain, hdla⟩ := Cpe.main_eq fp hm32
  have hD := dla_print_entries _ o0 dla hdla
  -- the entries stored, without the records of empty DLA cells
  have hps : ∀ p ∈ (((List.range (2 ^ 20)).filter (fun i => decide (dla i ≠ 0))).map
        (Cpe.dla_entry dla))
        ++ (Cpe.btrie_print (Cpe.cpe_spec 24 (fp.foldl (Cpe.create_ins 21 24)
            Cpe.btrie_node_new)) 0 0).map Cpe.entry
        ++ (Cpe.btrie_print (Cpe.cpe_spec 32 (fp.foldl (Cpe.create_ins 25 32)
            Cpe.btrie_node_new)) 0 0).map Cpe.entry,
      (p.netmask = 0 ∨ p.netmask = 20 ∨ p.netmask = 24 ∨ p.netmask = 32)
      ∧ (p.netmask = 20 → p.next_hop ≠ 0) ∧ canonical p := by
    intro p hp
    rcases List.mem_append.mp hp with h | h
    · rcases List.mem_append.mp h with h | h
      · obtain ⟨i, hi, e⟩ := List.mem_map.mp h
        obtain ⟨hi1, hi2⟩ := List.mem_filter.mp hi
        rw [← e]
        refine ⟨Or.inr (Or.inl rfl), (fun _ => by simpa using hi2), ?_⟩
        exact Cpe.canonical_shl 20 i _ (by decide) (List.mem_range.mp hi1)
      · obtain ⟨j, v, hj, _, e⟩ := (Cpe.mem_group_entries 21 24 (by decide) _ d1 o1 p).mp h
        rw [e]
        refine ⟨Or.inr (Or.inr (Or.inl rfl)), (fun h => by cases h), ?_⟩
        exact Cpe.canonical_shl 24 j v (by decide) hj
    · obtain ⟨j, v, hj, _, e⟩ := (Cpe.mem_group_entries 25 32 (by decide) _ d2 o2 p).mp h
      rw [e]
      refine ⟨Or.inr (Or.inr (Or.inr rfl)), (fun h => by cases h), ?_⟩
      exact Cpe.canonical_shl 32 j v (by decide) hj
  obtain ⟨t, hst, hl⟩ := gen_lookup_lpm (V4coop.HASHTBL_HASH_FUNCTION cfg)
    (fun key n =>
      hashes (V4coop.BLOOM_HASH_FUNCTION cfg) (V4coop.BLOOM_HASH_FUNCTION cfg) key n
        (fun _ => 0))
    (fun bf k => probe bf (V4coop.BLOOM_HASH_FUNCTION cfg k)
      (V4coop.BLOOM_HASH_FUNCTION cfg (V4coop.BLOOM_HASH_FUNCTION cfg k)))
    (V4coop.probe_sound_coop cfg) sizing dist hw _ hps
  -- the build from the three files is the build from these entries
  have hinv := new_forwarding_table_inv (V4coop.HASHTBL_HASH_FUNCTION cfg)
    (fun bf k => probe bf (V4coop.BLOOM_HASH_FUNCTION cfg k)
      (V4coop.BLOOM_HASH_FUNCTION cfg (V4coop.BLOOM_HASH_FUNCTION cfg k))) sizing dist hw
  rw [List.map_append, List.map_append, List.append_assoc,
    ← gen_store_all_dla_filter (V4coop.HASHTBL_HASH_FUNCTION cfg) _ dla _
      (List.range (2 ^ 20)) (List.nodup_range _) (new_forwarding_table sizing dist)
      (fun i _ => hinv.2.2.2.1 i)] at hst
  have hvD : ∀ r ∈ Cpe.dla_print dla 20,
      1 ≤ r.mask ∧ r.mask ≤ 32 ∧ canonical (Cpe.entry r) := by
    intro r hr
    have hmem : Cpe.entry r ∈ (Cpe.dla_print dla 20).map Cpe.entry :=
      List.mem_map.mpr ⟨r, hr, rfl⟩
    rw [hD] at hmem
    obtain ⟨i, hi, e⟩ := List.mem_map.mp hmem
    have hmask : r.mask = 20 := by
      have := congrArg ipv4_prefix.netmask e
      exact this.symm
    refine ⟨by omega, by omega, ?_⟩
    rw [← e]
    exact Cpe.canonical_shl 20 i _ (by decide) (List.mem_range.mp hi)
  have hvG : ∀ (lo T : Nat) (hT : T ≤ 32) (h1 : 1 ≤ T) (tr : Cpe.btrie_node)
      (hd : Cpe.depth_in lo T tr) (ho : Cpe.hops_ok tr),
      ∀ r ∈ Cpe.btrie_print (Cpe.cpe_spec T tr) 0 0,
        1 ≤ r.mask ∧ r.mask ≤ 32 ∧ canonical (Cpe.entry r) := by
    intro lo T hT h1 tr hd ho r hr
    have hmem : Cpe.entry r ∈ (Cpe.btrie_print (Cpe.cpe_spec T tr) 0 0).map Cpe.entry :=
      List.mem_map.mpr ⟨r, hr, rfl⟩
    obtain ⟨j, v, hj, _, e⟩ := (Cpe.mem_group_entries lo T hT tr hd ho _).mp hmem
    have hmask : r.mask = T := congrArg ipv4_prefix.netmask e
    refine ⟨by omega, by omega, ?_⟩
    rw [e]
    exact Cpe.canonical_shl T j v hT hj
  refine ⟨_, _, _, t, hmain, ?_, ?_⟩
  · rw [initialize_forwarding_table_eq cfg _ _ _ _ u hvD
      (hvG 21 24 (by decide) (by decide) _ d1 o1) (hvG 25 32 (by decide) (by decide) _ d2 o2),
      hD]
    exact hst
  · intro a nh0 ha
    have hlook : V4coop.lookup_address cfg t a nh0
        = .ok (as_result ((lpm (fp.map Cpe.entry) a).map (fun p => p.next_hop))) := by
      rw [V4coop.lookup_address_eq_gen, hl a nh0 ha,
        Cpe.lpm_streams a ha _ _ _ d1 d2 o0 o1 o2 dla hdla, Cpe.create_lpm a ha fp hm]
    refine ⟨hlook, ?_⟩
    rw [hlook, ← List.forall_mem_map (f := Cpe.entry) (P := fun p => ¬ covers p a),
      ← lpm_none_iff]
    cases lpm (fp.map Cpe.entry) a with
    | none => simp [as_result]
    | some p => simp [as_result]

/-- C2 on the prefix file `demo_file` (`10.0.0.0/8` and `10.1.0.0/16`), with
the table of the demo sizes and the default configuration. -/
theorem cpe_pipeline_longest_prefix_match_witness :
    well_sized demo_sizing demo_dist
    ∧ (∀ r ∈ demo_file, 1 ≤ r.mask ∧ r.mask ≤ 32 ∧ (Cpe.entry r).next_hop ≠ 0)
    ∧ ∃ dla g1 g2 t, Cpe.main demo_file = .ok (dla, g1, g2)
      ∧ V4coop.initialize_forwarding_table demo_cfg (new_forwarding_table demo_sizing demo_dist)
          dla g1 g2 0 = .ok t
      ∧ ∀ a nh0, a < U32 →
          V4coop.lookup_address demo_cfg t a nh0
            = .ok (as_result ((lpm (demo_file.map Cpe.entry) a).map (fun p => p.next_hop)))
          ∧ (V4coop.lookup_address demo_cfg t a nh0 = .ok (false, 0)
              ↔ ∀ r ∈ demo_file, ¬ covers (Cpe.entry r) a) :=
  ⟨demo_well_sized, by decide,
    cpe_pipeline_longest_prefix_match demo_sizing demo_dist demo_well_sized demo_cfg 0
      demo_file (by decide)⟩

/-- The entry the lookups of the demo pipeline return for `10.1.2.3`: the
next hop `192.168.0.2` of `10.1.0.0/16`. -/
theorem demo_file_lpm :
    (lpm (demo_file.map Cpe.entry) 0x0A010203).map (fun p => p.next_hop) = some 0xC0A80002 := by
  decide

/-! ## Stores, hashes and record lengths -/

/-- C21: for every table and every prefix of length 20, `store_prefix` (of
v4-coop under every hash configuration, and of the baseline) returns, with
`created` true iff the DLA slot `key >> 12` held 0; the slot then holds the
next hop, and every other DLA slot, the default route, the hash tables and the
Bloom filters are as before. -/
theorem store_prefix_dla_frame (t : forwarding_table) (p : ipv4_prefix)
    (h : p.netmask = 20) :
    (∀ cfg, ∃ t1, V4coop.store_prefix cfg t (some p)
        = .ok (decide (t.dla (p.key >>> 12) = 0), t1)
      ∧ t1.dla (p.key >>> 12) = p.next_hop
      ∧ (∀ j, j ≠ p.key >>> 12 → t1.dla j = t.dla j)
      ∧ t1.default_route = t.default_route
      ∧ t1.hash_tables = t.hash_tables
      ∧ t1.counting_bloom_filters = t.counting_bloom_filters)
    ∧ (∀ rand_r, ∃ t1, Baseline.store_prefix rand_r t (some p)
        = .ok (decide (t.dla (p.key >>> 12) = 0), t1)
      ∧ t1.dla (p.key >>> 12) = p.next_hop
      ∧ (∀ j, j ≠ p.key >>> 12 → t1.dla j = t.dla j)
      ∧ t1.default_route = t.default_route
      ∧ t1.hash_tables = t.hash_tables
      ∧ t1.counting_bloom_filters = t.counting_bloom_filters) := by
  constructor
  · intro cfg
    rw [V4coop.store_prefix_eq_gen, gen_store_dla _ _ t p h]
    exact ⟨_, rfl, Function.update_same _ _ _, fun j hj => Function.update_noteq hj _ _,
      rfl, rfl, rfl⟩
  · intro rand_r
    rw [Baseline.bl_store_prefix_eq_gen, gen_store_dla _ _ t p h]
    exact ⟨_, rfl, Function.update_same _ _ _, fun j hj => Function.update_noteq hj _ _,
      rfl, rfl, rfl⟩

/-- C21 on the table of the demo build and `10.0.0.0/20`. -/
theorem store_prefix_dla_frame_witness :
    demo_slash20.netmask = 20
    ∧ (∀ cfg, ∃ t1, V4coop.store_prefix cfg demo_table (some demo_slash20)
        = .ok (decide (demo_table.dla (demo_slash20.key >>> 12) = 0), t1)
      ∧ t1.dla (demo_slash20.key >>> 12) = demo_slash20.next_hop
      ∧ (∀ j, j ≠ demo_slash20.key >>> 12 → t1.dla j = demo_table.dla j)
      ∧ t1.default_route = demo_table.default_route
      ∧ t1.hash_tables = demo_table.hash_tables
      ∧ t1.counting_bloom_filters = demo_table.counting_bloom_filters)
    ∧ (∀ rand_r, ∃ t1, Baseline.store_prefix rand_r demo_table (some demo_slash20)
        = .ok (decide (demo_table.dla (demo_slash20.key >>> 12) = 0), t1)
      ∧ t1.dla (demo_slash20.key >>> 12) = demo_slash20.next_hop
      ∧ (∀ j, j ≠ demo_slash20.key >>> 12 → t1.dla j = demo_table.dla j)
      ∧ t1.default_route = demo_table.default_route
      ∧ t1.hash_tables = demo_table.hash_tables
      ∧ t1.counting_bloom_filters = demo_table.counting_bloom_filters) :=
  ⟨rfl, store_prefix_dla_frame demo_table demo_slash20 rfl⟩

/-- C25: in every build configuration that defines `SAME_HASH_FUNCTIONS`, the
Bloom primary hash and the hash-table hash are the same function, and
`find_next_hop_with_hash` handed the Bloom hash of the key returns the found
flag and the next hop `find_next_hop` returns, for every hash table, key and
content of the out-parameter. -/
theorem find_next_hop_with_hash_reuse (cfg : V4coop.config)
    (h : V4coop.SAME_HASH_FUNCTIONS cfg = true) :
    V4coop.BLOOM_HASH_FUNCTION cfg = V4coop.HASHTBL_HASH_FUNCTION cfg
    ∧ ∀ (tbl : hash_table Nat) (key next_hop : Nat),
        find_next_hop_with_hash tbl (V4coop.BLOOM_HASH_FUNCTION cfg key) key next_hop
          = find_next_hop (V4coop.HASHTBL_HASH_FUNCTION cfg) tbl key next_hop := by
  refine ⟨V4coop.same_hash cfg h, ?_⟩
  intro tbl key next_hop
  rw [V4coop.same_hash cfg h, find_next_hop_with_hash_eq, find_next_hop_eq]

/-- C25 in the default configuration (MurmurHash3 for both). -/
theorem find_next_hop_with_hash_reuse_witness :
    V4coop.SAME_HASH_FUNCTIONS demo_cfg = true
    ∧ V4coop.BLOOM_HASH_FUNCTION demo_cfg = V4coop.HASHTBL_HASH_FUNCTION demo_cfg
    ∧ ∀ (tbl : hash_table Nat) (key next_hop : Nat),
        find_next_hop_with_hash tbl (V4coop.BLOOM_HASH_FUNCTION demo_cfg key) key next_hop
          = find_next_hop (V4coop.HASHTBL_HASH_FUNCTION demo_cfg) tbl key next_hop :=
  ⟨rfl, find_next_hop_with_hash_reuse demo_cfg rfl⟩

/-- C28, as the code has it: `h2hash_32` is two rounds of
`x = ((x >> 16) ^ x) * 0x45d9f3b` in 32-bit arithmetic followed by a final
`x = (x >> 16) ^ x`. -/
theorem h2hash_32_shape (x : Nat) : h2hash_32 x = h2_shape 2 x := rfl

/-- The claim of C28 as stated fails: `h2hash_32` is not three rounds and the
final step, for instance at key 1. -/
theorem h2hash_32_shape_counterexample :
    h2hash_32 1 = 824515495 ∧ h2_shape 3 1 ≠ h2hash_32 1 := by
  decide

/-- C29: where a record carries a length, `load_prefixes` and `btrie_create`
use it unchanged; where it carries none they use 32 if the last octet is
positive, else 24 if the third is, else 16 if the second is, else 8 if the
first is, else 0. -/
theorem prefix_length_inference (a b c d : Nat) :
    (∀ l, V4coop.load_prefixes_len a b c d (some l) = l
      ∧ Cpe.btrie_create_mask a b c d (some l) = l)
    ∧ (V4coop.load_prefixes_len a b c (d + 1) none = 32
      ∧ Cpe.btrie_create_mask a b c (d + 1) none = 32)
    ∧ (V4coop.load_prefixes_len a b (c + 1) 0 none = 24
      ∧ Cpe.btrie_create_mask a b (c + 1) 0 none = 24)
    ∧ (V4coop.load_prefixes_len a (b + 1) 0 0 none = 16
      ∧ Cpe.btrie_create_mask a (b + 1) 0 0 none = 16)
    ∧ (V4coop.load_prefixes_len (a + 1) 0 0 0 none = 8
      ∧ Cpe.btrie_create_mask (a + 1) 0 0 0 none = 8)
    ∧ (V4coop.load_prefixes_len 0 0 0 0 none = 0
      ∧ Cpe.btrie_create_mask 0 0 0 0 none = 0) := by
  refine ⟨fun l => ⟨rfl, rfl⟩, ?_, ?_, ?_, ?_, ⟨rfl, rfl⟩⟩ <;>
    simp [V4coop.load_prefixes_len, Cpe.btrie_create_mask]

/-- Four consecutive bytes of a key, read little-endian, are 32 bits of the
key. -/
theorem le32_bytes (x : Nat) :
    le32 (x % 256) ((x >>> 8) % 256) ((x >>> 16) % 256) ((x >>> 24) % 256) = x % U32 := by
  unfold le32
  have e32 : U32 = 2 ^ 32 := by decide
  have e8 : (256 : Nat) = 2 ^ 8 := by decide
  rw [e32, e8]
  apply Nat.eq_of_testBit_eq
  intro i
  simp only [Nat.testBit_or, Nat.testBit_shiftLeft, Nat.testBit_shiftRight,
    Nat.testBit_mod_two_pow]
  by_cases h32 : i < 32
  · by_cases h24 : 24 ≤ i
    · have a1 : 24 + (i - 24) = i := by omega
      have a2 : i - 24 < 8 := by omega
      have a3 : ¬ i - 16 < 8 := by omega
      have a4 : ¬ i - 8 < 8 := by omega
      have a5 : ¬ i < 8 := by omega
      have a6 : i ≥ 24 := h24
      simp [h32, a1, a2, a3, a4, a5, a6]
    · by_cases h16 : 16 ≤ i
      · have a1 : 16 + (i - 16) = i := by omega
        have a2 : i - 16 < 8 := by omega
        have a4 : ¬ i - 8 < 8 := by omega
        have a5 : ¬ i < 8 := by omega
        have a6 : ¬ i ≥ 24 := h24
        have a7 : i ≥ 16 := h16
        simp [h32, a1, a2, a4, a5, a6, a7]
      · by_cases h8 : 8 ≤ i
        · have a1 : 8 + (i - 8) = i := by omega
          have a4 : i - 8 < 8 := by omega
          have a5 : ¬ i < 8 := by omega
          have a6 : ¬ i ≥ 24 := h24
          have a7 : ¬ i ≥ 16 := h16
          have a8 : i ≥ 8 := h8
          simp [h32, a1, a4, a5, a6, a7, a8]
        · have a5 : i < 8 := by omega
          have a6 : ¬ i ≥ 24 := h24
          have a7 : ¬ i ≥ 16 := h16
          have a8 : ¬ i ≥ 8 := h8
          simp [h32, a5, a6, a7, a8]
  · have a5 : ¬ i < 8 := by omega
    have a2 : ¬ i - 24 < 8 := by omega
    have a3 : ¬ i - 16 < 8 := by omega
    have a4 : ¬ i - 8 < 8 := by omega
    simp [h32, a2, a3, a4, a5]

theorem mm3_blocks_one (b0 b1 b2 b3 : Nat) (h : Nat) :
    mm3_blocks 1 [b0, b1, b2, b3] h = mm3_body h (le32 b0 b1 b2 b3) := rfl

theorem mm3_blocks_two (b0 b1 b2 b3 b4 b5 b6 b7 : Nat) (h : Nat) :
    mm3_blocks 2 [b0, b1, b2, b3, b4, b5, b6, b7] h
      = mm3_body (mm3_body h (le32 b0 b1 b2 b3)) (le32 b4 b5 b6 b7) := rfl

theorem murmurhash3_32_eq_fmix (key : Nat) :
    murmurhash3_32 key = fmix32 (mm3_body 0 key ^^^ 4) := by
  unfold murmurhash3_32 fmix32 mm3_body mm3_scramble rotl32
  simp only [Nat.zero_xor, Nat.xor_zero, Nat.reduceSub]

theorem fmix32_lt (h : Nat) : fmix32 h < U32 := by
  unfold fmix32
  have e32 : U32 = 2 ^ 32 := by decide
  simp only
  rw [e32]
  apply Nat.xor_lt_two_pow
  · exact Nat.mod_lt _ (by decide)
  · rw [Nat.shiftRight_eq_div_pow]
    exact Nat.lt_of_le_of_lt (Nat.div_le_self _ _) (Nat.mod_lt _ (by decide))

/-- C26: for every 32-bit key, `murmurhash3_32` returns the result of the
stated sequence in 32-bit arithmetic, which is MurmurHash3_x86_32 of the four
little-endian bytes of the key with seed 0. -/
theorem murmurhash3_32_reference (key : Nat) (hk : key < U32) :
    murmurhash3_32 key = murmur3_sequence_32 key
    ∧ murmurhash3_32 key = MurmurHash3_x86_32 (le_bytes 4 key) 0 := by
  constructor
  · unfold murmurhash3_32 murmur3_sequence_32 fmix32 rotl32
    simp only [Nat.reduceSub]
  · rw [murmurhash3_32_eq_fmix]
    have hb : le_bytes 4 key
        = [key % 256, (key >>> 8) % 256, (key >>> 16) % 256, (key >>> 24) % 256] := by
      unfold le_bytes
      simp [List.range_succ]
    rw [hb]
    unfold MurmurHash3_x86_32
    simp only [List.length_cons, List.length_nil, Nat.reduceAdd, Nat.reduceDiv,
      mm3_blocks_one]
    rw [le32_bytes, Nat.mod_eq_of_lt hk]

/-- C26 at the key `0xC0A80101`. -/
theorem murmurhash3_32_reference_witness :
    (0xC0A80101 : Nat) < U32
    ∧ murmurhash3_32 0xC0A80101 = murmur3_sequence_32 0xC0A80101
    ∧ murmurhash3_32 0xC0A80101 = MurmurHash3_x86_32 (le_bytes 4 0xC0A80101) 0 :=
  ⟨by decide, murmurhash3_32_reference 0xC0A80101 (by decide)⟩

theorem murmurhash3_64_32_eq_fmix (key : Nat) :
    murmurhash3_64_32 key
      = fmix32 (mm3_body (mm3_body 0 (key % U32)) ((key / U32) % U32) ^^^ 8) := by
  unfold murmurhash3_64_32 fmix32 mm3_body mm3_scramble rotl32
  simp only [Nat.zero_xor, Nat.reduceSub]

/-- C27: for every 64-bit key, `murmurhash3_64_32` feeds the low 32-bit half
and then the high one through the body stage from hash 0 and finalizes with
length 8; this is MurmurHash3_x86_32 of the eight little-endian bytes of the
key with seed 0, and the value returned is below 2^32. -/
theorem murmurhash3_64_32_reference (key : Nat) (hk : key < U64) :
    murmurhash3_64_32 key = fmix32 (mm3_body (mm3_body 0 (key % U32)) (key / U32) ^^^ 8)
    ∧ murmurhash3_64_32 key = MurmurHash3_x86_32 (le_bytes 8 key) 0
    ∧ murmurhash3_64_32 key < 2 ^ 32 := by
  have hhi : key / U32 % U32 = key / U32 := by
    apply Nat.mod_eq_of_lt
    rw [Nat.div_lt_iff_lt_mul (by decide)]
    exact hk
  have h1 := murmurhash3_64_32_eq_fmix key
  rw [hhi] at h1
  refine ⟨h1, ?_, ?_⟩
  · rw [h1]
    have hb : le_bytes 8 key
        = [key % 256, (key >>> 8) % 256, (key >>> 16) % 256, (key >>> 24) % 256,
           (key >>> 32) % 256, (key >>> 40) % 256, (key >>> 48) % 256,
           (key >>> 56) % 256] := by
      unfold le_bytes
      simp [List.range_succ]
    have hx : ∀ s, key >>> (32 + s) = (key >>> 32) >>> s := fun s => Nat.shiftRight_add key 32 s
    have e40 : key >>> 40 = (key >>> 32) >>> 8 := hx 8
    have e48 : key >>> 48 = (key >>> 32) >>> 16 := hx 16
    have e56 : key >>> 56 = (key >>> 32) >>> 24 := hx 24
    rw [hb, e40, e48, e56]
    unfold MurmurHash3_x86_32
    simp only [List.length_cons, List.length_nil, Nat.reduceAdd, Nat.reduceDiv,
      mm3_blocks_two]
    rw [le32_bytes, le32_bytes]
    have hs : key >>> 32 = key / U32 := by
      rw [Nat.shiftRight_eq_div_pow]
    rw [hs, hhi]
  · have := fmix32_lt (mm3_body (mm3_body 0 (key % U32)) (key / U32) ^^^ 8)
    rw [h1]
    exact this

/-- C27 at the key `0x20010db800010002`. -/
theorem murmurhash3_64_32_reference_witness :
    (0x20010db800010002 : Nat) < U64
    ∧ murmurhash3_64_32 0x20010db800010002
        = fmix32 (mm3_body (mm3_body 0 (0x20010db800010002 % U32))
            (0x20010db800010002 / U32) ^^^ 8)
    ∧ murmurhash3_64_32 0x20010db800010002
        = MurmurHash3_x86_32 (le_bytes 8 0x20010db800010002) 0
    ∧ murmurhash3_64_32 0x20010db800010002 < 2 ^ 32 :=
  ⟨by decide, murmurhash3_64_32_reference 0x20010db800010002 (by decide)⟩

/-- The loop over the derived indices adds to each counter, modulo 256, the
number of indices that select its cell. -/
theorem cbf_mark_foldl_counters (idxs : Nat → Nat) (l : List Nat) (b : counting_bloom_filter)
    (hc : ∀ y, b.counters y < 256) (x : Nat) :
    (l.foldl (cbf_mark_step idxs) b).counters x
      = (b.counters x
          + (l.filter (fun i => decide (idxs i % b.bitmap_len = x))).length) % 256 := by
  induction l generalizing b with
  | nil =>
    simp only [List.foldl_nil, List.filter_nil, List.length_nil, Nat.add_zero]
    exact (Nat.mod_eq_of_lt (hc x)).symm
  | cons j rest ih =>
    have hlen : (cbf_mark_step idxs b j).bitmap_len = b.bitmap_len := rfl
    have hc' : ∀ y, (cbf_mark_step idxs b j).counters y < 256 := by
      intro y
      unfold cbf_mark_step
      dsimp only
      by_cases hy : y = idxs j % b.bitmap_len
      · rw [hy, Function.update_same]
        exact Nat.mod_lt _ (by decide)
      · rw [Function.update_noteq hy]
        exact hc y
    rw [List.foldl_cons, ih _ hc', hlen]
    have hstep : (cbf_mark_step idxs b j).counters x
        = if idxs j % b.bitmap_len = x then (b.counters x + 1) % 256 else b.counters x := by
      unfold cbf_mark_step
      dsimp only
      by_cases hy : idxs j % b.bitmap_len = x
      · rw [if_pos hy, ← hy, Function.update_same]
      · rw [if_neg hy, Function.update_noteq (fun h => hy h.symm)]
    rw [hstep, List.filter_cons]
    by_cases hy : idxs j % b.bitmap_len = x
    · simp only [hy, if_true, decide_True, List.length_cons]
      omega
    · simp only [hy, if_false, decide_False]
      rfl

theorem cbf_mark_counters (bf : counting_bloom_filter) (idxs : Nat → Nat)
    (hc : ∀ y, bf.counters y < 256) (x : Nat) :
    (cbf_mark bf idxs).counters x = (bf.counters x + cell_hits bf idxs x) % 256 :=
  cbf_mark_foldl_counters idxs _ bf hc x

theorem V6.store_prefix_class (t : V6.forwarding_table) (p : V6.ipv6_prefix)
    (h0 : p.len ≠ 0) (h64 : p.len ≤ 64) (bf : counting_bloom_filter)
    (ht : hash_table V6.uint128)
    (hbf : t.counting_bloom_filters (V6.bloom_filter_id p) = some bf)
    (hht : t.hash_tables (V6.bloom_filter_id p) = some ht) :
    V6.store_prefix t (some p)
      = .ok ((store_next_hop murmurhash3_64_32 ht p.key p.next_hop).1,
          { t with
            counting_bloom_filters := Function.update t.counting_bloom_filters
              (V6.bloom_filter_id p)
              (some (cbf_mark bf
                (hashes murmurhash3_64_32 murmurhash3_32 p.key bf.num_hashes (fun _ => 0))))
            hash_tables := Function.update t.hash_tables (V6.bloom_filter_id p)
              (some (store_next_hop murmurhash3_64_32 ht p.key p.next_hop).2) }) := by
  unfold V6.store_prefix V6.is_prefix_valid
  simp [h0, h64, hbf, hht, deref]
  rfl

/-- What a store into a class does to the counters of the class's filter,
for any hash-table hash and any rule deriving the indices. -/
theorem gen_store_counters (H : Nat → Nat) (idxs : Nat → Nat → Nat → Nat)
    (t : forwarding_table) (p : ipv4_prefix) (bf : counting_bloom_filter) (ht : hash_table Nat)
    (h0 : p.netmask ≠ 0) (h20 : p.netmask ≠ 20) (h32 : p.netmask ≤ 32)
    (hbf : t.counting_bloom_filters (bloom_filter_id p) = some bf)
    (hht : t.hash_tables (bloom_filter_id p) = some ht)
    (hc : ∀ y, bf.counters y < 256) :
    ∃ r bf', gen_store H idxs t (some p) = .ok r
      ∧ r.2.counting_bloom_filters (bloom_filter_id p) = some bf'
      ∧ ∀ x, bf'.counters x
          = (bf.counters x + cell_hits bf (idxs p.key bf.num_hashes) x) % 256 := by
  refine ⟨_, cbf_mark bf (idxs p.key bf.num_hashes),
    gen_store_class H idxs t p h0 h20 h32 bf ht hbf hht, ?_, ?_⟩
  · dsimp only
    rw [Function.update_same]
  · intro x
    exact cbf_mark_counters bf _ hc x

/-- C22 (amended): Bloom counters wrap.  In v4-coop (under every hash
configuration), in the baseline and in v6, a `store_prefix` of a valid prefix
into a (CBF, HT) class whose filter and hash table are allocated returns, and
in the filter of the class each counter has been incremented, modulo 256,
once for every derived index that selects its cell: a counter at 255 that one
derived index selects becomes 0, and a counter no derived index selects is
unchanged. -/
theorem store_prefix_counters_wrap :
    (∀ (cfg : V4coop.config) (t : forwarding_table) (p : ipv4_prefix)
        (bf : counting_bloom_filter) (ht : hash_table Nat),
        p.netmask ≠ 0 → p.netmask ≠ 20 → p.netmask ≤ 32 →
        t.counting_bloom_filters (bloom_filter_id p) = some bf →
        t.hash_tables (bloom_filter_id p) = some ht →
        (∀ y, bf.counters y < 256) →
        ∃ r bf', V4coop.store_prefix cfg t (some p) = .ok r
          ∧ r.2.counting_bloom_filters (bloom_filter_id p) = some bf'
          ∧ ∀ x, bf'.counters x
              = (bf.counters x
                  + cell_hits bf (hashes (V4coop.BLOOM_HASH_FUNCTION cfg)
                      (V4coop.BLOOM_HASH_FUNCTION cfg) p.key bf.num_hashes (fun _ => 0)) x)
                % 256)
    ∧ (∀ (rand_r : Nat → Nat) (t : forwarding_table) (p : ipv4_prefix)
        (bf : counting_bloom_filter) (ht : hash_table Nat),
        p.netmask ≠ 0 → p.netmask ≠ 20 → p.netmask ≤ 32 →
        t.counting_bloom_filters (bloom_filter_id p) = some bf →
        t.hash_tables (bloom_filter_id p) = some ht →
        (∀ y, bf.counters y < 256) →
        ∃ r bf', Baseline.store_prefix rand_r t (some p) = .ok r
          ∧ r.2.counting_bloom_filters (bloom_filter_id p) = some bf'
          ∧ ∀ x, bf'.counters x
              = (bf.counters x
                  + cell_hits bf (Baseline.hashes rand_r p.key bf.num_hashes (fun _ => 0)) x)
                % 256)
    ∧ (∀ (t : V6.forwarding_table) (p : V6.ipv6_prefix)
        (bf : counting_bloom_filter) (ht : hash_table V6.uint128),
        p.len ≠ 0 → p.len ≤ 64 →
        t.counting_bloom_filters (V6.bloom_filter_id p) = some bf →
        t.hash_tables (V6.bloom_filter_id p) = some ht →
        (∀ y, bf.counters y < 256) →
        ∃ r bf', V6.store_prefix t (some p) = .ok r
          ∧ r.2.counting_bloom_filters (V6.bloom_filter_id p) = some bf'
          ∧ ∀ x, bf'.counters x
              = (bf.counters x
                  + cell_hits bf (hashes murmurhash3_64_32 murmurhash3_32 p.key bf.num_hashes
                      (fun _ => 0)) x)
                % 256) := by
  refine ⟨?_, ?_, ?_⟩
  · intro cfg t p bf ht h0 h20 h32 hbf hht hc
    rw [V4coop.store_prefix_eq_gen]
    exact gen_store_counters _ _ t p bf ht h0 h20 h32 hbf hht hc
  · intro rand_r t p bf ht h0 h20 h32 hbf hht hc
    rw [Baseline.bl_store_prefix_eq_gen]
    exact gen_store_counters _ _ t p bf ht h0 h20 h32 hbf hht hc
  · intro t p bf ht h0 h64 hbf hht hc
    refine ⟨_, cbf_mark bf
        (hashes murmurhash3_64_32 murmurhash3_32 p.key bf.num_hashes (fun _ => 0)),
      V6.store_prefix_class t p h0 h64 bf ht hbf hht, ?_, ?_⟩
    · dsimp only
      rw [Function.update_same]
    · intro x
      exact cbf_mark_counters bf _ hc x

set_option maxRecDepth 100000 in
/-- C22 at a concrete store: in the fresh table of the demo sizes, the store
of `192.168.1.0/24` returns and leaves 1 in the cell of the first hash of the
key, which held 0. -/
theorem store_prefix_counters_wrap_witness :
    ∃ r bf', V4coop.store_prefix demo_cfg (new_forwarding_table demo_sizing demo_dist)
        (some demo_slash24) = .ok r
      ∧ r.2.counting_bloom_filters 1 = some bf'
      ∧ bf'.counters (murmurhash3_32 0xC0A80100 % 40) = 1 := by
  obtain ⟨r, bf1, h1, h2, h3⟩ := store_prefix_counters_wrap.1 demo_cfg
    (new_forwarding_table demo_sizing demo_dist) demo_slash24
    (new_counting_bloom_filter 4 40 7) (new_hash_table 4)
    (by decide) (by decide) (by decide) rfl rfl (fun _ => Nat.zero_lt_succ 255)
  refine ⟨r, bf1, h1, h2, ?_⟩
  rw [h3]
  decide

set_option maxRecDepth 100000 in
/-- The claim of C22 as stated fails: in the table `demo_full` the cell of the
first hash of `192.168.1.0` holds 255 in the filter of class 1, and after the
store of `192.168.1.0/24` it holds 0, not 255. -/
theorem store_prefix_counters_wrap_counterexample :
    V4coop.store_prefix demo_cfg demo_full (some demo_slash24) = .ok (true, demo_full_once)
    ∧ (demo_full.counting_bloom_filters 1).map
          (fun bf => bf.counters (murmurhash3_32 0xC0A80100 % 40)) = some 255
    ∧ (demo_full_once.counting_bloom_filters 1).map
          (fun bf => bf.counters (murmurhash3_32 0xC0A80100 % 40)) = some 0 :=
  ⟨rfl, by decide, by decide⟩

theorem is_prefix_valid_false_iff (pfx : Option ipv4_prefix) :
    is_prefix_valid pfx = false ↔ (pfx = none ∨ ∃ p, pfx = some p ∧ 32 < p.netmask) := by
  cases pfx with
  | none => simp [is_prefix_valid]
  | some p =>
    simp only [is_prefix_valid, Nat.zero_le, decide_True, Bool.true_and, decide_eq_false_iff_not,
      Nat.not_le, false_or, Option.some.injEq, reduceCtorEq]
    constructor
    · intro h; exact ⟨p, rfl, h⟩
    · rintro ⟨q, hq, h⟩; rw [hq]; exact h

theorem V6.is_prefix_valid6_false_iff (pfx : Option V6.ipv6_prefix) :
    V6.is_prefix_valid pfx = false ↔ (pfx = none ∨ ∃ p, pfx = some p ∧ 64 < p.len) := by
  cases pfx with
  | none => simp [V6.is_prefix_valid]
  | some p =>
    simp only [V6.is_prefix_valid, Nat.zero_le, decide_True, Bool.true_and,
      decide_eq_false_iff_not, Nat.not_le, false_or, Option.some.injEq, reduceCtorEq]
    constructor
    · intro h; exact ⟨p, rfl, h⟩
    · rintro ⟨q, hq, h⟩; rw [hq]; exact h

/-- The state-explicit `store_prefix` of v4-coop agrees with `store_prefix`:
same value or fault, the table of a call that returns, and the table as it
was where the call does not return. -/
theorem V4coop.store_prefix_run_eq (cfg : V4coop.config) (t : forwarding_table)
    (pfx : Option ipv4_prefix) :
    V4coop.store_prefix_run cfg t pfx
      = run_of (V4coop.store_prefix cfg t pfx) t "store_prefix: Invalid prefix!\n" := by
  cases pfx with
  | none => rfl
  | some p =>
    unfold V4coop.store_prefix_run V4coop.store_prefix run_of
    by_cases hv : is_prefix_valid (some p) = true
    · simp only [hv, Bool.not_true, Bool.false_eq_true, if_false]
      by_cases h0 : p.netmask = 0
      · simp only [h0, if_true]
      · by_cases h20 : p.netmask = 20
        · simp only [h0, h20, if_true, if_false]
          rfl
        · simp only [h0, h20, if_false]
          cases hb : t.counting_bloom_filters (bloom_filter_id p) with
          | none => rfl
          | some bf =>
            cases hh : t.hash_tables (bloom_filter_id p) with
            | none => rfl
            | some ht => rfl
    · have hv' : is_prefix_valid (some p) = false := by simpa using hv
      simp only [hv', Bool.not_false, if_true]

theorem Baseline.bl_store_prefix_run_eq (rand_r : Nat → Nat) (strpfx : Option ipv4_prefix → String)
    (t : forwarding_table) (pfx : Option ipv4_prefix) :
    Baseline.store_prefix_run rand_r strpfx t pfx
      = run_of (Baseline.store_prefix rand_r t pfx) t
          ("bloomfwd.store_prefix: Invalid prefix: " ++ strpfx pfx ++ ".\n") := by
  cases pfx with
  | none => rfl
  | some p =>
    unfold Baseline.store_prefix_run Baseline.store_prefix run_of
    by_cases hv : is_prefix_valid (some p) = true
    · simp only [hv, Bool.not_true, Bool.false_eq_true, if_false]
      by_cases h0 : p.netmask = 0
      · simp only [h0, if_true]
      · by_cases h20 : p.netmask = 20
        · simp only [h0, h20, if_true, if_false]
          rfl
        · simp only [h0, h20, if_false]
          cases hb : t.counting_bloom_filters (bloom_filter_id p) with
          | none => rfl
          | some bf =>
            cases hh : t.hash_tables (bloom_filter_id p) with
            | none => rfl
            | some ht => rfl
    · have hv' : is_prefix_valid (some p) = false := by simpa using hv
      simp only [hv', Bool.not_false, if_true]

theorem V6.store_prefix_run6_eq (strpfx : Option V6.ipv6_prefix → String)
    (t : V6.forwarding_table) (pfx : Option V6.ipv6_prefix) :
    V6.store_prefix_run strpfx t pfx
      = run_of (V6.store_prefix t pfx) t
          ("bloomfwd.store_prefix: Invalid prefix: " ++ strpfx pfx ++ ".\n") := by
  cases pfx with
  | none => rfl
  | some p =>
    unfold V6.store_prefix_run V6.store_prefix run_of
    by_cases hv : V6.is_prefix_valid (some p) = true
    · simp only [hv, Bool.not_true, Bool.false_eq_true, if_false]
      by_cases h0 : p.len = 0
      · simp only [h0, if_true]
      · simp only [h0, if_false]
        cases hb : t.counting_bloom_filters (V6.bloom_filter_id p) with
        | none => rfl
        | some bf =>
          cases hh : t.hash_tables (V6.bloom_filter_id p) with
          | none => rfl
          | some ht => rfl
    · have hv' : V6.is_prefix_valid (some p) = false := by simpa using hv
      simp only [hv', Bool.not_false, if_true]

/-- The ways `gen_store` ends without the invalid-prefix diagnostic on a valid
prefix. -/
theorem gen_store_valid_ne (H : Nat → Nat) (idxs : Nat → Nat → Nat → Nat)
    (t : forwarding_table) (p : ipv4_prefix) (h32 : p.netmask ≤ 32) :
    gen_store H idxs t (some p) ≠ .error fault.invalid_prefix := by
  intro h
  by_cases h0 : p.netmask = 0
  · rw [gen_store_default H idxs t p h0] at h
    cases h
  · by_cases h20 : p.netmask = 20
    · rw [gen_store_dla H idxs t p h20] at h
      cases h
    · cases hb : t.counting_bloom_filters (bloom_filter_id p) with
      | none =>
        rw [gen_store_class_fault H idxs t p h0 h20 h32 (Or.inl hb)] at h
        cases h
      | some bf =>
        cases hh : t.hash_tables (bloom_filter_id p) with
        | none =>
          rw [gen_store_class_fault H idxs t p h0 h20 h32 (Or.inr hh)] at h
          cases h
        | some ht =>
          rw [gen_store_class H idxs t p h0 h20 h32 bf ht hb hh] at h
          cases h

theorem gen_store_invalid_iff (H : Nat → Nat) (idxs : Nat → Nat → Nat → Nat)
    (t : forwarding_table) (pfx : Option ipv4_prefix) :
    gen_store H idxs t pfx = .error fault.invalid_prefix
      ↔ (pfx = none ∨ ∃ p, pfx = some p ∧ 32 < p.netmask) := by
  constructor
  · intro h
    cases pfx with
    | none => exact Or.inl rfl
    | some p =>
      refine Or.inr ⟨p, rfl, ?_⟩
      by_contra hn
      exact gen_store_valid_ne H idxs t p (by omega) h
  · intro h
    have hv := (is_prefix_valid_false_iff pfx).2 h
    cases pfx with
    | none => rfl
    | some p =>
      unfold gen_store
      simp only [hv, Bool.not_false, if_true]

theorem V6.store_prefix_invalid_iff6 (t : V6.forwarding_table) (pfx : Option V6.ipv6_prefix) :
    V6.store_prefix t pfx = .error fault.invalid_prefix
      ↔ (pfx = none ∨ ∃ p, pfx = some p ∧ 64 < p.len) := by
  constructor
  · intro h
    cases pfx with
    | none => exact Or.inl rfl
    | some p =>
      refine Or.inr ⟨p, rfl, ?_⟩
      by_contra hn
      have hv : V6.is_prefix_valid (some p) = true := by
        unfold V6.is_prefix_valid
        simp only [Nat.zero_le, decide_True, Bool.true_and, decide_eq_true_eq]
        omega
      unfold V6.store_prefix at h
      simp only [hv, Bool.not_true, Bool.false_eq_true, if_false] at h
      by_cases h0 : p.len = 0
      · simp only [h0, if_true] at h
        cases h
      · simp only [h0, if_false] at h
        cases hb : t.counting_bloom_filters (V6.bloom_filter_id p) with
        | none =>
          rw [hb] at h
          cases h
        | some bf =>
          cases hh : t.hash_tables (V6.bloom_filter_id p) with
          | none =>
            rw [hb, hh] at h
            cases h
          | some ht =>
            rw [hb, hh] at h
            cases h
  · intro h
    have hv := (V6.is_prefix_valid6_false_iff pfx).2 h
    cases pfx with
    | none => rfl
    | some p =>
      unfold V6.store_prefix
      simp only [hv, Bool.not_false, if_true]

/-- Reading off a state-explicit run from the result of the call: the
invalid-prefix fault, the table untouched and the diagnostic go together. -/
theorem run_of_result {τ : Type} (res : Except fault (Bool × τ)) (t : τ) (d : String)
    (run : Except fault Bool × τ × List String)
    (hrun : run = run_of res t d) :
    (run.1 = .error fault.invalid_prefix ↔ res = .error fault.invalid_prefix)
    ∧ (res = .error fault.invalid_prefix → run = (.error fault.invalid_prefix, t, [d]))
    ∧ (run.2.2 ≠ [] ↔ res = .error fault.invalid_prefix) := by
  subst hrun
  cases res with
  | ok r => simp [run_of]
  | error e => cases e <;> simp [run_of]

/-- C23: invalid-prefix rejection.  In v4-coop (under every hash
configuration), in the baseline and in v6, from any table: `store_prefix`
ends with the invalid-prefix fault exactly when the prefix is absent or its
length exceeds the address width (32 for IPv4, 64 for IPv6); it writes a
diagnostic exactly then; and in that case the call ends with the table as it
was, having written the invalid-prefix diagnostic and nothing else. -/
theorem store_prefix_rejects_invalid :
    (∀ (cfg : V4coop.config) (t : forwarding_table) (pfx : Option ipv4_prefix),
        ((V4coop.store_prefix_run cfg t pfx).1 = .error fault.invalid_prefix
          ↔ (pfx = none ∨ ∃ p, pfx = some p ∧ 32 < p.netmask))
        ∧ ((V4coop.store_prefix_run cfg t pfx).2.2 ≠ []
          ↔ (pfx = none ∨ ∃ p, pfx = some p ∧ 32 < p.netmask))
        ∧ ((pfx = none ∨ ∃ p, pfx = some p ∧ 32 < p.netmask) →
            V4coop.store_prefix_run cfg t pfx
              = (.error fault.invalid_prefix, t, ["store_prefix: Invalid prefix!\n"])))
    ∧ (∀ (rand_r : Nat → Nat) (strpfx : Option ipv4_prefix → String) (t : forwarding_table)
        (pfx : Option ipv4_prefix),
        ((Baseline.store_prefix_run rand_r strpfx t pfx).1 = .error fault.invalid_prefix
          ↔ (pfx = none ∨ ∃ p, pfx = some p ∧ 32 < p.netmask))
        ∧ ((Baseline.store_prefix_run rand_r strpfx t pfx).2.2 ≠ []
          ↔ (pfx = none ∨ ∃ p, pfx = some p ∧ 32 < p.netmask))
        ∧ ((pfx = none ∨ ∃ p, pfx = some p ∧ 32 < p.netmask) →
            Baseline.store_prefix_run rand_r strpfx t pfx
              = (.error fault.invalid_prefix, t,
                  ["bloomfwd.store_prefix: Invalid prefix: " ++ strpfx pfx ++ ".\n"])))
    ∧ (∀ (strpfx : Option V6.ipv6_prefix → String) (t : V6.forwarding_table)
        (pfx : Option V6.ipv6_prefix),
        ((V6.store_prefix_run strpfx t pfx).1 = .error fault.invalid_prefix
          ↔ (pfx = none ∨ ∃ p, pfx = some p ∧ 64 < p.len))
        ∧ ((V6.store_prefix_run strpfx t pfx).2.2 ≠ []
          ↔ (pfx = none ∨ ∃ p, pfx = some p ∧ 64 < p.len))
        ∧ ((pfx = none ∨ ∃ p, pfx = some p ∧ 64 < p.len) →
            V6.store_prefix_run strpfx t pfx
              = (.error fault.invalid_prefix, t,
                  ["bloomfwd.store_prefix: Invalid prefix: " ++ strpfx pfx ++ ".\n"]))) := by
  refine ⟨?_, ?_, ?_⟩
  · intro cfg t pfx
    obtain ⟨h1, h2, h3⟩ := run_of_result (V4coop.store_prefix cfg t pfx) t
      "store_prefix: Invalid prefix!\n" _
      (V4coop.store_prefix_run_eq cfg t pfx)
    have hi := gen_store_invalid_iff (V4coop.HASHTBL_HASH_FUNCTION cfg)
      (fun key n =>
        hashes (V4coop.BLOOM_HASH_FUNCTION cfg) (V4coop.BLOOM_HASH_FUNCTION cfg) key n
          (fun _ => 0)) t pfx
    rw [← V4coop.store_prefix_eq_gen] at hi
    exact ⟨h1.trans hi, h3.trans hi, fun h => h2 (hi.2 h)⟩
  · intro rand_r strpfx t pfx
    obtain ⟨h1, h2, h3⟩ := run_of_result (Baseline.store_prefix rand_r t pfx) t
      ("bloomfwd.store_prefix: Invalid prefix: " ++ strpfx pfx ++ ".\n") _
      (Baseline.bl_store_prefix_run_eq rand_r strpfx t pfx)
    have hi := gen_store_invalid_iff rand_r
      (fun key n => Baseline.hashes rand_r key n (fun _ => 0)) t pfx
    rw [← Baseline.bl_store_prefix_eq_gen] at hi
    exact ⟨h1.trans hi, h3.trans hi, fun h => h2 (hi.2 h)⟩
  · intro strpfx t pfx
    obtain ⟨h1, h2, h3⟩ := run_of_result (V6.store_prefix t pfx) t
      ("bloomfwd.store_prefix: Invalid prefix: " ++ strpfx pfx ++ ".\n") _
      (V6.store_prefix_run6_eq strpfx t pfx)
    have hi := V6.store_prefix_invalid_iff6 t pfx
    exact ⟨h1.trans hi, h3.trans hi, fun h => h2 (hi.2 h)⟩

/-- C23 at concrete calls: on the table `demo_table`, the v4-coop store of an
absent prefix and the baseline store of a record of length 33 end with the
invalid-prefix fault, the table as it was and the diagnostic. -/
theorem store_prefix_rejects_invalid_witness :
    V4coop.store_prefix_run demo_cfg demo_table none
        = (.error fault.invalid_prefix, demo_table, ["store_prefix: Invalid prefix!\n"])
    ∧ Baseline.store_prefix_run demo_rand_r demo_strpfx demo_table_baseline (some demo_slash33)
        = (.error fault.invalid_prefix, demo_table_baseline,
            ["bloomfwd.store_prefix: Invalid prefix: " ++ demo_strpfx (some demo_slash33)
              ++ ".\n"]) :=
  ⟨(store_prefix_rejects_invalid.1 demo_cfg demo_table none).2.2 (Or.inl rfl),
   (store_prefix_rejects_invalid.2.1 demo_rand_r demo_strpfx demo_table_baseline
      (some demo_slash33)).2.2 (Or.inr ⟨demo_slash33, rfl, by decide⟩)⟩

set_option maxRecDepth 100000 in
/-- C24 on the code: a valid prefix whose class the distribution file did not
allocate.  In v4-coop, with the distribution file `32 4`, the store of
`192.168.1.0/24` selects class 1, whose filter is absent, and reads
`bf->bitmap` through it; in v6, with the distribution file `64 4`, the store
of `2001:db8::/32` selects class 32, whose filter is `NULL`, and reads
through it.  Neither call ends with a diagnostic. -/
theorem store_prefix_missing_class :
    demo_table_only32.counting_bloom_filters (bloom_filter_id demo_slash24) = none
    ∧ V4coop.store_prefix_run demo_cfg demo_table_only32 (some demo_slash24)
        = (.error fault.null_deref, demo_table_only32, [])
    ∧ V6.new_forwarding_table demo_sizing [(64, 4)] 0 (fun _ => 0) = .ok demo_table6_only64
    ∧ demo_table6_only64.counting_bloom_filters (V6.bloom_filter_id demo_slash32_6) = none
    ∧ ∀ strpfx, V6.store_prefix_run strpfx demo_table6_only64 (some demo_slash32_6)
        = (.error fault.null_deref, demo_table6_only64, []) :=
  ⟨rfl, rfl, rfl, rfl, fun _ => rfl⟩

/-- Setting the flag of a class not yet flagged adds one to the number of
flagged classes of a duplicate-free list that contains the class. -/
theorem filter_update_length (l : List Nat) (f : Nat → Bool) (b : Nat) (hnd : l.Nodup)
    (hf : f b = false) :
    (l.filter (fun i => Function.update f b true i)).length
      = (l.filter (fun i => f i)).length + (if b ∈ l then 1 else 0) := by
  induction l with
  | nil => rfl
  | cons x l ih =>
    obtain ⟨hx, hl⟩ := List.nodup_cons.mp hnd
    have ih := ih hl
    by_cases hxb : x = b
    · subst hxb
      have hb : ¬ x ∈ l := hx
      rw [if_neg hb] at ih
      rw [List.filter_cons, List.filter_cons]
      simp only [Function.update_same, if_true, hf, Bool.false_eq_true, if_false,
        List.length_cons, List.mem_cons, true_or]
      omega
    · have hu : Function.update f b true x = f x := Function.update_noteq hxb _ _
      have hm : (b ∈ x :: l) ↔ b ∈ l := by
        simp only [List.mem_cons]
        constructor
        · rintro (h | h)
          · exact absurd h.symm hxb
          · exact h
        · exact Or.inr
      rw [List.filter_cons, List.filter_cons, hu]
      by_cases hfx : f x = true
      · simp only [hfx, if_true, List.length_cons, ih, hm]
        omega
      · simp only [hfx, Bool.false_eq_true, if_false, ih, hm]

/-- The record loop of `init_counting_bloom_filters_array` on records whose
lengths are in `[1, 64]` and pairwise distinct among the records with a
positive quantity, none of them flagged yet: the loop returns, the counter
stays the number of flagged classes, the flagged classes are the old ones and
those of the records, and each class of a record has a filter. -/
theorem init_cbf_records_spec (sizing : Nat → Nat × Nat) (dist : List (Nat × Nat)) :
    ∀ (s : (Nat → Bool) × Nat × (Nat → Option counting_bloom_filter)),
    (∀ r ∈ dist, 1 ≤ r.1 ∧ r.1 ≤ 64) →
    ((dist.filter (fun r => decide (0 < r.2))).map Prod.fst).Nodup →
    (∀ r ∈ dist, 0 < r.2 → s.1 (64 - r.1) = false) →
    s.2.1 = ((List.range 64).filter (fun i => s.1 i)).length →
    ∃ s', dist.foldlM (V6.init_cbf_record sizing) s = .ok s'
      ∧ s'.2.1 = ((List.range 64).filter (fun i => s'.1 i)).length
      ∧ (∀ i, s'.1 i = true ↔ (s.1 i = true ∨ ∃ r ∈ dist, 0 < r.2 ∧ i = 64 - r.1))
      ∧ (∀ i, (s.2.2 i).isSome = true → (s'.2.2 i).isSome = true)
      ∧ (∀ i, (∃ r ∈ dist, 0 < r.2 ∧ i = 64 - r.1) → (s'.2.2 i).isSome = true) := by
  induction dist with
  | nil =>
    intro s _ _ _ hc
    refine ⟨s, rfl, hc, ?_, fun _ h => h, ?_⟩
    · intro i
      simp
    · rintro i ⟨r, hr, _⟩
      cases hr
  | cons r rest ih =>
    intro s hL hnd hfl hc
    have hLr := hL r (List.mem_cons_self _ _)
    have hLrest : ∀ r' ∈ rest, 1 ≤ r'.1 ∧ r'.1 ≤ 64 :=
      fun r' h => hL r' (List.mem_cons_of_mem _ h)
    rw [List.foldlM_cons]
    by_cases hq : 0 < r.2
    · have hnr : ¬ (r.1 = 0 ∨ 64 < r.1) := by omega
      have hstep : V6.init_cbf_record sizing s r
          = .ok (Function.update s.1 (64 - r.1) true, (s.2.1 + 1) % 256,
              Function.update s.2.2 (64 - r.1)
                (some (new_counting_bloom_filter r.2 (sizing r.2).1 (sizing r.2).2))) := by
        unfold V6.init_cbf_record
        simp only [gt_iff_lt, hq, if_true, hnr, if_false]
      rw [hstep]
      simp only [bind, Except.bind]
      have hfr : (List.filter (fun r => decide (0 < r.2)) (r :: rest))
          = r :: List.filter (fun r => decide (0 < r.2)) rest := by
        rw [List.filter_cons]
        simp only [hq, decide_True, if_true]
      rw [hfr, List.map_cons] at hnd
      obtain ⟨hnotin, hnd'⟩ := List.nodup_cons.mp hnd
      have hne : ∀ r' ∈ rest, 0 < r'.2 → r'.1 ≠ r.1 := by
        intro r' hr' hq' he
        apply hnotin
        rw [← he]
        exact List.mem_map.mpr ⟨r', List.mem_filter.mpr ⟨hr', by simp [hq']⟩, rfl⟩
      have hb : s.1 (64 - r.1) = false := hfl r (List.mem_cons_self _ _) hq
      have hmem : (64 - r.1) ∈ List.range 64 := List.mem_range.mpr (by omega)
      have hcnt := filter_update_length (List.range 64) s.1 (64 - r.1) (List.nodup_range 64) hb
      rw [if_pos hmem] at hcnt
      have hle : ((List.range 64).filter
          (fun i => Function.update s.1 (64 - r.1) true i)).length ≤ 64 := by
        have := List.length_filter_le (fun i => Function.update s.1 (64 - r.1) true i)
          (List.range 64)
        rw [List.length_range] at this
        exact this
      obtain ⟨s', h1, h2, h3, h4, h5⟩ := ih
        (Function.update s.1 (64 - r.1) true, (s.2.1 + 1) % 256,
          Function.update s.2.2 (64 - r.1)
            (some (new_counting_bloom_filter r.2 (sizing r.2).1 (sizing r.2).2)))
        hLrest hnd'
        (by
          intro r' hr' hq'
          have h1 := hLrest r' hr'
          have h2 := hne r' hr' hq'
          have h3 : 64 - r'.1 ≠ 64 - r.1 := by omega
          dsimp only
          rw [Function.update_noteq h3]
          exact hfl r' (List.mem_cons_of_mem _ hr') hq')
        (by
          dsimp only
          rw [hcnt, hc]
          rw [hcnt] at hle
          omega)
      refine ⟨s', h1, h2, ?_, ?_, ?_⟩
      · intro i
        rw [h3 i]
        dsimp only
        constructor
        · rintro (h | ⟨r', hr', hq', hi⟩)
          · by_cases hi : i = 64 - r.1
            · exact Or.inr ⟨r, List.mem_cons_self _ _, hq, hi⟩
            · rw [Function.update_noteq hi] at h
              exact Or.inl h
          · exact Or.inr ⟨r', List.mem_cons_of_mem _ hr', hq', hi⟩
        · rintro (h | ⟨r', hr', hq', hi⟩)
          · by_cases hi : i = 64 - r.1
            · left; rw [hi, Function.update_same]
            · left; rw [Function.update_noteq hi]; exact h
          · rcases List.mem_cons.mp hr' with he | hr''
            · left; rw [hi, he, Function.update_same]
            · exact Or.inr ⟨r', hr'', hq', hi⟩
      · intro i hi
        apply h4
        dsimp only
        by_cases hib : i = 64 - r.1
        · rw [hib, Function.update_same]; rfl
        · rw [Function.update_noteq hib]; exact hi
      · rintro i ⟨r', hr', hq', hi⟩
        rcases List.mem_cons.mp hr' with he | hr''
        · apply h4
          dsimp only
          rw [hi, he, Function.update_same]
          rfl
        · exact h5 i ⟨r', hr'', hq', hi⟩
    · have hstep : V6.init_cbf_record sizing s r = .ok s := by
        unfold V6.init_cbf_record
        simp only [gt_iff_lt, hq, if_false]
      rw [hstep]
      simp only [bind, Except.bind]
      have hfr : (List.filter (fun r => decide (0 < r.2)) (r :: rest))
          = List.filter (fun r => decide (0 < r.2)) rest := by
        rw [List.filter_cons]
        simp only [hq, decide_False, Bool.false_eq_true, if_false]
      rw [hfr] at hnd
      obtain ⟨s', h1, h2, h3, h4, h5⟩ := ih s hLrest hnd
        (fun r' hr' hq' => hfl r' (List.mem_cons_of_mem _ hr') hq') hc
      refine ⟨s', h1, h2, ?_, h4, ?_⟩
      · intro i
        rw [h3 i]
        constructor
        · rintro (h | ⟨r', hr', hq', hi⟩)
          · exact Or.inl h
          · exact Or.inr ⟨r', List.mem_cons_of_mem _ hr', hq', hi⟩
        · rintro (h | ⟨r', hr', hq', hi⟩)
          · exact Or.inl h
          · rcases List.mem_cons.mp hr' with he | hr''
            · rw [he] at hq'; exact absurd hq' hq
            · exact Or.inr ⟨r', hr'', hq', hi⟩
      · rintro i ⟨r', hr', hq', hi⟩
        rcases List.mem_cons.mp hr' with he | hr''
        · rw [he] at hq'; exact absurd hq' hq
        · exact h5 i ⟨r', hr'', hq', hi⟩

/-- The loop that fills `bf_ids`, over any list of classes, from position `j`
with room for the flagged classes of the list: it returns, writes the flagged
classes of the list in their order from position `j` on, leaves the cells
below `j`, and clears the filter slot of each class of the list that is not
flagged. -/
theorem init_bf_ids_spec (hpl : Nat → Bool) (dl : Nat) (l : List Nat) :
    ∀ (arr : Nat → Option counting_bloom_filter) (ids : Nat → Nat) (j : Nat),
    j + (l.filter (fun i => hpl i)).length ≤ dl →
    ∃ arr' ids', l.foldlM (V6.init_bf_ids_step hpl dl) (arr, ids, j)
        = .ok (arr', ids', j + (l.filter (fun i => hpl i)).length)
      ∧ (∀ k, k < j → ids' k = ids k)
      ∧ (∀ k, k < (l.filter (fun i => hpl i)).length →
          (l.filter (fun i => hpl i))[k]? = some (ids' (j + k)))
      ∧ (∀ i, arr' i = if i ∈ l ∧ hpl i = false then none else arr i) := by
  induction l with
  | nil =>
    intro arr ids j _
    refine ⟨arr, ids, rfl, fun _ _ => rfl, ?_, ?_⟩
    · intro k hk
      simp at hk
    · intro i
      simp
  | cons x l ih =>
    intro arr ids j hj
    rw [List.foldlM_cons]
    by_cases hx : hpl x = true
    · have hf : (List.filter (fun i => hpl i) (x :: l)) = x :: List.filter (fun i => hpl i) l := by
        rw [List.filter_cons]
        simp only [hx, if_true]
      rw [hf] at hj ⊢
      rw [List.length_cons] at hj ⊢
      have hjd : j < dl := by omega
      have hstep : V6.init_bf_ids_step hpl dl (arr, ids, j) x
          = .ok (arr, Function.update ids j x, j + 1) := by
        unfold V6.init_bf_ids_step
        simp only [hx, Bool.not_true, Bool.false_eq_true, if_false, hjd, if_true]
      rw [hstep]
      simp only [bind, Except.bind]
      obtain ⟨arr', ids', h1, h2, h3, h4⟩ := ih arr (Function.update ids j x) (j + 1)
        (by omega)
      refine ⟨arr', ids', ?_, ?_, ?_, ?_⟩
      · rw [h1]
        have : j + 1 + (List.filter (fun i => hpl i) l).length
            = j + ((List.filter (fun i => hpl i) l).length + 1) := by omega
        rw [this]
      · intro k hk
        rw [h2 k (by omega), Function.update_noteq (by omega)]
      · intro k hk
        cases k with
        | zero =>
          rw [List.getElem?_cons_zero, Nat.add_zero, h2 j (by omega), Function.update_same]
        | succ k =>
          rw [List.getElem?_cons_succ, h3 k (by omega)]
          have : j + 1 + k = j + (k + 1) := by omega
          rw [this]
      · intro i
        rw [h4 i]
        by_cases hi : i = x
        · subst hi
          simp [hx]
        · simp [hi]
    · have hx' : hpl x = false := by simpa using hx
      have hf : (List.filter (fun i => hpl i) (x :: l)) = List.filter (fun i => hpl i) l := by
        rw [List.filter_cons]
        simp only [hx', Bool.false_eq_true, if_false]
      rw [hf] at hj ⊢
      have hstep : V6.init_bf_ids_step hpl dl (arr, ids, j) x
          = .ok (Function.update arr x none, ids, j) := by
        unfold V6.init_bf_ids_step
        simp only [hx', Bool.not_false, if_true]
      rw [hstep]
      simp only [bind, Except.bind]
      obtain ⟨arr', ids', h1, h2, h3, h4⟩ := ih (Function.update arr x none) ids j hj
      refine ⟨arr', ids', h1, h2, h3, ?_⟩
      intro i
      rw [h4 i]
      by_cases hi : i = x
      · subst hi
        simp [hx']
      · simp [hi, Function.update_noteq hi]

/-- What `init_counting_bloom_filters_array` returns, entered with
`distinct_lengths` at 0, on records whose lengths are in `[1, 64]` and
pairwise distinct among the records with a positive quantity. -/
theorem init_counting_bloom_filters_array_spec (sizing : Nat → Nat × Nat)
    (dist : List (Nat × Nat)) (ids0 : Nat → Nat) (arr0 : Nat → Option counting_bloom_filter)
    (hL : ∀ r ∈ dist, 1 ≤ r.1 ∧ r.1 ≤ 64)
    (hnd : ((dist.filter (fun r => decide (0 < r.2))).map Prod.fst).Nodup) :
    ∃ hpl dl ids arr,
      V6.init_counting_bloom_filters_array sizing dist 0 ids0 arr0 = .ok (hpl, dl, ids, arr)
      ∧ (∀ i, hpl i = true ↔ ∃ r ∈ dist, 0 < r.2 ∧ i = 64 - r.1)
      ∧ (List.range dl).map ids = (List.range 64).filter (fun i => hpl i)
      ∧ (∀ i, i < 64 → ((arr i).isSome = true ↔ hpl i = true)) := by
  obtain ⟨s1, h1, hc, hflag, _, hsome⟩ := init_cbf_records_spec sizing dist
    ((fun _ => false), 0, arr0) hL hnd (fun _ _ _ => rfl)
    (by
      dsimp only
      rw [List.filter_eq_nil_iff.mpr (fun _ _ => by simp)]
      rfl)
  obtain ⟨hpl, dl, arr1⟩ := s1
  dsimp only at hc hflag hsome
  obtain ⟨arr, ids, h2, _, hids, harr⟩ := init_bf_ids_spec hpl dl (List.range 64) arr1 ids0 0
    (by rw [Nat.zero_add, hc])
  refine ⟨hpl, dl, ids, arr, ?_, ?_, ?_, ?_⟩
  · unfold V6.init_counting_bloom_filters_array
    simp only [bind, Except.bind, h1, h2, pure, Except.pure]
  · intro i
    rw [hflag i]
    simp
  · apply List.ext_getElem?
    intro k
    by_cases hk : k < dl
    · rw [hc] at hk
      rw [hids k hk, Nat.zero_add, List.getElem?_map, List.getElem?_range (hc ▸ hk)]
      rfl
    · rw [List.getElem?_eq_none (by rw [List.length_map, List.length_range]; omega),
        List.getElem?_eq_none (by rw [← hc]; omega)]
  · intro i hi
    rw [harr i]
    by_cases hp : hpl i = true
    · have hne : ¬ (i ∈ List.range 64 ∧ hpl i = false) := by
        rw [hp]
        simp
      rw [if_neg hne]
      simp only [hp, iff_true]
      exact hsome i ((hflag i).mp hp |>.resolve_left (by simp))
    · have hp' : hpl i = false := by simpa using hp
      have hin : i ∈ List.range 64 ∧ hpl i = false := ⟨List.mem_range.mpr hi, hp'⟩
      rw [if_pos hin]
      simp [hp']

/-- C30 (amended): the `bf_ids` invariant of IPv6.  Take any sequence of
distribution records `(L, Q)` with `L` in `[1, 64]` in which no two records
with `Q > 0` have the same `L`, and enter with `distinct_lengths` at 0.  Then
`init_counting_bloom_filters_array` returns, and so does
`new_forwarding_table`; the flagged classes are the classes `64 - L` of the
records with `Q > 0`; the first `distinct_lengths` cells of `bf_ids` are
exactly the flagged classes in ascending order; `distinct_lengths` is their
number; and a class below 64 has a filter exactly when it is flagged. -/
theorem bf_ids_invariant (sizing : Nat → Nat × Nat) (dist : List (Nat × Nat))
    (ids0 : Nat → Nat)
    (hL : ∀ r ∈ dist, 1 ≤ r.1 ∧ r.1 ≤ 64)
    (hnd : ((dist.filter (fun r => decide (0 < r.2))).map Prod.fst).Nodup) :
    (∀ arr0, ∃ hpl dl ids arr,
      V6.init_counting_bloom_filters_array sizing dist 0 ids0 arr0 = .ok (hpl, dl, ids, arr)
      ∧ (∀ i, hpl i = true ↔ ∃ r ∈ dist, 0 < r.2 ∧ i = 64 - r.1)
      ∧ (List.range dl).map ids = (List.range 64).filter (fun i => hpl i)
      ∧ ((List.range dl).map ids).Pairwise (fun a b => a < b)
      ∧ dl = ((List.range 64).filter (fun i => hpl i)).length
      ∧ (∀ i, i < 64 → ((arr i).isSome = true ↔ hpl i = true)))
    ∧ ∃ t, V6.new_forwarding_table sizing dist 0 ids0 = .ok t
      ∧ (∀ i, t.has_prefix_length i = true ↔ ∃ r ∈ dist, 0 < r.2 ∧ i = 64 - r.1)
      ∧ (List.range t.distinct_lengths).map t.bf_ids
          = (List.range 64).filter (fun i => t.has_prefix_length i)
      ∧ ((List.range t.distinct_lengths).map t.bf_ids).Pairwise (fun a b => a < b)
      ∧ t.distinct_lengths = ((List.range 64).filter (fun i => t.has_prefix_length i)).length
      ∧ (∀ i, i < 64 →
          ((t.counting_bloom_filters i).isSome = true ↔ t.has_prefix_length i = true)) := by
  have hsorted : ∀ (f : Nat → Bool),
      ((List.range 64).filter (fun i => f i)).Pairwise (fun a b => a < b) :=
    fun f => (List.pairwise_lt_range 64).filter _
  have hlen : ∀ (dl : Nat) (ids : Nat → Nat) (f : Nat → Bool),
      (List.range dl).map ids = (List.range 64).filter (fun i => f i) →
      dl = ((List.range 64).filter (fun i => f i)).length := by
    intro dl ids f h
    rw [← h, List.length_map, List.length_range]
  constructor
  · intro arr0
    obtain ⟨hpl, dl, ids, arr, h1, h2, h3, h4⟩ :=
      init_counting_bloom_filters_array_spec sizing dist ids0 arr0 hL hnd
    exact ⟨hpl, dl, ids, arr, h1, h2, h3, h3 ▸ hsorted hpl, hlen dl ids hpl h3, h4⟩
  · obtain ⟨hpl, dl, ids, arr, h1, h2, h3, h4⟩ :=
      init_counting_bloom_filters_array_spec sizing dist ids0 (fun _ => none) hL hnd
    obtain ⟨f1, f2, _, f4, f5, _⟩ := V6.init_hash_tables_fold (List.range 64)
      { default_route := none
        counting_bloom_filters := arr
        hash_tables := fun _ => none
        has_prefix_length := hpl
        distinct_lengths := dl
        bf_ids := ids }
    refine ⟨V6.init_hash_tables_array
      { default_route := none
        counting_bloom_filters := arr
        hash_tables := fun _ => none
        has_prefix_length := hpl
        distinct_lengths := dl
        bf_ids := ids }, ?_, ?_, ?_, ?_, ?_, ?_⟩
    · unfold V6.new_forwarding_table
      simp only [bind, Except.bind, h1, pure, Except.pure]
    · unfold V6.init_hash_tables_array
      rw [f2]
      exact h2
    · unfold V6.init_hash_tables_array
      rw [f2, f4, f5]
      exact h3
    · unfold V6.init_hash_tables_array
      rw [f4, f5]
      exact h3 ▸ hsorted hpl
    · unfold V6.init_hash_tables_array
      rw [f2, f4]
      exact hlen dl ids hpl h3
    · unfold V6.init_hash_tables_array
      rw [f1, f2]
      exact h4

set_option maxRecDepth 100000 in
/-- C30 at the distribution file `64 4`, `48 4`, `32 4`: the table
`new_forwarding_table` returns lists its three classes. -/
theorem bf_ids_invariant_witness :
    (∀ r ∈ demo_dist6, 1 ≤ r.1 ∧ r.1 ≤ 64)
    ∧ ((demo_dist6.filter (fun r => decide (0 < r.2))).map Prod.fst).Nodup
    ∧ ∃ t, V6.new_forwarding_table demo_sizing demo_dist6 0 (fun _ => 0) = .ok t
      ∧ (List.range t.distinct_lengths).map t.bf_ids
          = (List.range 64).filter (fun i => t.has_prefix_length i)
      ∧ t.distinct_lengths = ((List.range 64).filter (fun i => t.has_prefix_length i)).length := by
  refine ⟨by decide, by decide, ?_⟩
  obtain ⟨t, h1, _, h3, _, h5, _⟩ :=
    (bf_ids_invariant demo_sizing demo_dist6 (fun _ => 0) (by decide) (by decide)).2
  exact ⟨t, h1, h3, h5⟩

set_option maxRecDepth 100000 in
/-- The claim of C30 as stated fails.  On the records `64 4`, `64 4`, entered
with `distinct_lengths` at 0, the call returns `distinct_lengths = 2` with one
flagged class, class 0; and on the single record `64 4`, entered with
`distinct_lengths` at 1, it returns 2 again with the one class. -/
theorem bf_ids_invariant_counterexample :
    (V6.init_counting_bloom_filters_array demo_sizing [(64, 4), (64, 4)] 0 (fun _ => 0)
        (fun _ => none)).map
        (fun s => (s.2.1, (List.range 64).filter (fun i => s.1 i))) = .ok (2, [0])
    ∧ (V6.init_counting_bloom_filters_array demo_sizing [(64, 4)] 1 (fun _ => 0)
        (fun _ => none)).map
        (fun s => (s.2.1, (List.range 64).filter (fun i => s.1 i))) = .ok (2, [0]) :=
  ⟨by decide, by decide⟩

theorem probe_loop_reads_spec (bitmap : Nat → Bool) (len n h1 h2 : Nat) (fuel : Nat) :
    ∀ (j : Nat) (maybe : Bool),
    (∀ k, k < (probe_loop_reads bitmap len n h1 h2 fuel j maybe).length →
      (probe_loop_reads bitmap len n h1 h2 fuel j maybe)[k]?
        = some (((h1 + (j + k) * h2) % U32) % len))
    ∧ (∀ k, k + 1 < (probe_loop_reads bitmap len n h1 h2 fuel j maybe).length →
        bitmap (((h1 + (j + k) * h2) % U32) % len) = true)
    ∧ (0 < (probe_loop_reads bitmap len n h1 h2 fuel j maybe).length → maybe = true)
    ∧ j + (probe_loop_reads bitmap len n h1 h2 fuel j maybe).length ≤ max j n := by
  induction fuel with
  | zero =>
    intro j maybe
    unfold probe_loop_reads
    refine ⟨fun k hk => by simp at hk, fun k hk => by simp at hk, fun h => by simp at h, ?_⟩
    simp
  | succ fuel ih =>
    intro j maybe
    unfold probe_loop_reads
    by_cases hc : (maybe && decide (j < n)) = true
    · rw [if_pos hc]
      simp only [Bool.and_eq_true, decide_eq_true_eq] at hc
      obtain ⟨h1', h2', h3', h4'⟩ := ih (j + 1) (bitmap (((h1 + j * h2) % U32) % len))
      dsimp only
      refine ⟨?_, ?_, fun _ => hc.1, ?_⟩
      · intro k hk
        cases k with
        | zero => rw [List.getElem?_cons_zero, Nat.add_zero]
        | succ k =>
          rw [List.getElem?_cons_succ, h1' k (by simpa using hk)]
          have : j + 1 + k = j + (k + 1) := by omega
          rw [this]
      · intro k hk
        cases k with
        | zero =>
          rw [Nat.add_zero]
          exact h3' (by simpa using hk)
        | succ k =>
          have := h2' k (by simpa using hk)
          have e : j + 1 + k = j + (k + 1) := by omega
          rw [e] at this
          exact this
      · rw [List.length_cons]
        have := hc.2
        omega
    · rw [if_neg hc]
      refine ⟨fun k hk => by simp at hk, fun k hk => by simp at hk, fun h => by simp at h, ?_⟩
      simp

theorem getLast_elim_cons {α β : Type} (y : α) (ys : List α) (a b : β) (f : α → β) :
    ((y :: ys).getLast?).elim a f = ((y :: ys).getLast?).elim b f := by
  rw [List.getLast?_eq_getLast _ (List.cons_ne_nil y ys)]
  rfl

theorem probe_loop_last (bitmap : Nat → Bool) (len n h1 h2 : Nat) (fuel : Nat) :
    ∀ (j : Nat) (maybe : Bool),
    probe_loop bitmap len n h1 h2 fuel j maybe
      = ((probe_loop_reads bitmap len n h1 h2 fuel j maybe).getLast?).elim maybe bitmap := by
  induction fuel with
  | zero => intro j maybe; rfl
  | succ fuel ih =>
    intro j maybe
    unfold probe_loop probe_loop_reads
    by_cases hc : (maybe && decide (j < n)) = true
    · rw [if_pos hc, if_pos hc, ih]
      dsimp only
      cases hr : probe_loop_reads bitmap len n h1 h2 fuel (j + 1)
          (bitmap (((h1 + j * h2) % U32) % len)) with
      | nil => rfl
      | cons y ys =>
        rw [List.getLast?_cons_cons]
        exact getLast_elim_cons y ys _ _ _
    · rw [if_neg hc, if_neg hc]
      rfl

/-- The cells the double-hashing probe reads, in order: the `k`-th read is
the `k`-th derived cell; every read but the last found its cell set; there are
at most `max 1 num_hashes` reads; and `maybe` is the value of the last cell
read. -/
theorem probe_reads_spec (bf : counting_bloom_filter) (h1 h2 : Nat) :
    (∀ k, k < (probe_reads bf h1 h2).length →
      (probe_reads bf h1 h2)[k]? = some (dh_index h1 h2 k % bf.bitmap_len))
    ∧ (∀ k, k + 1 < (probe_reads bf h1 h2).length →
        bf.bitmap (dh_index h1 h2 k % bf.bitmap_len) = true)
    ∧ 0 < (probe_reads bf h1 h2).length
    ∧ (probe_reads bf h1 h2).length ≤ max 1 bf.num_hashes
    ∧ probe bf h1 h2 = ((probe_reads bf h1 h2).getLast?).elim true bf.bitmap := by
  unfold probe_reads probe
  dsimp only
  by_cases hb0 : bf.bitmap (h1 % bf.bitmap_len) = true
  · rw [if_pos hb0, if_pos hb0]
    by_cases hn : bf.num_hashes > 1
    · rw [if_pos hn, if_pos hn]
      obtain ⟨l1, l2, l3, l4⟩ := probe_loop_reads_spec bf.bitmap bf.bitmap_len bf.num_hashes
        h1 h2 bf.num_hashes 2 (bf.bitmap (h2 % bf.bitmap_len))
      refine ⟨?_, ?_, by simp, ?_, ?_⟩
      · intro k hk
        match k with
        | 0 => simp [dh_index]
        | 1 => simp [dh_index]
        | k + 2 =>
          rw [List.getElem?_cons_succ, List.getElem?_cons_succ, l1 k (by simpa using hk)]
          unfold dh_index
          rw [if_neg (by omega), if_neg (by omega)]
          have : 2 + k = k + 2 := by omega
          rw [this]
      · intro k hk
        match k with
        | 0 => exact hb0
        | 1 =>
          have : 0 < (probe_loop_reads bf.bitmap bf.bitmap_len bf.num_hashes h1 h2
              bf.num_hashes 2 (bf.bitmap (h2 % bf.bitmap_len))).length := by
            simpa using hk
          exact l3 this
        | k + 2 =>
          have := l2 k (by simp only [List.length_cons] at hk; omega)
          unfold dh_index
          rw [if_neg (by omega), if_neg (by omega)]
          have e : 2 + k = k + 2 := by omega
          rw [e] at this
          exact this
      · simp only [List.length_cons]
        have : max 2 bf.num_hashes = bf.num_hashes := by omega
        rw [this] at l4
        have : max 1 bf.num_hashes = bf.num_hashes := by omega
        rw [this]
        omega
      · rw [probe_loop_last]
        cases hr : probe_loop_reads bf.bitmap bf.bitmap_len bf.num_hashes h1 h2
            bf.num_hashes 2 (bf.bitmap (h2 % bf.bitmap_len)) with
        | nil => rfl
        | cons y ys =>
          rw [List.getLast?_cons_cons, List.getLast?_cons_cons]
          exact getLast_elim_cons y ys _ _ _
    · rw [if_neg hn, if_neg hn]
      refine ⟨?_, ?_, by simp, by simp, ?_⟩
      · intro k hk
        have : k = 0 := by simpa using hk
        subst this
        rfl
      · intro k hk
        simp at hk
      · simp [hb0]
  · rw [if_neg hb0, if_neg hb0]
    refine ⟨?_, ?_, by simp, by simp, ?_⟩
    · intro k hk
      have : k = 0 := by simpa using hk
      subst this
      rfl
    · intro k hk
      simp at hk
    · simp

/-- The double-hashing probe answers yes exactly when the first
`max 1 num_hashes` derived cells are set: the `num_hashes` cells of a filter
with at least one hash. -/
theorem probe_iff_max (bf : counting_bloom_filter) (h1 h2 : Nat) :
    probe bf h1 h2 = true
      ↔ ∀ i, i < max 1 bf.num_hashes → bf.bitmap (dh_index h1 h2 i % bf.bitmap_len) = true := by
  by_cases hn : 0 < bf.num_hashes
  · have : max 1 bf.num_hashes = bf.num_hashes := by omega
    rw [this]
    exact probe_iff bf h1 h2 hn
  · have h0 : bf.num_hashes = 0 := by omega
    have : max 1 bf.num_hashes = 1 := by omega
    rw [this]
    unfold probe
    dsimp only
    rw [h0]
    constructor
    · intro h i hi
      have : i = 0 := by omega
      subst this
      by_cases hb : bf.bitmap (h1 % bf.bitmap_len) = true
      · exact hb
      · rw [if_neg hb] at h
        exact absurd h hb
    · intro h
      have hb : bf.bitmap (h1 % bf.bitmap_len) = true := h 0 (by omega)
      rw [if_pos hb, if_neg (by omega)]
      exact hb

namespace Baseline

theorem probe_chain_reads_spec (rand_r : Nat → Nat) (bf : counting_bloom_filter) (fuel : Nat) :
    ∀ (j seed : Nat) (maybe : Bool),
    (∀ k, k < (probe_chain_reads rand_r bf fuel j seed maybe).length →
      (probe_chain_reads rand_r bf fuel j seed maybe)[k]?
        = some (rand_r^[k + 1] seed % bf.bitmap_len))
    ∧ (∀ k, k + 1 < (probe_chain_reads rand_r bf fuel j seed maybe).length →
        bf.bitmap (rand_r^[k + 1] seed % bf.bitmap_len) = true)
    ∧ (0 < (probe_chain_reads rand_r bf fuel j seed maybe).length → maybe = true)
    ∧ j + (probe_chain_reads rand_r bf fuel j seed maybe).length ≤ max j bf.num_hashes
    ∧ probe_chain rand_r bf fuel j seed maybe
        = ((probe_chain_reads rand_r bf fuel j seed maybe).getLast?).elim maybe bf.bitmap := by
  induction fuel with
  | zero =>
    intro j seed maybe
    unfold probe_chain_reads probe_chain
    refine ⟨fun k hk => by simp at hk, fun k hk => by simp at hk, fun h => by simp at h, ?_, rfl⟩
    simp
  | succ fuel ih =>
    intro j seed maybe
    unfold probe_chain_reads probe_chain
    by_cases hc : (maybe && decide (j < bf.num_hashes)) = true
    · rw [if_pos hc, if_pos hc]
      simp only [Bool.and_eq_true, decide_eq_true_eq] at hc
      obtain ⟨h1', h2', h3', h4', h5'⟩ := ih (j + 1) (rand_r seed)
        (bf.bitmap (rand_r seed % bf.bitmap_len))
      dsimp only
      refine ⟨?_, ?_, fun _ => hc.1, ?_, ?_⟩
      · intro k hk
        cases k with
        | zero => simp
        | succ k =>
          rw [List.getElem?_cons_succ, h1' k (by simpa using hk)]
          rfl
      · intro k hk
        cases k with
        | zero =>
          have := h3' (by simpa using hk)
          simpa using this
        | succ k => exact h2' k (by simpa using hk)
      · rw [List.length_cons]
        have := hc.2
        omega
      · rw [h5']
        cases hr : probe_chain_reads rand_r bf fuel (j + 1) (rand_r seed)
            (bf.bitmap (rand_r seed % bf.bitmap_len)) with
        | nil => rfl
        | cons y ys =>
          rw [List.getLast?_cons_cons]
          exact getLast_elim_cons y ys _ _ _
    · rw [if_neg hc, if_neg hc]
      refine ⟨fun k hk => by simp at hk, fun k hk => by simp at hk, fun h => by simp at h, ?_,
        rfl⟩
      simp

end Baseline

/-- C33: the Bloom probe is the conjunction of the derived cells.  For
every filter state and every pair of hashes, the `maybe` of the
double-hashing lookups (v4-coop, v6) is true iff each of the first
`max 1 num_hashes` derived cells is set, which for a filter with at least one
hash are its `num_hashes` cells; the cells are read in the order they are
derived, every read but the last found its cell set, so the loop stops at the
first unset cell, and `maybe` is the value of the last cell read.  A class
query of the scalar `lookup_address` probes the hash table only when `maybe`
is true.  The same holds for the chain of the baseline, for every
`num_hashes`. -/
theorem bloom_probe_conjunction :
    (∀ (bf : counting_bloom_filter) (h1 h2 : Nat),
        (0 < bf.num_hashes →
          (probe bf h1 h2 = true
            ↔ ∀ i, i < bf.num_hashes → bf.bitmap (dh_index h1 h2 i % bf.bitmap_len) = true))
        ∧ (probe bf h1 h2 = true
            ↔ ∀ i, i < max 1 bf.num_hashes →
                bf.bitmap (dh_index h1 h2 i % bf.bitmap_len) = true)
        ∧ (∀ k, k < (probe_reads bf h1 h2).length →
            (probe_reads bf h1 h2)[k]? = some (dh_index h1 h2 k % bf.bitmap_len))
        ∧ (∀ k, k + 1 < (probe_reads bf h1 h2).length →
            bf.bitmap (dh_index h1 h2 k % bf.bitmap_len) = true)
        ∧ (probe_reads bf h1 h2).length ≤ max 1 bf.num_hashes
        ∧ probe bf h1 h2 = ((probe_reads bf h1 h2).getLast?).elim true bf.bitmap)
    ∧ (∀ (cfg : V4coop.config) (t : forwarding_table) (id k nh : Nat)
        (bf : counting_bloom_filter), t.counting_bloom_filters id = some bf →
        V4coop.query_class cfg t id k nh
          = if probe bf (V4coop.BLOOM_HASH_FUNCTION cfg k)
                (V4coop.BLOOM_HASH_FUNCTION cfg (V4coop.BLOOM_HASH_FUNCTION cfg k)) = true
            then V4coop.find_in cfg (t.hash_tables id) (V4coop.BLOOM_HASH_FUNCTION cfg k) k nh
            else .ok (false, nh))
    ∧ (∀ (rand_r : Nat → Nat) (bf : counting_bloom_filter) (key : Nat),
        (Baseline.probe_chain rand_r bf bf.num_hashes 0 key true = true
          ↔ ∀ i, i < bf.num_hashes → bf.bitmap (rand_r^[i + 1] key % bf.bitmap_len) = true)
        ∧ (∀ k, k < (Baseline.probe_chain_reads rand_r bf bf.num_hashes 0 key true).length →
            (Baseline.probe_chain_reads rand_r bf bf.num_hashes 0 key true)[k]?
              = some (rand_r^[k + 1] key % bf.bitmap_len))
        ∧ (∀ k, k + 1 < (Baseline.probe_chain_reads rand_r bf bf.num_hashes 0 key true).length →
            bf.bitmap (rand_r^[k + 1] key % bf.bitmap_len) = true)
        ∧ (Baseline.probe_chain_reads rand_r bf bf.num_hashes 0 key true).length
            ≤ bf.num_hashes
        ∧ Baseline.probe_chain rand_r bf bf.num_hashes 0 key true
            = ((Baseline.probe_chain_reads rand_r bf bf.num_hashes 0 key true).getLast?).elim
                true bf.bitmap)
    ∧ (∀ (rand_r : Nat → Nat) (t : forwarding_table) (id k nh : Nat)
        (bf : counting_bloom_filter), t.counting_bloom_filters id = some bf →
        Baseline.probe_chain rand_r bf bf.num_hashes 0 k true = false →
        Baseline.query_class rand_r t id k nh = .ok (false, nh)) := by
  refine ⟨?_, ?_, ?_, ?_⟩
  · intro bf h1 h2
    obtain ⟨r1, r2, _, r4, r5⟩ := probe_reads_spec bf h1 h2
    exact ⟨fun hn => probe_iff bf h1 h2 hn, probe_iff_max bf h1 h2, r1, r2, r4, r5⟩
  · intro cfg t id k nh bf hbf
    unfold V4coop.query_class
    rw [hbf]
    rfl
  · intro rand_r bf key
    obtain ⟨r1, r2, _, r4, r5⟩ :=
      Baseline.probe_chain_reads_spec rand_r bf bf.num_hashes 0 key true
    refine ⟨?_, r1, r2, ?_, r5⟩
    · rw [Baseline.probe_chain_iff]
      constructor
      · rintro ⟨_, h⟩ i hi
        exact h i hi (by omega)
      · intro h
        exact ⟨rfl, fun i hi _ => h i hi⟩
    · have : max 0 bf.num_hashes = bf.num_hashes := by omega
      rw [this] at r4
      omega
  · intro rand_r t id k nh bf hbf hp
    unfold Baseline.query_class
    rw [hbf]
    simp only [deref, bind, Except.bind, hp, Bool.false_eq_true, if_false]
    rfl

set_option maxRecDepth 100000 in
/-- C33 at the filter of class 1 of `demo_table`, which has seven hashes. -/
theorem bloom_probe_conjunction_witness :
    0 < (demo_bf 1).num_hashes
    ∧ (probe (demo_bf 1) (murmurhash3_32 0xC0A80100)
          (murmurhash3_32 (murmurhash3_32 0xC0A80100)) = true
        ↔ ∀ i, i < (demo_bf 1).num_hashes →
            (demo_bf 1).bitmap (dh_index (murmurhash3_32 0xC0A80100)
              (murmurhash3_32 (murmurhash3_32 0xC0A80100)) i % (demo_bf 1).bitmap_len) = true) :=
  ⟨by decide, (bloom_probe_conjunction.1 (demo_bf 1) (murmurhash3_32 0xC0A80100)
    (murmurhash3_32 (murmurhash3_32 0xC0A80100))).1 (by decide)⟩

/-- C32 (amended): the indices of the double-hashing scheme.  For every
key, with `h1 = BLOOM_HASH_FUNCTION(key)` and `h2 = BLOOM_HASH_FUNCTION(h1)`,
the `i`-th value `hashes` derives, and the `i`-th cell `lookup_address`
reads, is `h1` for `i = 0`, `h2` for `i = 1`, and `(h1 + i * h2) mod 2^32`
for `i` in `[2, num_hashes)`, each reduced modulo `bitmap_len`. -/
theorem double_hashing_indices :
    (∀ (cfg : V4coop.config) (key n : Nat) (r : Nat → Nat) (i : Nat), i < n →
        hashes (V4coop.BLOOM_HASH_FUNCTION cfg) (V4coop.BLOOM_HASH_FUNCTION cfg) key n r i
          = if i = 0 then V4coop.BLOOM_HASH_FUNCTION cfg key
            else if i = 1 then V4coop.BLOOM_HASH_FUNCTION cfg (V4coop.BLOOM_HASH_FUNCTION cfg key)
            else (V4coop.BLOOM_HASH_FUNCTION cfg key
                + i * V4coop.BLOOM_HASH_FUNCTION cfg (V4coop.BLOOM_HASH_FUNCTION cfg key)) % U32)
    ∧ (∀ (cfg : V4coop.config) (bf : counting_bloom_filter) (key i : Nat),
        i < (probe_reads bf (V4coop.BLOOM_HASH_FUNCTION cfg key)
              (V4coop.BLOOM_HASH_FUNCTION cfg (V4coop.BLOOM_HASH_FUNCTION cfg key))).length →
        (probe_reads bf (V4coop.BLOOM_HASH_FUNCTION cfg key)
              (V4coop.BLOOM_HASH_FUNCTION cfg (V4coop.BLOOM_HASH_FUNCTION cfg key)))[i]?
          = some ((if i = 0 then V4coop.BLOOM_HASH_FUNCTION cfg key
            else if i = 1 then V4coop.BLOOM_HASH_FUNCTION cfg (V4coop.BLOOM_HASH_FUNCTION cfg key)
            else (V4coop.BLOOM_HASH_FUNCTION cfg key
                + i * V4coop.BLOOM_HASH_FUNCTION cfg (V4coop.BLOOM_HASH_FUNCTION cfg key)) % U32)
              % bf.bitmap_len))
    ∧ (∀ (cfg : V4coop.config) (bf : counting_bloom_filter) (key : Nat),
        0 < bf.num_hashes →
        (probe bf (V4coop.BLOOM_HASH_FUNCTION cfg key)
            (V4coop.BLOOM_HASH_FUNCTION cfg (V4coop.BLOOM_HASH_FUNCTION cfg key)) = true
          ↔ ∀ i, i < bf.num_hashes →
              bf.bitmap (hashes (V4coop.BLOOM_HASH_FUNCTION cfg) (V4coop.BLOOM_HASH_FUNCTION cfg)
                key bf.num_hashes (fun _ => 0) i % bf.bitmap_len) = true)) := by
  refine ⟨?_, ?_, ?_⟩
  · intro cfg key n r i hi
    rw [hashes_eq _ _ _ _ _ i hi]
    rfl
  · intro cfg bf key i hi
    exact (probe_reads_spec bf _ _).1 i hi
  · intro cfg bf key hn
    exact V4coop.probe_sound_coop cfg bf key hn

set_option maxRecDepth 100000 in
/-- C32 at the key `192.168.1.0` with seven hashes: the value of index 1 is
`h2`. -/
theorem double_hashing_indices_witness :
    (1 : Nat) < 7
    ∧ hashes murmurhash3_32 murmurhash3_32 0xC0A80100 7 (fun _ => 0) 1
        = murmurhash3_32 (murmurhash3_32 0xC0A80100) :=
  ⟨by decide, double_hashing_indices.1 demo_cfg 0xC0A80100 7 (fun _ => 0) 1 (by decide)⟩

set_option maxRecDepth 100000 in
/-- The claim of C32 as stated fails at `i = 1`: for the key `192.168.1.0`
and a bitmap of 40 cells, the index `hashes` derives at position 1, and the
second cell `lookup_address` reads in the filter of class 1 of `demo_table`,
is `h2 mod 40`, which differs from `((h1 + 1 * h2) mod 2^32) mod 40`. -/
theorem double_hashing_indices_counterexample :
    hashes murmurhash3_32 murmurhash3_32 0xC0A80100 7 (fun _ => 0) 1 % 40
        ≠ ((murmurhash3_32 0xC0A80100 + 1 * murmurhash3_32 (murmurhash3_32 0xC0A80100)) % U32)
            % 40
    ∧ (probe_reads (demo_bf 1) (murmurhash3_32 0xC0A80100)
          (murmurhash3_32 (murmurhash3_32 0xC0A80100)))[1]?
        ≠ some (((murmurhash3_32 0xC0A80100
            + 1 * murmurhash3_32 (murmurhash3_32 0xC0A80100)) % U32) % 40) :=
  ⟨by decide, by decide⟩

/-- C31: index agreement of the baseline (`rand_r` chain).  For every
function `rand_r` from the seed to the value returned, every key and every
`num_hashes`: the `i`-th value `hashes` derives is `rand_r` applied `i + 1`
times to the key (`h_0 = r(key)`, `h_{i+1} = r(h_i)`); the `i`-th cell the probe
of `lookup_address` reads is that value modulo `bitmap_len`, the cell
`store_prefix` sets; the probe answers yes iff all the cells `hashes` derives
are set; and after any build that returns, every key stored into a class
passes the probe of the class's filter in the final table. -/
theorem baseline_index_agreement :
    (∀ (rand_r : Nat → Nat) (key n : Nat) (r : Nat → Nat) (i : Nat), i < n →
        Baseline.hashes rand_r key n r i = rand_r^[i + 1] key)
    ∧ (∀ (rand_r : Nat → Nat) (bf : counting_bloom_filter) (key i : Nat),
        i < (Baseline.probe_chain_reads rand_r bf bf.num_hashes 0 key true).length →
        i < bf.num_hashes
        ∧ (Baseline.probe_chain_reads rand_r bf bf.num_hashes 0 key true)[i]?
          = some (Baseline.hashes rand_r key bf.num_hashes (fun _ => 0) i % bf.bitmap_len))
    ∧ (∀ (rand_r : Nat → Nat) (bf : counting_bloom_filter) (key : Nat),
        Baseline.probe_chain rand_r bf bf.num_hashes 0 key true = true
          ↔ ∀ i, i < bf.num_hashes →
              bf.bitmap (Baseline.hashes rand_r key bf.num_hashes (fun _ => 0) i
                % bf.bitmap_len) = true)
    ∧ (∀ (rand_r : Nat → Nat) (t t' : forwarding_table) (ps : List (Option ipv4_prefix))
        (p : ipv4_prefix),
        Baseline.store_prefixes rand_r t ps = .ok t' → some p ∈ ps →
        p.netmask ≠ 0 → p.netmask ≠ 20 →
        ∃ bf, t'.counting_bloom_filters (bloom_filter_id p) = some bf
          ∧ Baseline.probe_chain rand_r bf bf.num_hashes 0 p.key true = true) := by
  have hagree : ∀ (rand_r : Nat → Nat) (bf : counting_bloom_filter) (key : Nat),
      Baseline.probe_chain rand_r bf bf.num_hashes 0 key true = true
        ↔ ∀ i, i < bf.num_hashes →
            bf.bitmap (Baseline.hashes rand_r key bf.num_hashes (fun _ => 0) i
              % bf.bitmap_len) = true := by
    intro rand_r bf key
    rw [Baseline.probe_chain_iff]
    constructor
    · rintro ⟨_, h⟩ i hi
      rw [Baseline.bl_hashes_eq _ _ _ _ i hi]
      exact h i hi (by omega)
    · intro h
      refine ⟨rfl, fun i hi _ => ?_⟩
      rw [← Baseline.bl_hashes_eq rand_r key bf.num_hashes (fun _ => 0) i hi]
      exact h i hi
  refine ⟨fun rand_r key n r i hi => Baseline.bl_hashes_eq rand_r key n r i hi, ?_, hagree, ?_⟩
  · intro rand_r bf key i hi
    obtain ⟨r1, _, _, r4, _⟩ :=
      Baseline.probe_chain_reads_spec rand_r bf bf.num_hashes 0 key true
    have hn : i < bf.num_hashes := by
      have : max 0 bf.num_hashes = bf.num_hashes := by omega
      rw [this] at r4
      omega
    refine ⟨hn, ?_⟩
    rw [r1 i hi, Baseline.bl_hashes_eq _ _ _ _ i hn]
  · intro rand_r t t' ps p h hp h0 h20
    rw [Baseline.bl_store_prefixes_eq_gen] at h
    obtain ⟨bf, hb, hm⟩ := gen_store_all_marks _ _ ps t t' h p hp h0 h20
    exact ⟨bf, hb, (hagree rand_r bf p.key).2 hm⟩

set_option maxRecDepth 100000 in
/-- C31 at the baseline build of the demo prefixes: the /24 prefix passes the
probe of class 1 in the final table. -/
theorem baseline_index_agreement_witness :
    ∃ bf, demo_table_baseline.counting_bloom_filters 1 = some bf
      ∧ Baseline.probe_chain demo_rand_r bf bf.num_hashes 0 0xC0A80100 true = true := by
  obtain ⟨bf, hb, hp⟩ := baseline_index_agreement.2.2.2 demo_rand_r
    (new_forwarding_table demo_sizing demo_dist) demo_table_baseline (demo_prefixes.map some)
    { next_hop := 9, key := 0xC0A80100, netmask := 24 } demo_table_baseline_built
    (by decide) (by decide) (by decide)
  exact ⟨bf, hb, hp⟩

theorem collisions_inner (x : Nat) (l : List Nat) :
    ∀ n, n < U64 →
    l.foldlM (fun (num_collisions : Nat) (_ : Nat) =>
        if x > 1 then (.ok ((num_collisions + x) % U64) : Except fault Nat)
        else .ok num_collisions) n
      = .ok (if x > 1 then (n + l.length * x) % U64 else n) := by
  induction l with
  | nil =>
    intro n hn
    simp only [List.foldlM_nil, List.length_nil, Nat.zero_mul, Nat.add_zero,
      Nat.mod_eq_of_lt hn, ite_self]
    rfl
  | cons a l ih =>
    intro n hn
    rw [List.foldlM_cons]
    by_cases hx : x > 1
    · simp only [hx, if_true, bind, Except.bind]
      have := ih ((n + x) % U64) (Nat.mod_lt _ (by decide))
      simp only [hx, if_true] at this
      rw [this, List.length_cons, Nat.succ_mul]
      congr 1
      have e : U64 = 18446744073709551616 := rfl
      rw [e]
      generalize l.length * x = A
      omega
    · simp only [hx, if_false, bind, Except.bind]
      have := ih n hn
      simp only [hx, if_false] at this
      exact this

/-- What `calc_num_collisions_bloomf` returns for a table with both filters,
filter 0 with at least one cell and filter 1 with at least two: for each
filter `i`, `bitmap_len` times `counters[i]` where that counter exceeds 1,
summed in 64-bit arithmetic. -/
theorem calc_num_collisions_bloomf_eq (t : forwarding_table) (bf0 bf1 : counting_bloom_filter)
    (h0 : t.counting_bloom_filters 0 = some bf0) (h1 : t.counting_bloom_filters 1 = some bf1)
    (hl0 : 0 < bf0.bitmap_len) (hl1 : 1 < bf1.bitmap_len) :
    calc_num_collisions_bloomf t
      = .ok (((if bf0.counters 0 > 1 then bf0.bitmap_len * bf0.counters 0 else 0)
          + (if bf1.counters 1 > 1 then bf1.bitmap_len * bf1.counters 1 else 0)) % U64) := by
  unfold calc_num_collisions_bloomf
  have hr : List.range 2 = [0, 1] := rfl
  rw [hr]
  simp only [List.foldlM_cons, List.foldlM_nil, h0, h1, hl0, hl1, if_true, bind, Except.bind,
    pure, Except.pure]
  have e0 := collisions_inner (bf0.counters 0) (List.range bf0.bitmap_len) 0 (by decide)
  rw [e0]
  dsimp only
  have hlt : (if bf0.counters 0 > 1
      then (0 + (List.range bf0.bitmap_len).length * bf0.counters 0) % U64 else 0) < U64 := by
    split
    · exact Nat.mod_lt _ (by decide)
    · decide
  have e1 := collisions_inner (bf1.counters 1) (List.range bf1.bitmap_len) _ hlt
  rw [e1]
  simp only [List.length_range]
  clear hlt e0 e1
  have e : U64 = 18446744073709551616 := rfl
  generalize bf0.bitmap_len * bf0.counters 0 = A
  generalize bf1.bitmap_len * bf1.counters 1 = B
  by_cases hc0 : bf0.counters 0 > 1 <;> by_cases hc1 : bf1.counters 1 > 1
    <;> simp only [hc0, hc1, if_true, if_false, Nat.zero_add, Nat.add_zero, Nat.zero_mod]
    <;> first | rfl | (rw [e]; congr 1; omega)

set_option maxRecDepth 100000 in
/-- C35 on the code: in the table `demo_twice` (the prefix `192.168.1.0/24`
stored twice) seven cells of filter 1 hold a counter of 2, so the count of
overloaded cells is 7; `calc_num_collisions_bloomf` reads `counters[0]` of
filter 0 and `counters[1]` of filter 1, both 0, and returns 0. -/
theorem calc_num_collisions_bloomf_demo :
    calc_num_collisions_bloomf demo_twice = .ok 0
    ∧ count_overloaded demo_twice = 7 :=
  ⟨by decide, by decide⟩

theorem cell_hits_congr (bf bf1 : counting_bloom_filter) (idxs : Nat → Nat) (x : Nat)
    (hn : bf1.num_hashes = bf.num_hashes) (hl : bf1.bitmap_len = bf.bitmap_len) :
    cell_hits bf1 idxs x = cell_hits bf idxs x := by
  unfold cell_hits
  rw [hn, hl]

theorem total_hits_congr (idxs : Nat → Nat → Nat → Nat) (bf bf1 : counting_bloom_filter)
    (ks : List Nat) (x : Nat)
    (hn : bf1.num_hashes = bf.num_hashes) (hl : bf1.bitmap_len = bf.bitmap_len) :
    total_hits idxs bf1 ks x = total_hits idxs bf ks x := by
  unfold total_hits
  rw [hn]
  congr 1
  apply List.map_congr_left
  intro k _
  exact cell_hits_congr bf bf1 _ x hn hl

theorem cbf_mark_bitmap_iff (bf : counting_bloom_filter) (idxs : Nat → Nat) (x : Nat) :
    (cbf_mark bf idxs).bitmap x = true ↔ bf.bitmap x = true ∨ 0 < cell_hits bf idxs x := by
  unfold cbf_mark
  rw [cbf_mark_foldl_bitmap]
  unfold cell_hits
  rw [List.length_pos_iff_exists_mem]
  constructor
  · rintro (h | ⟨i, hi, hx⟩)
    · exact Or.inl h
    · exact Or.inr ⟨i, List.mem_filter.mpr ⟨hi, by simp [hx]⟩⟩
  · rintro (h | ⟨i, hi⟩)
    · exact Or.inl h
    · obtain ⟨h1, h2⟩ := List.mem_filter.mp hi
      have h3 : idxs i % bf.bitmap_len = x := by simpa using h2
      exact Or.inr ⟨i, h1, h3.symm⟩

/-- A filter after the insertions of the keys `ks`: a cell is set iff it was
set or an insertion selected it, and its counter has grown, modulo 256, by
the number of selections. -/
theorem marks_spec (idxs : Nat → Nat → Nat → Nat) (ks : List Nat) :
    ∀ (bf : counting_bloom_filter), (∀ y, bf.counters y < 256) →
      (ks.foldl (fun b k => cbf_mark b (idxs k b.num_hashes)) bf).num_hashes = bf.num_hashes
      ∧ (ks.foldl (fun b k => cbf_mark b (idxs k b.num_hashes)) bf).bitmap_len = bf.bitmap_len
      ∧ (∀ x, (ks.foldl (fun b k => cbf_mark b (idxs k b.num_hashes)) bf).bitmap x = true
          ↔ bf.bitmap x = true ∨ 0 < total_hits idxs bf ks x)
      ∧ (∀ x, (ks.foldl (fun b k => cbf_mark b (idxs k b.num_hashes)) bf).counters x
          = (bf.counters x + total_hits idxs bf ks x) % 256) := by
  induction ks with
  | nil =>
    intro bf hc
    refine ⟨rfl, rfl, fun x => ?_, fun x => ?_⟩
    · simp [total_hits]
    · simp only [List.foldl_nil, total_hits, List.map_nil, List.sum_nil, Nat.add_zero]
      exact (Nat.mod_eq_of_lt (hc x)).symm
  | cons k ks ih =>
    intro bf hc
    have hn := cbf_mark_num_hashes bf (idxs k bf.num_hashes)
    have hl := cbf_mark_bitmap_len bf (idxs k bf.num_hashes)
    have hc1 : ∀ y, (cbf_mark bf (idxs k bf.num_hashes)).counters y < 256 := by
      intro y
      rw [cbf_mark_counters bf _ hc y]
      exact Nat.mod_lt _ (by decide)
    obtain ⟨i1, i2, i3, i4⟩ := ih (cbf_mark bf (idxs k bf.num_hashes)) hc1
    rw [List.foldl_cons]
    have hsum : ∀ x, total_hits idxs bf (k :: ks) x
        = cell_hits bf (idxs k bf.num_hashes) x + total_hits idxs bf ks x := by
      intro x
      unfold total_hits
      rw [List.map_cons, List.sum_cons]
    refine ⟨i1.trans hn, i2.trans hl, fun x => ?_, fun x => ?_⟩
    · rw [i3 x, cbf_mark_bitmap_iff, total_hits_congr idxs bf _ ks x hn hl, hsum x]
      constructor
      · rintro ((h | h) | h)
        · exact Or.inl h
        · exact Or.inr (by omega)
        · exact Or.inr (by omega)
      · rintro (h | h)
        · exact Or.inl (Or.inl h)
        · by_cases hk : 0 < cell_hits bf (idxs k bf.num_hashes) x
          · exact Or.inl (Or.inr hk)
          · exact Or.inr (by omega)
    · rw [i4 x, cbf_mark_counters bf _ hc x, total_hits_congr idxs bf _ ks x hn hl, hsum x]
      omega

/-- The filter of class `id` after a build that returns: the filter the build
started from, after the insertions of the keys stored into the class. -/
theorem gen_store_all_filter (H : Nat → Nat) (idxs : Nat → Nat → Nat → Nat)
    (ps : List (Option ipv4_prefix)) (id : Nat) :
    ∀ (t t' : forwarding_table) (bf : counting_bloom_filter),
      gen_store_all H idxs t ps = .ok t' → t.counting_bloom_filters id = some bf →
      t'.counting_bloom_filters id
        = some ((class_keys id ps).foldl (fun b k => cbf_mark b (idxs k b.num_hashes)) bf) := by
  induction ps with
  | nil =>
    intro t t' bf h hbf
    unfold gen_store_all at h
    cases h
    exact hbf
  | cons pfx rest ih =>
    intro t t' bf h hbf
    rw [gen_store_all_cons] at h
    cases hs : gen_store H idxs t pfx with
    | error e => rw [hs] at h; cases h
    | ok r =>
      rw [hs] at h
      dsimp only at h
      obtain ⟨p, hp, _, hc⟩ := gen_store_ok H idxs t pfx r hs
      subst hp
      rcases hc with ⟨h0, hr⟩ | ⟨h20, hr⟩ | ⟨h0, h20, bf1, ht1, hbf1, _, hr⟩
      · have hk : class_keys id (some p :: rest) = class_keys id rest := by
          unfold class_keys
          rw [List.filterMap_cons]
          simp [h0]
        rw [hk]
        apply ih r.2 t' bf h
        rw [hr, (set_default_route_fields t p.next_hop).2.1]
        exact hbf
      · have hk : class_keys id (some p :: rest) = class_keys id rest := by
          unfold class_keys
          rw [List.filterMap_cons]
          simp [h20]
        rw [hk]
        apply ih r.2 t' bf h
        rw [hr]
        exact hbf
      · by_cases hid : bloom_filter_id p = id
        · have hk : class_keys id (some p :: rest) = p.key :: class_keys id rest := by
            unfold class_keys
            rw [List.filterMap_cons]
            simp [h0, h20, hid]
          rw [hk, List.foldl_cons]
          rw [hid, hbf] at hbf1
          cases hbf1
          apply ih r.2 t' _ h
          rw [hr]
          dsimp only
          rw [hid, Function.update_same]
        · have hk : class_keys id (some p :: rest) = class_keys id rest := by
            unfold class_keys
            rw [List.filterMap_cons]
            simp [hid]
          rw [hk]
          apply ih r.2 t' bf h
          rw [hr]
          dsimp only
          rw [Function.update_noteq (fun e => hid e.symm)]
          exact hbf

theorem init_cbf_fresh (sizing : Nat → Nat × Nat) (l : List (Nat × Nat)) :
    ∀ (t : forwarding_table),
      (∀ id bf, t.counting_bloom_filters id = some bf →
        (∀ x, bf.bitmap x = false) ∧ ∀ x, bf.counters x = 0) →
      ∀ id bf, (init_cbf sizing l t).counting_bloom_filters id = some bf →
        (∀ x, bf.bitmap x = false) ∧ ∀ x, bf.counters x = 0 := by
  induction l with
  | nil => intro t h; exact h
  | cons r l ih =>
    intro t h
    rw [init_cbf_cons]
    apply ih
    intro id bf hbf
    by_cases h32 : r.1 = 32
    · rw [if_pos h32] at hbf
      dsimp only at hbf
      by_cases hid : id = 0
      · rw [hid, Function.update_same] at hbf
        cases hbf
        exact ⟨fun _ => rfl, fun _ => rfl⟩
      · rw [Function.update_noteq hid] at hbf
        exact h id bf hbf
    · rw [if_neg h32] at hbf
      by_cases h24 : r.1 = 24
      · rw [if_pos h24] at hbf
        dsimp only at hbf
        by_cases hid : id = 1
        · rw [hid, Function.update_same] at hbf
          cases hbf
          exact ⟨fun _ => rfl, fun _ => rfl⟩
        · rw [Function.update_noteq hid] at hbf
          exact h id bf hbf
      · rw [if_neg h24] at hbf
        exact h id bf hbf

/-- Every filter of the table `new_forwarding_table` returns is as
`new_counting_bloom_filter` left it: no bit set, every counter 0. -/
theorem new_table_filter_fresh (sizing : Nat → Nat × Nat) (dist : List (Nat × Nat))
    (id : Nat) (bf : counting_bloom_filter)
    (h : (new_forwarding_table sizing dist).counting_bloom_filters id = some bf) :
    (∀ x, bf.bitmap x = false) ∧ ∀ x, bf.counters x = 0 := by
  unfold new_forwarding_table at h
  dsimp only at h
  rw [(init_ht_eq _).1] at h
  refine init_cbf_fresh sizing dist _ ?_ id bf h
  intro id bf hb
  cases hb

/-- What a build that returns leaves in a filter that was fresh: a cell is set
iff a store selected it, and its counter is the number of selections modulo
256. -/
theorem gen_store_all_counters (H : Nat → Nat) (idxs : Nat → Nat → Nat → Nat)
    (sizing : Nat → Nat × Nat) (dist : List (Nat × Nat)) (ps : List (Option ipv4_prefix))
    (t : forwarding_table) (id : Nat) (bf0 : counting_bloom_filter)
    (h : gen_store_all H idxs (new_forwarding_table sizing dist) ps = .ok t)
    (hb : (new_forwarding_table sizing dist).counting_bloom_filters id = some bf0) :
    ∃ bf, t.counting_bloom_filters id = some bf
      ∧ (∀ x, bf.bitmap x = true ↔ 0 < total_hits idxs bf0 (class_keys id ps) x)
      ∧ (∀ x, bf.counters x = total_hits idxs bf0 (class_keys id ps) x % 256)
      ∧ (∀ x, bf.counters x ≠ 0 → bf.bitmap x = true)
      ∧ (∀ x, total_hits idxs bf0 (class_keys id ps) x < 256 →
          (bf.bitmap x = true ↔ bf.counters x ≠ 0)) := by
  obtain ⟨f1, f2⟩ := new_table_filter_fresh sizing dist id bf0 hb
  obtain ⟨_, _, m3, m4⟩ := marks_spec idxs (class_keys id ps) bf0
    (fun y => by rw [f2 y]; decide)
  have hbit : ∀ x, ((class_keys id ps).foldl (fun b k => cbf_mark b (idxs k b.num_hashes))
      bf0).bitmap x = true ↔ 0 < total_hits idxs bf0 (class_keys id ps) x := by
    intro x
    rw [m3 x, f1 x]
    simp
  have hcnt : ∀ x, ((class_keys id ps).foldl (fun b k => cbf_mark b (idxs k b.num_hashes))
      bf0).counters x = total_hits idxs bf0 (class_keys id ps) x % 256 := by
    intro x
    rw [m4 x, f2 x, Nat.zero_add]
  refine ⟨_, gen_store_all_filter H idxs ps id _ t bf0 h hb, hbit, hcnt, ?_, ?_⟩
  · intro x hx
    rw [hbit x]
    rw [hcnt x] at hx
    by_contra hz
    have : total_hits idxs bf0 (class_keys id ps) x = 0 := by omega
    rw [this] at hx
    exact hx rfl
  · intro x hlt
    rw [hbit x, hcnt x, Nat.mod_eq_of_lt hlt]
    omega

/-- C36 (amended): bitmap and counters of a reachable filter.  In v4-coop
(under every hash configuration) and in the baseline, after any build from
`new_forwarding_table` that returns, in each filter the table started with:
`bitmap[i]` is true iff some store into the class selected cell `i`;
`counters[i]` is the number of selections of the cell modulo 256; hence a
non-zero counter implies a set bit, and `bitmap[i]` is true iff `counters[i]`
is non-zero for every cell selected fewer than 256 times. -/
theorem bitmap_counter_consistency :
    (∀ (cfg : V4coop.config) (sizing : Nat → Nat × Nat) (dist : List (Nat × Nat))
        (ps : List (Option ipv4_prefix)) (t : forwarding_table) (id : Nat)
        (bf0 : counting_bloom_filter),
        V4coop.store_prefixes cfg (new_forwarding_table sizing dist) ps = .ok t →
        (new_forwarding_table sizing dist).counting_bloom_filters id = some bf0 →
        ∃ bf, t.counting_bloom_filters id = some bf
          ∧ (∀ x, bf.bitmap x = true
              ↔ 0 < total_hits (fun key n => hashes (V4coop.BLOOM_HASH_FUNCTION cfg)
                    (V4coop.BLOOM_HASH_FUNCTION cfg) key n (fun _ => 0)) bf0
                    (class_keys id ps) x)
          ∧ (∀ x, bf.counters x
              = total_hits (fun key n => hashes (V4coop.BLOOM_HASH_FUNCTION cfg)
                    (V4coop.BLOOM_HASH_FUNCTION cfg) key n (fun _ => 0)) bf0
                    (class_keys id ps) x % 256)
          ∧ (∀ x, bf.counters x ≠ 0 → bf.bitmap x = true)
          ∧ (∀ x, total_hits (fun key n => hashes (V4coop.BLOOM_HASH_FUNCTION cfg)
                    (V4coop.BLOOM_HASH_FUNCTION cfg) key n (fun _ => 0)) bf0
                    (class_keys id ps) x < 256 →
              (bf.bitmap x = true ↔ bf.counters x ≠ 0)))
    ∧ (∀ (rand_r : Nat → Nat) (sizing : Nat → Nat × Nat) (dist : List (Nat × Nat))
        (ps : List (Option ipv4_prefix)) (t : forwarding_table) (id : Nat)
        (bf0 : counting_bloom_filter),
        Baseline.store_prefixes rand_r (new_forwarding_table sizing dist) ps = .ok t →
        (new_forwarding_table sizing dist).counting_bloom_filters id = some bf0 →
        ∃ bf, t.counting_bloom_filters id = some bf
          ∧ (∀ x, bf.bitmap x = true
              ↔ 0 < total_hits (fun key n => Baseline.hashes rand_r key n (fun _ => 0)) bf0
                    (class_keys id ps) x)
          ∧ (∀ x, bf.counters x
              = total_hits (fun key n => Baseline.hashes rand_r key n (fun _ => 0)) bf0
                    (class_keys id ps) x % 256)
          ∧ (∀ x, bf.counters x ≠ 0 → bf.bitmap x = true)
          ∧ (∀ x, total_hits (fun key n => Baseline.hashes rand_r key n (fun _ => 0)) bf0
                    (class_keys id ps) x < 256 →
              (bf.bitmap x = true ↔ bf.counters x ≠ 0))) := by
  constructor
  · intro cfg sizing dist ps t id bf0 h hb
    rw [V4coop.store_prefixes_eq_gen] at h
    exact gen_store_all_counters _ _ sizing dist ps t id bf0 h hb
  · intro rand_r sizing dist ps t id bf0 h hb
    rw [Baseline.bl_store_prefixes_eq_gen] at h
    exact gen_store_all_counters _ _ sizing dist ps t id bf0 h hb

set_option maxRecDepth 100000 in
/-- C36 at the build of the demo prefixes: in filter 1 of `demo_table` every
cell with a non-zero counter is set. -/
theorem bitmap_counter_consistency_witness :
    ∀ x, (demo_bf 1).counters x ≠ 0 → (demo_bf 1).bitmap x = true := by
  obtain ⟨bf, hb, _, _, h3, _⟩ := bitmap_counter_consistency.1 demo_cfg demo_sizing demo_dist
    (demo_prefixes.map some) demo_table 1 (new_counting_bloom_filter 4 40 7)
    demo_table_built rfl
  rw [demo_table_classes.2.1] at hb
  cases hb
  exact h3

/-- A build of valid prefixes into a table with both classes allocated
returns. -/
theorem gen_store_all_returns (H : Nat → Nat) (idxs : Nat → Nat → Nat → Nat)
    (ps : List ipv4_prefix) (hv : ∀ p ∈ ps, p.netmask ≤ 32) :
    ∀ (t : forwarding_table), allocated t →
      ∃ t', gen_store_all H idxs t (ps.map some) = .ok t' ∧ allocated t' := by
  induction ps with
  | nil => intro t hall; exact ⟨t, rfl, hall⟩
  | cons p rest ih =>
    intro t hall
    obtain ⟨r, hr⟩ := gen_store_succeeds H idxs t p hall (hv p (List.mem_cons_self _ _))
    obtain ⟨t', h1, h2⟩ := ih (fun q hq => hv q (List.mem_cons_of_mem _ hq)) r.2
      (gen_store_allocated H idxs t (some p) r hall hr)
    refine ⟨t', ?_, h2⟩
    rw [List.map_cons, gen_store_all_cons, hr]
    exact h1

theorem class_keys_replicate (n : Nat) (p : ipv4_prefix) (h0 : p.netmask ≠ 0)
    (h20 : p.netmask ≠ 20) :
    class_keys (bloom_filter_id p) (List.replicate n (some p)) = List.replicate n p.key := by
  induction n with
  | zero => rfl
  | succ n ih =>
    rw [List.replicate_succ, List.replicate_succ]
    unfold class_keys at ih ⊢
    rw [List.filterMap_cons, ih]
    simp [h0, h20]

theorem total_hits_replicate (idxs : Nat → Nat → Nat → Nat) (bf : counting_bloom_filter)
    (n k x : Nat) :
    total_hits idxs bf (List.replicate n k) x = n * cell_hits bf (idxs k bf.num_hashes) x := by
  unfold total_hits
  rw [List.map_replicate, List.sum_replicate]
  rfl

set_option maxRecDepth 100000 in
/-- The claim of C36 as stated fails: after 256 stores of `192.168.1.0/24` into
the fresh table of the demo sizes, the cell of the first hash of the key is
set in the filter of class 1 and its counter is 0. -/
theorem bitmap_counter_consistency_counterexample :
    ∃ t bf, V4coop.store_prefixes demo_cfg (new_forwarding_table demo_sizing demo_dist)
        (List.replicate 256 (some demo_slash24)) = .ok t
      ∧ t.counting_bloom_filters 1 = some bf
      ∧ bf.bitmap (murmurhash3_32 0xC0A80100 % 40) = true
      ∧ bf.counters (murmurhash3_32 0xC0A80100 % 40) = 0 := by
  have hall := (new_forwarding_table_inv (V4coop.HASHTBL_HASH_FUNCTION demo_cfg)
    (fun _ _ => true) demo_sizing demo_dist demo_well_sized).1
  obtain ⟨t, ht, _⟩ := gen_store_all_returns (V4coop.HASHTBL_HASH_FUNCTION demo_cfg)
    (fun key n => hashes (V4coop.BLOOM_HASH_FUNCTION demo_cfg)
      (V4coop.BLOOM_HASH_FUNCTION demo_cfg) key n (fun _ => 0))
    (List.replicate 256 demo_slash24)
    (fun p hp => by rw [List.eq_of_mem_replicate hp]; decide) _ hall
  rw [List.map_replicate] at ht
  obtain ⟨bf, hb, h1, h2, _, _⟩ := gen_store_all_counters _ _ demo_sizing demo_dist
    (List.replicate 256 (some demo_slash24)) t 1 (new_counting_bloom_filter 4 40 7) ht rfl
  have hk : class_keys 1 (List.replicate 256 (some demo_slash24))
      = List.replicate 256 0xC0A80100 :=
    class_keys_replicate 256 demo_slash24 (by decide) (by decide)
  refine ⟨t, bf, ?_, hb, ?_, ?_⟩
  · rw [V4coop.store_prefixes_eq_gen]
    exact ht
  · rw [h1, hk, total_hits_replicate]
    apply Nat.mul_pos (by decide)
    decide
  · rw [h2, hk, total_hits_replicate]
    exact Nat.mul_mod_right 256 _

theorem bit128_hi (pfx : V6.uint128) (index : Nat) (hlo : pfx.lo < 2 ^ 64) (hi : index ≤ 63) :
    (pfx.hi >>> (63 - index)) &&& 1 = Cpe6.bit128 pfx index := by
  unfold Cpe6.bit128
  rw [Nat.and_one_is_mod, Nat.and_one_is_mod, Nat.shiftRight_eq_div_pow,
    Nat.shiftRight_eq_div_pow, ← Nat.toNat_testBit, ← Nat.toNat_testBit]
  congr 1
  have := Nat.testBit_mul_pow_two_add pfx.hi hlo (127 - index)
  rw [Nat.mul_comm] at this
  have hge : ¬ 127 - index < 64 := by omega
  rw [this, if_neg hge]
  congr 1
  omega

theorem bit128_lo (pfx : V6.uint128) (index : Nat) (hlo : pfx.lo < 2 ^ 64) (h1 : 64 ≤ index) :
    (pfx.lo >>> (127 - index)) &&& 1 = Cpe6.bit128 pfx index := by
  unfold Cpe6.bit128
  rw [Nat.and_one_is_mod, Nat.and_one_is_mod, Nat.shiftRight_eq_div_pow,
    Nat.shiftRight_eq_div_pow, ← Nat.toNat_testBit, ← Nat.toNat_testBit]
  congr 1
  have := Nat.testBit_mul_pow_two_add pfx.hi hlo (127 - index)
  rw [Nat.mul_comm] at this
  have hlt : 127 - index < 64 := by omega
  rw [this, if_pos hlt]

/-- What `get_bit` of `cpe_v6.c` returns away from index 64: the bit of the
prefix at the index, with a shift count in `[0, 63]`. -/
theorem get_bit6_ok (pfx : V6.uint128) (len index : Nat) (hlo : pfx.lo < U64)
    (hi : index ≤ 127) (h64 : index ≠ 64) :
    Cpe6.get_bit pfx len index = .ok (Cpe6.bit128 pfx index) := by
  have e64 : U64 = 2 ^ 64 := by decide
  rw [e64] at hlo
  have key : ∀ (p c : Nat) (b : Nat), c < 64 → (p >>> c) &&& 1 = b →
      (if c < 64 then (Except.ok ((p >>> c) &&& 1) : Except fault Nat)
        else .error fault.undefined_shift) = .ok b := by
    intro p c b hc hb
    rw [if_pos hc, hb]
  unfold Cpe6.get_bit
  by_cases hgt : index > 64
  · simp only [hgt, if_true]
    have hc : (64 + (U32 - (index - 64) % U32) + (U32 - 1)) % U32 = 127 - index := by
      have e32 : U32 = 4294967296 := rfl
      rw [e32]; omega
    refine key _ _ _ (by rw [hc]; omega) ?_
    rw [hc]
    exact bit128_lo pfx index hlo (by omega)
  · simp only [hgt, if_false]
    have hc : (64 + (U32 - index % U32) + (U32 - 1)) % U32 = 63 - index := by
      have e32 : U32 = 4294967296 := rfl
      rw [e32]; omega
    refine key _ _ _ (by rw [hc]; omega) ?_
    rw [hc]
    exact bit128_hi pfx index hlo (by omega)

/-- C40 on the code: at index 64 `get_bit` takes the branch for `hi` (the test
is `index > 64`) and shifts by `64 - 64 - 1`, which as an `unsigned int` is
`2^32 - 1`; so `btrie_insert` of a prefix longer than 64 bits, here
`2001:db8::/65`, does not walk its first `len` bits. -/
theorem get_bit6_at_64 :
    (∀ (pfx : V6.uint128) (len : Nat),
        Cpe6.get_bit pfx len 64 = .error fault.undefined_shift)
    ∧ Cpe6.btrie_insert Cpe6.btrie_node_new demo_slash65 true
        = .error fault.undefined_shift := by
  constructor
  · intro pfx len
    rfl
  · rfl

/-- Where the class index of IPv6 is inside the 64-cell arrays: for a
record with a length in `[1, 64]` the record loop writes at `64 - netmask`,
which is at most 63, and a prefix `store_prefix` accepts with a length other
than 0 has a `bloom_filter_id` of at most 63. -/
theorem class_index_in_bounds :
    (∀ (sizing : Nat → Nat × Nat)
        (st : (Nat → Bool) × Nat × (Nat → Option counting_bloom_filter)) (netmask quantity : Nat),
        1 ≤ netmask → netmask ≤ 64 → 0 < quantity →
        64 - netmask ≤ 63
        ∧ ∃ st', V6.init_cbf_record sizing st (netmask, quantity) = .ok st'
          ∧ st'.1 = Function.update st.1 (64 - netmask) true)
    ∧ (∀ (p : V6.ipv6_prefix), V6.is_prefix_valid (some p) = true → p.len ≠ 0 →
        V6.bloom_filter_id p ≤ 63) := by
  constructor
  · intro sizing st netmask quantity h1 h64 hq
    refine ⟨by omega,
      (Function.update st.1 (64 - netmask) true, (st.2.1 + 1) % 256,
        Function.update st.2.2 (64 - netmask)
          (some (new_counting_bloom_filter quantity (sizing quantity).1 (sizing quantity).2))),
      ?_, rfl⟩
    unfold V6.init_cbf_record
    have hn : ¬ (netmask = 0 ∨ 64 < netmask) := by omega
    simp only [gt_iff_lt, hq, if_true, hn, if_false]
  · intro p hv h0
    unfold V6.bloom_filter_id
    omega

/-- C39 on the code: the record loop of `init_counting_bloom_filters_array`
does not test the length it reads.  For the record `0 5` the class index is
`64 - 0 = 64`, one past the 64-cell arrays, and for the record `128 5` it is
`64 - 128`, before them: the writes to `counting_bloom_filters[]` and
`has_prefix_length[]` are outside the arrays, and so `new_forwarding_table`
does not return a table. -/
theorem init_cbf_record_out_of_bounds :
    V6.init_counting_bloom_filters_array demo_sizing [(0, 5)] 0 (fun _ => 0) (fun _ => none)
        = .error fault.out_of_bounds
    ∧ V6.init_counting_bloom_filters_array demo_sizing [(128, 5)] 0 (fun _ => 0)
        (fun _ => none) = .error fault.out_of_bounds
    ∧ V6.new_forwarding_table demo_sizing [(64, 4), (0, 5)] 0 (fun _ => 0)
        = .error fault.out_of_bounds :=
  ⟨rfl, rfl, rfl⟩

namespace Cpe

theorem expandable_null (n : Nat) : expandable n .null := by
  cases n <;> exact True.intro

/-- The expansion leaves a subtrie without next hop above relative depth `n`
as it is. -/
theorem cpe_spec_id (n : Nat) :
    ∀ t : btrie_node, (∀ q, q.length < n → nhop_at t q = none) → cpe_spec n t = t := by
  induction n with
  | zero => intro t _; rfl
  | succ n ih =>
    intro t h
    cases t with
    | null => rfl
    | node hh x l r =>
      have hf : hh = false := by
        have := h [] (by simp)
        rw [nhop_at_nil] at this
        cases hh
        · rfl
        · simp at this
      subst hf
      have hl : cpe_spec n l = l := by
        apply ih
        intro q hq
        have := h (false :: q) (by simp; omega)
        rw [nhop_at_cons] at this
        exact this
      have hr : cpe_spec n r = r := by
        apply ih
        intro q hq
        have := h (true :: q) (by simp; omega)
        rw [nhop_at_cons] at this
        exact this
      show btrie_node.node false x (cpe_spec n l) (cpe_spec n r) = _
      rw [hl, hr]

/-- The expansion is idempotent. -/
theorem cpe_spec_idem (n : Nat) (t : btrie_node) : cpe_spec n (cpe_spec n t) = cpe_spec n t := by
  apply cpe_spec_id
  intro q hq
  rw [nhop_at_cpe_spec, if_neg (by omega), if_pos hq]

/-- A recursion of `btrie_perform_cpe` that returns stayed within an `int` in
every expansion loop. -/
theorem perform_cpe_ok_expandable (stride : Nat) (h32 : stride ≤ 32) (n : Nat) :
    n ≤ stride →
    ∀ (root : btrie_node) (b : List Bool) (pfx : Nat) (t t1 : btrie_node),
      b = bits pfx (stride - n) → pfx < 2 ^ (stride - n) → node_at root b = t → t ≠ .null →
      btrie_perform_cpe_at stride n root b pfx = .ok t1 → expandable n t := by
  induction n with
  | zero => intro _ root b pfx t t1 _ _ _ _ _; exact True.intro
  | succ n ih =>
    intro hn1 root b pfx t t1 hb hp hn ht hrun
    have ih1 := ih (by omega)
    have ihe := btrie_perform_cpe_at_eq stride h32 n (by omega)
    cases t with
    | null => exact absurd rfl ht
    | node h x l r =>
      have hroot : node_at root b ≠ .null := by rw [hn]; intro h; cases h
      have hlen : stride - n = (stride - (n + 1)) + 1 := by omega
      unfold btrie_perform_cpe_at at hrun
      simp only [hn] at hrun
      -- the left subtrie
      have hel : expandable n l := by
        cases hl : l with
        | null => exact expandable_null n
        | node h1 x1 l1 r1 =>
          rw [hl] at hrun
          simp only [is_null, Bool.not_false, if_true] at hrun
          cases hc : btrie_perform_cpe_at stride n root (b ++ [false]) ((pfx <<< 1) % U32) with
          | error e => rw [hc] at hrun; cases hrun
          | ok root1 =>
            have hs := bits_snoc pfx (stride - (n + 1)) false hp (by omega)
            simp only [Bool.false_eq_true, if_false, Nat.or_zero] at hs
            have hch := node_at_child root b h x l r hn false
            simp only [Bool.false_eq_true, if_false] at hch
            rw [← hl]
            exact ih1 root (b ++ [false]) ((pfx <<< 1) % U32) l root1
              (by rw [hlen, hs.1, hb]) (by rw [hlen]; exact hs.2) hch
              (by rw [hl]; intro h; cases h) hc
      have hL := perform_cpe_child stride n h32 hn1 ihe root b pfx h x l r hb hp hn false hel
      simp only [Bool.false_eq_true, if_false, Nat.or_zero] at hL
      rw [hL] at hrun
      simp only [node_at_subst root b _ hroot] at hrun
      have hn2 : node_at (subst_at root b (.node h x (cpe_spec n l) r)) b
          = .node h x (cpe_spec n l) r := node_at_subst root b _ hroot
      -- the right subtrie
      have her : expandable n r := by
        cases hr : r with
        | null => exact expandable_null n
        | node h1 x1 l1 r1 =>
          rw [hr] at hrun
          simp only [is_null, Bool.not_false, if_true] at hrun
          cases hc : btrie_perform_cpe_at stride n
              (subst_at root b (.node h x (cpe_spec n l) (.node h1 x1 l1 r1))) (b ++ [true])
              (((pfx <<< 1) % U32) ||| 1) with
          | error e => rw [hc] at hrun; cases hrun
          | ok root2 =>
            have hs := bits_snoc pfx (stride - (n + 1)) true hp (by omega)
            simp only [if_true] at hs
            rw [hr] at hn2
            have hch := node_at_child _ b h x (cpe_spec n l) (.node h1 x1 l1 r1) hn2 true
            simp only [if_true] at hch
            exact ih1 _ (b ++ [true]) (((pfx <<< 1) % U32) ||| 1) (.node h1 x1 l1 r1) root2
              (by rw [hlen, hs.1, hb]) (by rw [hlen]; exact hs.2) hch
              (by intro h; cases h) hc
      have hR := perform_cpe_child stride n h32 hn1 ihe _ b pfx h x (cpe_spec n l) r hb hp
        hn2 true her
      simp only [if_true] at hR
      rw [hR, subst_at_subst] at hrun
      simp only [node_at_subst root b _ hroot] at hrun
      refine ⟨?_, hel, her⟩
      intro hh
      subst hh
      simp only [if_true] at hrun
      have hk : stride - (stride - (n + 1)) = n + 1 := by omega
      rw [hk] at hrun
      unfold cpe_expand at hrun
      by_contra hgt
      rw [if_pos (by omega)] at hrun
      cases hrun

/-- Beyond the width of an address the expansion loop cannot insert: its
first insertion shifts a 32-bit word by 32 or more. -/
theorem cpe_expand_wide (root : btrie_node) (b : List Bool) (stride pfx k : Nat)
    (hs : 32 < stride) (t : btrie_node) : cpe_expand root b stride pfx k ≠ .ok t := by
  unfold cpe_expand
  by_cases hk : 31 ≤ k
  · rw [if_pos hk]
    intro h; cases h
  · rw [if_neg hk]
    obtain ⟨m, hm⟩ : ∃ m, 2 ^ k = m + 1 :=
      ⟨2 ^ k - 1, by have := Nat.two_pow_pos k; omega⟩
    rw [hm, List.range_succ_eq_map, List.foldlM_cons]
    have hstep : ∀ e : Except fault btrie_node,
        e = cpe_expand_step b stride pfx k root 0 → ∀ r, e ≠ .ok r := by
      intro e he r
      rw [he]
      unfold cpe_expand_step
      cases node_at root b with
      | null => intro h; cases h
      | node hh nhop l r1 =>
        dsimp only
        unfold btrie_insert
        rw [if_pos hs]
        intro h; cases h
    cases hc : cpe_expand_step b stride pfx k root 0 with
    | error e => intro h; cases h
    | ok r => exact absurd hc (hstep _ rfl r)

/-- A recursion of `btrie_perform_cpe` to a stride beyond 32 that returns
found no next hop above the stride and left the trie as it was. -/
theorem perform_cpe_wide (stride : Nat) (hs : 32 < stride) (n : Nat) :
    ∀ (root : btrie_node) (b : List Bool) (pfx : Nat) (t1 : btrie_node),
      btrie_perform_cpe_at stride n root b pfx = .ok t1 →
      t1 = root ∧ ∀ q, q.length < n → nhop_at (node_at root b) q = none := by
  induction n with
  | zero =>
    intro root b pfx t1 h
    cases h
    exact ⟨rfl, fun q hq => by omega⟩
  | succ n ih =>
    intro root b pfx t1 hrun
    unfold btrie_perform_cpe_at at hrun
    cases hn : node_at root b with
    | null => rw [hn] at hrun; cases hrun
    | node h x l r =>
      simp only [hn] at hrun
      -- the left subtrie
      have hL : (if !is_null l then btrie_perform_cpe_at stride n root (b ++ [false])
            ((pfx <<< 1) % U32) else .ok root) = .ok root
          ∧ ∀ q, q.length < n → nhop_at l q = none := by
        cases hl : l with
        | null => exact ⟨rfl, fun q _ => nhop_at_null q⟩
        | node h1 x1 l1 r1 =>
          rw [hl] at hrun hn
          simp only [is_null, Bool.not_false, if_true] at hrun ⊢
          cases hc : btrie_perform_cpe_at stride n root (b ++ [false]) ((pfx <<< 1) % U32) with
          | error e => rw [hc] at hrun; cases hrun
          | ok root1 =>
            obtain ⟨e1, e2⟩ := ih root (b ++ [false]) _ root1 hc
            have hch := node_at_child root b h x _ r hn false
            simp only [Bool.false_eq_true, if_false] at hch
            rw [hch] at e2
            exact ⟨by rw [e1], e2⟩
      rw [hL.1] at hrun
      simp only [hn] at hrun
      have hR : (if !is_null r then btrie_perform_cpe_at stride n root (b ++ [true])
            (((pfx <<< 1) % U32) ||| 1) else .ok root) = .ok root
          ∧ ∀ q, q.length < n → nhop_at r q = none := by
        cases hr : r with
        | null => exact ⟨rfl, fun q _ => nhop_at_null q⟩
        | node h1 x1 l1 r1 =>
          rw [hr] at hrun hn
          simp only [is_null, Bool.not_false, if_true] at hrun ⊢
          cases hc : btrie_perform_cpe_at stride n root (b ++ [true])
              (((pfx <<< 1) % U32) ||| 1) with
          | error e => rw [hc] at hrun; cases hrun
          | ok root2 =>
            obtain ⟨e1, e2⟩ := ih root (b ++ [true]) _ root2 hc
            have hch := node_at_child root b h x l _ hn true
            simp only [if_true] at hch
            rw [hch] at e2
            exact ⟨by rw [e1], e2⟩
      rw [hR.1] at hrun
      simp only [hn] at hrun
      cases h with
      | true =>
        simp only [if_true] at hrun
        cases hc : cpe_expand root b stride pfx (stride - (stride - (n + 1))) with
        | error e => rw [hc] at hrun; cases hrun
        | ok r3 => exact absurd hc (cpe_expand_wide root b stride pfx _ hs r3)
      | false =>
        simp only [Bool.false_eq_true, if_false] at hrun
        cases hrun
        refine ⟨rfl, ?_⟩
        intro q hq
        cases q with
        | nil => rfl
        | cons c q =>
          rw [nhop_at_cons]
          cases c
          · exact hL.2 q (by simpa using hq)
          · exact hR.2 q (by simpa using hq)

/-- What a call `btrie_perform_cpe(root, root, stride, 0, 0)` that returns
leaves: the expanded trie for a stride of at most 32, the trie as it was, with
no next hop above the stride, beyond. -/
theorem btrie_perform_cpe_ok (root : btrie_node) (stride : Nat) (t1 : btrie_node)
    (h : btrie_perform_cpe root [] stride 0 0 = .ok t1) :
    t1 = cpe_spec stride root ∧ (0 < stride → root ≠ .null)
    ∧ (stride ≤ 32 → expandable stride root) := by
  have hnull : 0 < stride → root ≠ .null := by
    intro hs hr
    subst hr
    unfold btrie_perform_cpe at h
    obtain ⟨m, hm⟩ : ∃ m, stride - 0 = m + 1 := ⟨stride - 1, by omega⟩
    rw [hm] at h
    unfold btrie_perform_cpe_at at h
    cases h
  by_cases hz : stride = 0
  · subst hz
    cases h
    exact ⟨rfl, fun h => by omega, fun _ => True.intro⟩
  have hr := hnull (by omega)
  by_cases h32 : stride ≤ 32
  · have he : expandable stride root := by
      unfold btrie_perform_cpe at h
      rw [Nat.sub_zero] at h
      exact perform_cpe_ok_expandable stride h32 stride (Nat.le_refl _) root [] 0 root t1
        (by rw [Nat.sub_self]; rfl) (Nat.pow_pos (by decide)) (node_at_nil root) hr h
    rw [btrie_perform_cpe_eq root stride h32 hr he] at h
    cases h
    exact ⟨rfl, hnull, fun _ => he⟩
  · unfold btrie_perform_cpe at h
    obtain ⟨e1, e2⟩ := perform_cpe_wide stride (by omega) _ root [] 0 t1 h
    rw [Nat.sub_zero, node_at_nil] at e2
    rw [e1, cpe_spec_id stride root e2]
    exact ⟨rfl, hnull, fun hh => absurd hh h32⟩

end Cpe

/-- Whenever a run of `btrie_perform_cpe(root, root, T, 0, 0)` returns, on any
trie and for any stride, a second run on the trie it left returns and leaves
that trie as it was. -/
theorem perform_cpe_twice (root : Cpe.btrie_node) (T : Nat) (t1 : Cpe.btrie_node)
    (h : Cpe.btrie_perform_cpe root [] T 0 0 = .ok t1) :
    Cpe.btrie_perform_cpe t1 [] T 0 0 = .ok t1 := by
  obtain ⟨e1, hnull, hexp⟩ := Cpe.btrie_perform_cpe_ok root T t1 h
  by_cases h32 : T ≤ 32
  · by_cases hz : T = 0
    · subst hz
      rfl
    · have hr := hnull (by omega)
      have hne : t1 ≠ .null := by rw [e1]; exact Cpe.cpe_spec_ne_null T root hr
      have he : Cpe.expandable T t1 := by
        apply Cpe.expandable_of_depth
        intro q hq
        rw [e1, Cpe.nhop_at_cpe_spec] at hq
        by_cases hl : q.length = T
        · omega
        · rw [if_neg hl] at hq
          by_cases hlt : q.length < T
          · rw [if_pos hlt] at hq; exact absurd rfl hq
          · omega
      rw [Cpe.btrie_perform_cpe_eq t1 T h32 hne he, e1, Cpe.cpe_spec_idem]
  · have hs : 32 < T := by omega
    have h' := h
    unfold Cpe.btrie_perform_cpe at h'
    obtain ⟨e2, _⟩ := Cpe.perform_cpe_wide T hs _ root [] 0 t1 h'
    rw [e2]
    rw [e2] at h
    exact h

namespace Cpe

/-- Whenever `btrie_perform_cpe(root, root, stride, 0, 0)` returns, no node
above the stride carries a next hop. -/
theorem btrie_perform_cpe_shape (root : btrie_node) (stride : Nat) (t1 : btrie_node)
    (h : btrie_perform_cpe root [] stride 0 0 = .ok t1) :
    ∀ q, q.length < stride → nhop_at t1 q = none := by
  intro q hq
  obtain ⟨e1, _, _⟩ := btrie_perform_cpe_ok root stride t1 h
  rw [e1, nhop_at_cpe_spec, if_neg (by omega), if_pos hq]

end Cpe

/-- C34, for a stride of at most 32 and prefixes at most 30 bits shorter than
the stride: the trie is built from prefixes with lengths in `[1, T]`,
`btrie_perform_cpe(root, root, T, 0, 0)` returns, and after it no node at depth
less than `T` carries a next hop and every next hop sits at depth `T`; so
every record `btrie_print` writes has length `T`, and `dla_create` returns a
table whose every filled slot holds the next hop of the depth-`T` node its
index spells. -/
theorem cpe_output_shape (ps : List (Cpe.prefix_rec × Bool)) (T : Nat) (hT : T ≤ 32)
    (hp : ∀ p ∈ ps, 1 ≤ p.1.len ∧ p.1.len ≤ T ∧ T ≤ p.1.len + 30) :
    ∃ root t1, Cpe.build ps = .ok root
      ∧ Cpe.btrie_perform_cpe root [] T 0 0 = .ok t1
      ∧ (∀ q, q.length < T → Cpe.nhop_at t1 q = none)
      ∧ (∀ q, Cpe.nhop_at t1 q ≠ none → q.length = T)
      ∧ (∀ rec ∈ Cpe.btrie_print t1 0 0, rec.mask = T)
      ∧ ∃ dla, Cpe.dla_create t1 T = .ok dla
          ∧ ∀ j, j < 2 ^ T → dla j ≠ 0 → Cpe.nhop_at t1 (Cpe.bits j T) = some (dla j) := by
  obtain ⟨root, h1, h2, h3⟩ := Cpe.build_spec ps (fun p h => by have := hp p h; omega)
  have hd : Cpe.depth_in 1 T root := by
    intro q hq
    obtain ⟨p, hpm, e⟩ := h3 q hq
    rw [e, Cpe.bits_length]
    have := hp p hpm
    omega
  have he : Cpe.expandable T root := by
    apply Cpe.expandable_of_depth
    intro q hq
    obtain ⟨p, hpm, e⟩ := h3 q hq
    rw [e, Cpe.bits_length]
    exact (hp p hpm).2.2
  have hlev := Cpe.cpe_spec_leveled 1 T root hd
  have hne := Cpe.cpe_spec_ne_null T root h2
  obtain ⟨dla, hd1, hd2⟩ := Cpe.dla_create_spec (Cpe.cpe_spec T root) T hne hlev hT
  refine ⟨root, _, h1, Cpe.btrie_perform_cpe_eq root T hT h2 he, ?_, hlev, ?_, dla, hd1, ?_⟩
  · intro q hq
    rw [Cpe.nhop_at_cpe_spec, if_neg (by omega), if_pos hq]
  · intro rec hrec
    obtain ⟨j, nh, _, _, e⟩ := (Cpe.mem_btrie_print T hT T (Cpe.cpe_spec T root) 0 0
      (Nat.zero_add T) (by decide) hlev rec).mp hrec
    rw [e]
    show T % 256 = T
    omega
  · intro j hj hnz
    rw [hd2 j hj] at hnz ⊢
    cases hc : Cpe.nhop_at (Cpe.cpe_spec T root) (Cpe.bits j T) with
    | none => rw [hc] at hnz; exact absurd rfl hnz
    | some v => rfl

/-- The claim of C34 as stated fails at stride 32 for the trie holding `1/1`:
its depth-1 node carries a next hop, and the call, whose expansion loop would
need 2^31 iterations of an `int` counter, reaches no state after it. -/
theorem cpe_output_shape_counterexample :
    Cpe.build [({ pfx := 1, len := 1, nhop := 7 }, true)] = .ok demo_top
      ∧ Cpe.nhop_at demo_top [true] = some 7
      ∧ ¬ ∃ t1, Cpe.btrie_perform_cpe demo_top [] 32 0 0 = .ok t1
          ∧ ∀ q, q.length < 32 → Cpe.nhop_at t1 q = none :=
  ⟨rfl, rfl, fun ⟨_, h, _⟩ => by
    have e : Cpe.btrie_perform_cpe demo_top [] 32 0 0 = .error fault.int_overflow := rfl
    rw [e] at h
    cases h⟩

/-- C34 on `10.0.0.0/8` and `10.1.0.0/16` at stride 20. -/
theorem cpe_output_shape_witness :
    (20 : Nat) ≤ 32 ∧ (∀ p ∈ demo_ps, 1 ≤ p.1.len ∧ p.1.len ≤ 20 ∧ 20 ≤ p.1.len + 30)
    ∧ ∃ root t1, Cpe.build demo_ps = .ok root
      ∧ Cpe.btrie_perform_cpe root [] 20 0 0 = .ok t1
      ∧ (∀ q, q.length < 20 → Cpe.nhop_at t1 q = none)
      ∧ (∀ q, Cpe.nhop_at t1 q ≠ none → q.length = 20)
      ∧ (∀ rec ∈ Cpe.btrie_print t1 0 0, rec.mask = 20)
      ∧ ∃ dla, Cpe.dla_create t1 20 = .ok dla
          ∧ ∀ j, j < 2 ^ 20 → dla j ≠ 0 → Cpe.nhop_at t1 (Cpe.bits j 20) = some (dla j) :=
  ⟨by decide, by decide, cpe_output_shape demo_ps 20 (by decide) (by decide)⟩

theorem gen_store_val_at (H : Nat → Nat) (idxs : Nat → Nat → Nat → Nat)
    (t : forwarding_table) (p : ipv4_prefix) (r : Bool × forwarding_table)
    (h : gen_store H idxs t (some p) = .ok r) :
    val_at H r.2 = slot_write (val_at H t) p := by
  funext s
  obtain ⟨a, b⟩ := s
  obtain ⟨p', hp, _, hc⟩ := gen_store_ok H idxs t (some p) r h
  cases hp
  unfold slot_write slot_of
  rcases hc with ⟨h0, hr⟩ | ⟨h20, hr⟩ | ⟨h0, h20, bf, ht, hbf, hht, hr⟩
  · obtain ⟨e1, _, e3, e4⟩ := set_default_route_fields t p.next_hop
    rw [if_pos h0]
    unfold val_at
    rw [hr, e1, e3, e4]
    by_cases hs : (a, b) = (0, 0)
    · rw [if_pos hs, if_pos hs]
    · rw [if_neg hs, if_neg hs, if_neg hs]
  · rw [if_neg (show ¬ p.netmask = 0 by omega), if_pos h20, hr, h20]
    unfold val_at
    dsimp only
    by_cases hs : (a, b) = (0, 0)
    · rw [if_pos hs, if_pos hs, if_neg]
      intro e
      have e1 := (Prod.mk.inj (hs.symm.trans e)).1
      omega
    · rw [if_neg hs, if_neg hs]
      by_cases ha : a = 1
      · subst ha
        simp only [if_true, Prod.mk.injEq, true_and]
        by_cases hb : b = p.key >>> 12
        · subst hb; simp
        · simp [hb]
      · have : ¬ (a, b) = (1, p.key >>> (32 - 20)) := by
          intro e; exact ha (Prod.mk.inj e).1
        rw [if_neg this, if_neg ha, if_neg ha]
  · rw [if_neg h0, if_neg h20, hr]
    unfold val_at
    dsimp only
    have hid : bloom_filter_id p = 0 ∨ bloom_filter_id p = 1 := bloom_filter_id_lt p
    by_cases hs : (a, b) = (0, 0)
    · rw [if_pos hs, if_pos hs, if_neg]
      intro e
      have e1 := (Prod.mk.inj (hs.symm.trans e)).1
      omega
    · rw [if_neg hs, if_neg hs]
      by_cases ha1 : a = 1
      · subst ha1
        rw [if_pos rfl, if_pos rfl, if_neg]
        intro e
        have := (Prod.mk.inj e).1
        omega
      · rw [if_neg ha1, if_neg ha1]
        rcases hid with hid | hid
        · rw [hid] at hht ⊢
          by_cases ha2 : a = 2
          · subst ha2
            simp only [if_true, Function.update_same, Option.some_bind, Prod.mk.injEq, true_and,
              hht]
            rw [ht_get_store]
          · have : ¬ (a, b) = (2 + 0, p.key) := by
              intro e; exact ha2 (Prod.mk.inj e).1
            rw [if_neg ha2, if_neg ha2, if_neg this]
            simp
        · rw [hid] at hht ⊢
          by_cases ha2 : a = 2
          · subst ha2
            have : ¬ ((2 : Nat), b) = (2 + 1, p.key) := by
              intro e; have := (Prod.mk.inj e).1; omega
            rw [if_pos rfl, if_pos rfl, if_neg this]
            simp
          · rw [if_neg ha2, if_neg ha2]
            by_cases ha3 : a = 3
            · subst ha3
              simp only [if_true, Function.update_same, Option.some_bind, Prod.mk.injEq,
                true_and, hht]
              rw [ht_get_store]
            · have : ¬ (a, b) = (2 + 1, p.key) := by
                intro e; exact ha3 (Prod.mk.inj e).1
              rw [if_neg ha3, if_neg ha3, if_neg this]

theorem gen_store_all_val_at (H : Nat → Nat) (idxs : Nat → Nat → Nat → Nat)
    (ps : List ipv4_prefix) :
    ∀ (t t' : forwarding_table), gen_store_all H idxs t (ps.map some) = .ok t' →
      val_at H t' = ps.foldl slot_write (val_at H t) := by
  induction ps with
  | nil =>
    intro t t' h
    cases h
    rfl
  | cons p rest ih =>
    intro t t' h
    rw [List.map_cons, gen_store_all_cons] at h
    cases hs : gen_store H idxs t (some p) with
    | error e => rw [hs] at h; cases h
    | ok r =>
      rw [hs] at h
      rw [List.foldl_cons, ← gen_store_val_at H idxs t p r hs]
      exact ih r.2 t' h

theorem slot_write_comm (v : Nat × Nat → Option Nat) (p q : ipv4_prefix)
    (h : slot_of p = slot_of q → p = q) :
    slot_write (slot_write v p) q = slot_write (slot_write v q) p := by
  funext s
  unfold slot_write
  by_cases hq : s = slot_of q
  · by_cases hp : s = slot_of p
    · have := h (hp.symm.trans hq)
      subst this
      rfl
    · rw [if_pos hq, if_neg hp, if_pos hq]
  · by_cases hp : s = slot_of p
    · rw [if_neg hq, if_pos hp, if_pos hp]
    · rw [if_neg hq, if_neg hp, if_neg hp, if_neg hq]

theorem slot_write_perm (ps qs : List ipv4_prefix) (hn : (ps.map slot_of).Nodup)
    (hperm : ps.Perm qs) (v : Nat × Nat → Option Nat) :
    ps.foldl slot_write v = qs.foldl slot_write v := by
  apply List.Perm.foldl_eq' hperm
  intro x hx y hy z
  exact slot_write_comm z x y (fun e => List.inj_on_of_nodup_map hn hx hy e)

theorem cascade_val_at (H : Nat → Nat) (t1 t2 : forwarding_table)
    (ht0 ht1 ht0' ht1' : hash_table Nat)
    (h0 : t1.hash_tables 0 = some ht0) (h1 : t1.hash_tables 1 = some ht1)
    (h0' : t2.hash_tables 0 = some ht0') (h1' : t2.hash_tables 1 = some ht1')
    (hv : val_at H t1 = val_at H t2) (a : Nat) :
    cascade (ht_get H ht0) (ht_get H ht1) t1 a
      = cascade (ht_get H ht0') (ht_get H ht1') t2 a := by
  have e0 : ∀ k, ht_get H ht0 k = ht_get H ht0' k := by
    intro k
    have := congrFun hv (2, k)
    simpa [val_at, h0, h0'] using this
  have e1 : ∀ k, ht_get H ht1 k = ht_get H ht1' k := by
    intro k
    have := congrFun hv (3, k)
    simpa [val_at, h1, h1'] using this
  have e2 : ∀ i, t1.dla i = t2.dla i := by
    intro i
    have := congrFun hv (1, i)
    simpa [val_at] using this
  have e3 : t1.default_route.map (fun d => d.next_hop)
      = t2.default_route.map (fun d => d.next_hop) := by
    have := congrFun hv (0, 0)
    unfold val_at at this
    rw [if_pos rfl, if_pos rfl] at this
    exact this
  unfold cascade
  rw [e0, e1, e2]
  cases hd1 : t1.default_route with
  | none =>
    cases hd2 : t2.default_route with
    | none => rfl
    | some d2 => rw [hd1, hd2] at e3; cases e3
  | some d1 =>
    cases hd2 : t2.default_route with
    | none => rw [hd1, hd2] at e3; cases e3
    | some d2 =>
      rw [hd1, hd2] at e3
      have e5 : d1.next_hop = d2.next_hop := Option.some.inj e3
      simp only [e5]

/-- Two builds over `gen_store` from a fresh table, of a list of valid
prefixes with pairwise different slots and of a permutation of it, both
return, and every lookup returns the same result on the two tables. -/
theorem gen_build_order (H : Nat → Nat) (idxs : Nat → Nat → Nat → Nat)
    (P : counting_bloom_filter → Nat → Bool) (hP : probe_sound idxs P)
    (sizing : Nat → Nat × Nat) (dist : List (Nat × Nat)) (hw : well_sized sizing dist)
    (ps qs : List ipv4_prefix) (hv : ∀ p ∈ ps, p.netmask ≤ 32)
    (hn : (ps.map slot_of).Nodup) (hperm : ps.Perm qs) :
    ∃ t1 t2, gen_store_all H idxs (new_forwarding_table sizing dist) (ps.map some) = .ok t1
      ∧ gen_store_all H idxs (new_forwarding_table sizing dist) (qs.map some) = .ok t2
      ∧ ∀ a nh0, ∃ res, gen_lookup H P t1 a nh0 = .ok res
          ∧ gen_lookup H P t2 a nh0 = .ok res := by
  obtain ⟨hall, hbl, _, _, _⟩ := new_forwarding_table_inv H P sizing dist hw
  obtain ⟨t1, hb1, _⟩ := gen_store_all_returns H idxs ps hv _ hall
  obtain ⟨t2, hb2, _⟩ := gen_store_all_returns H idxs qs
    (fun p hp => hv p (hperm.symm.subset hp)) _ hall
  obtain ⟨ha1, hk1⟩ := gen_store_all_inv H idxs P hP _ _ t1 hall hbl hb1
  obtain ⟨ha2, hk2⟩ := gen_store_all_inv H idxs P hP _ _ t2 hall hbl hb2
  have hval : val_at H t1 = val_at H t2 := by
    rw [gen_store_all_val_at H idxs ps _ t1 hb1, gen_store_all_val_at H idxs qs _ t2 hb2]
    exact slot_write_perm ps qs hn hperm _
  refine ⟨t1, t2, hb1, hb2, ?_⟩
  intro a nh0
  obtain ⟨ht0, ht1, h0, h1, e1⟩ := gen_lookup_eq H P t1 a nh0 ha1 hk1
  obtain ⟨ht0', ht1', h0', h1', e2⟩ := gen_lookup_eq H P t2 a nh0 ha2 hk2
  refine ⟨_, e1, ?_⟩
  rw [e2, cascade_val_at H t1 t2 ht0 ht1 ht0' ht1' h0 h1 h0' h1' hval a]

/-- Canonical prefixes of the lengths the IPv4 table expects (0, 20, 24, 32)
that are stored in the same slot have the same key and length. -/
theorem slot_of_expected (p q : ipv4_prefix) (hp : canonical p) (hq : canonical q)
    (hlp : p.netmask = 0 ∨ p.netmask = 20 ∨ p.netmask = 24 ∨ p.netmask = 32)
    (hlq : q.netmask = 0 ∨ q.netmask = 20 ∨ q.netmask = 24 ∨ q.netmask = 32)
    (h : slot_of p = slot_of q) : p.key = q.key ∧ p.netmask = q.netmask := by
  obtain ⟨hp1, hp2⟩ := hp
  obtain ⟨hq1, hq2⟩ := hq
  unfold slot_of bloom_filter_id at h
  rcases hlp with h1 | h1 | h1 | h1 <;> rcases hlq with h2 | h2 | h2 | h2 <;>
    rw [h1] at hp2 <;> rw [h2] at hq2 <;>
    simp only [h1, h2, if_true, if_false, Nat.reduceEqDiff, Prod.mk.injEq, Nat.reduceAdd,
      OfNat.ofNat_ne_zero, OfNat.zero_ne_ofNat, true_and, false_and, and_false,
      Nat.reduceSub, Nat.succ_ne_self, Nat.reduceEqDiff] at h <;>
    first
      | exact absurd h (by decide)
      | (refine ⟨?_, by omega⟩
         first
           | exact h.2
           | exact h
           | (rw [Nat.shiftRight_eq_div_pow, Nat.shiftRight_eq_div_pow] at h
              have := Nat.div_add_mod p.key (2 ^ 12)
              have := Nat.div_add_mod q.key (2 ^ 12)
              simp only [Nat.reduceSub] at hp2 hq2
              omega)
           | (simp only [Nat.reduceSub, Nat.reducePow] at hp2 hq2
              unfold U32 at hp1 hq1
              omega))

/-- C37, as the code has it: for every list of valid prefixes no two of which
are stored in the same slot of the table (the default route for length 0, the
DLA cell `key >> 12` for length 20, hash table 0 under the key for length 32,
hash table 1 under the key for every other length) and every permutation of
the list, the builds from a fresh table in the two orders both return, and
`lookup_address` returns the same found flag and next hop on the two tables
for every address; in v4-coop under every hash configuration and in the
baseline. -/
theorem build_order_independence (sizing : Nat → Nat × Nat) (dist : List (Nat × Nat))
    (ps qs : List ipv4_prefix) (hw : well_sized sizing dist)
    (hv : ∀ p ∈ ps, p.netmask ≤ 32) (hn : (ps.map slot_of).Nodup) (hperm : ps.Perm qs) :
    (∀ cfg, ∃ t1 t2,
        V4coop.store_prefixes cfg (new_forwarding_table sizing dist) (ps.map some) = .ok t1
        ∧ V4coop.store_prefixes cfg (new_forwarding_table sizing dist) (qs.map some) = .ok t2
        ∧ ∀ a nh0, ∃ res, V4coop.lookup_address cfg t1 a nh0 = .ok res
            ∧ V4coop.lookup_address cfg t2 a nh0 = .ok res)
    ∧ (∀ rand_r, ∃ t1 t2,
        Baseline.store_prefixes rand_r (new_forwarding_table sizing dist) (ps.map some) = .ok t1
        ∧ Baseline.store_prefixes rand_r (new_forwarding_table sizing dist) (qs.map some)
            = .ok t2
        ∧ ∀ a nh0, ∃ res, Baseline.lookup_address rand_r t1 a nh0 = .ok res
            ∧ Baseline.lookup_address rand_r t2 a nh0 = .ok res) := by
  constructor
  · intro cfg
    obtain ⟨t1, t2, h1, h2, h3⟩ := gen_build_order _ _ _ (V4coop.probe_sound_coop cfg)
      sizing dist hw ps qs hv hn hperm
    refine ⟨t1, t2, ?_, ?_, ?_⟩
    · rw [V4coop.store_prefixes_eq_gen]; exact h1
    · rw [V4coop.store_prefixes_eq_gen]; exact h2
    · intro a nh0
      obtain ⟨res, e1, e2⟩ := h3 a nh0
      exact ⟨res, by rw [V4coop.lookup_address_eq_gen]; exact e1,
        by rw [V4coop.lookup_address_eq_gen]; exact e2⟩
  · intro rand_r
    obtain ⟨t1, t2, h1, h2, h3⟩ := gen_build_order _ _ _ (Baseline.probe_sound_baseline rand_r)
      sizing dist hw ps qs hv hn hperm
    refine ⟨t1, t2, ?_, ?_, ?_⟩
    · rw [Baseline.bl_store_prefixes_eq_gen]; exact h1
    · rw [Baseline.bl_store_prefixes_eq_gen]; exact h2
    · intro a nh0
      obtain ⟨res, e1, e2⟩ := h3 a nh0
      exact ⟨res, by rw [Baseline.bl_lookup_address_eq_gen]; exact e1,
        by rw [Baseline.bl_lookup_address_eq_gen]; exact e2⟩


set_option maxRecDepth 100000 in
/-- The claim of C37 as stated fails for `10.0.0.0/24 -> 1` and
`10.0.0.0/16 -> 2`, which differ in length: both are stored in hash table 1
under the key `10.0.0.0`, and the lookup of `10.0.0.5` returns the next hop of
whichever was stored last. -/
theorem build_order_independence_counterexample :
    (demo_pair.map (fun p => (p.key, p.netmask))).Nodup
    ∧ demo_pair.Perm demo_pair.reverse
    ∧ V4coop.store_prefixes demo_cfg (new_forwarding_table demo_sizing demo_dist)
        (demo_pair.map some) = .ok demo_pair_table
    ∧ V4coop.store_prefixes demo_cfg (new_forwarding_table demo_sizing demo_dist)
        (demo_pair.reverse.map some) = .ok demo_pair_table_rev
    ∧ V4coop.lookup_address demo_cfg demo_pair_table 0x0A000005 0 = .ok (true, 2)
    ∧ V4coop.lookup_address demo_cfg demo_pair_table_rev 0x0A000005 0 = .ok (true, 1) :=
  ⟨by decide, (List.reverse_perm _).symm, rfl, rfl, rfl, rfl⟩

set_option maxRecDepth 100000 in
/-- C37 on `192.168.1.0/32`, `192.168.1.0/24`, `10.0.0.0/20` and `0.0.0.0/0`
and their reverse order. -/
theorem build_order_independence_witness :
    well_sized demo_sizing demo_dist ∧ (∀ p ∈ demo_prefixes, p.netmask ≤ 32)
    ∧ (demo_prefixes.map slot_of).Nodup ∧ demo_prefixes.Perm demo_prefixes.reverse
    ∧ (∀ cfg, ∃ t1 t2,
        V4coop.store_prefixes cfg (new_forwarding_table demo_sizing demo_dist)
          (demo_prefixes.map some) = .ok t1
        ∧ V4coop.store_prefixes cfg (new_forwarding_table demo_sizing demo_dist)
          (demo_prefixes.reverse.map some) = .ok t2
        ∧ ∀ a nh0, ∃ res, V4coop.lookup_address cfg t1 a nh0 = .ok res
            ∧ V4coop.lookup_address cfg t2 a nh0 = .ok res)
    ∧ (∀ rand_r, ∃ t1 t2,
        Baseline.store_prefixes rand_r (new_forwarding_table demo_sizing demo_dist)
          (demo_prefixes.map some) = .ok t1
        ∧ Baseline.store_prefixes rand_r (new_forwarding_table demo_sizing demo_dist)
          (demo_prefixes.reverse.map some) = .ok t2
        ∧ ∀ a nh0, ∃ res, Baseline.lookup_address rand_r t1 a nh0 = .ok res
            ∧ Baseline.lookup_address rand_r t2 a nh0 = .ok res) :=
  ⟨demo_well_sized, by decide, by decide, (List.reverse_perm _).symm,
    build_order_independence demo_sizing demo_dist demo_prefixes demo_prefixes.reverse
      demo_well_sized (by decide) (by decide) (List.reverse_perm _).symm⟩

/-- What one store does to the counters of every filter of the table: in the
filter of the prefix's class each counter moves by the number of derived
indices that select its cell, modulo 256; every other counter stays. -/
theorem gen_store_counters_all (H : Nat → Nat) (idxs : Nat → Nat → Nat → Nat)
    (t : forwarding_table) (p : ipv4_prefix) (r : Bool × forwarding_table)
    (h : gen_store H idxs t (some p) = .ok r) (id : Nat) (bf : counting_bloom_filter)
    (hbf : t.counting_bloom_filters id = some bf) (hc : ∀ y, bf.counters y < 256) :
    ∃ bf', r.2.counting_bloom_filters id = some bf'
      ∧ ∀ x, bf'.counters x
          = if p.netmask ≠ 0 ∧ p.netmask ≠ 20 ∧ id = bloom_filter_id p
            then (bf.counters x + cell_hits bf (idxs p.key bf.num_hashes) x) % 256
            else bf.counters x := by
  obtain ⟨p', hp, _, hcase⟩ := gen_store_ok H idxs t (some p) r h
  cases hp
  rcases hcase with ⟨h0, hr⟩ | ⟨h20, hr⟩ | ⟨h0, h20, bf1, ht, hbf1, hht, hr⟩
  · obtain ⟨_, e2, _, _⟩ := set_default_route_fields t p.next_hop
    refine ⟨bf, by rw [hr, e2]; exact hbf, ?_⟩
    intro x
    rw [if_neg (fun hh => hh.1 h0)]
  · refine ⟨bf, by rw [hr]; exact hbf, ?_⟩
    intro x
    rw [if_neg (fun hh => hh.2.1 h20)]
  · by_cases hid : id = bloom_filter_id p
    · subst hid
      have eb : bf1 = bf := Option.some.inj (hbf1.symm.trans hbf)
      subst eb
      refine ⟨cbf_mark bf1 (idxs p.key bf1.num_hashes), ?_, ?_⟩
      · rw [hr]
        dsimp only
        rw [Function.update_same]
      · intro x
        rw [if_pos ⟨h0, h20, rfl⟩]
        exact cbf_mark_counters bf1 _ hc x
    · refine ⟨bf, ?_, ?_⟩
      · rw [hr]
        dsimp only
        rw [Function.update_noteq hid]
        exact hbf
      · intro x
        rw [if_neg (fun hh => hid hh.2.2)]

/-- The counters after one IPv6 store, for every filter of the table. -/
theorem V6.store_prefix_counters_all (t : V6.forwarding_table) (p : V6.ipv6_prefix)
    (r : Bool × V6.forwarding_table) (h : V6.store_prefix t (some p) = .ok r) (id : Nat)
    (bf : counting_bloom_filter) (hbf : t.counting_bloom_filters id = some bf)
    (hc : ∀ y, bf.counters y < 256) :
    ∃ bf', r.2.counting_bloom_filters id = some bf'
      ∧ ∀ x, bf'.counters x
          = if p.len ≠ 0 ∧ id = V6.bloom_filter_id p
            then (bf.counters x
              + cell_hits bf (hashes murmurhash3_64_32 murmurhash3_32 p.key bf.num_hashes
                  (fun _ => 0)) x) % 256
            else bf.counters x := by
  obtain ⟨p', hp, _, hcase⟩ := V6.store_prefix_ok t (some p) r h
  cases hp
  rcases hcase with ⟨h0, hr⟩ | ⟨h0, bf1, ht, hbf1, hht, hr⟩
  · refine ⟨bf, ?_, ?_⟩
    · rw [hr, (V6.set_default_route6_fields t p.next_hop).1]
      exact hbf
    · intro x
      rw [if_neg (fun hh => hh.1 h0)]
  · by_cases hid : id = V6.bloom_filter_id p
    · subst hid
      have eb : bf1 = bf := Option.some.inj (hbf1.symm.trans hbf)
      subst eb
      refine ⟨cbf_mark bf1 (hashes murmurhash3_64_32 murmurhash3_32 p.key bf1.num_hashes
        (fun _ => 0)), ?_, ?_⟩
      · rw [hr]
        dsimp only
        rw [Function.update_same]
      · intro x
        rw [if_pos ⟨h0, rfl⟩]
        exact cbf_mark_counters bf1 _ hc x
    · refine ⟨bf, ?_, ?_⟩
      · rw [hr]
        dsimp only
        rw [Function.update_noteq hid]
        exact hbf
      · intro x
        rw [if_neg (fun hh => hid hh.2)]

/-- C17 (amended): build idempotence under duplicates, counters apart.  In
v4-coop (under every hash configuration) and in v6, for every table and every
prefix whose `store_prefix` returns, a second `store_prefix` of the same
prefix returns too and leaves the default route, the DLA, the hash tables,
and the bitmap, bitmap length, hash count and capacity of every filter (for
v6 also the class flags and identifiers) equal to what the first call left.
The counters are not left equal: each call adds to every counter of the
filter of the prefix's class, modulo 256, the number of the key's derived
indices that select its cell, and leaves the counters of every other filter
(and all counters, for a length-0 prefix and an IPv4 length-20 prefix) as
they were; this is stated for the second call against the state the first
left, and for any single call. -/
theorem store_twice_same_state :
    (∀ (cfg : V4coop.config) (t : forwarding_table) (p : ipv4_prefix)
        (r1 : Bool × forwarding_table),
        V4coop.store_prefix cfg t (some p) = .ok r1 →
        ∃ r2, V4coop.store_prefix cfg r1.2 (some p) = .ok r2
          ∧ r2.2.default_route = r1.2.default_route ∧ r2.2.dla = r1.2.dla
          ∧ r2.2.hash_tables = r1.2.hash_tables
          ∧ (∀ id, (r2.2.counting_bloom_filters id).map
                (fun bf => (bf.bitmap, bf.bitmap_len, bf.num_hashes, bf.capacity))
              = (r1.2.counting_bloom_filters id).map
                (fun bf => (bf.bitmap, bf.bitmap_len, bf.num_hashes, bf.capacity)))
          ∧ ∀ id bf1, r1.2.counting_bloom_filters id = some bf1 →
              (∀ y, bf1.counters y < 256) →
              ∃ bf2, r2.2.counting_bloom_filters id = some bf2
                ∧ ∀ x, bf2.counters x
                    = if p.netmask ≠ 0 ∧ p.netmask ≠ 20 ∧ id = bloom_filter_id p
                      then (bf1.counters x
                        + cell_hits bf1 (hashes (V4coop.BLOOM_HASH_FUNCTION cfg)
                            (V4coop.BLOOM_HASH_FUNCTION cfg) p.key bf1.num_hashes
                            (fun _ => 0)) x) % 256
                      else bf1.counters x)
    ∧ (∀ (t : V6.forwarding_table) (p : V6.ipv6_prefix) (r1 : Bool × V6.forwarding_table),
        V6.store_prefix t (some p) = .ok r1 →
        ∃ r2, V6.store_prefix r1.2 (some p) = .ok r2
          ∧ r2.2.default_route = r1.2.default_route
          ∧ r2.2.hash_tables = r1.2.hash_tables
          ∧ r2.2.has_prefix_length = r1.2.has_prefix_length
          ∧ r2.2.distinct_lengths = r1.2.distinct_lengths
          ∧ r2.2.bf_ids = r1.2.bf_ids
          ∧ (∀ id, (r2.2.counting_bloom_filters id).map
                (fun bf => (bf.bitmap, bf.bitmap_len, bf.num_hashes, bf.capacity))
              = (r1.2.counting_bloom_filters id).map
                (fun bf => (bf.bitmap, bf.bitmap_len, bf.num_hashes, bf.capacity)))
          ∧ ∀ id bf1, r1.2.counting_bloom_filters id = some bf1 →
              (∀ y, bf1.counters y < 256) →
              ∃ bf2, r2.2.counting_bloom_filters id = some bf2
                ∧ ∀ x, bf2.counters x
                    = if p.len ≠ 0 ∧ id = V6.bloom_filter_id p
                      then (bf1.counters x
                        + cell_hits bf1 (hashes murmurhash3_64_32 murmurhash3_32 p.key
                            bf1.num_hashes (fun _ => 0)) x) % 256
                      else bf1.counters x)
    ∧ (∀ (cfg : V4coop.config) (t : forwarding_table) (p : ipv4_prefix)
        (r : Bool × forwarding_table) (id : Nat) (bf : counting_bloom_filter),
        V4coop.store_prefix cfg t (some p) = .ok r →
        t.counting_bloom_filters id = some bf → (∀ y, bf.counters y < 256) →
        ∃ bf', r.2.counting_bloom_filters id = some bf'
          ∧ ∀ x, bf'.counters x
              = if p.netmask ≠ 0 ∧ p.netmask ≠ 20 ∧ id = bloom_filter_id p
                then (bf.counters x
                  + cell_hits bf (hashes (V4coop.BLOOM_HASH_FUNCTION cfg)
                      (V4coop.BLOOM_HASH_FUNCTION cfg) p.key bf.num_hashes
                      (fun _ => 0)) x) % 256
                else bf.counters x)
    ∧ (∀ (t : V6.forwarding_table) (p : V6.ipv6_prefix) (r : Bool × V6.forwarding_table)
        (id : Nat) (bf : counting_bloom_filter),
        V6.store_prefix t (some p) = .ok r →
        t.counting_bloom_filters id = some bf → (∀ y, bf.counters y < 256) →
        ∃ bf', r.2.counting_bloom_filters id = some bf'
          ∧ ∀ x, bf'.counters x
              = if p.len ≠ 0 ∧ id = V6.bloom_filter_id p
                then (bf.counters x
                  + cell_hits bf (hashes murmurhash3_64_32 murmurhash3_32 p.key
                      bf.num_hashes (fun _ => 0)) x) % 256
                else bf.counters x) := by
  refine ⟨?_, ?_, ?_, ?_⟩
  · intro cfg t p r1 h
    rw [V4coop.store_prefix_eq_gen] at h
    obtain ⟨r2, h2, e1, e2, e3, e4⟩ := gen_store_idem _ _ t p r1 h
    refine ⟨r2, by rw [V4coop.store_prefix_eq_gen]; exact h2, e1, e2, e3, e4, ?_⟩
    intro id bf1 hbf hc
    exact gen_store_counters_all _ _ r1.2 p r2 h2 id bf1 hbf hc
  · intro t p r1 h
    obtain ⟨r2, h2, e1, e2, e3, e4, e5, e6⟩ := V6.store_prefix_idem t p r1 h
    refine ⟨r2, h2, e1, e2, e3, e4, e5, e6, ?_⟩
    intro id bf1 hbf hc
    exact V6.store_prefix_counters_all r1.2 p r2 h2 id bf1 hbf hc
  · intro cfg t p r id bf h hbf hc
    rw [V4coop.store_prefix_eq_gen] at h
    exact gen_store_counters_all _ _ t p r h id bf hbf hc
  · intro t p r id bf h hbf hc
    exact V6.store_prefix_counters_all t p r h id bf hbf hc

/-- The claim of C17 as stated fails on the counters: the first store of
`192.168.1.0/24` leaves 1 in the cell of the key's first hash, the second
store leaves 2. -/
theorem store_twice_same_state_counterexample :
    V4coop.store_prefix demo_cfg (new_forwarding_table demo_sizing demo_dist)
        (some demo_slash24) = .ok (true, demo_once)
    ∧ V4coop.store_prefix demo_cfg demo_once (some demo_slash24) = .ok (false, demo_twice)
    ∧ (demo_once.counting_bloom_filters 1).map
          (fun bf => bf.counters (murmurhash3_32 0xC0A80100 % 40)) = some 1
    ∧ (demo_twice.counting_bloom_filters 1).map
          (fun bf => bf.counters (murmurhash3_32 0xC0A80100 % 40)) = some 2 :=
  ⟨rfl, rfl, by decide, by decide⟩

/-- C17 at the concrete tables: the second store of `192.168.1.0/24` leaves
the hash tables and the DLA of `demo_once` as they were, and the first store
moved each counter of the class-1 filter of the fresh table by the number of
derived indices that select its cell. -/
theorem store_twice_same_state_witness :
    demo_twice.hash_tables = demo_once.hash_tables
    ∧ demo_twice.dla = demo_once.dla
    ∧ ∃ bf0 bf1, (new_forwarding_table demo_sizing demo_dist).counting_bloom_filters 1
          = some bf0
        ∧ (∀ y, bf0.counters y < 256)
        ∧ demo_once.counting_bloom_filters 1 = some bf1
        ∧ ∀ x, bf1.counters x
            = (bf0.counters x
                + cell_hits bf0 (hashes murmurhash3_32 murmurhash3_32 demo_slash24.key
                    bf0.num_hashes (fun _ => 0)) x) % 256 := by
  obtain ⟨r2, h2, _, hd, hh, _⟩ := store_twice_same_state.1 demo_cfg
    (new_forwarding_table demo_sizing demo_dist) demo_slash24 (true, demo_once) rfl
  have e : V4coop.store_prefix demo_cfg demo_once (some demo_slash24)
      = .ok (false, demo_twice) := rfl
  rw [e] at h2
  cases h2
  refine ⟨hh, hd, ?_⟩
  obtain ⟨bf0, hb0⟩ : ∃ bf0,
      (new_forwarding_table demo_sizing demo_dist).counting_bloom_filters 1 = some bf0 :=
    ⟨_, rfl⟩
  have hc : ∀ y, bf0.counters y < 256 := by
    intro y
    rw [(new_table_filter_fresh demo_sizing demo_dist 1 bf0 hb0).2 y]
    decide
  obtain ⟨bf1, hb1, hcnt⟩ := store_twice_same_state.2.2.1 demo_cfg
    (new_forwarding_table demo_sizing demo_dist) demo_slash24 (true, demo_once) 1 bf0 rfl hb0 hc
  refine ⟨bf0, bf1, hb0, hc, hb1, ?_⟩
  intro x
  rw [hcnt x, if_pos ⟨by decide, by decide, rfl⟩]
  rfl

set_option maxRecDepth 100000 in
/-- C6 at a table the build reaches from the distribution file `32 4`, which
has no filter and no hash table for class 1: with `192.168.1.0/32`,
`10.0.0.0/20 -> 11` and a default route stored, hash table 0 does not hold
`10.0.0.5` and the DLA cell of `10.0.0.5` holds 11, so the cascade of the claim
gives the next hop 11; `lookup_address`, in v4-coop and in the baseline, reads
the filter of class 1 through the null pointer instead. -/
theorem lookup_address_missing_class :
    V4coop.store_prefixes demo_cfg demo_table_only32 (demo_no24.map some)
        = .ok demo_table_no24
    ∧ (demo_table_no24.counting_bloom_filters 1).isNone = true
    ∧ (demo_table_no24.hash_tables 1).isNone = true
    ∧ (∃ ht0, demo_table_no24.hash_tables 0 = some ht0
        ∧ ht_get murmurhash3_32 ht0 0x0A000005 = none
        ∧ demo_table_no24.dla (0x0A000005 >>> 12) = 11
        ∧ cascade (ht_get murmurhash3_32 ht0) (fun _ => none) demo_table_no24 0x0A000005
            = some 11)
    ∧ V4coop.lookup_address demo_cfg demo_table_no24 0x0A000005 0
        = .error fault.null_deref
    ∧ Baseline.store_prefixes demo_rand_r demo_table_only32 (demo_no24.map some)
        = .ok demo_table_no24_baseline
    ∧ Baseline.lookup_address demo_rand_r demo_table_no24_baseline 0x0A000005 0
        = .error fault.null_deref :=
  ⟨rfl, rfl, rfl, ⟨_, rfl, rfl, rfl, rfl⟩, rfl, rfl, rfl⟩

set_option maxRecDepth 100000 in
/-- C7 at the same table and the block of 16 copies of `192.168.1.0`: the
scalar `lookup_address` finds the address in class 0 and returns its next hop 7
without reading class 1, for every lane, while `lookup_address_intrin` reads
the filter of class 1 before its second loop, through the null pointer. -/
theorem lookup_address_intrin_missing_class :
    (demo_table_no24.counting_bloom_filters 1).isNone = true
    ∧ V4coop.lookup_address demo_cfg demo_table_no24 0xC0A80100 0 = .ok (true, 7)
    ∧ (∀ i, i < 16 →
        V4coop.lookup_address demo_cfg demo_table_no24 (demo_same_addrs i) 0
          = .ok (true, 7))
    ∧ V4coop.lookup_address_intrin demo_cfg demo_table_no24 demo_same_addrs
        (fun _ => false) (fun _ => 0) = .error fault.null_deref :=
  ⟨rfl, rfl, fun _ _ => (rfl : V4coop.lookup_address demo_cfg demo_table_no24 0xC0A80100 0
      = .ok (true, 7)), rfl⟩

/-- C38 (amended): the expansion is idempotent where it returns.  For every
stride `T ≤ 32` and every trie built from prefixes with lengths in `[1, T]`
that are at most 30 bits shorter than `T`, the trie is built,
`btrie_perform_cpe(root, root, T, 0, 0)` returns, and running it a second time,
on the trie the first run left, returns and leaves that trie, structure and
next hops, exactly as the first run left it. -/
theorem btrie_perform_cpe_idempotent (ps : List (Cpe.prefix_rec × Bool)) (T : Nat)
    (hT : T ≤ 32) (hp : ∀ p ∈ ps, 1 ≤ p.1.len ∧ p.1.len ≤ T ∧ T ≤ p.1.len + 30) :
    ∃ root t1, Cpe.build ps = .ok root
      ∧ Cpe.btrie_perform_cpe root [] T 0 0 = .ok t1
      ∧ Cpe.btrie_perform_cpe t1 [] T 0 0 = .ok t1 := by
  obtain ⟨root, h1, h2, h3⟩ := Cpe.build_spec ps (fun p h => by have := hp p h; omega)
  have he : Cpe.expandable T root := by
    apply Cpe.expandable_of_depth
    intro q hq
    obtain ⟨p, hpm, e⟩ := h3 q hq
    rw [e, Cpe.bits_length]
    exact (hp p hpm).2.2
  have hrun := Cpe.btrie_perform_cpe_eq root T hT h2 he
  exact ⟨root, _, h1, hrun, perform_cpe_twice root T _ hrun⟩

/-- The claim of C38 as stated fails at stride 32 for the trie built from the
prefix `1/1`, whose length is in `[1, 32]`: the first run, whose expansion loop
would need 2^31 iterations of an `int` counter, does not return, so it leaves
no trie for a second run to start from. -/
theorem btrie_perform_cpe_idempotent_counterexample :
    (∀ p ∈ [(({ pfx := 1, len := 1, nhop := 5 } : Cpe.prefix_rec), true)],
        1 ≤ p.1.len ∧ p.1.len ≤ 32)
    ∧ Cpe.build [({ pfx := 1, len := 1, nhop := 5 }, true)] = .ok demo_half
    ∧ Cpe.btrie_perform_cpe demo_half [] 32 0 0 = .error fault.int_overflow
    ∧ ¬ ∃ t1, Cpe.btrie_perform_cpe demo_half [] 32 0 0 = .ok t1
          ∧ Cpe.btrie_perform_cpe t1 [] 32 0 0 = .ok t1 :=
  ⟨by decide, rfl, rfl, fun ⟨_, h, _⟩ => by
    have e : Cpe.btrie_perform_cpe demo_half [] 32 0 0 = .error fault.int_overflow := rfl
    rw [e] at h
    cases h⟩

/-- C38 on the trie holding `1/1` at stride 3: the first run leaves the four
depth-3 nodes under `1`, and the second run leaves that trie. -/
theorem btrie_perform_cpe_idempotent_witness :
    (3 : Nat) ≤ 32
    ∧ (∀ p ∈ [(({ pfx := 1, len := 1, nhop := 5 } : Cpe.prefix_rec), true)],
        1 ≤ p.1.len ∧ p.1.len ≤ 3 ∧ 3 ≤ p.1.len + 30)
    ∧ Cpe.build [({ pfx := 1, len := 1, nhop := 5 }, true)] = .ok demo_half
    ∧ Cpe.btrie_perform_cpe demo_half [] 3 0 0 = .ok demo_half_cpe
    ∧ Cpe.nhop_at demo_half_cpe [true, false, true] = some 5
    ∧ ∃ root t1, Cpe.build [({ pfx := 1, len := 1, nhop := 5 }, true)] = .ok root
      ∧ Cpe.btrie_perform_cpe root [] 3 0 0 = .ok t1
      ∧ Cpe.btrie_perform_cpe t1 [] 3 0 0 = .ok t1 :=
  ⟨by decide, by decide, rfl, rfl, rfl,
    btrie_perform_cpe_idempotent [({ pfx := 1, len := 1, nhop := 5 }, true)] 3
      (by decide) (by decide)⟩

end Bloomfwd
